import Mathlib

/-!
# spaGO computational graph: element-wise minimum and the graph core

A shallow embedding of `ag/fn/min.go` (the `Min` function) and of
`ag/graph.go` (the `Graph` node factory and lifecycle manager), together with
the properties the specification states about them.

Go panics are modelled explicitly: a fallible operation returns either its
result or the panic message, together with whatever effects took place before
the panic.
-/

namespace Spago

/-! ## Scalars and dense matrices (package `mat`) -/

/-- Modelled from the spec: the element type `mat.DType` (float32 / float64), whose
declaration is not part of the sources. Only comparison and copying of elements
matter here, so a value is either NaN or a number; numbers are represented by
integers (any finite set of floating-point numbers embeds into them
order-preservingly). -/
inductive DType where
  | nan : DType
  | num (v : Int) : DType
  deriving DecidableEq, Repr, Inhabited

namespace DType

instance : OfNat DType n := ⟨DType.num n⟩

/-- Go's `a < b` on floating-point values: false whenever an operand is NaN. -/
def lt : DType → DType → Bool
  | num a, num b => decide (a < b)
  | _, _ => false

/-- Go's `a == b` on floating-point values: false whenever an operand is NaN. -/
def eq : DType → DType → Bool
  | num a, num b => decide (a = b)
  | _, _ => false

/-- Modelled from the spec: the scalar `min` of two elements (`y[i] = min(x1[i], x2[i])`).
On numbers it is the smaller one; a NaN operand gives NaN. -/
def min : DType → DType → DType
  | num a, num b => num (Min.min a b)
  | _, _ => nan

/-- The zero value `T(0)`. -/
def zero : DType := num 0

end DType

/-- Modelled from the spec: a dense matrix as the `Matrix` capability exposes it: shape
queries `Rows/Columns/Size` and `Data` as a flat sequence. The type `mat.Dense`
itself is not part of the sources. -/
structure Matrix where
  rows : Nat
  cols : Nat
  data : List DType
  deriving DecidableEq, Repr, Inhabited

namespace Matrix

/-- Modelled from the spec: `Size()` is the number of elements, rows times columns
(`assertDenseDims` in `mat/dense_test.go`). -/
def Size (m : Matrix) : Nat := m.rows * m.cols

/-- The invariant of every matrix the constructors of `mat` build: the flat data
holds exactly `Size()` elements (`NewDense` panics on a length mismatch). -/
def WF (m : Matrix) : Prop := m.data.length = m.Size

instance (m : Matrix) : Decidable m.WF := by
  unfold WF; infer_instance

/-- Modelled from the spec: `mat.NewVecDense`: a column vector, `len(data) x 1`
(`testNewVecDense`). -/
def NewVecDense (data : List DType) : Matrix := ⟨data.length, 1, data⟩

/-- Modelled from the spec: `mat.NewScalar`: a `1 x 1` matrix (`testNewScalar`). -/
def NewScalar (v : DType) : Matrix := ⟨1, 1, [v]⟩

/-- Modelled from the spec: `ZerosLike`: a matrix of the same dimensions holding
zeros (`testDenseZerosLike`). -/
def ZerosLike (m : Matrix) : Matrix := ⟨m.rows, m.cols, List.replicate m.Size DType.zero⟩

/-- Modelled from the spec: `Minimum`: the element-wise minimum, with the receiver's
dimensions (`y[i] = min(x1[i], x2[i])`). -/
def Minimum (m other : Matrix) : Matrix :=
  ⟨m.rows, m.cols, List.zipWith DType.min m.data other.data⟩

end Matrix

/-- Modelled from the spec: `mat.IsVector`: a matrix with one row or one column. -/
def IsVector (m : Matrix) : Bool := m.rows == 1 || m.cols == 1

/-- Modelled from the spec: `mat.SameDims`: equal dimensions. -/
def SameDims (a b : Matrix) : Bool := a.rows == b.rows && a.cols == b.cols

/-- Modelled from the spec: `mat.VectorsOfSameSize`: both qualify as vectors and have
equal total length. -/
def VectorsOfSameSize (a b : Matrix) : Bool :=
  a.Size == b.Size && IsVector a && IsVector b

/-- The shape test of `Min.Forward` and `Min.Backward`:
`mat.SameDims(a, b) || mat.VectorsOfSameSize(a, b)`. -/
def Compatible (a b : Matrix) : Bool := SameDims a b || VectorsOfSameSize a b

/-! ## The `Min` function (`ag/fn/min.go`) -/

/-- An operand as `Min` sees it (interface `fn.Operand`): the object identity, its
current `Value()` (possibly nil) and its `RequiresGrad()` flag. -/
structure Operand where
  ref : Nat
  Value : Option Matrix
  RequiresGrad : Bool
  deriving DecidableEq, Repr, Inhabited

/-- The struct `Min`. -/
structure Min where
  x1 : Operand
  x2 : Operand
  operands : List Operand
  deriving DecidableEq, Repr

/-- The source function `NewMin`. -/
def NewMin (x1 x2 : Operand) : Min := { x1 := x1, x2 := x2, operands := [x1, x2] }

/-- The source function `Min.Operands`. -/
def Min.Operands (r : Min) : List Operand := r.operands

/-- The panic message of the shape checks. -/
def notCompatibleMsg : String := "fn: matrices with not compatible size"

/-- The runtime panic of a method call on a nil value. -/
def nilDerefMsg : String := "runtime error: invalid memory address or nil pointer dereference"

/-- The runtime panic of an out-of-range slice index. -/
def indexMsg : String := "runtime error: index out of range"

deriving instance DecidableEq for Except

/-- The source function `Min.Forward`: the element-wise minimum of the operand values,
or a panic. -/
def Min.Forward (r : Min) : Except String Matrix :=
  match r.x1.Value, r.x2.Value with
  | some x1v, some x2v =>
    if !(SameDims x1v x2v || VectorsOfSameSize x1v x2v) then
      .error notCompatibleMsg
    else
      .ok (x1v.Minimum x2v)
  | _, _ => .error nilDerefMsg

/-- One of the two loops of `Min.Backward`, from index `i` on with `fuel = n - i`
rounds left: `if a[i] < b[i] { gx[i] = gy[i] }`, every slice access checked. -/
def Min.gradLoop (a b gy : List DType) : Nat → Nat → List DType → Except String (List DType)
  | 0, _, gx => .ok gx
  | fuel + 1, i, gx =>
    match a[i]?, b[i]? with
    | some ai, some bi =>
      if DType.lt ai bi then
        match gy[i]? with
        | some g =>
          if i < gx.length then Min.gradLoop a b gy fuel (i + 1) (gx.set i g)
          else .error indexMsg
        | none => .error indexMsg
      else Min.gradLoop a b gy fuel (i + 1) gx
    | _, _ => .error indexMsg

/-- What a run of `Min.Backward` did: the `PropagateGrad(gx)` calls it made, in
order, each with the identity of the receiving operand, and the panic that ended
the run, if any. -/
structure BackwardRun where
  calls : List (Nat × Matrix)
  panicked : Option String
  deriving DecidableEq, Repr

/-- The source function `Min.Backward`. -/
def Min.Backward (r : Min) (gy : Matrix) : BackwardRun :=
  match r.x1.Value, r.x2.Value with
  | some x1v, some x2v =>
    if !(SameDims x1v gy || VectorsOfSameSize x1v gy) &&
        !(SameDims x2v gy || VectorsOfSameSize x2v gy) then
      ⟨[], some notCompatibleMsg⟩
    else
      let n := gy.Size
      let gyData := gy.data
      let x1vData := x1v.data
      let x2vData := x2v.data
      let first : BackwardRun :=
        if r.x1.RequiresGrad then
          let gx := x1v.ZerosLike
          match Min.gradLoop x1vData x2vData gyData n 0 gx.data with
          | .ok gxData => ⟨[(r.x1.ref, { gx with data := gxData })], none⟩
          | .error e => ⟨[], some e⟩
        else ⟨[], none⟩
      match first.panicked with
      | some e => ⟨first.calls, some e⟩
      | none =>
        if r.x2.RequiresGrad then
          let gx := x2v.ZerosLike
          let n := gy.Size
          match Min.gradLoop x2vData x1vData gyData n 0 gx.data with
          | .ok gxData => ⟨first.calls ++ [(r.x2.ref, { gx with data := gxData })], none⟩
          | .error e => ⟨first.calls, some e⟩
        else ⟨first.calls, none⟩
  | _, _ => ⟨[], some nilDerefMsg⟩

/-! ## Nodes and the graph (`ag/graph.go`) -/

/-- The address of a node object (`*Variable`, `*Operator`, `*Wrapper`). -/
abbrev Ptr := Nat

/-- The address of a graph object (`*Graph`). -/
abbrev GraphRef := Nat

/-- The address of an externally owned `GradValue` object. -/
abbrev ExtRef := Nat

/-- Modelled from the spec: the interface `fn.Function` as the graph uses it:
`Forward()` is a pure computation over the current state of the operands, which
either returns a value or panics. It reads the operands through their addresses. -/
structure Function where
  Forward : (Ptr → Operand) → Except String Matrix

/-- The `Min` function over two nodes of a graph. -/
def MinFunction (x1 x2 : Ptr) : Function :=
  { Forward := fun operand => Min.Forward (NewMin (operand x1) (operand x2)) }

/-- Modelled from the spec: an externally owned value/gradient pair (`GradValue`) a
wrapper refers to. -/
structure GradValue where
  value : Option Matrix
  grad : Option Matrix
  requiresGrad : Bool
  deriving DecidableEq, Repr, Inhabited

/-- The struct `Variable`, with the fields the composite literals of `graph.go`
set, and the `id` that `setID` assigns. -/
structure Variable where
  graph : Option GraphRef := none
  timeStep : Int := 0
  id : Int := 0
  name : String := ""
  value : Option Matrix := none
  grad : Option Matrix := none
  requiresGrad : Bool := false

/-- The struct `Operator`; every default is the field's zero value, so that `{}` is
the zero value `Operator[T]{}`. -/
structure Operator where
  graph : Option GraphRef := none
  timeStep : Int := 0
  id : Int := 0
  function : Option Function := none
  operands : List Ptr := []
  value : Option Matrix := none
  grad : Option Matrix := none
  requiresGrad : Bool := false

/-- The `GradValue` a wrapper holds. `NewWrap` takes any value of the interface
`GradValue`: an externally owned object, or a node of some graph (`Node` extends
`GradValue`; the panic message of `NewOperator` advises to wrap nodes). -/
inductive Wrapped where
  | ext (r : ExtRef)
  | node (p : Ptr)
  deriving DecidableEq, Repr, Inhabited

/-- The struct `Wrapper`. -/
structure Wrapper where
  GradValue : Wrapped := .ext 0
  timeStep : Int := 0
  graph : Option GraphRef := none
  id : Int := 0
  wrapGrad : Bool := false

/-- A node object: one of the three variants of the interface `Node`. -/
inductive Node where
  | ofVariable (v : Variable)
  | ofOperator (o : Operator)
  | ofWrapper (x : Wrapper)

instance : Inhabited Node := ⟨.ofOperator {}⟩

namespace Node

/-- Modelled from the spec: `ID()`, the id `setID` stored. -/
def ID : Node → Int
  | ofVariable v => v.id
  | ofOperator o => o.id
  | ofWrapper x => x.id

/-- Modelled from the spec: `Graph()`, the graph the node belongs to (nil for a zeroed
operator shell). -/
def Graph : Node → Option GraphRef
  | ofVariable v => v.graph
  | ofOperator o => o.graph
  | ofWrapper x => x.graph

/-- Modelled from the spec: `setID`, used only by the graph during insertion. -/
def setID (n : Node) (id : Int) : Node :=
  match n with
  | ofVariable v => ofVariable { v with id := id }
  | ofOperator o => ofOperator { o with id := id }
  | ofWrapper x => ofWrapper { x with id := id }

/-- The type assertion `node.(*Operator[T])`. -/
def isOperator : Node → Bool
  | ofOperator _ => true
  | _ => false

/-- Modelled from the spec: the time-step a node captured at creation. -/
def TimeStep : Node → Int
  | ofVariable v => v.timeStep
  | ofOperator o => o.timeStep
  | ofWrapper x => x.timeStep

end Node

/-- The height cache of a graph (the anonymous struct `cache`). -/
structure Cache where
  maxID : Int
  nodesByHeight : List (List Ptr)
  height : List Int
  deriving DecidableEq, Repr

/-- Modelled from the spec: the processing queue, a bounded concurrency limiter:
`Size()` is its bound, `len` the number of computations that hold a slot. -/
structure ProcessingQueue where
  capacity : Nat
  inFlight : Nat
  deriving DecidableEq, Repr

/-- Modelled from the spec: `processingqueue.New(size)`. -/
def ProcessingQueue.New (size : Nat) : ProcessingQueue := ⟨size, 0⟩

/-- The struct `Graph` (the two mutexes left out: the model is sequential). The
random generator is represented by its seed. -/
structure Graph where
  maxID : Int
  curTimeStep : Int
  nodes : List Ptr
  constants : List (DType × Ptr)
  eagerExecution : Bool
  cache : Cache
  randGen : Option Nat
  processingQueue : ProcessingQueue

/-- The memory of the program: the node objects, the graph objects, the external
values, the process-wide pool of operator shells, and the number of
`Function.Forward` runs so far. -/
structure World where
  heap : Ptr → Node
  nextPtr : Nat
  graphs : GraphRef → Graph
  nextGraph : Nat
  ext : ExtRef → GradValue
  pool : List Ptr
  forwardRuns : Nat

/-- The result of an operation that may panic: the memory it leaves and either the
returned value or the panic message. -/
inductive Outcome (α : Type) where
  | ok (w : World) (ret : α)
  | panic (w : World) (msg : String)

namespace Outcome

/-- The memory an operation leaves, whether it returned or panicked. -/
def world {α : Type} : Outcome α → World
  | ok w _ => w
  | panic w _ => w

/-- Whether the operation panicked. -/
def panicked {α : Type} : Outcome α → Bool
  | ok _ _ => false
  | panic _ _ => true

/-- The returned value, if the operation returned. -/
def ret? {α : Type} : Outcome α → Option α
  | ok _ r => some r
  | panic _ _ => none

end Outcome

/-- The fresh cache `clearCache` leaves. -/
def Cache.void : Cache := { maxID := -1, nodesByHeight := [], height := [] }

/-- A graph object as `NewGraph` builds it before the options run. -/
def Graph.fresh (queueSize : Nat) : Graph :=
  { maxID := -1, curTimeStep := 0, nodes := [], constants := [], eagerExecution := true,
    cache := Cache.void, randGen := none, processingQueue := ProcessingQueue.New queueSize }

namespace World

/-- The memory before anything is allocated, over the given external values. -/
def init (ext : ExtRef → GradValue) : World :=
  { heap := fun _ => default, nextPtr := 0, graphs := fun _ => Graph.fresh 0, nextGraph := 0,
    ext := ext, pool := [], forwardRuns := 0 }

/-- Overwrite the graph object at `g`. -/
def setGraph (w : World) (g : GraphRef) (gr : Graph) : World :=
  { w with graphs := Function.update w.graphs g gr }

/-- Overwrite the node object at `p`. -/
def setNode (w : World) (p : Ptr) (n : Node) : World :=
  { w with heap := Function.update w.heap p n }

/-- Allocate a new node object. -/
def alloc (w : World) (n : Node) : World × Ptr :=
  ({ w with heap := Function.update w.heap w.nextPtr n, nextPtr := w.nextPtr + 1 }, w.nextPtr)

/-- Modelled from the spec: `Value()` of a `GradValue`: an external object, a Variable
and an Operator return the value they hold; a wrapper returns the `Value()` of the
value it wraps. The first argument bounds the number of nodes visited along a chain
of wrappers; a longer chain gives nil. -/
def valueOf (w : World) : Nat → Wrapped → Option Matrix
  | _, .ext r => (w.ext r).value
  | 0, .node _ => none
  | fuel + 1, .node q =>
    match w.heap q with
    | .ofVariable v => v.value
    | .ofOperator o => o.value
    | .ofWrapper x => valueOf w fuel x.GradValue

/-- Modelled from the spec: `RequiresGrad()` of a `GradValue`: the flag fixed at
creation, or for a wrapper the wrapped value's flag unless the wrapper opted out
(`wrapGrad`). -/
def requiresGradOf (w : World) : Nat → Wrapped → Bool
  | _, .ext r => (w.ext r).requiresGrad
  | 0, .node _ => false
  | fuel + 1, .node q =>
    match w.heap q with
    | .ofVariable v => v.requiresGrad
    | .ofOperator o => o.requiresGrad
    | .ofWrapper x => x.wrapGrad && requiresGradOf w fuel x.GradValue

/-- Modelled from the spec: `Grad()` of a `GradValue`: the gradient held, or for a
wrapper the wrapped value's gradient unless the wrapper opted out. -/
def gradOf (w : World) : Nat → Wrapped → Option Matrix
  | _, .ext r => (w.ext r).grad
  | 0, .node _ => none
  | fuel + 1, .node q =>
    match w.heap q with
    | .ofVariable v => v.grad
    | .ofOperator o => o.grad
    | .ofWrapper x => if x.wrapGrad then gradOf w fuel x.GradValue else none

/-- Modelled from the spec: `Value()` of the node at `p`. A wrapper is allocated after
the value it wraps (see `Layered`), so that a chain of wrappers that starts at `p`
visits at most `p + 1` nodes. -/
def Value (w : World) (p : Ptr) : Option Matrix := w.valueOf (p + 1) (.node p)

/-- Modelled from the spec: `RequiresGrad()` of the node at `p`. -/
def RequiresGrad (w : World) (p : Ptr) : Bool := w.requiresGradOf (p + 1) (.node p)

/-- Modelled from the spec: `Grad()` of the node at `p`. -/
def Grad (w : World) (p : Ptr) : Option Matrix := w.gradOf (p + 1) (.node p)

/-- A node as a `Function` sees it. -/
def operand (w : World) (p : Ptr) : Operand := ⟨p, w.Value p, w.RequiresGrad p⟩

end World

/-- Modelled from the spec: the process-wide pool of operator shells
(`getOperatorPool`). `Get` hands out one of the pooled shells, or a newly allocated
zero `Operator` when the pool gives none; `pick` is the pool's choice. -/
def World.poolGet (w : World) (pick : Nat) : World × Ptr :=
  match w.pool[pick]? with
  | some p => ({ w with pool := w.pool.erase p }, p)
  | none => w.alloc (.ofOperator {})

/-- Modelled from the spec: `Put` on the pool of operator shells. -/
def World.poolPut (w : World) (p : Ptr) : World := { w with pool := p :: w.pool }

/-- Modelled from the spec: `ZeroGrad()` of a `GradValue`: the gradient buffer is
released and the reference cleared; a wrapper forwards to the wrapped value unless it
opted out. The first argument bounds the number of nodes visited along a chain of
wrappers. -/
def World.zeroGradOf (w : World) : Nat → Wrapped → World
  | _, .ext r => { w with ext := Function.update w.ext r { w.ext r with grad := none } }
  | 0, .node _ => w
  | fuel + 1, .node q =>
    match w.heap q with
    | .ofVariable v => w.setNode q (.ofVariable { v with grad := none })
    | .ofOperator o => w.setNode q (.ofOperator { o with grad := none })
    | .ofWrapper x => if x.wrapGrad then zeroGradOf w fuel x.GradValue else w

/-- Modelled from the spec: `ZeroGrad()` of the node at `p`. -/
def World.zeroGradNode (w : World) (p : Ptr) : World := w.zeroGradOf (p + 1) (.node p)

/-- A Go map `map[T]Node[T]` lookup: keys are compared with `==`. -/
def mapGet (m : List (DType × Ptr)) (key : DType) : Option Ptr :=
  (m.find? (fun e => DType.eq e.1 key)).map Prod.snd

/-- A Go map assignment `m[key] = val`. -/
def mapSet (m : List (DType × Ptr)) (key : DType) (val : Ptr) : List (DType × Ptr) :=
  if (mapGet m key).isSome then m.map (fun e => if DType.eq e.1 key then (e.1, val) else e)
  else (key, val) :: m

/-- Modelled from the spec: `fmt.Sprint` of a scalar. -/
def DType.Sprint : DType → String
  | .nan => "NaN"
  | .num v => toString v

/-- The panic message of `NewOperator`. -/
def crossGraphMsg : String :=
  "ag: operations cannot be executed among nodes of different graphs. " ++
    "You may consider wrapping the nodes you need with NewWrap()."

/-- The panic message of `SetConcurrentComputations`. -/
def concurrencyMsg : String :=
  "ag: WithConcurrentComputations value must be greater than zero"

/-- The runtime panic of an out-of-range slice expression. -/
def sliceMsg : String := "runtime error: slice bounds out of range"

/-- Indexing a slice with an `int`: none when out of range. -/
def indexInt {α : Type} (l : List α) (i : Int) : Option α :=
  if i < 0 then none else l[i.toNat]?

namespace Graph

/-- The source function `clearCache`. -/
def clearCache (w : World) (g : GraphRef) : World :=
  w.setGraph g { w.graphs g with cache := { maxID := -1, nodesByHeight := [], height := [] } }

/-- The source function `NewGraph`: a new initialized graph; the options run on it in
order. -/
def NewGraph (w : World) (defaultProcessingQueueSize : Nat)
    (opts : List (GraphRef → World → World)) : World × GraphRef :=
  let g := w.nextGraph
  let w1 : World :=
    { w with
      graphs := Function.update w.graphs g
        { maxID := -1, curTimeStep := 0, nodes := [], constants := [], eagerExecution := true,
          cache := { maxID := 0, nodesByHeight := [], height := [] }, randGen := none,
          processingQueue := ProcessingQueue.New defaultProcessingQueueSize },
      nextGraph := g + 1 }
  let w2 := clearCache w1 g
  let w3 := opts.foldl (fun acc opt => opt g acc) w2
  let w4 :=
    if (w3.graphs g).randGen = none then w3.setGraph g { w3.graphs g with randGen := some 1 }
    else w3
  (w4, g)

/-- The source function `SetRand`. -/
def SetRand (w : World) (g : GraphRef) (rand : Option Nat) : World :=
  w.setGraph g { w.graphs g with randGen := rand }

/-- The source function `SetRandSeed`. -/
def SetRandSeed (w : World) (g : GraphRef) (seed : Nat) : World :=
  w.setGraph g { w.graphs g with randGen := some seed }

/-- The source function `SetEagerExecution`: returns the previous value. -/
def SetEagerExecution (w : World) (g : GraphRef) (value : Bool) : World × Bool :=
  let prev := (w.graphs g).eagerExecution
  (w.setGraph g { w.graphs g with eagerExecution := value }, prev)

/-- The source function `SetConcurrentComputations`. -/
def SetConcurrentComputations (w : World) (g : GraphRef) (value : Int) : Outcome Int :=
  if value < 1 then .panic w concurrencyMsg
  else
    -- prev := len(g.processingQueue)
    let prev : Int := (w.graphs g).processingQueue.inFlight
    .ok (w.setGraph g { w.graphs g with processingQueue := ProcessingQueue.New value.toNat }) prev

/-- The source function `EagerExecutionEnabled`. -/
def EagerExecutionEnabled (w : World) (g : GraphRef) : Bool := (w.graphs g).eagerExecution

/-- The source function `ConcurrentComputations`. -/
def ConcurrentComputations (w : World) (g : GraphRef) : Int :=
  (w.graphs g).processingQueue.capacity

/-- The source function `ZeroGrad`. -/
def ZeroGrad (w : World) (g : GraphRef) : World :=
  (w.graphs g).nodes.foldl (fun acc node => acc.zeroGradNode node) w

/-- The source function `IncTimeStep`. -/
def IncTimeStep (w : World) (g : GraphRef) : World :=
  w.setGraph g { w.graphs g with curTimeStep := (w.graphs g).curTimeStep + 1 }

/-- The source function `TimeStep`. -/
def TimeStep (w : World) (g : GraphRef) : Int := (w.graphs g).curTimeStep

/-- The source function `Nodes`. -/
def Nodes (w : World) (g : GraphRef) : List Ptr := (w.graphs g).nodes

/-- The source function `releaseValue`. -/
def releaseValue (w : World) (node : Ptr) : World :=
  match w.heap node with
  | .ofOperator o =>
    match o.value with
    | none => w
    | some _ => w.setNode node (.ofOperator { o with value := none })
  | _ => w

/-- The source function `releaseGrad`. -/
def releaseGrad (w : World) (node : Ptr) : World := w.zeroGradNode node

/-- The source function `releaseMemory`. -/
def releaseMemory (w : World) (g : GraphRef) : World :=
  (w.graphs g).nodes.foldl
    (fun acc node => if (acc.heap node).isOperator then releaseGrad (releaseValue acc node) node
      else acc) w

/-- The loop of `Clear` over the nodes: every operator is overwritten with the zero
`Operator` and put back into the pool. -/
def recycleOperators (w : World) (nodes : List Ptr) : World :=
  nodes.foldl
    (fun acc node =>
      if (acc.heap node).isOperator then (acc.setNode node (.ofOperator {})).poolPut node
      else acc) w

/-- The source function `Clear`. -/
def Clear (w : World) (g : GraphRef) : World :=
  if (w.graphs g).nodes.isEmpty then w
  else
    let w1 := w.setGraph g { w.graphs g with maxID := -1 }
    let w2 := w1.setGraph g { w1.graphs g with curTimeStep := 0 }
    let w3 := clearCache w2 g
    let w4 := releaseMemory w3 g
    let w5 := recycleOperators w4 (w4.graphs g).nodes
    w5.setGraph g { w5.graphs g with nodes := [] }

/-- The source function `ClearForReuse`. -/
def ClearForReuse (w : World) (g : GraphRef) : World :=
  if (w.graphs g).nodes.isEmpty then w
  else releaseMemory w g

/-- The source function `insert`: appends the node to the graph's nodes and assigns it an id. -/
def insert (w : World) (g : GraphRef) (n : Ptr) : World × Ptr :=
  let w1 := w.setGraph g { w.graphs g with maxID := (w.graphs g).maxID + 1 }
  let w2 := w1.setNode n ((w1.heap n).setID (w1.graphs g).maxID)
  let w3 := w2.setGraph g { w2.graphs g with nodes := (w2.graphs g).nodes ++ [n] }
  (w3, n)

/-- The source function `NewVariable`. -/
def NewVariable (w : World) (g : GraphRef) (value : Option Matrix) (requiresGrad : Bool) :
    World × Ptr :=
  let (w1, n) := w.alloc (.ofVariable
    { graph := some g, timeStep := (w.graphs g).curTimeStep, value := value, grad := none,
      requiresGrad := requiresGrad })
  insert w1 g n

/-- The source function `NewVariableWithName`. -/
def NewVariableWithName (w : World) (g : GraphRef) (value : Option Matrix)
    (requiresGrad : Bool) (name : String) : World × Ptr :=
  let (w1, n) := w.alloc (.ofVariable
    { graph := some g, timeStep := (w.graphs g).curTimeStep, name := name, value := value,
      grad := none, requiresGrad := requiresGrad })
  insert w1 g n

/-- The source function `NewScalar`. -/
def NewScalar (w : World) (g : GraphRef) (value : DType) : World × Ptr :=
  NewVariable w g (some (Matrix.NewScalar value)) false

/-- The source function `NewScalarWithName`. -/
def NewScalarWithName (w : World) (g : GraphRef) (value : DType) (name : String) :
    World × Ptr :=
  NewVariableWithName w g (some (Matrix.NewScalar value)) false name

/-- The source function `Constant`. -/
def Constant (w : World) (g : GraphRef) (value : DType) : World × Ptr :=
  match mapGet (w.graphs g).constants value with
  | some node => (w, node)
  | none =>
    let (w1, node) :=
      NewVariableWithName w g (some (Matrix.NewScalar value)) false (DType.Sprint value)
    (w1.setGraph g { w1.graphs g with constants := mapSet (w1.graphs g).constants value node },
      node)

/-- The source function `NewOperator`. The pool's choice of shell is the argument `pick`. -/
def NewOperator (w : World) (g : GraphRef) (f : Function) (operands : List Ptr)
    (pick : Nat) : Outcome Ptr :=
  if operands.any (fun o => decide ((w.heap o).Graph ≠ some g)) then
    .panic w crossGraphMsg
  else
    let run : World × Except String (Option Matrix) :=
      if (w.graphs g).eagerExecution then
        ({ w with forwardRuns := w.forwardRuns + 1 },
          (f.Forward w.operand).map some)
      else (w, .ok none)
    match run with
    | (w1, .error msg) => .panic w1 msg
    | (w1, .ok value) =>
      let requiresGrad := operands.any (fun operand => w1.RequiresGrad operand)
      let (w2, n) := w1.poolGet pick
      let w3 := w2.setNode n (.ofOperator
        { graph := some g, timeStep := (w2.graphs g).curTimeStep, function := some f,
          operands := operands, value := value, grad := none, requiresGrad := requiresGrad })
      let (w4, r) := insert w3 g n
      .ok w4 r

/-- The source function `NewWrap`. -/
def NewWrap (w : World) (g : GraphRef) (value : Wrapped) : World × Ptr :=
  let (w1, n) := w.alloc (.ofWrapper
    { GradValue := value, timeStep := (w.graphs g).curTimeStep, graph := some g,
      wrapGrad := true })
  insert w1 g n

/-- The source function `NewWrapNoGrad`. -/
def NewWrapNoGrad (w : World) (g : GraphRef) (value : Wrapped) : World × Ptr :=
  let (w1, n) := w.alloc (.ofWrapper
    { GradValue := value, graph := some g, timeStep := (w.graphs g).curTimeStep,
      wrapGrad := false })
  insert w1 g n

/-- The inner loop of `groupNodesByHeight` over the operands of an operator:
`if height[operand.id] >= h { h = height[operand.id] + 1 }` for every operand that
is an operator. -/
def heightOverOperands (w : World) (height : List Int) : List Ptr → Int → Except String Int
  | [], h => .ok h
  | operand :: rest, h =>
    match w.heap operand with
    | .ofOperator o =>
      match indexInt height o.id with
      | none => .error indexMsg
      | some ho => heightOverOperands w height rest (if ho ≥ h then ho + 1 else h)
    | _ => heightOverOperands w height rest h

/-- The outer loop of `groupNodesByHeight` over the nodes inserted since the cache
was built. -/
def groupLoop (w : World) :
    List Ptr → List (List Ptr) → List Int → Except String (List (List Ptr) × List Int)
  | [], groups, height => .ok (groups, height)
  | node :: rest, groups, height =>
    let hres : Except String Int :=
      match w.heap node with
      | .ofOperator o => heightOverOperands w height o.operands 0
      | _ => .ok 0
    match hres with
    | .error msg => .error msg
    | .ok h =>
      let id := (w.heap node).ID
      if id < 0 ∨ height.length ≤ id.toNat then .error indexMsg
      else
        let height1 := height.set id.toNat h
        let groups1 := if h = groups.length then groups ++ [[]] else groups
        if h < 0 ∨ groups1.length ≤ h.toNat then .error indexMsg
        else
          groupLoop w rest (groups1.modify (fun grp => grp ++ [node]) h.toNat) height1

/-- The source function `groupNodesByHeight`. -/
def groupNodesByHeight (w : World) (g : GraphRef) : Outcome (List (List Ptr)) :=
  let gr := w.graphs g
  if gr.cache.maxID = gr.maxID then .ok w gr.cache.nodesByHeight
  else
    let groups := gr.cache.nodesByHeight
    if gr.nodes.length < gr.cache.height.length then .panic w sliceMsg
    else
      let height := gr.cache.height ++
        List.replicate (gr.nodes.length - gr.cache.height.length) (0 : Int)
      let startIndex := gr.cache.maxID + 1
      if startIndex < 0 ∨ gr.nodes.length < startIndex.toNat then .panic w sliceMsg
      else
        match groupLoop w (gr.nodes.drop startIndex.toNat) groups height with
        | .error msg => .panic w msg
        | .ok (groups1, height1) =>
          .ok (w.setGraph g
            { gr with cache := { maxID := gr.maxID, nodesByHeight := groups1, height := height1 } })
            groups1

end Graph

/-! ## Reachable states -/

/-- Two node objects that differ at most in value and gradient: same variant, graph,
id, time-step, flags, function and operands. -/
def Node.sameStructure : Node → Node → Prop
  | .ofVariable a, .ofVariable b =>
    a.graph = b.graph ∧ a.id = b.id ∧ a.timeStep = b.timeStep ∧ a.name = b.name ∧
      a.requiresGrad = b.requiresGrad
  | .ofOperator a, .ofOperator b =>
    a.graph = b.graph ∧ a.id = b.id ∧ a.timeStep = b.timeStep ∧ a.function = b.function ∧
      a.operands = b.operands ∧ a.requiresGrad = b.requiresGrad
  | .ofWrapper a, .ofWrapper b =>
    a.graph = b.graph ∧ a.id = b.id ∧ a.timeStep = b.timeStep ∧ a.GradValue = b.GradValue ∧
      a.wrapGrad = b.wrapGrad
  | _, _ => False

/-- One operation of client code on the memory: a call of one of the public
operations of `graph.go` on an existing graph (whether it returns or panics), the
creation of a graph, or an update of values and gradients of nodes and external
values (forward evaluation, `PropagateGrad`, `ZeroGrad`, value replacement). The
value passed to `NewWrap` and `NewWrapNoGrad` is an external object or a node that
exists. -/
inductive Step : World → World → Prop
  | newGraph (w : World) (size : Nat) : Step w (Graph.NewGraph w size []).1
  | setRand (w : World) (g : GraphRef) (r : Option Nat) (hg : g < w.nextGraph) :
    Step w (Graph.SetRand w g r)
  | setRandSeed (w : World) (g : GraphRef) (seed : Nat) (hg : g < w.nextGraph) :
    Step w (Graph.SetRandSeed w g seed)
  | setEagerExecution (w : World) (g : GraphRef) (value : Bool) (hg : g < w.nextGraph) :
    Step w (Graph.SetEagerExecution w g value).1
  | setConcurrentComputations (w : World) (g : GraphRef) (value : Int)
    (hg : g < w.nextGraph) : Step w (Graph.SetConcurrentComputations w g value).world
  | zeroGrad (w : World) (g : GraphRef) (hg : g < w.nextGraph) : Step w (Graph.ZeroGrad w g)
  | incTimeStep (w : World) (g : GraphRef) (hg : g < w.nextGraph) :
    Step w (Graph.IncTimeStep w g)
  | clear (w : World) (g : GraphRef) (hg : g < w.nextGraph) : Step w (Graph.Clear w g)
  | clearForReuse (w : World) (g : GraphRef) (hg : g < w.nextGraph) :
    Step w (Graph.ClearForReuse w g)
  | newVariable (w : World) (g : GraphRef) (value : Option Matrix) (requiresGrad : Bool)
    (hg : g < w.nextGraph) : Step w (Graph.NewVariable w g value requiresGrad).1
  | newVariableWithName (w : World) (g : GraphRef) (value : Option Matrix)
    (requiresGrad : Bool) (name : String) (hg : g < w.nextGraph) :
    Step w (Graph.NewVariableWithName w g value requiresGrad name).1
  | newScalar (w : World) (g : GraphRef) (value : DType) (hg : g < w.nextGraph) :
    Step w (Graph.NewScalar w g value).1
  | newScalarWithName (w : World) (g : GraphRef) (value : DType) (name : String)
    (hg : g < w.nextGraph) : Step w (Graph.NewScalarWithName w g value name).1
  | constant (w : World) (g : GraphRef) (value : DType) (hg : g < w.nextGraph) :
    Step w (Graph.Constant w g value).1
  | newOperator (w : World) (g : GraphRef) (f : Function) (operands : List Ptr) (pick : Nat)
    (hg : g < w.nextGraph) : Step w (Graph.NewOperator w g f operands pick).world
  | newWrap (w : World) (g : GraphRef) (value : Wrapped) (hg : g < w.nextGraph)
    (hv : ∀ q, value = .node q → q < w.nextPtr) : Step w (Graph.NewWrap w g value).1
  | newWrapNoGrad (w : World) (g : GraphRef) (value : Wrapped) (hg : g < w.nextGraph)
    (hv : ∀ q, value = .node q → q < w.nextPtr) : Step w (Graph.NewWrapNoGrad w g value).1
  | groupNodesByHeight (w : World) (g : GraphRef) (hg : g < w.nextGraph) :
    Step w (Graph.groupNodesByHeight w g).world
  | mutate (w : World) (heap : Ptr → Node) (ext : ExtRef → GradValue)
    (h : ∀ p, (w.heap p).sameStructure (heap p)) : Step w { w with heap := heap, ext := ext }

/-- The states of the memory a program can reach from the start. -/
inductive Reachable : World → Prop
  | init (ext : ExtRef → GradValue) : Reachable (World.init ext)
  | step {w w1 : World} (hw : Reachable w) (hs : Step w w1) : Reachable w1

/-- The part of the memory invariant that concerns the node list of one graph:
`maxID` is the last index, and the node at index `k` is an allocated object that
belongs to the graph and has id `k`. -/
structure GraphOK (w : World) (g : GraphRef) : Prop where
  maxID : (w.graphs g).maxID = ((w.graphs g).nodes.length : Int) - 1
  owner : ∀ (k : Nat) (p : Ptr), (w.graphs g).nodes[k]? = some p →
    (w.heap p).Graph = some g ∧ (w.heap p).ID = (k : Int)
  bound : ∀ p ∈ (w.graphs g).nodes, p < w.nextPtr

/-- The part of the memory invariant that concerns the pool and the constants
tables: the pooled shells are distinct, allocated and belong to no graph; the nodes
of a constants table are distinct and allocated. -/
structure Shared (w : World) : Prop where
  poolNodup : w.pool.Nodup
  poolFree : ∀ p ∈ w.pool, (w.heap p).Graph = none ∧ p < w.nextPtr
  constBound : ∀ (g : GraphRef), ∀ e ∈ (w.graphs g).constants, e.2 < w.nextPtr
  constNodup : ∀ (g : GraphRef), ((w.graphs g).constants.map Prod.snd).Nodup

/-- The memory invariant. -/
def Inv (w : World) : Prop := Shared w ∧ ∀ g, GraphOK w g

/-- The memory invariant while `Clear` runs on graph `g` with the nodes `rest` still
to be recycled: everything but the node list of `g` is in order, and the nodes left
are distinct allocated objects of `g`. -/
structure Clearing (w : World) (g : GraphRef) (rest : List Ptr) : Prop where
  shared : Shared w
  others : ∀ g1, g1 ≠ g → GraphOK w g1
  nodup : rest.Nodup
  mine : ∀ p ∈ rest, (w.heap p).Graph = some g ∧ p < w.nextPtr

/-- A node object that is allocated and neither pooled nor in any node list. -/
def Unowned (w : World) (p : Ptr) : Prop :=
  p < w.nextPtr ∧ p ∉ w.pool ∧ ∀ g, p ∉ (w.graphs g).nodes

/-- The memory `w1` differs from `w` at most in node values and gradients, external
values, caches, settings and counters: node identities, node lists, ids, constants
tables, the pool and the allocation mark are the same. -/
def Frame (w w1 : World) : Prop :=
  (∀ p, (w1.heap p).Graph = (w.heap p).Graph ∧ (w1.heap p).ID = (w.heap p).ID) ∧
  w1.nextPtr = w.nextPtr ∧ w1.pool = w.pool ∧
  ∀ g, (w1.graphs g).nodes = (w.graphs g).nodes ∧ (w1.graphs g).maxID = (w.graphs g).maxID ∧
    (w1.graphs g).constants = (w.graphs g).constants

/-- Every node list of `w` is a prefix of the corresponding node list of `w1`:
nodes were only appended. -/
def Grows (w w1 : World) : Prop :=
  ∀ g, (w.graphs g).nodes <+: (w1.graphs g).nodes

/-! ## A small scenario -/

/-- The memory before anything happens, with empty external values. -/
def Scenario.start : World := World.init (fun _ => default)

/-- A graph has been created. -/
def Scenario.withGraph : World := (Graph.NewGraph Scenario.start 1 []).1

/-- The variable `x1 = [1,5,3]`, requiring gradient, has been added. -/
def Scenario.withX1 : World :=
  (Graph.NewVariable Scenario.withGraph 0 (some (Matrix.NewVecDense [1, 5, 3])) true).1

/-- The variable `x2 = [4,2,3]`, not requiring gradient, has been added. -/
def Scenario.withX2 : World :=
  (Graph.NewVariable Scenario.withX1 0 (some (Matrix.NewVecDense [4, 2, 3])) false).1

/-- The operator `min(x1, x2)` has been added. -/
def Scenario.withMin : World :=
  (Graph.NewOperator Scenario.withX2 0 (MinFunction 0 1) [0, 1] 0).world

/-- A third variable, the 2x2 matrix `[[1,2],[3,4]]`, has been added next to `x1`
and `x2`. -/
def Scenario.withSquare : World :=
  (Graph.NewVariable Scenario.withX2 0 (some (Matrix.mk 2 2 [1, 2, 3, 4])) false).1

/-! ## Auxiliary notions for the statements about `Clear` and the heights -/

/-- A node object after `releaseValue` and `releaseGrad`: an operator loses value and
gradient, any other node is as before. -/
def Node.released : Node → Node
  | .ofOperator o => .ofOperator { o with value := none, grad := none }
  | n => n

/-- The id of a node if it is an operator (`operand.(*Operator[T])` followed by
`operand.id`). -/
def World.operatorId (w : World) (q : Ptr) : Option Int :=
  match w.heap q with
  | .ofOperator oq => some oq.id
  | _ => none

/-- The ids of those operands of a node that are operators, in operand order; none for
a node that is not an operator. -/
def World.operandIds (w : World) (p : Ptr) : List Int :=
  match w.heap p with
  | .ofOperator o => o.operands.filterMap w.operatorId
  | _ => []

/-- The height of a node whose operator operands have the ids `ids`, given the
heights `hs` of the nodes by id: one more than the greatest height among them, and
0 when there are none. -/
def heightFrom (hs : List Int) (ids : List Int) : Int :=
  ids.foldl (fun h id => max h (hs.getD id.toNat 0 + 1)) 0

/-- The height the cache of graph `g` records for a node: `height[node.ID()]`. -/
def Graph.heightOf (w : World) (g : GraphRef) (p : Ptr) : Int :=
  (w.graphs g).cache.height.getD (w.heap p).ID.toNat 0

/-- The list `hs` holds the heights and `groups` the grouping by height of the nodes
`pre`, whose operator operands have the ids `dep`: operands come earlier in the
list, the height of each node is computed from the heights of its operands, group
`h` holds the nodes of height `h` in list order, and there are exactly as many
groups as there are heights. -/
structure HeightsOK (dep : Ptr → List Int) (pre : List Ptr) (hs : List Int)
    (groups : List (List Ptr)) : Prop where
  len : hs.length = pre.length
  topo : ∀ (k : Nat) (p : Ptr), pre[k]? = some p → ∀ id ∈ dep p, 0 ≤ id ∧ id.toNat < k
  recur : ∀ (k : Nat) (p : Ptr), pre[k]? = some p → hs.getD k 0 = heightFrom hs (dep p)
  grp : ∀ h : Nat, (groups[h]?).getD [] =
    ((pre.zip hs).filter (fun e => decide (e.2 = (h : Int)))).map Prod.fst
  bound : ∀ x ∈ hs, 0 ≤ x ∧ x < (groups.length : Int)
  full : ∀ h : Nat, h < groups.length → (h : Int) ∈ hs

/-- The cache of a graph is coherent: it holds the heights and the grouping of the
first `cache.maxID + 1` nodes of the graph. -/
def CacheOK (w : World) (g : GraphRef) : Prop :=
  ∃ s : Nat, (w.graphs g).cache.maxID = (s : Int) - 1 ∧ s ≤ (w.graphs g).nodes.length ∧
    HeightsOK w.operandIds ((w.graphs g).nodes.take s) (w.graphs g).cache.height
      (w.graphs g).cache.nodesByHeight

/-- The part of the memory invariant that concerns the wiring of the nodes: objects
beyond the allocation mark belong to no graph, graphs of nodes exist, an operator
that belongs to a graph is in its node list, the operands of a listed operator
belong to the same graph and those that are operators come earlier in the node
list, and every cache is coherent. -/
structure Wired (w : World) : Prop where
  unalloc : ∀ p, w.nextPtr ≤ p → (w.heap p).Graph = none
  graphBound : ∀ p g, (w.heap p).Graph = some g → g < w.nextGraph
  listed : ∀ p g, (w.heap p).isOperator = true → (w.heap p).Graph = some g →
    p ∈ (w.graphs g).nodes
  operands : ∀ (g : GraphRef) (k : Nat) (p : Ptr) (o : Operator),
    (w.graphs g).nodes[k]? = some p → w.heap p = .ofOperator o → ∀ q ∈ o.operands,
      (w.heap q).Graph = some g ∧
      ((w.heap q).isOperator = true → ∃ j, j < k ∧ (w.graphs g).nodes[j]? = some q)
  cache : ∀ g, CacheOK w g

/-- The memory `w1` differs from `w` at most in values and gradients of nodes, in
external values, in settings of graphs and in counters: every node object has the
same structure, and allocation marks, node lists and caches are the same. -/
def Calm (w w1 : World) : Prop :=
  (∀ p, (w.heap p).sameStructure (w1.heap p)) ∧ w1.nextPtr = w.nextPtr ∧
  w1.nextGraph = w.nextGraph ∧
  ∀ g, (w1.graphs g).nodes = (w.graphs g).nodes ∧ (w1.graphs g).cache = (w.graphs g).cache

/-- The operands of the node at `p` when it is an operator; a Variable or a Wrapper
has none. -/
def World.operandsOf (w : World) (p : Ptr) : List Ptr :=
  match w.heap p with
  | .ofOperator o => o.operands
  | _ => []

/-- A second operator, `min(min(x1, x2), x1)`, has been added. -/
def Scenario.withChain2 : World :=
  (Graph.NewOperator Scenario.withMin 0 (MinFunction 2 0) [2, 0] 0).world

/-- A third operator, over the second and the first one, has been added. -/
def Scenario.withChain3 : World :=
  (Graph.NewOperator Scenario.withChain2 0 (MinFunction 3 2) [3, 2] 0).world

/-- The groups of the graph with `min(x1, x2)` have been computed, and then a second
operator has been added: the cache is one node behind the graph. -/
def Scenario.regrouped : World :=
  (Graph.NewOperator (Graph.groupNodesByHeight Scenario.withMin 0).world 0
    (MinFunction 2 0) [2, 0] 0).world

/-! ## Serialization, gradient accumulation and further scenarios -/

/-- The source function `MarshalBinary`: the encoding (a sequence of bytes) and the
error it returns. -/
def Graph.MarshalBinary (_w : World) (_g : GraphRef) : List Nat × Option String := ([], none)

/-- The source function `UnmarshalBinary`: the memory it leaves and the error it
returns. -/
def Graph.UnmarshalBinary (w : World) (_g : GraphRef) (_data : List Nat) :
    World × Option String := (w, none)

/-- Modelled from the spec: the sum of two elements (Go's `+`); a NaN operand gives
NaN. Numbers add as the integers that stand for them: rounding is not modelled. -/
def DType.add : DType → DType → DType
  | .num a, .num b => .num (a + b)
  | _, _ => .nan

/-- Modelled from the spec: `AddInPlace`: the element-wise sum of the receiver and
the argument, stored in the receiver. -/
def Matrix.AddInPlace (m other : Matrix) : Matrix :=
  ⟨m.rows, m.cols, List.zipWith DType.add m.data other.data⟩

/-- Modelled from the spec: the gradient buffer `PropagateGrad` leaves: "on a node
with no existing gradient buffer allocates one (zeroed, same shape as value) then
accumulates; on repeated calls it accumulates in place". Without a buffer and
without a value there is no shape to allocate: a nil dereference. -/
def accumulateGrad (value grad : Option Matrix) (gx : Matrix) : Except String Matrix :=
  match grad with
  | some gr => .ok (gr.AddInPlace gx)
  | none =>
    match value with
    | some v => .ok (v.ZerosLike.AddInPlace gx)
    | none => .error nilDerefMsg

/-- Modelled from the spec: `PropagateGrad(gx)` of a `GradValue`, whose code is not part
of the sources: an external object, a Variable and an Operator accumulate into their
own buffer; a wrapper propagates to the wrapped value unless it opted out
(`wrapGrad`). The first argument bounds the number of nodes visited along a chain of
wrappers. -/
def World.propagateGradOf (w : World) (gx : Matrix) : Nat → Wrapped → Outcome Unit
  | _, .ext r =>
    match accumulateGrad (w.ext r).value (w.ext r).grad gx with
    | .ok gr =>
      .ok { w with ext := Function.update w.ext r { w.ext r with grad := some gr } } ()
    | .error msg => .panic w msg
  | 0, .node _ => .ok w ()
  | fuel + 1, .node q =>
    match w.heap q with
    | .ofVariable v =>
      match accumulateGrad v.value v.grad gx with
      | .ok gr => .ok (w.setNode q (.ofVariable { v with grad := some gr })) ()
      | .error msg => .panic w msg
    | .ofOperator o =>
      match accumulateGrad o.value o.grad gx with
      | .ok gr => .ok (w.setNode q (.ofOperator { o with grad := some gr })) ()
      | .error msg => .panic w msg
    | .ofWrapper x =>
      if x.wrapGrad then propagateGradOf w gx fuel x.GradValue else .ok w ()

/-- Modelled from the spec: `PropagateGrad(gx)` of the node at `p`. -/
def World.PropagateGrad (w : World) (p : Ptr) (gx : Matrix) : Outcome Unit :=
  w.propagateGradOf gx (p + 1) (.node p)

/-- A graph over two external values `[1,5,3]`: node 0 wraps the first one with
gradient propagation (`NewWrap`), node 1 wraps the second one without
(`NewWrapNoGrad`). -/
def Scenario.wrapped : World :=
  (Graph.NewWrapNoGrad
    (Graph.NewWrap
      (Graph.NewGraph
        (World.init (fun _ => ⟨some (Matrix.NewVecDense [1, 5, 3]), none, true⟩)) 1 []).1
      0 (.ext 0)).1
    0 (.ext 1)).1

/-- The type assertion `node.(*Variable[T])`. -/
def Node.isVariable : Node → Bool
  | .ofVariable _ => true
  | _ => false

/-- Whether a `GradValue` takes part in gradient propagation: every external object,
Variable and Operator, and a wrapper unless it opted out (`NewWrapNoGrad`) or wraps a
value that does not take part. -/
def World.acceptsGradOf (w : World) : Nat → Wrapped → Bool
  | _, .ext _ => true
  | 0, .node _ => false
  | fuel + 1, .node q =>
    match w.heap q with
    | .ofWrapper x => x.wrapGrad && acceptsGradOf w fuel x.GradValue
    | _ => true

/-- Whether the node at `p` takes part in gradient propagation. -/
def World.acceptsGrad (w : World) (p : Ptr) : Bool := w.acceptsGradOf (p + 1) (.node p)

/-- The value a node object holds itself: a Variable and an Operator hold one, a
wrapper holds none. -/
def Node.ownValue : Node → Option Matrix
  | .ofVariable v => v.value
  | .ofOperator o => o.value
  | .ofWrapper _ => none

/-- The gradient a node object holds itself. -/
def Node.ownGrad : Node → Option Matrix
  | .ofVariable v => v.grad
  | .ofOperator o => o.grad
  | .ofWrapper _ => none

/-- A wrapper was allocated after the node it wraps: the wrapper objects are at
allocated addresses and wrap external objects or nodes at smaller addresses. A chain
of wrappers that starts at `p` then visits at most `p + 1` nodes. -/
def Layered (w : World) : Prop :=
  ∀ p x, w.heap p = .ofWrapper x → p < w.nextPtr ∧ ∀ q, x.GradValue = .node q → q < p

/-- Whether the `GradValue` is, directly or through wrappers, an Operator of the node
list of graph `g`. -/
def World.readsOperatorOf (w : World) (g : GraphRef) : Nat → Wrapped → Bool
  | _, .ext _ => false
  | 0, .node _ => false
  | fuel + 1, .node q =>
    match w.heap q with
    | .ofVariable _ => false
    | .ofOperator _ => decide (q ∈ (w.graphs g).nodes)
    | .ofWrapper x => readsOperatorOf w g fuel x.GradValue

/-- The graph with `x1`, `x2` and `min(x1, x2)`, and a fourth node that wraps the
operator `min(x1, x2)`. -/
def Scenario.withWrappedMin : World := (Graph.NewWrap Scenario.withMin 0 (.node 2)).1

/-- The graph with `x1`, `x2` and `min(x1, x2)` after `Clear`: the shell of the
operator (node object 2) is in the pool. -/
def Scenario.cleared : World := Graph.Clear Scenario.withMin 0

/-! ## Traversal of the parameters of a model (`nn/paramstraversal.go`) -/

/-- Modelled from the spec: the type of a parameter (`ParamsType`, what
`tag.paramType()` returns and `SetType` stores); its declaration is not part of the
sources, so it is a plain code. -/
abbrev ParamsType := Nat

/-- Modelled from the spec: the struct `BaseParam`, with the two fields that `Name()`,
`SetName` and `SetType` read and write. -/
structure BaseParam where
  name : String
  pType : ParamsType
  deriving DecidableEq, Repr, Inhabited

/-- Modelled from the spec: the parsed field tag `moduleFieldTag`, as far as `walkParam`
uses it: the result of `paramType()`. -/
structure ModuleFieldTag where
  paramType : ParamsType
  deriving DecidableEq, Repr

/-- The address of a parameter object (`*BaseParam`). -/
abbrev ParamRef := Nat

/-- The memory a traversal works on: the parameter objects, and the calls of the
callback made so far, each with the parameter passed and the state it was in. -/
structure ParamWorld where
  params : ParamRef → BaseParam
  calls : List (ParamRef × BaseParam)

/-- The source function `walkParam`. The argument `lower` is `strings.ToLower`; the
callback is client code, and its call is recorded. -/
def walkParam (lower : String → String) (pw : ParamWorld) (item : ParamRef) (name : String)
    (tag : ModuleFieldTag) : ParamWorld :=
  let pw1 : ParamWorld :=
    if (pw.params item).name = "" then
      { pw with params := Function.update pw.params item { pw.params item with name := lower name } }
    else pw
  let pw2 : ParamWorld :=
    { pw1 with
      params := Function.update pw1.params item { pw1.params item with pType := tag.paramType } }
  { pw2 with calls := pw2.calls ++ [(item, pw2.params item)] }

/-- The lower-casing of the letters A to Z, which stands for `strings.ToLower` in the
scenario. -/
def Scenario.lower (s : String) : String := String.mk (s.data.map Char.toLower)

/-- Two parameters: the first one without a name, the second one named `"bias"`. -/
def Scenario.params : ParamWorld :=
  { params := fun r => if r = 1 then ⟨"bias", 0⟩ else ⟨"", 0⟩, calls := [] }

/-- One call of a node constructor on an existing graph, whether it returns a node
(newly inserted, or for `Constant` possibly a known one) or panics. -/
inductive Insertion : World → World → Prop
  | newVariable (w : World) (g : GraphRef) (value : Option Matrix) (requiresGrad : Bool)
    (hg : g < w.nextGraph) : Insertion w (Graph.NewVariable w g value requiresGrad).1
  | newVariableWithName (w : World) (g : GraphRef) (value : Option Matrix)
    (requiresGrad : Bool) (name : String) (hg : g < w.nextGraph) :
    Insertion w (Graph.NewVariableWithName w g value requiresGrad name).1
  | newScalar (w : World) (g : GraphRef) (value : DType) (hg : g < w.nextGraph) :
    Insertion w (Graph.NewScalar w g value).1
  | newScalarWithName (w : World) (g : GraphRef) (value : DType) (name : String)
    (hg : g < w.nextGraph) : Insertion w (Graph.NewScalarWithName w g value name).1
  | constant (w : World) (g : GraphRef) (value : DType) (hg : g < w.nextGraph) :
    Insertion w (Graph.Constant w g value).1
  | newOperator (w : World) (g : GraphRef) (f : Function) (operands : List Ptr) (pick : Nat)
    (hg : g < w.nextGraph) : Insertion w (Graph.NewOperator w g f operands pick).world
  | newWrap (w : World) (g : GraphRef) (value : Wrapped) (hg : g < w.nextGraph)
    (hv : ∀ q, value = .node q → q < w.nextPtr) : Insertion w (Graph.NewWrap w g value).1
  | newWrapNoGrad (w : World) (g : GraphRef) (value : Wrapped) (hg : g < w.nextGraph)
    (hv : ∀ q, value = .node q → q < w.nextPtr) :
    Insertion w (Graph.NewWrapNoGrad w g value).1

/-- The constant `7` has been added next to `x1`: node object 1, with id 1. -/
def Scenario.withConstant : World := (Graph.Constant Scenario.withX1 0 7).1

/-- The graph with `x1` and the constant `7` after `Clear`. -/
def Scenario.constantCleared : World := Graph.Clear Scenario.withConstant 0

/-- The memories a program reaches from the start by steps that never take a node
out of the node list of graph `g`: every step leaves the old node list of `g` as a
prefix of the new one. This rules out exactly the calls of `Clear` on `g` while `g`
has nodes. -/
inductive Uncleared (g : GraphRef) : World → Prop
  | init (ext : ExtRef → GradValue) : Uncleared g (World.init ext)
  | step {w w1 : World} (hw : Uncleared g w) (hs : Step w w1)
    (hkeep : (w.graphs g).nodes <+: (w1.graphs g).nodes) : Uncleared g w1

/-! ### Facts about the loops of `Min.Backward` -/

theorem Min.gradLoop_spec (a b gy : List DType) :
    ∀ (fuel i : Nat) (gx : List DType),
      i + fuel ≤ a.length → i + fuel ≤ b.length → i + fuel ≤ gy.length →
      i + fuel ≤ gx.length →
      ∃ out, Min.gradLoop a b gy fuel i gx = .ok out ∧ out.length = gx.length ∧
        ∀ j, out[j]? =
          if (i ≤ j ∧ j < i + fuel ∧ DType.lt (a.getD j DType.nan) (b.getD j DType.nan) = true)
          then gy[j]? else gx[j]? := by
  intro fuel
  induction fuel with
  | zero =>
    intro i gx _ _ _ _
    refine ⟨gx, rfl, rfl, ?_⟩
    intro j
    have : ¬ (i ≤ j ∧ j < i + 0 ∧ DType.lt (a.getD j DType.nan) (b.getD j DType.nan) = true) := by
      omega
    rw [if_neg this]
  | succ fuel ih =>
    intro i gx ha hb hgy hgx
    have hia : i < a.length := by omega
    have hib : i < b.length := by omega
    have hig : i < gy.length := by omega
    have hix : i < gx.length := by omega
    have ea : a[i]? = some a[i] := List.getElem?_eq_getElem hia
    have eb : b[i]? = some b[i] := List.getElem?_eq_getElem hib
    have eg : gy[i]? = some gy[i] := List.getElem?_eq_getElem hig
    have da : a.getD i DType.nan = a[i] := by simp [List.getD, ea]
    have db : b.getD i DType.nan = b[i] := by simp [List.getD, eb]
    by_cases hlt : DType.lt a[i] b[i] = true
    · obtain ⟨out, hout, hlen, hget⟩ := ih (i + 1) (gx.set i gy[i])
        (by omega) (by omega) (by omega) (by simp; omega)
      refine ⟨out, ?_, by simpa using hlen, ?_⟩
      · simp only [Min.gradLoop, ea, eb, eg, hlt, if_true, hix]
        exact hout
      · intro j
        rw [hget j]
        by_cases hji : j = i
        · subst hji
          have h1 : ¬ (j + 1 ≤ j ∧ j < j + 1 + fuel ∧
              DType.lt (a.getD j DType.nan) (b.getD j DType.nan) = true) := by omega
          have h2 : (j ≤ j ∧ j < j + (fuel + 1) ∧
              DType.lt (a.getD j DType.nan) (b.getD j DType.nan) = true) := by
            refine ⟨le_refl _, by omega, ?_⟩
            rw [da, db]; exact hlt
          rw [if_neg h1, if_pos h2, List.getElem?_set_self hix, eg]
        · have hne : i ≠ j := fun h => hji h.symm
          rw [List.getElem?_set_ne hne]
          by_cases hc : DType.lt (a.getD j DType.nan) (b.getD j DType.nan) = true
          · by_cases hr : i + 1 ≤ j ∧ j < i + 1 + fuel
            · rw [if_pos ⟨hr.1, hr.2, hc⟩, if_pos ⟨by omega, by omega, hc⟩]
            · rw [if_neg (fun h => hr ⟨h.1, h.2.1⟩), if_neg (fun h => hr ⟨by omega, by omega⟩)]
          · rw [if_neg (fun h => hc h.2.2), if_neg (fun h => hc h.2.2)]
    · obtain ⟨out, hout, hlen, hget⟩ := ih (i + 1) gx
        (by omega) (by omega) (by omega) (by omega)
      refine ⟨out, ?_, hlen, ?_⟩
      · simp only [Min.gradLoop, ea, eb, hlt]
        exact hout
      · intro j
        rw [hget j]
        by_cases hji : j = i
        · subst hji
          have h1 : ¬ (j + 1 ≤ j ∧ j < j + 1 + fuel ∧
              DType.lt (a.getD j DType.nan) (b.getD j DType.nan) = true) := by omega
          have h2 : ¬ (j ≤ j ∧ j < j + (fuel + 1) ∧
              DType.lt (a.getD j DType.nan) (b.getD j DType.nan) = true) := by
            rw [da, db]; exact fun h => hlt h.2.2
          rw [if_neg h1, if_neg h2]
        · by_cases hc : DType.lt (a.getD j DType.nan) (b.getD j DType.nan) = true
          · by_cases hr : i + 1 ≤ j ∧ j < i + 1 + fuel
            · rw [if_pos ⟨hr.1, hr.2, hc⟩, if_pos ⟨by omega, by omega, hc⟩]
            · rw [if_neg (fun h => hr ⟨h.1, h.2.1⟩), if_neg (fun h => hr ⟨by omega, by omega⟩)]
          · rw [if_neg (fun h => hc h.2.2), if_neg (fun h => hc h.2.2)]

/-- Compatible well-formed matrices hold the same number of elements. -/
theorem Compatible.length_eq {a b : Matrix} (ha : a.WF) (hb : b.WF)
    (h : Compatible a b = true) : a.data.length = b.data.length := by
  unfold Matrix.WF at ha hb
  rw [ha, hb]
  simp only [Compatible, SameDims, VectorsOfSameSize, Bool.or_eq_true, Bool.and_eq_true,
    beq_iff_eq] at h
  rcases h with ⟨hr, hc⟩ | ⟨⟨hs, _⟩, _⟩
  · simp [Matrix.Size, hr, hc]
  · exact hs

/-- The gradient one loop of `Min.Backward` builds for an operand of value `xv`
against the other operand `ov`, on a compatible output gradient. -/
theorem Min.gradLoop_zeros {xv ov gy : Matrix} (hx : xv.WF) (ho : ov.WF) (hg : gy.WF)
    (cx : Compatible xv gy = true) (co : Compatible ov gy = true) :
    ∃ out, Min.gradLoop xv.data ov.data gy.data gy.Size 0 xv.ZerosLike.data = .ok out ∧
      out.length = xv.Size ∧
      ∀ (j : Nat) a b g, xv.data[j]? = some a → ov.data[j]? = some b → gy.data[j]? = some g →
        out[j]? = some (if DType.lt a b = true then g else DType.zero) := by
  have lx := Compatible.length_eq hx hg cx
  have lo := Compatible.length_eq ho hg co
  have hgl : gy.data.length = gy.Size := hg
  have hxl : xv.data.length = xv.Size := hx
  obtain ⟨out, hout, hlen, hget⟩ := Min.gradLoop_spec xv.data ov.data gy.data gy.Size 0
    xv.ZerosLike.data (by omega) (by omega) (by omega)
    (by simp [Matrix.ZerosLike]; omega)
  refine ⟨out, hout, by simpa [Matrix.ZerosLike] using hlen, ?_⟩
  intro j a b g ea eb eg
  have hj : j < gy.data.length := by
    by_contra hcon
    rw [List.getElem?_eq_none (by omega)] at eg
    exact Option.noConfusion eg
  rw [hget j]
  have da : xv.data.getD j DType.nan = a := by simp [List.getD, ea]
  have db : ov.data.getD j DType.nan = b := by simp [List.getD, eb]
  have hz : xv.ZerosLike.data[j]? = some DType.zero := by
    simp only [Matrix.ZerosLike]
    rw [List.getElem?_replicate]
    rw [if_pos (by omega)]
  rw [da, db, hz, eg]
  by_cases hlt : DType.lt a b = true
  · rw [if_pos ⟨Nat.zero_le _, by omega, hlt⟩, if_pos hlt]
  · rw [if_neg (fun h => hlt h.2.2), if_neg hlt]

/-- What `Min.Backward` does on an output gradient compatible with both operand
values: no panic, one `PropagateGrad` call for each operand that requires
gradient, `x1` first, each carrying the operand's dimensions and the routed
gradient. -/
theorem Min.Backward_run (r1 r2 : Nat) (rg1 rg2 : Bool) {x1v x2v gy : Matrix}
    (h1 : x1v.WF) (h2 : x2v.WF) (hg : gy.WF)
    (c1 : Compatible x1v gy = true) (c2 : Compatible x2v gy = true) :
    ∃ gx1 gx2 : Matrix,
      Min.Backward (NewMin ⟨r1, some x1v, rg1⟩ ⟨r2, some x2v, rg2⟩) gy =
        ⟨(if rg1 = true then [(r1, gx1)] else []) ++ (if rg2 = true then [(r2, gx2)] else []),
          none⟩ ∧
      (gx1.rows = x1v.rows ∧ gx1.cols = x1v.cols ∧ gx1.data.length = x1v.Size) ∧
      (gx2.rows = x2v.rows ∧ gx2.cols = x2v.cols ∧ gx2.data.length = x2v.Size) ∧
      (∀ (j : Nat) a b g, x1v.data[j]? = some a → x2v.data[j]? = some b → gy.data[j]? = some g →
        gx1.data[j]? = some (if DType.lt a b = true then g else DType.zero)) ∧
      (∀ (j : Nat) a b g, x1v.data[j]? = some a → x2v.data[j]? = some b → gy.data[j]? = some g →
        gx2.data[j]? = some (if DType.lt b a = true then g else DType.zero)) := by
  obtain ⟨o1, e1, l1, g1⟩ := Min.gradLoop_zeros h1 h2 hg c1 c2
  obtain ⟨o2, e2, l2, g2⟩ := Min.gradLoop_zeros h2 h1 hg c2 c1
  refine ⟨{ x1v.ZerosLike with data := o1 }, { x2v.ZerosLike with data := o2 }, ?_,
    ⟨rfl, rfl, l1⟩, ⟨rfl, rfl, l2⟩, g1, fun j a b g ea eb eg => g2 j b a g eb ea eg⟩
  cases rg1 <;> cases rg2 <;> simp [Min.Backward, NewMin, e1, e2] <;>
    (intro ha hb; exfalso; simp [Compatible, ha, hb] at c1)

/-- Elements that are equal under `==` are not ordered by `<`, either way. -/
theorem DType.lt_of_eq {a b : DType} (h : DType.eq a b = true) :
    DType.lt a b = false ∧ DType.lt b a = false := by
  cases a <;> cases b <;> simp_all [DType.eq, DType.lt]

/-! ### Reading a node through its wrappers -/

theorem World.Value_eq (w : World) (p : Ptr) :
    w.Value p =
      match w.heap p with
      | .ofVariable v => v.value
      | .ofOperator o => o.value
      | .ofWrapper x => w.valueOf p x.GradValue := rfl

theorem World.RequiresGrad_eq (w : World) (p : Ptr) :
    w.RequiresGrad p =
      match w.heap p with
      | .ofVariable v => v.requiresGrad
      | .ofOperator o => o.requiresGrad
      | .ofWrapper x => x.wrapGrad && w.requiresGradOf p x.GradValue := rfl

theorem World.Grad_eq (w : World) (p : Ptr) :
    w.Grad p =
      match w.heap p with
      | .ofVariable v => v.grad
      | .ofOperator o => o.grad
      | .ofWrapper x => if x.wrapGrad then w.gradOf p x.GradValue else none := rfl

theorem World.zeroGradNode_eq (w : World) (p : Ptr) :
    w.zeroGradNode p =
      match w.heap p with
      | .ofVariable v => w.setNode p (.ofVariable { v with grad := none })
      | .ofOperator o => w.setNode p (.ofOperator { o with grad := none })
      | .ofWrapper x => if x.wrapGrad then w.zeroGradOf p x.GradValue else w := rfl

theorem Node.sameStructure_wrapper {a b : Node} (h : a.sameStructure b) {x : Wrapper}
    (ha : a = .ofWrapper x) :
    ∃ y, b = .ofWrapper y ∧ y.GradValue = x.GradValue ∧ y.wrapGrad = x.wrapGrad := by
  subst ha
  cases b with
  | ofVariable v => exact False.elim h
  | ofOperator o => exact False.elim h
  | ofWrapper y => exact ⟨y, rfl, h.2.2.2.1.symm, h.2.2.2.2.symm⟩

/-- The values read through wrappers are the same in two memories whose node objects
have the same structure and hold the same values. -/
theorem World.valueOf_congr {w w1 : World} (hs : ∀ q, (w.heap q).sameStructure (w1.heap q))
    (hv : ∀ q, (w1.heap q).ownValue = (w.heap q).ownValue)
    (he : ∀ r, (w1.ext r).value = (w.ext r).value) :
    ∀ (fuel : Nat) (t : Wrapped), w1.valueOf fuel t = w.valueOf fuel t := by
  intro fuel
  induction fuel with
  | zero =>
    intro t
    cases t with
    | ext r => exact he r
    | node q => rfl
  | succ fuel ih =>
    intro t
    cases t with
    | ext r => exact he r
    | node q =>
      have h1 := hs q
      have h2 := hv q
      cases ha : w.heap q <;> cases hb : w1.heap q <;>
        simp only [ha, hb, Node.sameStructure, Node.ownValue] at h1 h2 <;>
        simp only [World.valueOf, ha, hb]
      · exact h2
      · exact h2
      · rw [← h1.2.2.2.1]; exact ih _

/-- A value read through wrappers is as before or nil when every node object has the
same structure and holds the same value or none. -/
theorem World.valueOf_or_none {w w1 : World}
    (hs : ∀ q, (w.heap q).sameStructure (w1.heap q))
    (hv : ∀ q, (w1.heap q).ownValue = (w.heap q).ownValue ∨ (w1.heap q).ownValue = none)
    (he : ∀ r, (w1.ext r).value = (w.ext r).value) :
    ∀ (fuel : Nat) (t : Wrapped),
      w1.valueOf fuel t = w.valueOf fuel t ∨ w1.valueOf fuel t = none := by
  intro fuel
  induction fuel with
  | zero =>
    intro t
    cases t with
    | ext r => exact Or.inl (he r)
    | node q => exact Or.inl rfl
  | succ fuel ih =>
    intro t
    cases t with
    | ext r => exact Or.inl (he r)
    | node q =>
      have h1 := hs q
      have h2 := hv q
      cases ha : w.heap q <;> cases hb : w1.heap q <;>
        simp only [ha, hb, Node.sameStructure, Node.ownValue] at h1 h2 <;>
        simp only [World.valueOf, ha, hb]
      · exact h2
      · exact h2
      · rw [← h1.2.2.2.1]; exact ih _

theorem World.gradOf_congr {w w1 : World} (hs : ∀ q, (w.heap q).sameStructure (w1.heap q))
    (hv : ∀ q, (w1.heap q).ownGrad = (w.heap q).ownGrad)
    (he : ∀ r, (w1.ext r).grad = (w.ext r).grad) :
    ∀ (fuel : Nat) (t : Wrapped), w1.gradOf fuel t = w.gradOf fuel t := by
  intro fuel
  induction fuel with
  | zero =>
    intro t
    cases t with
    | ext r => exact he r
    | node q => rfl
  | succ fuel ih =>
    intro t
    cases t with
    | ext r => exact he r
    | node q =>
      have h1 := hs q
      have h2 := hv q
      cases ha : w.heap q <;> cases hb : w1.heap q <;>
        simp only [ha, hb, Node.sameStructure, Node.ownGrad] at h1 h2 <;>
        simp only [World.gradOf, ha, hb]
      · exact h2
      · exact h2
      · rw [← h1.2.2.2.1, ← h1.2.2.2.2, ih]

/-- A gradient read through wrappers is as before or nil when every node object has
the same structure and holds the same gradient or none. -/
theorem World.gradOf_or_none {w w1 : World}
    (hs : ∀ q, (w.heap q).sameStructure (w1.heap q))
    (hv : ∀ q, (w1.heap q).ownGrad = (w.heap q).ownGrad ∨ (w1.heap q).ownGrad = none)
    (he : ∀ r, (w1.ext r).grad = (w.ext r).grad ∨ (w1.ext r).grad = none) :
    ∀ (fuel : Nat) (t : Wrapped),
      w1.gradOf fuel t = w.gradOf fuel t ∨ w1.gradOf fuel t = none := by
  intro fuel
  induction fuel with
  | zero =>
    intro t
    cases t with
    | ext r => exact he r
    | node q => exact Or.inl rfl
  | succ fuel ih =>
    intro t
    cases t with
    | ext r => exact he r
    | node q =>
      have h1 := hs q
      have h2 := hv q
      cases ha : w.heap q <;> cases hb : w1.heap q <;>
        simp only [ha, hb, Node.sameStructure, Node.ownGrad] at h1 h2 <;>
        simp only [World.gradOf, ha, hb]
      · exact h2
      · exact h2
      · rw [← h1.2.2.2.1, ← h1.2.2.2.2]
        split
        · exact ih _
        · exact Or.inl rfl

theorem World.requiresGradOf_congr {w w1 : World}
    (hs : ∀ q, (w.heap q).sameStructure (w1.heap q))
    (he : ∀ r, (w1.ext r).requiresGrad = (w.ext r).requiresGrad) :
    ∀ (fuel : Nat) (t : Wrapped), w1.requiresGradOf fuel t = w.requiresGradOf fuel t := by
  intro fuel
  induction fuel with
  | zero =>
    intro t
    cases t with
    | ext r => exact he r
    | node q => rfl
  | succ fuel ih =>
    intro t
    cases t with
    | ext r => exact he r
    | node q =>
      have h1 := hs q
      cases ha : w.heap q <;> cases hb : w1.heap q <;>
        simp only [ha, hb, Node.sameStructure] at h1 <;>
        simp only [World.requiresGradOf, ha, hb]
      · exact h1.2.2.2.2.symm
      · exact h1.2.2.2.2.2.symm
      · rw [← h1.2.2.2.1, ← h1.2.2.2.2, ih]

theorem World.acceptsGradOf_congr {w w1 : World}
    (hs : ∀ q, (w.heap q).sameStructure (w1.heap q)) :
    ∀ (fuel : Nat) (t : Wrapped), w1.acceptsGradOf fuel t = w.acceptsGradOf fuel t := by
  intro fuel
  induction fuel with
  | zero =>
    intro t
    cases t with
    | ext r => rfl
    | node q => rfl
  | succ fuel ih =>
    intro t
    cases t with
    | ext r => rfl
    | node q =>
      have h1 := hs q
      cases ha : w.heap q <;> cases hb : w1.heap q <;>
        simp only [ha, hb, Node.sameStructure] at h1 <;>
        simp only [World.acceptsGradOf, ha, hb]
      · rw [← h1.2.2.2.1, ← h1.2.2.2.2, ih]

/-- The reads of a node depend on the node objects and the external objects only. -/
theorem World.reads_heap_ext {w w1 : World} (hh : w1.heap = w.heap) (he : w1.ext = w.ext) :
    w1.valueOf = w.valueOf ∧ w1.gradOf = w.gradOf ∧ w1.requiresGradOf = w.requiresGradOf := by
  refine ⟨?_, ?_, ?_⟩
  · funext fuel
    induction fuel with
    | zero => funext t; cases t <;> simp [World.valueOf, he]
    | succ fuel ih => funext t; cases t <;> simp [World.valueOf, he, hh, ih]
  · funext fuel
    induction fuel with
    | zero => funext t; cases t <;> simp [World.gradOf, he]
    | succ fuel ih => funext t; cases t <;> simp [World.gradOf, he, hh, ih]
  · funext fuel
    induction fuel with
    | zero => funext t; cases t <;> simp [World.requiresGradOf, he]
    | succ fuel ih => funext t; cases t <;> simp [World.requiresGradOf, he, hh, ih]

theorem World.Value_heap_ext {w w1 : World} (hh : w1.heap = w.heap) (he : w1.ext = w.ext)
    (p : Ptr) : w1.Value p = w.Value p := by
  unfold World.Value; rw [(World.reads_heap_ext hh he).1]

theorem World.Grad_heap_ext {w w1 : World} (hh : w1.heap = w.heap) (he : w1.ext = w.ext)
    (p : Ptr) : w1.Grad p = w.Grad p := by
  unfold World.Grad; rw [(World.reads_heap_ext hh he).2.1]

theorem World.RequiresGrad_heap_ext {w w1 : World} (hh : w1.heap = w.heap)
    (he : w1.ext = w.ext) (p : Ptr) : w1.RequiresGrad p = w.RequiresGrad p := by
  unfold World.RequiresGrad; rw [(World.reads_heap_ext hh he).2.2]

theorem World.reads_setGraph (w : World) (g : GraphRef) (gr : Graph) (p : Ptr) :
    (w.setGraph g gr).Value p = w.Value p ∧ (w.setGraph g gr).Grad p = w.Grad p ∧
    (w.setGraph g gr).RequiresGrad p = w.RequiresGrad p :=
  ⟨@World.Value_heap_ext w (w.setGraph g gr) rfl rfl p,
    @World.Grad_heap_ext w (w.setGraph g gr) rfl rfl p,
    @World.RequiresGrad_heap_ext w (w.setGraph g gr) rfl rfl p⟩

/-! ### Memory updates that keep the invariant -/

theorem Node.Graph_setID (n : Node) (id : Int) : (n.setID id).Graph = n.Graph := by
  cases n <;> rfl

theorem Node.ID_setID (n : Node) (id : Int) : (n.setID id).ID = id := by
  cases n <;> rfl

theorem Node.sameStructure_Graph {a b : Node} (h : a.sameStructure b) : b.Graph = a.Graph := by
  cases a <;> cases b <;> simp_all [Node.sameStructure, Node.Graph]

theorem Node.sameStructure_ID {a b : Node} (h : a.sameStructure b) : b.ID = a.ID := by
  cases a <;> cases b <;> simp_all [Node.sameStructure, Node.ID]

theorem Frame.frame_refl (w : World) : Frame w w :=
  ⟨fun _ => ⟨rfl, rfl⟩, rfl, rfl, fun _ => ⟨rfl, rfl, rfl⟩⟩

theorem Frame.frame_trans {a b c : World} (h1 : Frame a b) (h2 : Frame b c) : Frame a c := by
  obtain ⟨ha, hn, hp, hg⟩ := h1
  obtain ⟨ha2, hn2, hp2, hg2⟩ := h2
  refine ⟨fun p => ⟨(ha2 p).1.trans (ha p).1, (ha2 p).2.trans (ha p).2⟩, hn2.trans hn,
    hp2.trans hp, fun g => ⟨(hg2 g).1.trans (hg g).1, (hg2 g).2.1.trans (hg g).2.1,
      (hg2 g).2.2.trans (hg g).2.2⟩⟩

/-- Overwriting a graph object without touching its node list, `maxID` and constants. -/
theorem Frame.setGraph (w : World) (g : GraphRef) (gr : Graph)
    (h1 : gr.nodes = (w.graphs g).nodes) (h2 : gr.maxID = (w.graphs g).maxID)
    (h3 : gr.constants = (w.graphs g).constants) : Frame w (w.setGraph g gr) := by
  refine ⟨fun _ => ⟨rfl, rfl⟩, rfl, rfl, fun g1 => ?_⟩
  by_cases hg : g1 = g
  · subst hg; simp [World.setGraph, h1, h2, h3]
  · simp [World.setGraph, Function.update_noteq hg]

/-- Overwriting a node object without touching its graph and id. -/
theorem Frame.frame_setNode (w : World) (p : Ptr) (n : Node)
    (h1 : n.Graph = (w.heap p).Graph) (h2 : n.ID = (w.heap p).ID) :
    Frame w (w.setNode p n) := by
  refine ⟨fun q => ?_, rfl, rfl, fun _ => ⟨rfl, rfl, rfl⟩⟩
  by_cases hq : q = p
  · subst hq; simp [World.setNode, h1, h2]
  · simp [World.setNode, Function.update_noteq hq]

theorem Frame.zeroGradOf (w : World) :
    ∀ (fuel : Nat) (t : Wrapped), Frame w (w.zeroGradOf fuel t) := by
  intro fuel
  induction fuel with
  | zero =>
    intro t
    cases t with
    | ext r => exact ⟨fun _ => ⟨rfl, rfl⟩, rfl, rfl, fun _ => ⟨rfl, rfl, rfl⟩⟩
    | node q => exact Frame.frame_refl w
  | succ fuel ih =>
    intro t
    cases t with
    | ext r => exact ⟨fun _ => ⟨rfl, rfl⟩, rfl, rfl, fun _ => ⟨rfl, rfl, rfl⟩⟩
    | node q =>
      simp only [World.zeroGradOf]
      split
      · next v hv => exact Frame.frame_setNode w q _ (by rw [hv]; rfl) (by rw [hv]; rfl)
      · next o ho => exact Frame.frame_setNode w q _ (by rw [ho]; rfl) (by rw [ho]; rfl)
      · next x hx =>
        split
        · exact ih _
        · exact Frame.frame_refl w

theorem Frame.zeroGradNode (w : World) (p : Ptr) : Frame w (w.zeroGradNode p) :=
  Frame.zeroGradOf w (p + 1) (.node p)

theorem Frame.releaseValue (w : World) (p : Ptr) : Frame w (Graph.releaseValue w p) := by
  unfold Graph.releaseValue
  split
  · next o ho =>
    split
    · exact Frame.frame_refl w
    · exact Frame.frame_setNode w p _ (by rw [ho]; rfl) (by rw [ho]; rfl)
  · exact Frame.frame_refl w

/-- A loop whose every round keeps the frame keeps the frame. -/
theorem Frame.foldl (f : World → Ptr → World) (hf : ∀ w p, Frame w (f w p)) :
    ∀ (l : List Ptr) (w : World), Frame w (l.foldl f w) := by
  intro l
  induction l with
  | nil => intro w; exact Frame.frame_refl w
  | cons p rest ih => intro w; exact Frame.frame_trans (hf w p) (ih (f w p))

theorem Frame.releaseMemory (w : World) (g : GraphRef) : Frame w (Graph.releaseMemory w g) := by
  unfold Graph.releaseMemory
  apply Frame.foldl
  intro a p
  split
  · exact Frame.frame_trans (Frame.releaseValue a p) (Frame.zeroGradNode _ p)
  · exact Frame.frame_refl a

theorem Frame.ZeroGrad (w : World) (g : GraphRef) : Frame w (Graph.ZeroGrad w g) := by
  unfold Graph.ZeroGrad
  exact Frame.foldl _ (fun a p => Frame.zeroGradNode a p) _ _

theorem GraphOK.graphOK_frame {w w1 : World} {g : GraphRef} (h : GraphOK w g) (f : Frame w w1) :
    GraphOK w1 g := by
  obtain ⟨hh, hn, _, hg⟩ := f
  obtain ⟨e1, e2, _⟩ := hg g
  refine ⟨by rw [e1, e2]; exact h.maxID, ?_, ?_⟩
  · intro k p hk
    rw [e1] at hk
    rw [(hh p).1, (hh p).2]
    exact h.owner k p hk
  · intro p hp
    rw [e1] at hp
    rw [hn]
    exact h.bound p hp

theorem Shared.shared_frame {w w1 : World} (h : Shared w) (f : Frame w w1) : Shared w1 := by
  obtain ⟨hh, hn, hp, hg⟩ := f
  refine ⟨by rw [hp]; exact h.poolNodup, ?_, ?_, ?_⟩
  · intro p hpm
    rw [hp] at hpm
    rw [(hh p).1, hn]
    exact h.poolFree p hpm
  · intro g e he
    rw [(hg g).2.2] at he
    rw [hn]
    exact h.constBound g e he
  · intro g
    rw [(hg g).2.2]
    exact h.constNodup g

theorem Inv.inv_frame {w w1 : World} (h : Inv w) (f : Frame w w1) : Inv w1 :=
  ⟨h.1.shared_frame f, fun g => (h.2 g).graphOK_frame f⟩

/-- A node in a node list is not pooled. -/
theorem Inv.not_pooled {w : World} (h : Inv w) {g : GraphRef} {p : Ptr}
    (hp : p ∈ (w.graphs g).nodes) : p ∉ w.pool := by
  intro hpool
  obtain ⟨k, hk⟩ := List.mem_iff_getElem?.mp hp
  have h1 := ((h.2 g).owner k p hk).1
  rw [(h.1.poolFree p hpool).1] at h1
  exact Option.noConfusion h1

/-- Overwriting an object that is neither pooled nor in a node list. -/
theorem Inv.inv_setNode {w : World} (h : Inv w) {p : Ptr} (hu : Unowned w p) (n : Node) :
    Inv (w.setNode p n) ∧ Unowned (w.setNode p n) p := by
  obtain ⟨hb, hpool, hnodes⟩ := hu
  have hne : ∀ q, q ≠ p → (w.setNode p n).heap q = w.heap q := fun q hq => by
    simp [World.setNode, Function.update_noteq hq]
  refine ⟨⟨⟨h.1.poolNodup, ?_, h.1.constBound, h.1.constNodup⟩, fun g => ⟨(h.2 g).maxID, ?_,
    (h.2 g).bound⟩⟩, ⟨hb, hpool, hnodes⟩⟩
  · intro q hq
    have : q ≠ p := fun e => hpool (e ▸ hq)
    rw [hne q this]
    exact h.1.poolFree q hq
  · intro k q hk
    have hq : q ∈ (w.graphs g).nodes := List.mem_iff_getElem?.mpr ⟨k, hk⟩
    have : q ≠ p := fun e => hnodes g (e ▸ hq)
    rw [hne q this]
    exact (h.2 g).owner k q hk

/-- Allocating an object. -/
theorem Inv.alloc {w : World} (h : Inv w) (n : Node) :
    Inv (w.alloc n).1 ∧ Unowned (w.alloc n).1 (w.alloc n).2 := by
  have hne : ∀ q, q < w.nextPtr → (w.alloc n).1.heap q = w.heap q := fun q hq => by
    have : q ≠ w.nextPtr := Nat.ne_of_lt hq
    simp [World.alloc, Function.update_noteq this]
  refine ⟨⟨⟨h.1.poolNodup, ?_, ?_, h.1.constNodup⟩, fun g => ⟨(h.2 g).maxID, ?_, ?_⟩⟩,
    ⟨Nat.lt_succ_self _, ?_, ?_⟩⟩
  · intro q hq
    have hq2 := h.1.poolFree q hq
    rw [hne q hq2.2]
    exact ⟨hq2.1, Nat.lt_succ_of_lt hq2.2⟩
  · intro g e he
    exact Nat.lt_succ_of_lt (h.1.constBound g e he)
  · intro k q hk
    have hq : q ∈ (w.graphs g).nodes := List.mem_iff_getElem?.mpr ⟨k, hk⟩
    rw [hne q ((h.2 g).bound q hq)]
    exact (h.2 g).owner k q hk
  · intro q hq
    exact Nat.lt_succ_of_lt ((h.2 g).bound q hq)
  · intro hq
    exact Nat.lt_irrefl _ (h.1.poolFree _ hq).2
  · intro g hq
    exact Nat.lt_irrefl _ ((h.2 g).bound _ hq)

/-- Taking a shell from the pool. -/
theorem Inv.poolGet {w : World} (h : Inv w) (pick : Nat) :
    Inv (w.poolGet pick).1 ∧ Unowned (w.poolGet pick).1 (w.poolGet pick).2 := by
  unfold World.poolGet
  split
  · next p hp =>
    have hmem : p ∈ w.pool := List.mem_iff_getElem?.mpr ⟨pick, hp⟩
    refine ⟨⟨⟨h.1.poolNodup.erase p, ?_, h.1.constBound, h.1.constNodup⟩, fun g =>
      ⟨(h.2 g).maxID, (h.2 g).owner, (h.2 g).bound⟩⟩, ⟨(h.1.poolFree p hmem).2, ?_, ?_⟩⟩
    · intro q hq
      exact h.1.poolFree q (List.mem_of_mem_erase hq)
    · intro hq
      exact ((h.1.poolNodup.mem_erase_iff).mp hq).1 rfl
    · intro g hq
      exact h.not_pooled hq hmem
  · exact h.alloc _

/-- The node list `insert` leaves. -/
theorem Graph.insert_nodes (w : World) (g : GraphRef) (n : Ptr) (g1 : GraphRef) :
    ((Graph.insert w g n).1.graphs g1).nodes =
      if g1 = g then (w.graphs g).nodes ++ [n] else (w.graphs g1).nodes := by
  by_cases hg : g1 = g
  · subst hg; simp [Graph.insert, World.setGraph, World.setNode]
  · simp [Graph.insert, World.setGraph, World.setNode, Function.update_noteq hg, hg]

/-- An `insert` of an object that belongs to the graph and is neither pooled nor in a
node list. -/
theorem Inv.insert {w : World} (h : Inv w) {g : GraphRef} {p : Ptr} (hu : Unowned w p)
    (hg : (w.heap p).Graph = some g) : Inv (Graph.insert w g p).1 := by
  obtain ⟨hb, hpool, hnodes⟩ := hu
  have hheap : ∀ q, q ≠ p → (Graph.insert w g p).1.heap q = w.heap q := fun q hq => by
    simp [Graph.insert, World.setGraph, World.setNode, Function.update_noteq hq]
  have hself : (Graph.insert w g p).1.heap p = (w.heap p).setID ((w.graphs g).maxID + 1) := by
    simp [Graph.insert, World.setGraph, World.setNode]
  have hconst : ∀ g1, ((Graph.insert w g p).1.graphs g1).constants = (w.graphs g1).constants := by
    intro g1
    by_cases e : g1 = g
    · subst e; simp [Graph.insert, World.setGraph, World.setNode]
    · simp [Graph.insert, World.setGraph, World.setNode, Function.update_noteq e]
  have hmax : ∀ g1, ((Graph.insert w g p).1.graphs g1).maxID =
      if g1 = g then (w.graphs g).maxID + 1 else (w.graphs g1).maxID := by
    intro g1
    by_cases e : g1 = g
    · subst e; simp [Graph.insert, World.setGraph, World.setNode]
    · simp [Graph.insert, World.setGraph, World.setNode, Function.update_noteq e, e]
  have hnp : (Graph.insert w g p).1.nextPtr = w.nextPtr := rfl
  have hpl : (Graph.insert w g p).1.pool = w.pool := rfl
  refine ⟨⟨by rw [hpl]; exact h.1.poolNodup, ?_, ?_, ?_⟩, fun g1 => ⟨?_, ?_, ?_⟩⟩
  · intro q hq
    rw [hpl] at hq
    have : q ≠ p := fun e => hpool (e ▸ hq)
    rw [hheap q this, hnp]
    exact h.1.poolFree q hq
  · intro g1 e he
    rw [hconst g1] at he
    rw [hnp]; exact h.1.constBound g1 e he
  · intro g1
    rw [hconst g1]; exact h.1.constNodup g1
  · rw [hmax g1, Graph.insert_nodes]
    by_cases e : g1 = g
    · subst e
      simp only [if_true, List.length_append, List.length_singleton]
      rw [(h.2 g1).maxID]; push_cast; ring
    · simp only [if_neg e]; exact (h.2 g1).maxID
  · intro k q hk
    rw [Graph.insert_nodes] at hk
    by_cases e : g1 = g
    · subst e
      simp only [if_true] at hk
      by_cases hkl : k < (w.graphs g1).nodes.length
      · rw [List.getElem?_append_left hkl] at hk
        have hq : q ∈ (w.graphs g1).nodes := List.mem_iff_getElem?.mpr ⟨k, hk⟩
        have : q ≠ p := fun e => hnodes g1 (e ▸ hq)
        rw [hheap q this]
        exact (h.2 g1).owner k q hk
      · have hkl2 : (w.graphs g1).nodes.length ≤ k := Nat.le_of_not_lt hkl
        rw [List.getElem?_append_right hkl2] at hk
        have hk0 : k - (w.graphs g1).nodes.length = 0 := by
          by_contra hne
          obtain ⟨m, hm⟩ := Nat.exists_eq_succ_of_ne_zero hne
          rw [hm] at hk
          simp at hk
        rw [hk0] at hk
        simp at hk
        subst hk
        rw [hself, Node.Graph_setID, Node.ID_setID, (h.2 g1).maxID]
        refine ⟨hg, ?_⟩
        have : k = (w.graphs g1).nodes.length := by omega
        rw [this]; ring
    · simp only [if_neg e] at hk
      have hq : q ∈ (w.graphs g1).nodes := List.mem_iff_getElem?.mpr ⟨k, hk⟩
      have : q ≠ p := fun e => hnodes g1 (e ▸ hq)
      rw [hheap q this]
      exact (h.2 g1).owner k q hk
  · intro q hq
    rw [Graph.insert_nodes] at hq
    rw [hnp]
    by_cases e : g1 = g
    · subst e
      simp only [if_true, List.mem_append, List.mem_singleton] at hq
      rcases hq with hq | hq
      · exact (h.2 g1).bound q hq
      · rw [hq]; exact hb
    · simp only [if_neg e] at hq
      exact (h.2 g1).bound q hq

theorem Grows.grows_refl (w : World) : Grows w w := fun _ => List.prefix_refl _

theorem Grows.grows_trans {a b c : World} (h1 : Grows a b) (h2 : Grows b c) : Grows a c :=
  fun g => (h1 g).trans (h2 g)

theorem Frame.frame_grows {w w1 : World} (f : Frame w w1) : Grows w w1 := by
  intro g
  rw [(f.2.2.2 g).1]

theorem Graph.insert_grows (w : World) (g : GraphRef) (n : Ptr) :
    Grows w (Graph.insert w g n).1 := by
  intro g1
  rw [Graph.insert_nodes]
  by_cases e : g1 = g
  · subst e; simp
  · simp [e]

/-- Allocating a node of graph `g` and inserting it. -/
theorem Inv.allocInsert {w : World} (h : Inv w) (g : GraphRef) (n : Node)
    (hn : n.Graph = some g) : Inv (Graph.insert (w.alloc n).1 g (w.alloc n).2).1 := by
  obtain ⟨hi, hu⟩ := h.alloc n
  apply hi.insert hu
  simp [World.alloc, hn]

theorem Graph.allocInsert_grows (w : World) (g : GraphRef) (n : Node) :
    Grows w (Graph.insert (w.alloc n).1 g (w.alloc n).2).1 := by
  intro g1
  have := Graph.insert_grows (w.alloc n).1 g (w.alloc n).2 g1
  exact this

theorem Graph.NewVariable_eq (w : World) (g : GraphRef) (value : Option Matrix) (rg : Bool) :
    Graph.NewVariable w g value rg =
      Graph.insert (w.alloc (.ofVariable
        { graph := some g, timeStep := (w.graphs g).curTimeStep, value := value, grad := none,
          requiresGrad := rg })).1 g w.nextPtr := rfl

theorem Graph.NewVariableWithName_eq (w : World) (g : GraphRef) (value : Option Matrix)
    (rg : Bool) (name : String) :
    Graph.NewVariableWithName w g value rg name =
      Graph.insert (w.alloc (.ofVariable
        { graph := some g, timeStep := (w.graphs g).curTimeStep, name := name, value := value,
          grad := none, requiresGrad := rg })).1 g w.nextPtr := rfl

theorem Graph.NewWrap_eq (w : World) (g : GraphRef) (value : Wrapped) :
    Graph.NewWrap w g value =
      Graph.insert (w.alloc (.ofWrapper
        { GradValue := value, timeStep := (w.graphs g).curTimeStep, graph := some g,
          wrapGrad := true })).1 g w.nextPtr := rfl

theorem Graph.NewWrapNoGrad_eq (w : World) (g : GraphRef) (value : Wrapped) :
    Graph.NewWrapNoGrad w g value =
      Graph.insert (w.alloc (.ofWrapper
        { GradValue := value, graph := some g, timeStep := (w.graphs g).curTimeStep,
          wrapGrad := false })).1 g w.nextPtr := rfl

theorem Inv.NewVariable {w : World} (h : Inv w) (g : GraphRef) (value : Option Matrix)
    (rg : Bool) : Inv (Graph.NewVariable w g value rg).1 := by
  rw [Graph.NewVariable_eq]; exact h.allocInsert g _ rfl

theorem Inv.NewVariableWithName {w : World} (h : Inv w) (g : GraphRef)
    (value : Option Matrix) (rg : Bool) (name : String) :
    Inv (Graph.NewVariableWithName w g value rg name).1 := by
  rw [Graph.NewVariableWithName_eq]; exact h.allocInsert g _ rfl

theorem Inv.NewWrap {w : World} (h : Inv w) (g : GraphRef) (value : Wrapped) :
    Inv (Graph.NewWrap w g value).1 := by
  rw [Graph.NewWrap_eq]; exact h.allocInsert g _ rfl

theorem Inv.NewWrapNoGrad {w : World} (h : Inv w) (g : GraphRef) (value : Wrapped) :
    Inv (Graph.NewWrapNoGrad w g value).1 := by
  rw [Graph.NewWrapNoGrad_eq]; exact h.allocInsert g _ rfl

theorem Graph.NewVariable_grows (w : World) (g : GraphRef) (value : Option Matrix)
    (rg : Bool) : Grows w (Graph.NewVariable w g value rg).1 := by
  rw [Graph.NewVariable_eq]; exact Graph.allocInsert_grows w g _

theorem Graph.NewVariableWithName_grows (w : World) (g : GraphRef) (value : Option Matrix)
    (rg : Bool) (name : String) : Grows w (Graph.NewVariableWithName w g value rg name).1 := by
  rw [Graph.NewVariableWithName_eq]; exact Graph.allocInsert_grows w g _

theorem Graph.NewWrap_grows (w : World) (g : GraphRef) (value : Wrapped) :
    Grows w (Graph.NewWrap w g value).1 := by
  rw [Graph.NewWrap_eq]; exact Graph.allocInsert_grows w g _

theorem Graph.NewWrapNoGrad_grows (w : World) (g : GraphRef) (value : Wrapped) :
    Grows w (Graph.NewWrapNoGrad w g value).1 := by
  rw [Graph.NewWrapNoGrad_eq]; exact Graph.allocInsert_grows w g _

theorem mapSet_of_miss {m : List (DType × Ptr)} {key : DType} (h : mapGet m key = none)
    (val : Ptr) : mapSet m key val = (key, val) :: m := by
  simp [mapSet, h]

theorem Graph.Constant_hit {w : World} {g : GraphRef} {value : DType} {node : Ptr}
    (h : mapGet (w.graphs g).constants value = some node) :
    Graph.Constant w g value = (w, node) := by
  simp [Graph.Constant, h]

theorem Graph.Constant_miss {w : World} {g : GraphRef} {value : DType}
    (h : mapGet (w.graphs g).constants value = none) :
    Graph.Constant w g value =
      (((Graph.NewVariableWithName w g (some (Matrix.NewScalar value)) false
          (DType.Sprint value)).1).setGraph g
        { ((Graph.NewVariableWithName w g (some (Matrix.NewScalar value)) false
            (DType.Sprint value)).1).graphs g with
          constants := (value, w.nextPtr) :: (w.graphs g).constants }, w.nextPtr) := by
  have hc : (((Graph.NewVariableWithName w g (some (Matrix.NewScalar value)) false
      (DType.Sprint value)).1).graphs g).constants = (w.graphs g).constants := by
    simp [Graph.NewVariableWithName_eq, Graph.insert, World.setGraph, World.setNode, World.alloc]
  have hm := mapSet_of_miss h w.nextPtr
  simp only [Graph.Constant, h]
  rw [← hm]
  simp [Graph.NewVariableWithName_eq, Graph.insert, World.setGraph, World.setNode, World.alloc]

/-- Overwriting the constants table of a graph with distinct allocated nodes. -/
theorem Inv.setConstants {w : World} (h : Inv w) (g : GraphRef) (gr : Graph)
    (h1 : gr.nodes = (w.graphs g).nodes) (h2 : gr.maxID = (w.graphs g).maxID)
    (hb : ∀ e ∈ gr.constants, e.2 < w.nextPtr) (hn : (gr.constants.map Prod.snd).Nodup) :
    Inv (w.setGraph g gr) := by
  have hgr : ∀ g1, g1 ≠ g → (w.setGraph g gr).graphs g1 = w.graphs g1 := fun g1 e => by
    simp [World.setGraph, Function.update_noteq e]
  have hself : (w.setGraph g gr).graphs g = gr := by simp [World.setGraph]
  refine ⟨⟨h.1.poolNodup, h.1.poolFree, ?_, ?_⟩, fun g1 => ?_⟩
  · intro g1 e he
    by_cases eg : g1 = g
    · subst eg; rw [hself] at he; exact hb e he
    · rw [hgr g1 eg] at he; exact h.1.constBound g1 e he
  · intro g1
    by_cases eg : g1 = g
    · subst eg; rw [hself]; exact hn
    · rw [hgr g1 eg]; exact h.1.constNodup g1
  · by_cases eg : g1 = g
    · subst eg
      refine ⟨?_, ?_, ?_⟩
      · rw [hself, h1, h2]; exact (h.2 g1).maxID
      · intro k p hk
        rw [hself, h1] at hk
        exact (h.2 g1).owner k p hk
      · intro p hp
        rw [hself, h1] at hp
        exact (h.2 g1).bound p hp
    · refine ⟨?_, ?_, ?_⟩
      · rw [hgr g1 eg]; exact (h.2 g1).maxID
      · intro k p hk
        rw [hgr g1 eg] at hk
        exact (h.2 g1).owner k p hk
      · intro p hp
        rw [hgr g1 eg] at hp
        exact (h.2 g1).bound p hp

theorem Graph.setGraph_grows (w : World) (g : GraphRef) (gr : Graph)
    (h1 : gr.nodes = (w.graphs g).nodes) : Grows w (w.setGraph g gr) := by
  intro g1
  by_cases eg : g1 = g
  · subst eg; simp [World.setGraph, h1]
  · simp [World.setGraph, Function.update_noteq eg]

theorem Inv.Constant {w : World} (h : Inv w) (g : GraphRef) (value : DType) :
    Inv (Graph.Constant w g value).1 := by
  cases hm : mapGet (w.graphs g).constants value with
  | some node => rw [Graph.Constant_hit hm]; exact h
  | none =>
    rw [Graph.Constant_miss hm]
    have hi := h.NewVariableWithName g (some (Matrix.NewScalar value)) false (DType.Sprint value)
    have hnp : (Graph.NewVariableWithName w g (some (Matrix.NewScalar value)) false
        (DType.Sprint value)).1.nextPtr = w.nextPtr + 1 := rfl
    show Inv (World.setGraph _ g _)
    refine hi.setConstants g _ ?_ ?_ ?_ ?_
    · rfl
    · rfl
    · intro e he
      rw [hnp]
      simp only [List.mem_cons] at he
      rcases he with he | he
      · rw [he]; exact Nat.lt_succ_self _
      · exact Nat.lt_succ_of_lt (h.1.constBound g e he)
    · simp only [List.map_cons, List.nodup_cons]
      refine ⟨?_, h.1.constNodup g⟩
      intro hmem
      obtain ⟨e, he, he2⟩ := List.mem_map.mp hmem
      have := h.1.constBound g e he
      rw [he2] at this
      exact Nat.lt_irrefl _ this

theorem Graph.Constant_grows (w : World) (g : GraphRef) (value : DType) :
    Grows w (Graph.Constant w g value).1 := by
  cases hm : mapGet (w.graphs g).constants value with
  | some node => rw [Graph.Constant_hit hm]; exact Grows.grows_refl w
  | none =>
    rw [Graph.Constant_miss hm]
    show Grows w (World.setGraph _ g _)
    exact Grows.grows_trans (Graph.NewVariableWithName_grows w g _ _ _)
      (Graph.setGraph_grows _ g _ rfl)

theorem World.poolGet_graphs (w : World) (pick : Nat) : (w.poolGet pick).1.graphs = w.graphs := by
  unfold World.poolGet
  split <;> rfl

theorem Frame.forwardRuns (w : World) (n : Nat) : Frame w { w with forwardRuns := n } :=
  ⟨fun _ => ⟨rfl, rfl⟩, rfl, rfl, fun _ => ⟨rfl, rfl, rfl⟩⟩

/-- Taking a shell from the pool, overwriting it with an operator of graph `g` and
inserting it. -/
theorem Inv.operatorShell {w : World} (h : Inv w) (g : GraphRef) (o : Operator)
    (ho : o.graph = some g) (pick : Nat) :
    Inv (Graph.insert ((w.poolGet pick).1.setNode (w.poolGet pick).2 (.ofOperator o)) g
      (w.poolGet pick).2).1 ∧
    Grows w (Graph.insert ((w.poolGet pick).1.setNode (w.poolGet pick).2 (.ofOperator o)) g
      (w.poolGet pick).2).1 := by
  obtain ⟨hi, hu⟩ := h.poolGet pick
  obtain ⟨hi2, hu2⟩ := hi.inv_setNode hu (.ofOperator o)
  refine ⟨hi2.insert hu2 (by simp [World.setNode, Node.Graph, ho]), ?_⟩
  intro g1
  have := Graph.insert_grows ((w.poolGet pick).1.setNode (w.poolGet pick).2 (.ofOperator o)) g
    (w.poolGet pick).2 g1
  have e : (((w.poolGet pick).1.setNode (w.poolGet pick).2 (.ofOperator o)).graphs g1).nodes =
      (w.graphs g1).nodes := by
    show (((w.poolGet pick).1.graphs) g1).nodes = _
    rw [World.poolGet_graphs]
  rw [e] at this
  exact this

theorem Inv.NewOperator {w : World} (h : Inv w) (g : GraphRef) (f : Function)
    (operands : List Ptr) (pick : Nat) :
    Inv (Graph.NewOperator w g f operands pick).world ∧
      Grows w (Graph.NewOperator w g f operands pick).world := by
  unfold Graph.NewOperator
  split
  · exact ⟨h, Grows.grows_refl w⟩
  · by_cases he : (w.graphs g).eagerExecution = true
    · cases hf : f.Forward w.operand with
      | error msg =>
        simp only [he, if_true, hf, Except.map, Outcome.world]
        exact ⟨h.inv_frame (Frame.forwardRuns w _), (Frame.forwardRuns w _).frame_grows⟩
      | ok v =>
        simp only [he, if_true, hf, Except.map, Outcome.world]
        have hq := (h.inv_frame (Frame.forwardRuns w (w.forwardRuns + 1))).operatorShell g
          { graph := some g, timeStep := (w.graphs g).curTimeStep, function := some f,
            operands := operands, value := some v, grad := none,
            requiresGrad := operands.any
              (fun operand => World.RequiresGrad { w with forwardRuns := w.forwardRuns + 1 } operand) }
          rfl pick
        refine ⟨?_, Grows.grows_trans (Frame.forwardRuns w (w.forwardRuns + 1)).frame_grows ?_⟩
        · convert hq.1 using 2
          rw [World.poolGet_graphs]
        · convert hq.2 using 2
          rw [World.poolGet_graphs]
    · have he1 : (w.graphs g).eagerExecution = false := by simpa using he
      simp only [he1, Bool.false_eq_true, if_false, Outcome.world]
      have hq := h.operatorShell g
          { graph := some g, timeStep := (w.graphs g).curTimeStep, function := some f,
            operands := operands, value := none, grad := none,
            requiresGrad := operands.any (fun operand => World.RequiresGrad w operand) }
          rfl pick
      refine ⟨?_, ?_⟩
      · convert hq.1 using 2
        rw [World.poolGet_graphs]
      · convert hq.2 using 2
        rw [World.poolGet_graphs]

/-! ### `Clear` keeps the invariant -/

/-- The node list of a graph holds no object twice. -/
theorem GraphOK.nodup {w : World} {g : GraphRef} (h : GraphOK w g) :
    (w.graphs g).nodes.Nodup := by
  rw [List.nodup_iff_getElem?_ne_getElem?]
  intro i j hij hj heq
  have hi : i < (w.graphs g).nodes.length := lt_trans hij hj
  have e1 := (h.owner i _ (List.getElem?_eq_getElem hi)).2
  have e2 := (h.owner j _ (List.getElem?_eq_getElem hj)).2
  rw [List.getElem?_eq_getElem hi, List.getElem?_eq_getElem hj, Option.some_inj] at heq
  rw [heq, e2] at e1
  have : j = i := by exact_mod_cast e1
  omega

theorem Clearing.clearing_frame {w w1 : World} {g : GraphRef} {rest : List Ptr}
    (h : Clearing w g rest) (f : Frame w w1) : Clearing w1 g rest :=
  ⟨h.shared.shared_frame f, fun g1 e => (h.others g1 e).graphOK_frame f, h.nodup, fun p hp => by
    rw [(f.1 p).1, f.2.1]; exact h.mine p hp⟩

theorem Graph.recycleOperators_spec (g : GraphRef) :
    ∀ (rest : List Ptr) (w : World), Clearing w g rest →
      Clearing (Graph.recycleOperators w rest) g [] ∧
        (Graph.recycleOperators w rest).graphs = w.graphs := by
  intro rest
  induction rest with
  | nil => intro w h; exact ⟨h, rfl⟩
  | cons p rest ih =>
    intro w h
    have hnd := List.nodup_cons.mp h.nodup
    have hp := h.mine p (List.mem_cons_self _ _)
    by_cases hop : (w.heap p).isOperator = true
    · have hstep : Graph.recycleOperators w (p :: rest) =
          Graph.recycleOperators ((w.setNode p (.ofOperator {})).poolPut p) rest := by
        simp [Graph.recycleOperators, hop]
      rw [hstep]
      have hne : ∀ q, q ≠ p → ((w.setNode p (.ofOperator {})).poolPut p).heap q = w.heap q :=
        fun q hq => by simp [World.setNode, World.poolPut, Function.update_noteq hq]
      have hpp : p ∉ w.pool := by
        intro hm
        have := (h.shared.poolFree p hm).1
        rw [hp.1] at this
        exact Option.noConfusion this
      have hc : Clearing ((w.setNode p (.ofOperator {})).poolPut p) g rest := by
        refine ⟨⟨?_, ?_, h.shared.constBound, h.shared.constNodup⟩, ?_, hnd.2, ?_⟩
        · exact List.nodup_cons.mpr ⟨hpp, h.shared.poolNodup⟩
        · intro q hq
          have hq2 : q = p ∨ q ∈ w.pool := List.mem_cons.mp hq
          rcases hq2 with hq2 | hq2
          · subst hq2
            exact ⟨by simp [World.setNode, World.poolPut, Node.Graph], hp.2⟩
          · have : q ≠ p := fun e => hpp (e ▸ hq2)
            rw [hne q this]
            exact h.shared.poolFree q hq2
        · intro g1 e
          refine ⟨(h.others g1 e).maxID, ?_, (h.others g1 e).bound⟩
          intro k q hk
          have ho := (h.others g1 e).owner k q hk
          have : q ≠ p := by
            intro eq
            rw [eq, hp.1] at ho
            exact e (Option.some.inj ho.1).symm
          rw [hne q this]
          exact ho
        · intro q hq
          have : q ≠ p := fun e => hnd.1 (e ▸ hq)
          rw [hne q this]
          exact h.mine q (List.mem_cons_of_mem _ hq)
      obtain ⟨h1, h2⟩ := ih _ hc
      exact ⟨h1, h2⟩
    · have hstep : Graph.recycleOperators w (p :: rest) = Graph.recycleOperators w rest := by
        simp [Graph.recycleOperators, hop]
      rw [hstep]
      exact ih w ⟨h.shared, h.others, hnd.2, fun q hq => h.mine q (List.mem_cons_of_mem _ hq)⟩

theorem Shared.shared_congr {w w1 : World} (h : Shared w) (hh : w1.heap = w.heap)
    (hp : w1.pool = w.pool) (hn : w1.nextPtr = w.nextPtr)
    (hc : ∀ g, (w1.graphs g).constants = (w.graphs g).constants) : Shared w1 := by
  refine ⟨by rw [hp]; exact h.poolNodup, ?_, ?_, ?_⟩
  · intro p hpm
    rw [hp] at hpm
    rw [hh, hn]; exact h.poolFree p hpm
  · intro g e he
    rw [hc g] at he
    rw [hn]; exact h.constBound g e he
  · intro g
    rw [hc g]; exact h.constNodup g

theorem GraphOK.graphOK_congr {w w1 : World} {g : GraphRef} (h : GraphOK w g) (hh : w1.heap = w.heap)
    (hn : w1.nextPtr = w.nextPtr) (hg : w1.graphs g = w.graphs g) : GraphOK w1 g := by
  refine ⟨by rw [hg]; exact h.maxID, ?_, ?_⟩
  · intro k p hk
    rw [hg] at hk
    rw [hh]; exact h.owner k p hk
  · intro p hp
    rw [hg] at hp
    rw [hn]; exact h.bound p hp

/-- The memory after the first three statements of `Clear`. -/
theorem Graph.Clear_start {w : World} (h : Inv w) (g : GraphRef) :
    Clearing (Graph.clearCache ((w.setGraph g { w.graphs g with maxID := -1 }).setGraph g
        { (w.setGraph g { w.graphs g with maxID := -1 }).graphs g with curTimeStep := 0 }) g)
      g (w.graphs g).nodes := by
  refine ⟨h.1.shared_congr rfl rfl rfl ?_, ?_, (h.2 g).nodup, ?_⟩
  · intro g1
    by_cases e : g1 = g
    · subst e; simp [Graph.clearCache, World.setGraph]
    · simp [Graph.clearCache, World.setGraph, Function.update_noteq e]
  · intro g1 e
    refine (h.2 g1).graphOK_congr rfl rfl ?_
    simp [Graph.clearCache, World.setGraph, Function.update_noteq e]
  · intro p hp
    obtain ⟨k, hk⟩ := List.mem_iff_getElem?.mp hp
    exact ⟨((h.2 g).owner k p hk).1, (h.2 g).bound p hp⟩

/-- What `Clear` leaves when the graph has nodes. -/
theorem Graph.Clear_nonempty {w : World} (h : Inv w) (g : GraphRef)
    (hne : (w.graphs g).nodes.isEmpty = false) :
    Inv (Graph.Clear w g) ∧ ((Graph.Clear w g).graphs g).nodes = [] ∧
      ∀ g1, g1 ≠ g → ((Graph.Clear w g).graphs g1).nodes = (w.graphs g1).nodes := by
  have h3 := Graph.Clear_start h g
  generalize hW3 : Graph.clearCache ((w.setGraph g { w.graphs g with maxID := -1 }).setGraph g
        { (w.setGraph g { w.graphs g with maxID := -1 }).graphs g with curTimeStep := 0 }) g
      = W3 at h3
  have e3n : (W3.graphs g).nodes = (w.graphs g).nodes := by
    rw [← hW3]; simp [Graph.clearCache, World.setGraph]
  have e3m : (W3.graphs g).maxID = -1 := by
    rw [← hW3]; simp [Graph.clearCache, World.setGraph]
  have e3o : ∀ g1, g1 ≠ g → W3.graphs g1 = w.graphs g1 := by
    intro g1 e
    rw [← hW3]; simp [Graph.clearCache, World.setGraph, Function.update_noteq e]
  have f4 := Frame.releaseMemory W3 g
  have h4 := h3.clearing_frame f4
  have e4n : ((Graph.releaseMemory W3 g).graphs g).nodes = (w.graphs g).nodes := by
    rw [(f4.2.2.2 g).1, e3n]
  rw [← e4n] at h4
  obtain ⟨h5, e5⟩ := Graph.recycleOperators_spec g _ _ h4
  have hclear : Graph.Clear w g =
      (Graph.recycleOperators (Graph.releaseMemory W3 g)
        ((Graph.releaseMemory W3 g).graphs g).nodes).setGraph g
        { (Graph.recycleOperators (Graph.releaseMemory W3 g)
            ((Graph.releaseMemory W3 g).graphs g).nodes).graphs g with nodes := [] } := by
    rw [← hW3]
    simp only [Graph.Clear, hne]
    rfl
  rw [hclear]
  generalize Graph.recycleOperators (Graph.releaseMemory W3 g)
        ((Graph.releaseMemory W3 g).graphs g).nodes = W5 at h5 e5
  have hoth : ∀ g1, g1 ≠ g → (W5.setGraph g { W5.graphs g with nodes := [] }).graphs g1 =
      W5.graphs g1 := fun g1 e => by simp [World.setGraph, Function.update_noteq e]
  refine ⟨⟨h5.shared.shared_congr rfl rfl rfl ?_, fun g1 => ?_⟩, by simp [World.setGraph], ?_⟩
  · intro g1
    by_cases e : g1 = g
    · subst e; simp [World.setGraph]
    · rw [hoth g1 e]
  · by_cases e : g1 = g
    · subst e
      refine ⟨?_, ?_, ?_⟩
      · have : (W5.graphs g1).maxID = -1 := by rw [e5, (f4.2.2.2 g1).2.1, e3m]
        simp [World.setGraph, this]
      · intro k p hk
        simp [World.setGraph] at hk
      · intro p hp
        simp [World.setGraph] at hp
    · exact (h5.others g1 e).graphOK_congr rfl rfl (hoth g1 e)
  · intro g1 e
    rw [hoth g1 e, e5, (f4.2.2.2 g1).1, e3o g1 e]

theorem Inv.Clear {w : World} (h : Inv w) (g : GraphRef) : Inv (Graph.Clear w g) := by
  cases hne : (w.graphs g).nodes.isEmpty with
  | true =>
    have : Graph.Clear w g = w := by simp [Graph.Clear, hne]
    rw [this]; exact h
  | false => exact (Graph.Clear_nonempty h g hne).1

/-- A `Clear` on graph `g` leaves the node lists of the other graphs as they are. -/
theorem Graph.Clear_others {w : World} (h : Inv w) (g g1 : GraphRef) (e : g1 ≠ g) :
    ((Graph.Clear w g).graphs g1).nodes = (w.graphs g1).nodes := by
  cases hne : (w.graphs g).nodes.isEmpty with
  | true =>
    have : Graph.Clear w g = w := by simp [Graph.Clear, hne]
    rw [this]
  | false => exact (Graph.Clear_nonempty h g hne).2.2 g1 e

theorem Inv.ClearForReuse {w : World} (h : Inv w) (g : GraphRef) :
    Inv (Graph.ClearForReuse w g) ∧ Grows w (Graph.ClearForReuse w g) := by
  unfold Graph.ClearForReuse
  split
  · exact ⟨h, Grows.grows_refl w⟩
  · exact ⟨h.inv_frame (Frame.releaseMemory w g), (Frame.releaseMemory w g).frame_grows⟩

/-! ### Every operation keeps the invariant -/

theorem Graph.NewGraph_graphs (w : World) (size : Nat) (g1 : GraphRef) :
    (g1 ≠ w.nextGraph → (Graph.NewGraph w size []).1.graphs g1 = w.graphs g1) ∧
    (g1 = w.nextGraph → ((Graph.NewGraph w size []).1.graphs g1).nodes = [] ∧
      ((Graph.NewGraph w size []).1.graphs g1).maxID = -1 ∧
      ((Graph.NewGraph w size []).1.graphs g1).constants = []) := by
  constructor
  · intro e
    simp [Graph.NewGraph, Graph.clearCache, World.setGraph, Function.update_noteq e]
  · intro e
    subst e
    simp [Graph.NewGraph, Graph.clearCache, World.setGraph]

theorem Inv.NewGraph {w : World} (h : Inv w) (size : Nat) :
    Inv (Graph.NewGraph w size []).1 := by
  have hh : (Graph.NewGraph w size []).1.heap = w.heap := by
    simp [Graph.NewGraph, Graph.clearCache, World.setGraph]
  have hn : (Graph.NewGraph w size []).1.nextPtr = w.nextPtr := by
    simp [Graph.NewGraph, Graph.clearCache, World.setGraph]
  have hp : (Graph.NewGraph w size []).1.pool = w.pool := by
    simp [Graph.NewGraph, Graph.clearCache, World.setGraph]
  refine ⟨⟨by rw [hp]; exact h.1.poolNodup, ?_, ?_, ?_⟩, fun g1 => ?_⟩
  · intro p hpm
    rw [hp] at hpm
    rw [hh, hn]; exact h.1.poolFree p hpm
  · intro g1 e he
    by_cases eg : g1 = w.nextGraph
    · rw [((Graph.NewGraph_graphs w size g1).2 eg).2.2] at he
      exact absurd he (List.not_mem_nil _)
    · rw [(Graph.NewGraph_graphs w size g1).1 eg] at he
      rw [hn]; exact h.1.constBound g1 e he
  · intro g1
    by_cases eg : g1 = w.nextGraph
    · rw [((Graph.NewGraph_graphs w size g1).2 eg).2.2]; exact List.nodup_nil
    · rw [(Graph.NewGraph_graphs w size g1).1 eg]; exact h.1.constNodup g1
  · by_cases eg : g1 = w.nextGraph
    · obtain ⟨e1, e2, _⟩ := (Graph.NewGraph_graphs w size g1).2 eg
      refine ⟨by rw [e1, e2]; rfl, ?_, ?_⟩
      · intro k p hk
        rw [e1] at hk
        simp at hk
      · intro p hp1
        rw [e1] at hp1
        exact absurd hp1 (List.not_mem_nil _)
    · exact (h.2 g1).graphOK_congr hh hn ((Graph.NewGraph_graphs w size g1).1 eg)

theorem Frame.SetRand (w : World) (g : GraphRef) (r : Option Nat) :
    Frame w (Graph.SetRand w g r) := Frame.setGraph w g _ rfl rfl rfl

theorem Frame.SetRandSeed (w : World) (g : GraphRef) (seed : Nat) :
    Frame w (Graph.SetRandSeed w g seed) := Frame.setGraph w g _ rfl rfl rfl

theorem Frame.SetEagerExecution (w : World) (g : GraphRef) (value : Bool) :
    Frame w (Graph.SetEagerExecution w g value).1 := Frame.setGraph w g _ rfl rfl rfl

theorem Frame.IncTimeStep (w : World) (g : GraphRef) :
    Frame w (Graph.IncTimeStep w g) := Frame.setGraph w g _ rfl rfl rfl

theorem Frame.SetConcurrentComputations (w : World) (g : GraphRef) (value : Int) :
    Frame w (Graph.SetConcurrentComputations w g value).world := by
  unfold Graph.SetConcurrentComputations
  split
  · exact Frame.frame_refl w
  · exact Frame.setGraph w g _ rfl rfl rfl

theorem Frame.groupNodesByHeight (w : World) (g : GraphRef) :
    Frame w (Graph.groupNodesByHeight w g).world := by
  unfold Graph.groupNodesByHeight
  simp only
  split
  · exact Frame.frame_refl w
  · split
    · exact Frame.frame_refl w
    · split
      · exact Frame.frame_refl w
      · split
        · exact Frame.frame_refl w
        · exact Frame.setGraph w g _ rfl rfl rfl

theorem Frame.mutate (w : World) (heap : Ptr → Node) (ext : ExtRef → GradValue)
    (h : ∀ p, (w.heap p).sameStructure (heap p)) :
    Frame w { w with heap := heap, ext := ext } :=
  ⟨fun p => ⟨Node.sameStructure_Graph (h p), Node.sameStructure_ID (h p)⟩, rfl, rfl,
    fun _ => ⟨rfl, rfl, rfl⟩⟩

/-- Every step keeps the memory invariant. -/
theorem Step.step_inv {w w1 : World} (hs : Step w w1) (h : Inv w) : Inv w1 := by
  cases hs with
  | newGraph size => exact h.NewGraph size
  | setRand g r hg => exact h.inv_frame (Frame.SetRand w g r)
  | setRandSeed g seed hg => exact h.inv_frame (Frame.SetRandSeed w g seed)
  | setEagerExecution g value hg => exact h.inv_frame (Frame.SetEagerExecution w g value)
  | setConcurrentComputations g value hg =>
    exact h.inv_frame (Frame.SetConcurrentComputations w g value)
  | zeroGrad g hg => exact h.inv_frame (Frame.ZeroGrad w g)
  | incTimeStep g hg => exact h.inv_frame (Frame.IncTimeStep w g)
  | clear g hg => exact h.Clear g
  | clearForReuse g hg => exact (h.ClearForReuse g).1
  | newVariable g value rg hg => exact h.NewVariable g value rg
  | newVariableWithName g value rg name hg => exact h.NewVariableWithName g value rg name
  | newScalar g value hg => exact h.NewVariable g _ false
  | newScalarWithName g value name hg => exact h.NewVariableWithName g _ false name
  | constant g value hg => exact h.Constant g value
  | newOperator g f operands pick hg => exact (h.NewOperator g f operands pick).1
  | newWrap g value hg => exact h.NewWrap g value
  | newWrapNoGrad g value hg => exact h.NewWrapNoGrad g value
  | groupNodesByHeight g hg => exact h.inv_frame (Frame.groupNodesByHeight w g)
  | mutate heap ext hm => exact h.inv_frame (Frame.mutate w heap ext hm)

theorem Inv.init (ext : ExtRef → GradValue) : Inv (World.init ext) := by
  refine ⟨⟨List.nodup_nil, ?_, ?_, ?_⟩, fun g => ⟨rfl, ?_, ?_⟩⟩
  · intro p hp; exact absurd hp (List.not_mem_nil _)
  · intro g e he; exact absurd he (List.not_mem_nil _)
  · intro g; exact List.nodup_nil
  · intro k p hk; simp [World.init, Graph.fresh] at hk
  · intro p hp; exact absurd hp (List.not_mem_nil _)

/-- Every reachable memory satisfies the invariant. -/
theorem Reachable.reachable_inv {w : World} (hw : Reachable w) : Inv w := by
  induction hw with
  | init ext => exact Inv.init ext
  | step _ hs ih => exact hs.step_inv ih

/-- A step on the memory only appends to the node list of an existing graph, unless
it is `Clear` on that graph. -/
theorem Step.step_grows {w w1 : World} (hs : Step w w1) (h : Inv w) (g : GraphRef)
    (hg : g < w.nextGraph) :
    (w.graphs g).nodes <+: (w1.graphs g).nodes ∨ w1 = Graph.Clear w g := by
  cases hs with
  | newGraph size =>
    left
    rw [(Graph.NewGraph_graphs w size g).1 (Nat.ne_of_lt hg)]
  | setRand g0 r _ => exact Or.inl ((Frame.SetRand w g0 r).frame_grows g)
  | setRandSeed g0 seed _ => exact Or.inl ((Frame.SetRandSeed w g0 seed).frame_grows g)
  | setEagerExecution g0 value _ => exact Or.inl ((Frame.SetEagerExecution w g0 value).frame_grows g)
  | setConcurrentComputations g0 value _ =>
    exact Or.inl ((Frame.SetConcurrentComputations w g0 value).frame_grows g)
  | zeroGrad g0 _ => exact Or.inl ((Frame.ZeroGrad w g0).frame_grows g)
  | incTimeStep g0 _ => exact Or.inl ((Frame.IncTimeStep w g0).frame_grows g)
  | clear g0 _ =>
    by_cases e : g = g0
    · subst e; exact Or.inr rfl
    · left; rw [Graph.Clear_others h g0 g e]
  | clearForReuse g0 _ => exact Or.inl ((h.ClearForReuse g0).2 g)
  | newVariable g0 value rg _ => exact Or.inl (Graph.NewVariable_grows w g0 value rg g)
  | newVariableWithName g0 value rg name _ =>
    exact Or.inl (Graph.NewVariableWithName_grows w g0 value rg name g)
  | newScalar g0 value _ => exact Or.inl (Graph.NewVariable_grows w g0 _ false g)
  | newScalarWithName g0 value name _ =>
    exact Or.inl (Graph.NewVariableWithName_grows w g0 _ false name g)
  | constant g0 value _ => exact Or.inl (Graph.Constant_grows w g0 value g)
  | newOperator g0 f operands pick _ => exact Or.inl ((h.NewOperator g0 f operands pick).2 g)
  | newWrap g0 value _ => exact Or.inl (Graph.NewWrap_grows w g0 value g)
  | newWrapNoGrad g0 value _ => exact Or.inl (Graph.NewWrapNoGrad_grows w g0 value g)
  | groupNodesByHeight g0 _ => exact Or.inl ((Frame.groupNodesByHeight w g0).frame_grows g)
  | mutate heap ext hm => exact Or.inl ((Frame.mutate w heap ext hm).frame_grows g)

theorem Scenario.withGraph_reachable : Reachable Scenario.withGraph :=
  Reachable.step (Reachable.init _) (Step.newGraph _ 1)

theorem Scenario.withX1_reachable : Reachable Scenario.withX1 :=
  Reachable.step Scenario.withGraph_reachable (Step.newVariable _ 0 _ true (by decide))

theorem Scenario.withX2_reachable : Reachable Scenario.withX2 :=
  Reachable.step Scenario.withX1_reachable (Step.newVariable _ 0 _ false (by decide))

theorem Scenario.withMin_reachable : Reachable Scenario.withMin :=
  Reachable.step Scenario.withX2_reachable (Step.newOperator _ 0 _ _ 0 (by decide))

/-! ### The constants table -/

/-- Keys equal under `==` select the same entries. -/
theorem DType.eq_congr {a b : DType} (h : DType.eq a b = true) (k : DType) :
    DType.eq k a = DType.eq k b := by
  cases a <;> cases b <;> cases k <;> simp_all [DType.eq]

/-- Two keys that are `==` to one stored key are `==` to each other. -/
theorem DType.eq_of_common {k a b : DType} (h1 : DType.eq k a = true)
    (h2 : DType.eq k b = true) : DType.eq a b = true := by
  cases a <;> cases b <;> cases k <;> simp_all [DType.eq]

theorem mapGet_congr (m : List (DType × Ptr)) {a b : DType} (h : DType.eq a b = true) :
    mapGet m a = mapGet m b := by
  unfold mapGet
  have : (fun e : DType × Ptr => DType.eq e.1 a) = (fun e => DType.eq e.1 b) := by
    funext e; exact DType.eq_congr h e.1
  rw [this]

theorem mapGet_mem {m : List (DType × Ptr)} {key : DType} {node : Ptr}
    (h : mapGet m key = some node) : ∃ e ∈ m, e.2 = node ∧ DType.eq e.1 key = true := by
  unfold mapGet at h
  cases hf : m.find? (fun e => DType.eq e.1 key) with
  | none => rw [hf] at h; exact Option.noConfusion h
  | some e =>
    rw [hf] at h
    have hp := List.find?_some hf
    exact ⟨e, List.mem_of_find?_eq_some hf, Option.some.inj h, hp⟩

theorem mapGet_cons (m : List (DType × Ptr)) (k key : DType) (node : Ptr) :
    mapGet ((k, node) :: m) key = if DType.eq k key = true then some node else mapGet m key := by
  unfold mapGet
  by_cases h : DType.eq k key = true
  · simp [List.find?_cons, h]
  · simp [List.find?_cons, h]

/-- The constants table a missed `Constant` call leaves. -/
theorem Graph.Constant_miss_constants {w : World} {g : GraphRef} {value : DType}
    (h : mapGet (w.graphs g).constants value = none) :
    ((Graph.Constant w g value).1.graphs g).constants =
      (value, w.nextPtr) :: (w.graphs g).constants ∧
    (Graph.Constant w g value).2 = w.nextPtr ∧
    (Graph.Constant w g value).1.nextPtr = w.nextPtr + 1 ∧
    ((Graph.Constant w g value).1.graphs g).nodes = (w.graphs g).nodes ++ [w.nextPtr] ∧
    ((Graph.Constant w g value).1.graphs g).maxID = (w.graphs g).maxID + 1 := by
  rw [Graph.Constant_miss h]
  simp [World.setGraph, Graph.NewVariableWithName_eq, Graph.insert, World.setNode, World.alloc]

/-! ### The branches of `NewOperator` -/

/-- The call `NewOperator` with an operand of another graph. -/
theorem Graph.NewOperator_foreign {w : World} {g : GraphRef} {operands : List Ptr}
    (hany : operands.any (fun o => decide ((w.heap o).Graph ≠ some g)) = true)
    (f : Function) (pick : Nat) :
    Graph.NewOperator w g f operands pick = .panic w crossGraphMsg := by
  simp only [Graph.NewOperator, hany, if_true]

/-- The call `NewOperator` without eager execution. -/
theorem Graph.NewOperator_lazy {w : World} {g : GraphRef} {operands : List Ptr}
    (hany : operands.any (fun o => decide ((w.heap o).Graph ≠ some g)) = false)
    (he : (w.graphs g).eagerExecution = false) (f : Function) (pick : Nat) :
    Graph.NewOperator w g f operands pick =
      .ok (Graph.insert ((w.poolGet pick).1.setNode (w.poolGet pick).2 (.ofOperator
          { graph := some g, timeStep := ((w.poolGet pick).1.graphs g).curTimeStep,
            function := some f, operands := operands, value := none, grad := none,
            requiresGrad := operands.any (fun operand => w.RequiresGrad operand) })) g
          (w.poolGet pick).2).1 (w.poolGet pick).2 := by
  simp only [Graph.NewOperator, hany, he, Bool.false_eq_true, if_false]
  rfl

/-- The call `NewOperator` with eager execution and a `Forward` that panics. -/
theorem Graph.NewOperator_eager_panic {w : World} {g : GraphRef} {operands : List Ptr}
    (hany : operands.any (fun o => decide ((w.heap o).Graph ≠ some g)) = false)
    (he : (w.graphs g).eagerExecution = true) {f : Function} {msg : String}
    (hf : f.Forward w.operand = .error msg) (pick : Nat) :
    Graph.NewOperator w g f operands pick =
      .panic { w with forwardRuns := w.forwardRuns + 1 } msg := by
  simp only [Graph.NewOperator, hany, he, hf, Except.map, Bool.false_eq_true, if_false, if_true]

/-- The call `NewOperator` with eager execution and a `Forward` that returns. -/
theorem Graph.NewOperator_eager_ok {w : World} {g : GraphRef} {operands : List Ptr}
    (hany : operands.any (fun o => decide ((w.heap o).Graph ≠ some g)) = false)
    (he : (w.graphs g).eagerExecution = true) {f : Function} {v : Matrix}
    (hf : f.Forward w.operand = .ok v) (pick : Nat) :
    Graph.NewOperator w g f operands pick =
      .ok (Graph.insert
          ((World.poolGet { w with forwardRuns := w.forwardRuns + 1 } pick).1.setNode
            (World.poolGet { w with forwardRuns := w.forwardRuns + 1 } pick).2 (.ofOperator
          { graph := some g,
            timeStep := ((World.poolGet { w with forwardRuns := w.forwardRuns + 1 }
              pick).1.graphs g).curTimeStep,
            function := some f, operands := operands, value := some v, grad := none,
            requiresGrad := operands.any (fun operand =>
              World.RequiresGrad { w with forwardRuns := w.forwardRuns + 1 } operand) })) g
          (World.poolGet { w with forwardRuns := w.forwardRuns + 1 } pick).2).1
        (World.poolGet { w with forwardRuns := w.forwardRuns + 1 } pick).2 := by
  simp only [Graph.NewOperator, hany, he, hf, Except.map, Bool.false_eq_true, if_false, if_true]
  rfl

/-- The cross-graph test of `NewOperator` finds an operand exactly when one exists. -/
theorem Graph.cross_any_iff (w : World) (g : GraphRef) (operands : List Ptr) :
    operands.any (fun o => decide ((w.heap o).Graph ≠ some g)) = true ↔
      ∃ o ∈ operands, (w.heap o).Graph ≠ some g := by
  rw [List.any_eq_true]
  constructor
  · rintro ⟨o, ho, hne⟩
    exact ⟨o, ho, by simpa using hne⟩
  · rintro ⟨o, ho, hne⟩
    exact ⟨o, ho, by simpa using hne⟩

/-- The flag `RequiresGrad()` of a freshly inserted operator is the flag it was built with. -/
theorem Graph.insert_operator_RequiresGrad (w : World) (g : GraphRef) (n : Ptr) (o : Operator) :
    (Graph.insert (w.setNode n (.ofOperator o)) g n).1.RequiresGrad n = o.requiresGrad := by
  simp [World.RequiresGrad_eq, Graph.insert, World.setGraph, World.setNode, Node.setID]

/-! ### Closed forms of `releaseMemory` and of the loop of `Clear` -/

theorem Node.released_released (n : Node) : n.released.released = n.released := by
  cases n <;> rfl

theorem Node.released_of_not_operator {n : Node} (h : n.isOperator = false) :
    n.released = n := by
  cases n <;> simp_all [Node.released, Node.isOperator]

theorem Node.isOperator_released (n : Node) : n.released.isOperator = n.isOperator := by
  cases n <;> rfl

theorem Node.sameStructure_released (n : Node) : n.sameStructure n.released := by
  cases n <;> simp [Node.sameStructure, Node.released]

/-- One round of `releaseMemory` on an operator. -/
theorem Graph.releaseNode_eq (a : World) (p : Ptr) (h : (a.heap p).isOperator = true) :
    Graph.releaseGrad (Graph.releaseValue a p) p = a.setNode p (a.heap p).released := by
  cases hp : a.heap p with
  | ofVariable v => rw [hp] at h; exact Bool.noConfusion h
  | ofWrapper x => rw [hp] at h; exact Bool.noConfusion h
  | ofOperator o =>
    cases hv : o.value with
    | none =>
      have e1 : Graph.releaseValue a p = a := by simp [Graph.releaseValue, hp, hv]
      rw [e1]
      simp [Graph.releaseGrad, World.zeroGradNode_eq, hp, Node.released, hv]
    | some m =>
      have e1 : Graph.releaseValue a p = a.setNode p (.ofOperator { o with value := none }) := by
        simp [Graph.releaseValue, hp, hv]
      rw [e1]
      simp [Graph.releaseGrad, World.zeroGradNode_eq, World.setNode, Node.released]

/-- The loop of `releaseMemory` over a list of nodes: the memory is as before, but
every node of the list is released. -/
theorem Graph.releaseFold_eq : ∀ (l : List Ptr) (a : World),
    l.foldl (fun acc node =>
      if (acc.heap node).isOperator then Graph.releaseGrad (Graph.releaseValue acc node) node
      else acc) a =
    { a with heap := fun q => if q ∈ l then (a.heap q).released else a.heap q } := by
  intro l
  induction l with
  | nil => intro a; simp
  | cons p rest ih =>
    intro a
    have hstep : (if (a.heap p).isOperator = true
        then Graph.releaseGrad (Graph.releaseValue a p) p else a) =
        a.setNode p (a.heap p).released := by
      by_cases h : (a.heap p).isOperator = true
      · rw [if_pos h, Graph.releaseNode_eq a p h]
      · have h2 : (a.heap p).isOperator = false := by simpa using h
        rw [if_neg h, Node.released_of_not_operator h2]
        simp [World.setNode]
    rw [List.foldl_cons, hstep, ih]
    simp only [World.setNode]
    congr 1
    funext q
    by_cases hq : q = p
    · subst hq
      simp [Node.released_released]
    · simp [Function.update_noteq hq, hq]

theorem Graph.releaseMemory_eq (w : World) (g : GraphRef) :
    Graph.releaseMemory w g =
      { w with heap := fun q =>
          if q ∈ (w.graphs g).nodes then (w.heap q).released else w.heap q } :=
  Graph.releaseFold_eq _ w

/-- The node objects the loop of `Clear` leaves: the operators of the list are zero
operators, every other object is as before; the graph objects are untouched. -/
theorem Graph.recycleOperators_heap : ∀ (l : List Ptr) (a : World),
    (Graph.recycleOperators a l).graphs = a.graphs ∧
    ∀ q, (Graph.recycleOperators a l).heap q =
      if q ∈ l ∧ (a.heap q).isOperator = true then .ofOperator {} else a.heap q := by
  intro l
  induction l with
  | nil => intro a; exact ⟨rfl, fun q => by simp [Graph.recycleOperators]⟩
  | cons p rest ih =>
    intro a
    by_cases hop : (a.heap p).isOperator = true
    · have hstep : Graph.recycleOperators a (p :: rest) =
          Graph.recycleOperators ((a.setNode p (.ofOperator {})).poolPut p) rest := by
        simp [Graph.recycleOperators, hop]
      rw [hstep]
      obtain ⟨h1, h2⟩ := ih ((a.setNode p (.ofOperator {})).poolPut p)
      refine ⟨h1, fun q => ?_⟩
      rw [h2 q]
      by_cases hq : q = p
      · subst hq
        have hz : (Node.ofOperator {}).isOperator = true := rfl
        simp [World.setNode, World.poolPut, hop, hz]
      · simp [World.setNode, World.poolPut, Function.update_noteq hq, hq]
    · have hstep : Graph.recycleOperators a (p :: rest) = Graph.recycleOperators a rest := by
        simp [Graph.recycleOperators, hop]
      rw [hstep]
      obtain ⟨h1, h2⟩ := ih a
      refine ⟨h1, fun q => ?_⟩
      rw [h2 q]
      by_cases hq : q = p
      · subst hq
        simp [hop]
      · simp [hq]

/-- What `Clear` leaves when the graph has nodes: the operators of the graph are zero
operators, every other node object is as it was; the graph has no nodes, `maxID = -1`,
time-step 0 and a void cache. -/
theorem Graph.Clear_closed_form (w : World) (g : GraphRef)
    (hne : (w.graphs g).nodes.isEmpty = false) :
    (∀ q, (Graph.Clear w g).heap q =
      if q ∈ (w.graphs g).nodes ∧ (w.heap q).isOperator = true then .ofOperator {}
      else w.heap q) ∧
    ((Graph.Clear w g).graphs g).nodes = [] ∧ ((Graph.Clear w g).graphs g).maxID = -1 ∧
    ((Graph.Clear w g).graphs g).curTimeStep = 0 ∧
    ((Graph.Clear w g).graphs g).cache = Cache.void := by
  let W3 := Graph.clearCache ((w.setGraph g { w.graphs g with maxID := -1 }).setGraph g
        { (w.setGraph g { w.graphs g with maxID := -1 }).graphs g with curTimeStep := 0 }) g
  have e3h : W3.heap = w.heap := rfl
  have e3n : (W3.graphs g).nodes = (w.graphs g).nodes := by
    simp [W3, Graph.clearCache, World.setGraph]
  have hclear : Graph.Clear w g =
      (Graph.recycleOperators (Graph.releaseMemory W3 g)
        ((Graph.releaseMemory W3 g).graphs g).nodes).setGraph g
        { (Graph.recycleOperators (Graph.releaseMemory W3 g)
            ((Graph.releaseMemory W3 g).graphs g).nodes).graphs g with nodes := [] } := by
    simp only [Graph.Clear, hne]
    rfl
  obtain ⟨hg5, hh5⟩ := Graph.recycleOperators_heap ((Graph.releaseMemory W3 g).graphs g).nodes
    (Graph.releaseMemory W3 g)
  have e4g : (Graph.releaseMemory W3 g).graphs = W3.graphs := by
    rw [Graph.releaseMemory_eq]
  have e4h : ∀ q, (Graph.releaseMemory W3 g).heap q =
      if q ∈ (w.graphs g).nodes then (w.heap q).released else w.heap q := by
    intro q
    rw [Graph.releaseMemory_eq, e3n, e3h]
  rw [hclear]
  refine ⟨fun q => ?_, by simp [World.setGraph], ?_, ?_, ?_⟩
  · show (Graph.recycleOperators (Graph.releaseMemory W3 g)
        ((Graph.releaseMemory W3 g).graphs g).nodes).heap q = _
    rw [hh5 q, e4h q, e4g, e3n]
    by_cases hq : q ∈ (w.graphs g).nodes
    · by_cases hop : (w.heap q).isOperator = true
      · simp [hq, hop, Node.isOperator_released]
      · have hop2 : (w.heap q).isOperator = false := by simpa using hop
        simp [hq, hop2, Node.isOperator_released, Node.released_of_not_operator hop2]
    · simp [hq]
  · simp only [World.setGraph, Function.update_same]
    rw [hg5, e4g]
    simp [W3, Graph.clearCache, World.setGraph]
  · simp only [World.setGraph, Function.update_same]
    rw [hg5, e4g]
    simp [W3, Graph.clearCache, World.setGraph]
  · simp only [World.setGraph, Function.update_same]
    rw [hg5, e4g]
    simp [W3, Graph.clearCache, World.setGraph, Cache.void]

/-! ### Heights -/

/-- The node at index `k` of a node list has id `k`. -/
theorem GraphOK.owner_id {w : World} {g : GraphRef} (h : GraphOK w g) (k : Nat) (p : Ptr)
    (hk : (w.graphs g).nodes[k]? = some p) : (w.heap p).ID = (k : Int) :=
  (h.owner k p hk).2

/-- The running maximum of the inner loop of `groupNodesByHeight`. -/
theorem foldl_hmax_spec (f : Int → Int) : ∀ (l : List Int) (h0 : Int),
    h0 ≤ l.foldl (fun h id => max h (f id + 1)) h0 ∧
    (∀ id ∈ l, f id + 1 ≤ l.foldl (fun h id => max h (f id + 1)) h0) ∧
    (l.foldl (fun h id => max h (f id + 1)) h0 = h0 ∨
      ∃ id ∈ l, l.foldl (fun h id => max h (f id + 1)) h0 = f id + 1) := by
  intro l
  induction l with
  | nil => intro h0; simp
  | cons a rest ih =>
    intro h0
    obtain ⟨h1, h2, h3⟩ := ih (max h0 (f a + 1))
    simp only [List.foldl_cons]
    refine ⟨le_trans (le_max_left _ _) h1, ?_, ?_⟩
    · intro id hid
      rcases List.mem_cons.mp hid with e | e
      · rw [e]; exact le_trans (le_max_right _ _) h1
      · exact h2 id e
    · rcases h3 with e | ⟨id, hid, e⟩
      · rcases max_choice h0 (f a + 1) with m | m
        · left; rw [e, m]
        · right; exact ⟨a, List.mem_cons_self _ _, by rw [e, m]⟩
      · right; exact ⟨id, List.mem_cons_of_mem _ hid, e⟩

theorem heightFrom_nonneg (hs ids : List Int) : 0 ≤ heightFrom hs ids :=
  (foldl_hmax_spec (fun id => hs.getD id.toNat 0) ids 0).1

theorem heightFrom_ge (hs : List Int) {ids : List Int} {id : Int} (h : id ∈ ids) :
    hs.getD id.toNat 0 + 1 ≤ heightFrom hs ids :=
  (foldl_hmax_spec (fun id => hs.getD id.toNat 0) ids 0).2.1 id h

theorem heightFrom_attained (hs ids : List Int) :
    heightFrom hs ids = 0 ∨ ∃ id ∈ ids, heightFrom hs ids = hs.getD id.toNat 0 + 1 :=
  (foldl_hmax_spec (fun id => hs.getD id.toNat 0) ids 0).2.2

theorem foldl_hmax_congr (f f1 : Int → Int) : ∀ (l : List Int) (h0 : Int),
    (∀ id ∈ l, f id = f1 id) →
    l.foldl (fun h id => max h (f id + 1)) h0 = l.foldl (fun h id => max h (f1 id + 1)) h0 := by
  intro l
  induction l with
  | nil => intro h0 _; rfl
  | cons a rest ih =>
    intro h0 hf
    simp only [List.foldl_cons]
    rw [hf a (List.mem_cons_self _ _)]
    exact ih _ (fun id hid => hf id (List.mem_cons_of_mem _ hid))

/-- The height of a node depends only on the heights of its operands. -/
theorem heightFrom_congr {hs hs1 ids : List Int}
    (h : ∀ id ∈ ids, hs.getD id.toNat 0 = hs1.getD id.toNat 0) :
    heightFrom hs ids = heightFrom hs1 ids :=
  foldl_hmax_congr _ _ ids 0 h

/-- The inner loop of `groupNodesByHeight` returns the running maximum when the ids
of the operator operands are valid indices of `height`. -/
theorem Graph.heightOverOperands_eq (w : World) (height : List Int) :
    ∀ (ops : List Ptr) (h0 : Int),
      (∀ id ∈ ops.filterMap w.operatorId, 0 ≤ id ∧ id.toNat < height.length) →
      Graph.heightOverOperands w height ops h0 =
        .ok ((ops.filterMap w.operatorId).foldl
          (fun h id => max h (height.getD id.toNat 0 + 1)) h0) := by
  intro ops
  induction ops with
  | nil => intro h0 _; rfl
  | cons q rest ih =>
    intro h0 hr
    cases hq : w.heap q with
    | ofVariable v =>
      have e : w.operatorId q = none := by simp [World.operatorId, hq]
      have hr1 : ∀ id ∈ rest.filterMap w.operatorId, 0 ≤ id ∧ id.toNat < height.length := by
        intro id hid
        exact hr id (by simp only [List.filterMap_cons, e]; exact hid)
      simp only [Graph.heightOverOperands, hq, List.filterMap_cons, e]
      exact ih h0 hr1
    | ofWrapper x =>
      have e : w.operatorId q = none := by simp [World.operatorId, hq]
      have hr1 : ∀ id ∈ rest.filterMap w.operatorId, 0 ≤ id ∧ id.toNat < height.length := by
        intro id hid
        exact hr id (by simp only [List.filterMap_cons, e]; exact hid)
      simp only [Graph.heightOverOperands, hq, List.filterMap_cons, e]
      exact ih h0 hr1
    | ofOperator oq =>
      have e : w.operatorId q = some oq.id := by simp [World.operatorId, hq]
      have hid := hr oq.id (by simp only [List.filterMap_cons, e]; exact List.mem_cons_self _ _)
      have hr1 : ∀ id ∈ rest.filterMap w.operatorId, 0 ≤ id ∧ id.toNat < height.length := by
        intro id hid1
        exact hr id (by simp only [List.filterMap_cons, e]; exact List.mem_cons_of_mem _ hid1)
      have hidx : indexInt height oq.id = some (height.getD oq.id.toNat 0) := by
        unfold indexInt
        rw [if_neg (by omega)]
        rw [List.getElem?_eq_getElem hid.2, List.getD_eq_getElem?_getD,
          List.getElem?_eq_getElem hid.2]
        rfl
      have hmax : (if height.getD oq.id.toNat 0 ≥ h0 then height.getD oq.id.toNat 0 + 1 else h0)
          = max h0 (height.getD oq.id.toNat 0 + 1) := by
        by_cases hc : height.getD oq.id.toNat 0 ≥ h0
        · rw [if_pos hc, max_eq_right (by omega)]
        · rw [if_neg hc, max_eq_left (by omega)]
      simp only [Graph.heightOverOperands, hq, hidx, List.filterMap_cons, e, List.foldl_cons, hmax]
      exact ih _ hr1

/-- Adding an empty group at the end does not change what a group index holds. -/
theorem getD_grown (groups : List (List Ptr)) (h : Int) (k : Nat) :
    ((if h = (groups.length : Int) then groups ++ [[]] else groups)[k]?).getD [] =
      (groups[k]?).getD [] := by
  by_cases hh : h = (groups.length : Int)
  · rw [if_pos hh]
    by_cases hk : k < groups.length
    · rw [List.getElem?_append_left hk]
    · have hr : groups[k]? = none := List.getElem?_eq_none (by omega)
      rw [hr, List.getElem?_append_right (by omega)]
      cases hm : k - groups.length with
      | zero => rfl
      | succ m => rfl
  · rw [if_neg hh]

/-- Appending a node to the group at a valid index. -/
theorem getD_modify_append (groups : List (List Ptr)) (node : Ptr) (i k : Nat)
    (hi : i < groups.length) :
    ((groups.modify (fun grp => grp ++ [node]) i)[k]?).getD [] =
      if k = i then (groups[k]?).getD [] ++ [node] else (groups[k]?).getD [] := by
  by_cases hk : k = i
  · subst hk
    rw [if_pos rfl, List.getElem?_modify_eq, List.getElem?_eq_getElem hi]
    rfl
  · rw [if_neg hk, List.getElem?_modify_ne _ _ (fun e => hk e.symm)]

/-- One round of the outer loop of `groupNodesByHeight`, on the lists alone: the next
node gets the height computed from its operands and is appended to the group of that
height, which exists or is created now. -/
theorem HeightsOK.snoc {dep : Ptr → List Int} {pre : List Ptr} {hs : List Int}
    {groups : List (List Ptr)} (H : HeightsOK dep pre hs groups) (node : Ptr)
    (htopo : ∀ id ∈ dep node, 0 ≤ id ∧ id.toNat < pre.length) :
    0 ≤ heightFrom hs (dep node) ∧
    (heightFrom hs (dep node)).toNat <
      (if heightFrom hs (dep node) = (groups.length : Int) then groups ++ [[]]
        else groups).length ∧
    HeightsOK dep (pre ++ [node]) (hs ++ [heightFrom hs (dep node)])
      ((if heightFrom hs (dep node) = (groups.length : Int) then groups ++ [[]]
        else groups).modify (fun grp => grp ++ [node]) (heightFrom hs (dep node)).toNat) := by
  have hnn := heightFrom_nonneg hs (dep node)
  have hle : heightFrom hs (dep node) ≤ (groups.length : Int) := by
    rcases heightFrom_attained hs (dep node) with e | ⟨id, hid, e⟩
    · rw [e]; exact Int.ofNat_nonneg _
    · have hlt := (htopo id hid).2
      rw [← H.len] at hlt
      have hmem : hs.getD id.toNat 0 ∈ hs := by
        rw [List.getD_eq_getElem _ _ hlt]
        exact List.getElem_mem _
      have := (H.bound _ hmem).2
      rw [e]; omega
  generalize hh : heightFrom hs (dep node) = h at hnn hle
  have hG1 : h.toNat < (if h = (groups.length : Int) then groups ++ [[]] else groups).length := by
    by_cases e : h = (groups.length : Int)
    · rw [if_pos e, List.length_append, List.length_singleton]; omega
    · rw [if_neg e]; omega
  have hG1len : groups.length ≤
      (if h = (groups.length : Int) then groups ++ [[]] else groups).length := by
    by_cases e : h = (groups.length : Int)
    · rw [if_pos e, List.length_append]; omega
    · rw [if_neg e]
  have hcongr : ∀ (k : Nat) (p : Ptr), (∀ id ∈ dep p, 0 ≤ id ∧ id.toNat < k) → k ≤ hs.length →
      heightFrom (hs ++ [h]) (dep p) = heightFrom hs (dep p) := by
    intro k p ht hk
    apply heightFrom_congr
    intro id hid
    exact List.getD_append _ _ _ _ (lt_of_lt_of_le (ht id hid).2 hk)
  refine ⟨hnn, hG1, ⟨by simp [H.len], ?_, ?_, ?_, ?_, ?_⟩⟩
  · intro k p hk id hid
    by_cases hkl : k < pre.length
    · rw [List.getElem?_append_left hkl] at hk
      exact H.topo k p hk id hid
    · rw [List.getElem?_append_right (by omega)] at hk
      have hk0 : k - pre.length = 0 := by
        by_contra hne
        obtain ⟨m, hm⟩ := Nat.exists_eq_succ_of_ne_zero hne
        rw [hm] at hk
        simp at hk
      rw [hk0] at hk
      have hp : node = p := by simpa using hk
      subst hp
      have := htopo id hid
      exact ⟨this.1, by omega⟩
  · intro k p hk
    by_cases hkl : k < pre.length
    · rw [List.getElem?_append_left hkl] at hk
      rw [List.getD_append _ _ _ _ (by rw [H.len]; exact hkl),
        hcongr k p (H.topo k p hk) (by rw [H.len]; omega)]
      exact H.recur k p hk
    · rw [List.getElem?_append_right (by omega)] at hk
      have hk0 : k - pre.length = 0 := by
        by_contra hne
        obtain ⟨m, hm⟩ := Nat.exists_eq_succ_of_ne_zero hne
        rw [hm] at hk
        simp at hk
      rw [hk0] at hk
      have hp : node = p := by simpa using hk
      subst hp
      have hks : k = hs.length := by rw [H.len]; omega
      rw [List.getD_append_right _ _ _ _ (by omega), hks, Nat.sub_self,
        hcongr hs.length node (by rw [H.len]; exact htopo) (le_refl _), hh]
      rfl
  · intro k
    rw [getD_modify_append _ _ _ _ hG1, getD_grown, H.grp k,
      List.zip_append H.len.symm, List.filter_append, List.map_append]
    by_cases hk : k = h.toNat
    · have hk2 : h = (k : Int) := by omega
      rw [if_pos hk]
      simp [hk2]
    · have hk2 : ¬ h = (k : Int) := by omega
      rw [if_neg hk]
      simp [hk2]
  · intro x hx
    rw [List.length_modify]
    rcases List.mem_append.mp hx with hx | hx
    · have := H.bound x hx
      exact ⟨this.1, by omega⟩
    · have : x = h := by simpa using hx
      rw [this]
      exact ⟨hnn, by omega⟩
  · intro k hk
    rw [List.length_modify] at hk
    by_cases hkl : k < groups.length
    · exact List.mem_append_left _ (H.full k hkl)
    · by_cases e : h = (groups.length : Int)
      · rw [if_pos e, List.length_append, List.length_singleton] at hk
        have : (k : Int) = h := by omega
        rw [this]
        exact List.mem_append_right _ (List.mem_singleton_self _)
      · rw [if_neg e] at hk
        exact absurd hk hkl

/-- Writing at index `s` leaves the first `s` elements as they are. -/
theorem take_set_same (l : List Int) (s : Nat) (a : Int) : (l.set s a).take s = l.take s := by
  apply List.ext_getElem?
  intro i
  by_cases hi : i < s
  · rw [List.getElem?_take_of_lt hi, List.getElem?_take_of_lt hi,
      List.getElem?_set_ne (by omega)]
  · rw [List.getElem?_take, List.getElem?_take, if_neg hi, if_neg hi]

/-- The height the loop computes for a node: the inner loop never fails when the
operator operands have ids below the length of `height`. -/
theorem Graph.nodeHeight_eq (w : World) (height : List Int) (node : Ptr)
    (hr : ∀ id ∈ w.operandIds node, 0 ≤ id ∧ id.toNat < height.length) :
    (match w.heap node with
      | .ofOperator o => Graph.heightOverOperands w height o.operands 0
      | _ => .ok 0) = .ok (heightFrom height (w.operandIds node)) := by
  cases hq : w.heap node with
  | ofVariable v => simp [World.operandIds, hq, heightFrom]
  | ofWrapper x => simp [World.operandIds, hq, heightFrom]
  | ofOperator o =>
    have e : w.operandIds node = o.operands.filterMap w.operatorId := by
      simp [World.operandIds, hq]
    rw [e] at hr
    simp only [e, heightFrom]
    exact Graph.heightOverOperands_eq w height o.operands 0 hr

/-- The outer loop of `groupNodesByHeight`: when the node at index `k` has id `k` and
its operator operands have smaller ids, the loop started at index `s` on coherent
heights and groups of the first `s` nodes returns coherent heights and groups of all
nodes. -/
theorem Graph.groupLoop_spec (w : World) (ns : List Ptr)
    (hid : ∀ (k : Nat) (p : Ptr), ns[k]? = some p → (w.heap p).ID = (k : Int))
    (htopo : ∀ (k : Nat) (p : Ptr), ns[k]? = some p →
      ∀ id ∈ w.operandIds p, 0 ≤ id ∧ id.toNat < k) :
    ∀ (rest : List Ptr) (s : Nat) (groups : List (List Ptr)) (height : List Int),
      ns.drop s = rest → height.length = ns.length →
      HeightsOK w.operandIds (ns.take s) (height.take s) groups →
      ∃ groups1 height1, Graph.groupLoop w rest groups height = .ok (groups1, height1) ∧
        height1.length = ns.length ∧ HeightsOK w.operandIds ns height1 groups1 := by
  intro rest
  induction rest with
  | nil =>
    intro s groups height hd hl H
    have hle : ns.length ≤ s := List.drop_eq_nil_iff.mp hd
    rw [List.take_of_length_le hle, List.take_of_length_le (by omega)] at H
    exact ⟨groups, height, rfl, hl, H⟩
  | cons node rest1 ih =>
    intro s groups height hd hl H
    have hs : s < ns.length := by
      by_contra hc
      have : ns.drop s = [] := List.drop_eq_nil_iff.mpr (by omega)
      rw [this] at hd
      exact List.noConfusion hd
    have hnode : ns[s]? = some node := by
      have := List.getElem?_drop ns s 0
      rw [hd] at this
      simpa using this.symm
    have hd1 : ns.drop (s + 1) = rest1 := by
      rw [← List.tail_drop, hd]; rfl
    have hidn := hid s node hnode
    have htn := htopo s node hnode
    have hres := Graph.nodeHeight_eq w height node
      (fun id h => ⟨(htn id h).1, by have := (htn id h).2; omega⟩)
    have hh : heightFrom height (w.operandIds node) =
        heightFrom (height.take s) (w.operandIds node) := by
      apply heightFrom_congr
      intro id hid1
      have := (htn id hid1).2
      rw [List.getD_eq_getElem?_getD, List.getD_eq_getElem?_getD, List.getElem?_take_of_lt this]
    have hpl : (ns.take s).length = s := by
      rw [List.length_take]; omega
    obtain ⟨hnn, hlt, Hn⟩ := H.snoc node (by rw [hpl]; exact htn)
    rw [← hh] at hnn hlt Hn
    have htake : ns.take (s + 1) = ns.take s ++ [node] := by
      rw [List.take_succ, hnode]; rfl
    have hset : (height.set s (heightFrom height (w.operandIds node))).take (s + 1) =
        height.take s ++ [heightFrom height (w.operandIds node)] := by
      rw [List.take_succ, take_set_same]
      have : (height.set s (heightFrom height (w.operandIds node)))[s]? =
          some (heightFrom height (w.operandIds node)) := by
        rw [List.getElem?_set_self (by omega)]
      rw [this]; rfl
    have hnext := ih (s + 1)
      ((if heightFrom height (w.operandIds node) = (groups.length : Int) then groups ++ [[]]
        else groups).modify (fun grp => grp ++ [node])
        (heightFrom height (w.operandIds node)).toNat)
      (height.set s (heightFrom height (w.operandIds node))) hd1
      (by rw [List.length_set]; exact hl) (by rw [htake, hset]; exact Hn)
    obtain ⟨groups1, height1, hloop, hlen1, H1⟩ := hnext
    refine ⟨groups1, height1, ?_, hlen1, H1⟩
    rw [← hloop]
    simp only [Graph.groupLoop, hres, hidn]
    have c1 : ¬ ((s : Int) < 0 ∨ height.length ≤ (s : Int).toNat) := by
      intro hc
      rcases hc with hc | hc
      · omega
      · rw [Int.toNat_ofNat] at hc; omega
    have c2 : ¬ (heightFrom height (w.operandIds node) < 0 ∨
        (if heightFrom height (w.operandIds node) = (groups.length : Int) then groups ++ [[]]
          else groups).length ≤ (heightFrom height (w.operandIds node)).toNat) := by
      intro hc
      rcases hc with hc | hc
      · omega
      · omega
    rw [if_neg c1, if_neg c2]
    simp

/-- What `groupNodesByHeight` does on a graph whose node list is in order (index `k`
holds the node of id `k`, operator operands have smaller ids) and whose cache is
coherent: it returns, the grouping it returns and the heights it caches are those of
all nodes of the graph, the cache is marked with the current `maxID`, and nothing
but the cache changes. -/
theorem Graph.groupNodesByHeight_spec (w : World) (g : GraphRef) (hok : GraphOK w g)
    (htopo : ∀ (k : Nat) (p : Ptr), (w.graphs g).nodes[k]? = some p →
      ∀ id ∈ w.operandIds p, 0 ≤ id ∧ id.toNat < k)
    (hc : CacheOK w g) :
    ∃ w1 groups, Graph.groupNodesByHeight w g = .ok w1 groups ∧
      (w1.graphs g).cache.maxID = (w.graphs g).maxID ∧
      (w1.graphs g).cache.nodesByHeight = groups ∧
      (w1.graphs g).cache.height.length = (w.graphs g).nodes.length ∧
      HeightsOK w.operandIds (w.graphs g).nodes (w1.graphs g).cache.height groups ∧
      w1.heap = w.heap ∧ (w1.graphs g).nodes = (w.graphs g).nodes ∧
      (w1.graphs g).maxID = (w.graphs g).maxID ∧
      (∀ g1, g1 ≠ g → w1.graphs g1 = w.graphs g1) := by
  obtain ⟨s, hs1, hs2, H⟩ := hc
  have hmax := hok.maxID
  by_cases he : (w.graphs g).cache.maxID = (w.graphs g).maxID
  · have hsN : s = (w.graphs g).nodes.length := by omega
    rw [hsN, List.take_of_length_le (le_refl _)] at H
    refine ⟨w, (w.graphs g).cache.nodesByHeight, ?_, he, rfl, H.len, H, rfl, rfl, rfl,
      fun _ _ => rfl⟩
    simp only [Graph.groupNodesByHeight, he, if_true]
  · have hsN : s < (w.graphs g).nodes.length := by omega
    have hlen : (w.graphs g).cache.height.length = s := by
      rw [H.len, List.length_take]; omega
    have hstart : ((w.graphs g).cache.maxID + 1).toNat = s := by
      rw [hs1]; simp
    have hloop := Graph.groupLoop_spec w (w.graphs g).nodes hok.owner_id htopo
      ((w.graphs g).nodes.drop s) s (w.graphs g).cache.nodesByHeight
      ((w.graphs g).cache.height ++
        List.replicate ((w.graphs g).nodes.length - (w.graphs g).cache.height.length) (0 : Int))
      rfl (by rw [List.length_append, List.length_replicate, hlen]; omega)
      (by rw [List.take_left' hlen]; exact H)
    obtain ⟨groups1, height1, hl, hlen1, H1⟩ := hloop
    have c1 : ¬ (w.graphs g).nodes.length < (w.graphs g).cache.height.length := by omega
    have c2 : ¬ ((w.graphs g).cache.maxID + 1 < 0 ∨ (w.graphs g).nodes.length < s) := by
      intro hcon
      rcases hcon with hcon | hcon
      · omega
      · omega
    have hres : Graph.groupNodesByHeight w g =
        .ok (w.setGraph g { w.graphs g with
          cache := { maxID := (w.graphs g).maxID, nodesByHeight := groups1, height := height1 } })
          groups1 := by
      simp only [Graph.groupNodesByHeight, he, if_false, c1, hstart, hl]
      rw [if_neg c2]
    refine ⟨_, groups1, hres, ?_, ?_, ?_, ?_, ?_, ?_, ?_, ?_⟩
    · simp [World.setGraph]
    · simp [World.setGraph]
    · simp [World.setGraph, hlen1]
    · simpa [World.setGraph] using H1
    · rfl
    · simp [World.setGraph]
    · simp [World.setGraph]
    · intro g1 hg1
      simp [World.setGraph, Function.update_noteq hg1]

/-- The heights and the grouping of a node list are determined by the list and the
operands of its nodes. -/
theorem HeightsOK.unique {dep : Ptr → List Int} {pre : List Ptr} {hs hs1 : List Int}
    {groups groups1 : List (List Ptr)} (H : HeightsOK dep pre hs groups)
    (H1 : HeightsOK dep pre hs1 groups1) : hs = hs1 ∧ groups = groups1 := by
  have hget : ∀ n k, k < n → k < pre.length → hs.getD k 0 = hs1.getD k 0 := by
    intro n
    induction n with
    | zero => intro k hk; omega
    | succ n ih =>
      intro k hk hkl
      obtain ⟨p, hp⟩ : ∃ p, pre[k]? = some p := ⟨pre[k], List.getElem?_eq_getElem hkl⟩
      rw [H.recur k p hp, H1.recur k p hp]
      apply heightFrom_congr
      intro id hid
      have ht := (H.topo k p hp id hid).2
      exact ih id.toNat (by omega) (by omega)
  have hhs : hs = hs1 := by
    apply List.ext_getElem (by rw [H.len, H1.len])
    intro k h1 h2
    have := hget (k + 1) k (Nat.lt_succ_self k) (by rw [← H.len]; exact h1)
    rw [List.getD_eq_getElem _ _ h1, List.getD_eq_getElem _ _ h2] at this
    exact this
  subst hhs
  refine ⟨rfl, ?_⟩
  have hlen : groups.length = groups1.length := by
    rcases Nat.lt_trichotomy groups.length groups1.length with hlt | heq | hgt
    · have := (H.bound _ (H1.full _ hlt)).2
      omega
    · exact heq
    · have := (H1.bound _ (H.full _ hgt)).2
      omega
  apply List.ext_getElem hlen
  intro k h1 h2
  have e := H.grp k
  rw [← H1.grp k, List.getElem?_eq_getElem h1, List.getElem?_eq_getElem h2] at e
  exact e

/-- Coherence of heights and groups only depends on the operands of the listed nodes. -/
theorem HeightsOK.congr_dep {dep dep1 : Ptr → List Int} {pre : List Ptr} {hs : List Int}
    {groups : List (List Ptr)} (H : HeightsOK dep pre hs groups)
    (h : ∀ p ∈ pre, dep1 p = dep p) : HeightsOK dep1 pre hs groups := by
  refine ⟨H.len, ?_, ?_, H.grp, H.bound, H.full⟩
  · intro k p hk
    rw [h p (List.mem_iff_getElem?.mpr ⟨k, hk⟩)]
    exact H.topo k p hk
  · intro k p hk
    rw [h p (List.mem_iff_getElem?.mpr ⟨k, hk⟩)]
    exact H.recur k p hk

/-- The void cache is coherent for the empty prefix of any node list. -/
theorem HeightsOK.void (dep : Ptr → List Int) : HeightsOK dep [] [] [] := by
  refine ⟨rfl, ?_, ?_, ?_, ?_, ?_⟩
  · intro k p hk; simp at hk
  · intro k p hk; simp at hk
  · intro h; simp
  · intro x hx; exact absurd hx (List.not_mem_nil _)
  · intro h hh; simp at hh

/-! ### The wiring invariant -/

theorem Node.sameStructure_refl (n : Node) : n.sameStructure n := by
  cases n <;> simp [Node.sameStructure]

theorem Node.sameStructure_trans {a b c : Node} (h1 : a.sameStructure b)
    (h2 : b.sameStructure c) : a.sameStructure c := by
  cases a <;> cases b <;> cases c <;> simp_all [Node.sameStructure]

theorem Node.sameStructure_isOperator {a b : Node} (h : a.sameStructure b) :
    b.isOperator = a.isOperator := by
  cases a <;> cases b <;> simp_all [Node.sameStructure, Node.isOperator]

theorem Node.sameStructure_operands {a b : Node} (h : a.sameStructure b) {o : Operator}
    (ha : a = .ofOperator o) : ∃ o1, b = .ofOperator o1 ∧ o1.operands = o.operands ∧
      o1.id = o.id := by
  subst ha
  cases b with
  | ofVariable v => simp [Node.sameStructure] at h
  | ofWrapper x => simp [Node.sameStructure] at h
  | ofOperator o1 =>
    simp only [Node.sameStructure] at h
    exact ⟨o1, rfl, h.2.2.2.2.1.symm, h.2.1.symm⟩

theorem World.operatorId_congr {w w1 : World} {q : Ptr}
    (h : (w.heap q).sameStructure (w1.heap q)) : w1.operatorId q = w.operatorId q := by
  unfold World.operatorId
  cases hq : w.heap q <;> cases hq1 : w1.heap q <;> rw [hq, hq1] at h <;>
    simp_all [Node.sameStructure]

/-- The ids of the operator operands of a node depend only on the structure of the
node and of its operands. -/
theorem World.operandIds_congr {w w1 : World} {p : Ptr}
    (hp : (w.heap p).sameStructure (w1.heap p))
    (hq : ∀ o, w.heap p = .ofOperator o → ∀ q ∈ o.operands,
      (w.heap q).sameStructure (w1.heap q)) : w1.operandIds p = w.operandIds p := by
  cases hn : w.heap p with
  | ofVariable v =>
    rw [hn] at hp
    cases hn1 : w1.heap p <;> rw [hn1] at hp <;> simp_all [Node.sameStructure, World.operandIds]
  | ofWrapper x =>
    rw [hn] at hp
    cases hn1 : w1.heap p <;> rw [hn1] at hp <;> simp_all [Node.sameStructure, World.operandIds]
  | ofOperator o =>
    obtain ⟨o1, ho1, hops, _⟩ := Node.sameStructure_operands hp hn
    simp only [World.operandIds, hn, ho1, hops]
    apply List.filterMap_congr
    intro q hqm
    exact World.operatorId_congr (hq o hn q hqm)

/-- In a wired memory the operator operands of the node at index `k` have ids below
`k`. -/
theorem Wired.topo {w : World} (hW : Wired w) (hI : Inv w) (g : GraphRef) (k : Nat) (p : Ptr)
    (hk : (w.graphs g).nodes[k]? = some p) :
    ∀ id ∈ w.operandIds p, 0 ≤ id ∧ id.toNat < k := by
  intro id hid
  cases hn : w.heap p with
  | ofVariable v => simp [World.operandIds, hn] at hid
  | ofWrapper x => simp [World.operandIds, hn] at hid
  | ofOperator o =>
    simp only [World.operandIds, hn, List.mem_filterMap] at hid
    obtain ⟨q, hq, hqid⟩ := hid
    cases hnq : w.heap q with
    | ofVariable v => simp [World.operatorId, hnq] at hqid
    | ofWrapper x => simp [World.operatorId, hnq] at hqid
    | ofOperator oq =>
      have hid2 : oq.id = id := by simpa [World.operatorId, hnq] using hqid
      obtain ⟨j, hj, hjq⟩ := (hW.operands g k p o hk hn q hq).2 (by rw [hnq]; rfl)
      have := ((hI.2 g).owner j q hjq).2
      rw [hnq] at this
      have e : oq.id = (j : Int) := this
      rw [← hid2, e]
      exact ⟨Int.ofNat_nonneg _, by simpa using hj⟩

/-- A coherent cache stays coherent when the node list only grows and the operands of
the nodes already listed stay the same. -/
theorem CacheOK.transfer {w w1 : World} {g : GraphRef} (h : CacheOK w g)
    (hc : (w1.graphs g).cache = (w.graphs g).cache)
    (hn : (w.graphs g).nodes <+: (w1.graphs g).nodes)
    (hd : ∀ p ∈ (w.graphs g).nodes, w1.operandIds p = w.operandIds p) : CacheOK w1 g := by
  obtain ⟨s, hs1, hs2, H⟩ := h
  obtain ⟨t, ht⟩ := hn
  refine ⟨s, by rw [hc]; exact hs1, by rw [← ht, List.length_append]; omega, ?_⟩
  rw [hc, ← ht, List.take_append_of_le_length hs2]
  exact H.congr_dep (fun p hp => hd p (List.mem_of_mem_take hp))

theorem Calm.calm_refl (w : World) : Calm w w :=
  ⟨fun _ => Node.sameStructure_refl _, rfl, rfl, fun _ => ⟨rfl, rfl⟩⟩

theorem Calm.calm_trans {a b c : World} (h1 : Calm a b) (h2 : Calm b c) : Calm a c :=
  ⟨fun p => Node.sameStructure_trans (h1.1 p) (h2.1 p), h2.2.1.trans h1.2.1,
    h2.2.2.1.trans h1.2.2.1,
    fun g => ⟨(h2.2.2.2 g).1.trans (h1.2.2.2 g).1, (h2.2.2.2 g).2.trans (h1.2.2.2 g).2⟩⟩

/-- Overwriting a graph object without touching its node list and cache. -/
theorem Calm.calm_setGraph (w : World) (g : GraphRef) (gr : Graph)
    (h1 : gr.nodes = (w.graphs g).nodes) (h2 : gr.cache = (w.graphs g).cache) :
    Calm w (w.setGraph g gr) := by
  refine ⟨fun p => Node.sameStructure_refl _, rfl, rfl, fun g1 => ?_⟩
  by_cases hg : g1 = g
  · subst hg; simp [World.setGraph, h1, h2]
  · simp [World.setGraph, Function.update_noteq hg]

/-- Overwriting a node object with one of the same structure. -/
theorem Calm.calm_setNode (w : World) (p : Ptr) (n : Node) (h : (w.heap p).sameStructure n) :
    Calm w (w.setNode p n) := by
  refine ⟨fun q => ?_, rfl, rfl, fun _ => ⟨rfl, rfl⟩⟩
  by_cases hq : q = p
  · subst hq; simpa [World.setNode] using h
  · simp only [World.setNode, Function.update_noteq hq]
    exact Node.sameStructure_refl _

theorem Calm.calm_zeroGradOf (w : World) :
    ∀ (fuel : Nat) (t : Wrapped), Calm w (w.zeroGradOf fuel t) := by
  intro fuel
  induction fuel with
  | zero =>
    intro t
    cases t with
    | ext r => exact ⟨fun _ => Node.sameStructure_refl _, rfl, rfl, fun _ => ⟨rfl, rfl⟩⟩
    | node q => exact Calm.calm_refl w
  | succ fuel ih =>
    intro t
    cases t with
    | ext r => exact ⟨fun _ => Node.sameStructure_refl _, rfl, rfl, fun _ => ⟨rfl, rfl⟩⟩
    | node q =>
      simp only [World.zeroGradOf]
      split
      · next v hv => exact Calm.calm_setNode w q _ (by rw [hv]; simp [Node.sameStructure])
      · next o ho => exact Calm.calm_setNode w q _ (by rw [ho]; simp [Node.sameStructure])
      · next x hx =>
        split
        · exact ih _
        · exact Calm.calm_refl w

theorem Calm.calm_zeroGradNode (w : World) (p : Ptr) : Calm w (w.zeroGradNode p) :=
  Calm.calm_zeroGradOf w (p + 1) (.node p)

theorem Calm.calm_foldl (f : World → Ptr → World) (hf : ∀ w p, Calm w (f w p)) :
    ∀ (l : List Ptr) (w : World), Calm w (l.foldl f w) := by
  intro l
  induction l with
  | nil => intro w; exact Calm.calm_refl w
  | cons p rest ih => intro w; exact Calm.calm_trans (hf w p) (ih (f w p))

theorem Calm.calm_ZeroGrad (w : World) (g : GraphRef) : Calm w (Graph.ZeroGrad w g) := by
  unfold Graph.ZeroGrad
  exact Calm.calm_foldl _ (fun a p => Calm.calm_zeroGradNode a p) _ _

theorem Calm.calm_releaseMemory (w : World) (g : GraphRef) :
    Calm w (Graph.releaseMemory w g) := by
  rw [Graph.releaseMemory_eq]
  refine ⟨fun p => ?_, rfl, rfl, fun _ => ⟨rfl, rfl⟩⟩
  show (w.heap p).sameStructure (if p ∈ (w.graphs g).nodes then (w.heap p).released
    else w.heap p)
  split
  · exact Node.sameStructure_released _
  · exact Node.sameStructure_refl _

theorem Node.sameStructure_operands_rev {a b : Node} (h : a.sameStructure b) {o1 : Operator}
    (hb : b = .ofOperator o1) : ∃ o, a = .ofOperator o ∧ o.operands = o1.operands := by
  subst hb
  cases a with
  | ofVariable v => simp [Node.sameStructure] at h
  | ofWrapper x => simp [Node.sameStructure] at h
  | ofOperator o =>
    simp only [Node.sameStructure] at h
    exact ⟨o, rfl, h.2.2.2.2.1⟩

/-- The wiring invariant survives an update that keeps the structure of every node
object, the allocation marks and the node lists, and that either keeps a cache or
leaves a coherent one. -/
theorem Wired.of_calm {w w1 : World} (hW : Wired w)
    (hs : ∀ p, (w.heap p).sameStructure (w1.heap p)) (hnp : w1.nextPtr = w.nextPtr)
    (hng : w1.nextGraph = w.nextGraph)
    (hn : ∀ g, (w1.graphs g).nodes = (w.graphs g).nodes)
    (hcache : ∀ g, (w1.graphs g).cache = (w.graphs g).cache ∨ CacheOK w1 g) : Wired w1 := by
  have hG : ∀ p, (w1.heap p).Graph = (w.heap p).Graph := fun p => Node.sameStructure_Graph (hs p)
  have hO : ∀ p, (w1.heap p).isOperator = (w.heap p).isOperator :=
    fun p => Node.sameStructure_isOperator (hs p)
  refine ⟨?_, ?_, ?_, ?_, ?_⟩
  · intro p hp
    rw [hG p]; exact hW.unalloc p (by omega)
  · intro p g hp
    rw [hG p] at hp
    rw [hng]; exact hW.graphBound p g hp
  · intro p g hop hg
    rw [hO p] at hop
    rw [hG p] at hg
    rw [hn g]; exact hW.listed p g hop hg
  · intro g k p o1 hk hp q hq
    rw [hn g] at hk
    obtain ⟨o, ho, hops⟩ := Node.sameStructure_operands_rev (hs p) hp
    rw [← hops] at hq
    have := hW.operands g k p o hk ho q hq
    rw [hG q, hO q, hn g]
    exact this
  · intro g
    rcases hcache g with hc | hc
    · exact (hW.cache g).transfer hc (by rw [hn g])
        (fun p _ => World.operandIds_congr (hs p) (fun o _ q _ => hs q))
    · exact hc

theorem Wired.calm {w w1 : World} (hW : Wired w) (hc : Calm w w1) : Wired w1 :=
  hW.of_calm hc.1 hc.2.1 hc.2.2.1 (fun g => (hc.2.2.2 g).1) (fun g => Or.inl (hc.2.2.2 g).2)

/-- The wiring invariant survives the insertion, into graph `g`, of the object `x`
that belonged to no graph, with the new content `n` whose operands belong to `g`. -/
theorem Wired.place {w w1 : World} (hI : Inv w) (hW : Wired w) (x : Ptr) (g : GraphRef)
    (n : Node) (hx : (w.heap x).Graph = none) (hn : n.Graph = some g) (hg : g < w.nextGraph)
    (hops : ∀ o, n = .ofOperator o → ∀ q ∈ o.operands, (w.heap q).Graph = some g)
    (hheap : ∀ q, w1.heap q = if q = x then n else w.heap q)
    (hgr : ∀ g1, g1 ≠ g → w1.graphs g1 = w.graphs g1)
    (hnodes : (w1.graphs g).nodes = (w.graphs g).nodes ++ [x])
    (hcache : (w1.graphs g).cache = (w.graphs g).cache)
    (hnp : w.nextPtr ≤ w1.nextPtr) (hxp : x < w1.nextPtr)
    (hng : w1.nextGraph = w.nextGraph) : Wired w1 := by
  have hne : ∀ q g1, (w.heap q).Graph = some g1 → q ≠ x := by
    intro q g1 hq e
    rw [e, hx] at hq
    exact Option.noConfusion hq
  have hsame : ∀ q g1, (w.heap q).Graph = some g1 → w1.heap q = w.heap q := by
    intro q g1 hq
    rw [hheap q, if_neg (hne q g1 hq)]
  have hself : w1.heap x = n := by rw [hheap x, if_pos rfl]
  have hlistG : ∀ g1 p, p ∈ (w.graphs g1).nodes → (w.heap p).Graph = some g1 := by
    intro g1 p hp
    obtain ⟨k, hk⟩ := List.mem_iff_getElem?.mp hp
    exact ((hI.2 g1).owner k p hk).1
  have hdep : ∀ g1 p, p ∈ (w.graphs g1).nodes → w1.operandIds p = w.operandIds p := by
    intro g1 p hp
    obtain ⟨k, hk⟩ := List.mem_iff_getElem?.mp hp
    apply World.operandIds_congr
    · rw [hsame p g1 (hlistG g1 p hp)]; exact Node.sameStructure_refl _
    · intro o ho q hq
      rw [hsame q g1 (hW.operands g1 k p o hk ho q hq).1]
      exact Node.sameStructure_refl _
  refine ⟨?_, ?_, ?_, ?_, ?_⟩
  · intro p hp
    have hpx : p ≠ x := fun e => by
      rw [e] at hp
      exact Nat.lt_irrefl _ (Nat.lt_of_lt_of_le hxp hp)
    rw [hheap p, if_neg hpx]
    exact hW.unalloc p (Nat.le_trans hnp hp)
  · intro p g1 hp
    rw [hng]
    by_cases hpx : p = x
    · rw [hpx, hself, hn] at hp
      rw [← Option.some.inj hp]; exact hg
    · rw [hheap p, if_neg hpx] at hp
      exact hW.graphBound p g1 hp
  · intro p g1 hop hgp
    by_cases hpx : p = x
    · rw [hpx, hself, hn] at hgp
      have : g = g1 := Option.some.inj hgp
      subst this
      rw [hnodes, hpx]
      exact List.mem_append_right _ (List.mem_singleton_self _)
    · rw [hheap p, if_neg hpx] at hop hgp
      have hm := hW.listed p g1 hop hgp
      by_cases e : g1 = g
      · subst e
        rw [hnodes]; exact List.mem_append_left _ hm
      · rw [hgr g1 e]; exact hm
  · intro g1 k p o hk hp q hq
    by_cases e : g1 = g
    · subst e
      rw [hnodes] at hk
      by_cases hkl : k < (w.graphs g1).nodes.length
      · rw [List.getElem?_append_left hkl] at hk
        have hpm : p ∈ (w.graphs g1).nodes := List.mem_iff_getElem?.mpr ⟨k, hk⟩
        rw [hsame p g1 (hlistG g1 p hpm)] at hp
        obtain ⟨h1, h2⟩ := hW.operands g1 k p o hk hp q hq
        rw [hsame q g1 h1, hnodes]
        refine ⟨h1, fun hop => ?_⟩
        obtain ⟨j, hj, hjq⟩ := h2 hop
        exact ⟨j, hj, by rw [List.getElem?_append_left (by omega)]; exact hjq⟩
      · rw [List.getElem?_append_right (by omega)] at hk
        have hk0 : k - (w.graphs g1).nodes.length = 0 := by
          by_contra hne0
          obtain ⟨m, hm⟩ := Nat.exists_eq_succ_of_ne_zero hne0
          rw [hm] at hk
          simp at hk
        rw [hk0] at hk
        have hpx : x = p := by simpa using hk
        subst hpx
        rw [hself] at hp
        have h1 := hops o hp q hq
        rw [hsame q g1 h1, hnodes]
        refine ⟨h1, fun hop => ?_⟩
        obtain ⟨j, hjq⟩ := List.mem_iff_getElem?.mp (hW.listed q g1 hop h1)
        have hjl : j < (w.graphs g1).nodes.length := by
          by_contra hc
          rw [List.getElem?_eq_none (by omega)] at hjq
          exact Option.noConfusion hjq
        exact ⟨j, by omega, by rw [List.getElem?_append_left hjl]; exact hjq⟩
    · rw [hgr g1 e] at hk ⊢
      have hpm : p ∈ (w.graphs g1).nodes := List.mem_iff_getElem?.mpr ⟨k, hk⟩
      rw [hsame p g1 (hlistG g1 p hpm)] at hp
      obtain ⟨h1, h2⟩ := hW.operands g1 k p o hk hp q hq
      rw [hsame q g1 h1]
      exact ⟨h1, h2⟩
  · intro g1
    by_cases e : g1 = g
    · subst e
      exact (hW.cache g1).transfer hcache (by rw [hnodes]; exact List.prefix_append _ _)
        (hdep g1)
    · exact (hW.cache g1).transfer (by rw [hgr g1 e]) (by rw [hgr g1 e]) (hdep g1)

theorem Graph.recycleOperators_marks : ∀ (l : List Ptr) (a : World),
    (Graph.recycleOperators a l).nextPtr = a.nextPtr ∧
      (Graph.recycleOperators a l).nextGraph = a.nextGraph := by
  intro l
  induction l with
  | nil => intro a; exact ⟨rfl, rfl⟩
  | cons p rest ih =>
    intro a
    by_cases hop : (a.heap p).isOperator = true
    · have hstep : Graph.recycleOperators a (p :: rest) =
          Graph.recycleOperators ((a.setNode p (.ofOperator {})).poolPut p) rest := by
        simp [Graph.recycleOperators, hop]
      rw [hstep]
      exact ih _
    · have hstep : Graph.recycleOperators a (p :: rest) = Graph.recycleOperators a rest := by
        simp [Graph.recycleOperators, hop]
      rw [hstep]
      exact ih a

/-- A `Clear` keeps the allocation marks and the other graph objects. -/
theorem Graph.Clear_marks (w : World) (g : GraphRef) :
    (Graph.Clear w g).nextPtr = w.nextPtr ∧ (Graph.Clear w g).nextGraph = w.nextGraph ∧
    ∀ g1, g1 ≠ g → (Graph.Clear w g).graphs g1 = w.graphs g1 := by
  cases hne : (w.graphs g).nodes.isEmpty with
  | true =>
    have e : Graph.Clear w g = w := by simp [Graph.Clear, hne]
    rw [e]
    exact ⟨rfl, rfl, fun _ _ => rfl⟩
  | false =>
    let W3 := Graph.clearCache ((w.setGraph g { w.graphs g with maxID := -1 }).setGraph g
        { (w.setGraph g { w.graphs g with maxID := -1 }).graphs g with curTimeStep := 0 }) g
    have hclear : Graph.Clear w g =
        (Graph.recycleOperators (Graph.releaseMemory W3 g)
          ((Graph.releaseMemory W3 g).graphs g).nodes).setGraph g
          { (Graph.recycleOperators (Graph.releaseMemory W3 g)
              ((Graph.releaseMemory W3 g).graphs g).nodes).graphs g with nodes := [] } := by
      simp only [Graph.Clear, hne]
      rfl
    obtain ⟨hm1, hm2⟩ := Graph.recycleOperators_marks
      ((Graph.releaseMemory W3 g).graphs g).nodes (Graph.releaseMemory W3 g)
    obtain ⟨hg5, _⟩ := Graph.recycleOperators_heap
      ((Graph.releaseMemory W3 g).graphs g).nodes (Graph.releaseMemory W3 g)
    have e4 : Graph.releaseMemory W3 g =
        { W3 with heap := fun q =>
          if q ∈ (W3.graphs g).nodes then (W3.heap q).released else W3.heap q } :=
      Graph.releaseMemory_eq W3 g
    rw [hclear]
    refine ⟨?_, ?_, fun g1 e => ?_⟩
    · show (Graph.recycleOperators (Graph.releaseMemory W3 g) _).nextPtr = _
      rw [hm1, e4]
      rfl
    · show (Graph.recycleOperators (Graph.releaseMemory W3 g) _).nextGraph = _
      rw [hm2, e4]
      rfl
    · simp only [World.setGraph, Function.update_noteq e]
      rw [hg5, e4]
      simp [W3, Graph.clearCache, World.setGraph, Function.update_noteq e]

/-- The wiring invariant survives `Clear`. -/
theorem Wired.wired_Clear {w : World} (hI : Inv w) (hW : Wired w) (g : GraphRef) :
    Wired (Graph.Clear w g) := by
  cases hne : (w.graphs g).nodes.isEmpty with
  | true =>
    have e : Graph.Clear w g = w := by simp [Graph.Clear, hne]
    rw [e]; exact hW
  | false =>
    obtain ⟨hheap, hnil, _, _, hvoid⟩ := Graph.Clear_closed_form w g hne
    obtain ⟨hnp, hng, hoth⟩ := Graph.Clear_marks w g
    have hlistG : ∀ g1 p, p ∈ (w.graphs g1).nodes → (w.heap p).Graph = some g1 := by
      intro g1 p hp
      obtain ⟨k, hk⟩ := List.mem_iff_getElem?.mp hp
      exact ((hI.2 g1).owner k p hk).1
    have hkeep : ∀ q g1, g1 ≠ g → (w.heap q).Graph = some g1 →
        (Graph.Clear w g).heap q = w.heap q := by
      intro q g1 e hq
      rw [hheap q, if_neg]
      intro hc
      have := hlistG g q hc.1
      rw [hq] at this
      exact e (Option.some.inj this)
    have hdep : ∀ g1, g1 ≠ g → ∀ p ∈ (w.graphs g1).nodes,
        (Graph.Clear w g).operandIds p = w.operandIds p := by
      intro g1 e p hp
      obtain ⟨k, hk⟩ := List.mem_iff_getElem?.mp hp
      apply World.operandIds_congr
      · rw [hkeep p g1 e (hlistG g1 p hp)]; exact Node.sameStructure_refl _
      · intro o ho q hq
        rw [hkeep q g1 e (hW.operands g1 k p o hk ho q hq).1]
        exact Node.sameStructure_refl _
    have hzero : ∀ q, (Graph.Clear w g).heap q = w.heap q ∨
        (Graph.Clear w g).heap q = .ofOperator {} := by
      intro q
      rw [hheap q]
      split
      · exact Or.inr rfl
      · exact Or.inl rfl
    refine ⟨?_, ?_, ?_, ?_, ?_⟩
    · intro p hp
      rw [hnp] at hp
      rcases hzero p with e | e
      · rw [e]; exact hW.unalloc p hp
      · rw [e]; rfl
    · intro p g1 hp
      rw [hng]
      rcases hzero p with e | e
      · rw [e] at hp; exact hW.graphBound p g1 hp
      · rw [e] at hp; exact Option.noConfusion hp
    · intro p g1 hop hgp
      rcases hzero p with e | e
      · rw [e] at hop hgp
        have hm := hW.listed p g1 hop hgp
        have hg1 : g1 ≠ g := by
          intro eg
          subst eg
          rw [hheap p, if_pos ⟨hm, hop⟩] at e
          rw [← e] at hgp
          exact Option.noConfusion hgp
        rw [hoth g1 hg1]; exact hm
      · rw [e] at hgp; exact Option.noConfusion hgp
    · intro g1 k p o hk hp q hq
      by_cases e : g1 = g
      · subst e
        rw [hnil] at hk
        simp at hk
      · rw [hoth g1 e] at hk ⊢
        have hpm : p ∈ (w.graphs g1).nodes := List.mem_iff_getElem?.mpr ⟨k, hk⟩
        rw [hkeep p g1 e (hlistG g1 p hpm)] at hp
        obtain ⟨h1, h2⟩ := hW.operands g1 k p o hk hp q hq
        rw [hkeep q g1 e h1]
        exact ⟨h1, h2⟩
    · intro g1
      by_cases e : g1 = g
      · subst e
        refine ⟨0, by rw [hvoid]; rfl, Nat.zero_le _, ?_⟩
        rw [hvoid, List.take_zero]
        exact HeightsOK.void _
      · exact (hW.cache g1).transfer (by rw [hoth g1 e]) (by rw [hoth g1 e]) (hdep g1 e)

theorem Graph.NewGraph_marks (w : World) (size : Nat) :
    (Graph.NewGraph w size []).1.heap = w.heap ∧
    (Graph.NewGraph w size []).1.nextPtr = w.nextPtr ∧
    (Graph.NewGraph w size []).1.nextGraph = w.nextGraph + 1 ∧
    ((Graph.NewGraph w size []).1.graphs w.nextGraph).cache = Cache.void := by
  simp [Graph.NewGraph, Graph.clearCache, World.setGraph, Cache.void]

/-- The wiring invariant survives `NewGraph`. -/
theorem Wired.wired_NewGraph {w : World} (hW : Wired w) (size : Nat) :
    Wired (Graph.NewGraph w size []).1 := by
  obtain ⟨hh, hnp, hng, hvoid⟩ := Graph.NewGraph_marks w size
  have hold : ∀ g1, g1 < w.nextGraph → (Graph.NewGraph w size []).1.graphs g1 = w.graphs g1 :=
    fun g1 h => (Graph.NewGraph_graphs w size g1).1 (Nat.ne_of_lt h)
  have hnew := (Graph.NewGraph_graphs w size w.nextGraph).2 rfl
  have hdep : ∀ p, (Graph.NewGraph w size []).1.operandIds p = w.operandIds p := by
    intro p
    apply World.operandIds_congr
    · rw [hh]; exact Node.sameStructure_refl _
    · intro o _ q _; rw [hh]; exact Node.sameStructure_refl _
  refine ⟨?_, ?_, ?_, ?_, ?_⟩
  · intro p hp
    rw [hh]; rw [hnp] at hp; exact hW.unalloc p hp
  · intro p g1 hp
    rw [hh] at hp
    rw [hng]; exact Nat.lt_succ_of_lt (hW.graphBound p g1 hp)
  · intro p g1 hop hgp
    rw [hh] at hop hgp
    rw [hold g1 (hW.graphBound p g1 hgp)]
    exact hW.listed p g1 hop hgp
  · intro g1 k p o hk hp q hq
    by_cases e : g1 = w.nextGraph
    · subst e
      rw [hnew.1] at hk
      simp at hk
    · have e2 := (Graph.NewGraph_graphs w size g1).1 e
      rw [e2] at hk ⊢
      rw [hh] at hp ⊢
      exact hW.operands g1 k p o hk hp q hq
  · intro g1
    by_cases e : g1 = w.nextGraph
    · subst e
      refine ⟨0, by rw [hvoid]; rfl, Nat.zero_le _, ?_⟩
      rw [hvoid, List.take_zero]
      exact HeightsOK.void _
    · have e2 := (Graph.NewGraph_graphs w size g1).1 e
      exact (hW.cache g1).transfer (by rw [e2]) (by rw [e2]) (fun p _ => hdep p)

/-- The memory `insert` leaves, field by field. -/
theorem Graph.insert_fields (w : World) (g : GraphRef) (n : Ptr) :
    (∀ q, (Graph.insert w g n).1.heap q =
      if q = n then (w.heap n).setID ((w.graphs g).maxID + 1) else w.heap q) ∧
    (Graph.insert w g n).1.nextPtr = w.nextPtr ∧
    (Graph.insert w g n).1.nextGraph = w.nextGraph ∧
    (∀ g1, g1 ≠ g → (Graph.insert w g n).1.graphs g1 = w.graphs g1) ∧
    ((Graph.insert w g n).1.graphs g).nodes = (w.graphs g).nodes ++ [n] ∧
    ((Graph.insert w g n).1.graphs g).cache = (w.graphs g).cache := by
  refine ⟨fun q => ?_, rfl, rfl, fun g1 e => ?_, ?_, ?_⟩
  · by_cases hq : q = n
    · subst hq; simp [Graph.insert, World.setGraph, World.setNode]
    · simp [Graph.insert, World.setGraph, World.setNode, Function.update_noteq hq, hq]
  · simp [Graph.insert, World.setGraph, World.setNode, Function.update_noteq e]
  · simp [Graph.insert, World.setGraph, World.setNode]
  · simp [Graph.insert, World.setGraph, World.setNode]

theorem Node.isOperator_setID (n : Node) (id : Int) : (n.setID id).isOperator = n.isOperator := by
  cases n <;> rfl

/-- The wiring invariant survives the allocation and insertion of a node that is no
operator. -/
theorem Wired.wired_allocInsert {w : World} (hI : Inv w) (hW : Wired w) (g : GraphRef)
    (n : Node) (hn : n.Graph = some g) (hg : g < w.nextGraph) (hop : n.isOperator = false) :
    Wired (Graph.insert (w.alloc n).1 g (w.alloc n).2).1 := by
  obtain ⟨hheap, hnp, hng, hgr, hnodes, hcache⟩ :=
    Graph.insert_fields (w.alloc n).1 g (w.alloc n).2
  refine Wired.place hI hW w.nextPtr g (n.setID ((w.graphs g).maxID + 1))
    (hW.unalloc _ (Nat.le_refl _)) (by rw [Node.Graph_setID]; exact hn) hg ?_ ?_ hgr hnodes
    hcache ?_ ?_ hng
  · intro o ho
    have h1 : (n.setID ((w.graphs g).maxID + 1)).isOperator = true := by rw [ho]; rfl
    rw [Node.isOperator_setID, hop] at h1
    exact Bool.noConfusion h1
  · intro q
    rw [hheap q]
    by_cases hq : q = w.nextPtr
    · subst hq; simp [World.alloc]
    · simp [World.alloc, hq, Function.update_noteq hq]
  · rw [hnp]; exact Nat.le_succ _
  · rw [hnp]; exact Nat.lt_succ_self _

/-- The wiring invariant survives taking a shell from the pool, overwriting it with an
operator of graph `g` over operands of `g`, and inserting it. -/
theorem Wired.wired_shell {w : World} (hI : Inv w) (hW : Wired w) (g : GraphRef)
    (o : Operator) (ho : o.graph = some g) (hg : g < w.nextGraph)
    (hops : ∀ q ∈ o.operands, (w.heap q).Graph = some g) (pick : Nat) :
    Wired (Graph.insert ((w.poolGet pick).1.setNode (w.poolGet pick).2 (.ofOperator o)) g
      (w.poolGet pick).2).1 := by
  obtain ⟨hheap, hnp, hng, hgr, hnodes, hcache⟩ :=
    Graph.insert_fields ((w.poolGet pick).1.setNode (w.poolGet pick).2 (.ofOperator o)) g
      (w.poolGet pick).2
  have hG : ((w.poolGet pick).1.setNode (w.poolGet pick).2 (.ofOperator o)).graphs = w.graphs :=
    World.poolGet_graphs w pick
  rw [hG] at hgr hnodes hcache hheap
  have hself : ((w.poolGet pick).1.setNode (w.poolGet pick).2 (.ofOperator o)).heap
      (w.poolGet pick).2 = .ofOperator o := by simp [World.setNode]
  have hcases : ((w.heap (w.poolGet pick).2).Graph = none ∧
      (∀ q, q ≠ (w.poolGet pick).2 → (w.poolGet pick).1.heap q = w.heap q) ∧
      w.nextPtr ≤ (w.poolGet pick).1.nextPtr ∧ (w.poolGet pick).2 < (w.poolGet pick).1.nextPtr ∧
      (w.poolGet pick).1.nextGraph = w.nextGraph) := by
    unfold World.poolGet
    cases hp : w.pool[pick]? with
    | some p =>
      have hm : p ∈ w.pool := List.mem_iff_getElem?.mpr ⟨pick, hp⟩
      exact ⟨(hI.1.poolFree p hm).1, fun _ _ => rfl, Nat.le_refl _, (hI.1.poolFree p hm).2, rfl⟩
    | none =>
      refine ⟨hW.unalloc _ (Nat.le_refl _), fun q hq => ?_, Nat.le_succ _, Nat.lt_succ_self _, rfl⟩
      have hq2 : q ≠ w.nextPtr := hq
      simp [World.alloc, Function.update_noteq hq2]
  obtain ⟨hx, hrest, hle, hlt, hng2⟩ := hcases
  refine Wired.place hI hW (w.poolGet pick).2 g
    ((Node.ofOperator o).setID ((w.graphs g).maxID + 1)) hx
    (by rw [Node.Graph_setID]; exact ho) hg ?_ ?_ hgr hnodes hcache ?_ ?_ ?_
  · intro o1 ho1 q hq
    have : o1.operands = o.operands := by
      have h2 : o1 = { o with id := (w.graphs g).maxID + 1 } := by
        have := ho1.symm
        simpa [Node.setID] using this
      rw [h2]
    rw [this] at hq
    exact hops q hq
  · intro q
    rw [hheap q]
    by_cases hq : q = (w.poolGet pick).2
    · rw [if_pos hq, if_pos hq, hself]
    · rw [if_neg hq, if_neg hq]
      show Function.update (w.poolGet pick).1.heap (w.poolGet pick).2 _ q = _
      rw [Function.update_noteq hq]
      exact hrest q hq
  · rw [hnp]; exact hle
  · rw [hnp]; exact hlt
  · rw [hng]; exact hng2

/-- What `groupNodesByHeight` leaves untouched: everything but the cache of its graph. -/
theorem Graph.groupNodesByHeight_rest (w : World) (g : GraphRef) :
    (Graph.groupNodesByHeight w g).world.heap = w.heap ∧
    (Graph.groupNodesByHeight w g).world.nextPtr = w.nextPtr ∧
    (Graph.groupNodesByHeight w g).world.nextGraph = w.nextGraph ∧
    (∀ g1, ((Graph.groupNodesByHeight w g).world.graphs g1).nodes = (w.graphs g1).nodes) ∧
    (∀ g1, g1 ≠ g → (Graph.groupNodesByHeight w g).world.graphs g1 = w.graphs g1) := by
  have key : ∀ c : Cache, (w.setGraph g { w.graphs g with cache := c }).heap = w.heap ∧
      (w.setGraph g { w.graphs g with cache := c }).nextPtr = w.nextPtr ∧
      (w.setGraph g { w.graphs g with cache := c }).nextGraph = w.nextGraph ∧
      (∀ g1, ((w.setGraph g { w.graphs g with cache := c }).graphs g1).nodes =
        (w.graphs g1).nodes) ∧
      (∀ g1, g1 ≠ g → (w.setGraph g { w.graphs g with cache := c }).graphs g1 = w.graphs g1) := by
    intro c
    refine ⟨rfl, rfl, rfl, fun g1 => ?_, fun g1 e => ?_⟩
    · by_cases e : g1 = g
      · subst e; simp [World.setGraph]
      · simp [World.setGraph, Function.update_noteq e]
    · simp [World.setGraph, Function.update_noteq e]
  have triv : w.heap = w.heap ∧ w.nextPtr = w.nextPtr ∧ w.nextGraph = w.nextGraph ∧
      (∀ g1, (w.graphs g1).nodes = (w.graphs g1).nodes) ∧
      (∀ g1, g1 ≠ g → w.graphs g1 = w.graphs g1) := ⟨rfl, rfl, rfl, fun _ => rfl, fun _ _ => rfl⟩
  unfold Graph.groupNodesByHeight
  simp only
  split
  · exact triv
  · split
    · exact triv
    · split
      · exact triv
      · split
        · exact triv
        · exact key _

/-- Every step keeps the wiring invariant. -/
theorem Step.step_wired {w w1 : World} (hs : Step w w1) (hI : Inv w) (hW : Wired w) :
    Wired w1 := by
  cases hs with
  | newGraph size => exact hW.wired_NewGraph size
  | setRand g r hg => exact hW.calm (Calm.calm_setGraph w g _ rfl rfl)
  | setRandSeed g seed hg => exact hW.calm (Calm.calm_setGraph w g _ rfl rfl)
  | setEagerExecution g value hg => exact hW.calm (Calm.calm_setGraph w g _ rfl rfl)
  | setConcurrentComputations g value hg =>
    unfold Graph.SetConcurrentComputations
    split
    · exact hW
    · exact hW.calm (Calm.calm_setGraph w g _ rfl rfl)
  | zeroGrad g hg => exact hW.calm (Calm.calm_ZeroGrad w g)
  | incTimeStep g hg => exact hW.calm (Calm.calm_setGraph w g _ rfl rfl)
  | clear g hg => exact hW.wired_Clear hI g
  | clearForReuse g hg =>
    unfold Graph.ClearForReuse
    split
    · exact hW
    · exact hW.calm (Calm.calm_releaseMemory w g)
  | newVariable g value rg hg =>
    rw [Graph.NewVariable_eq]; exact hW.wired_allocInsert hI g _ rfl hg rfl
  | newVariableWithName g value rg name hg =>
    rw [Graph.NewVariableWithName_eq]; exact hW.wired_allocInsert hI g _ rfl hg rfl
  | newScalar g value hg =>
    show Wired (Graph.NewVariable w g _ false).1
    rw [Graph.NewVariable_eq]; exact hW.wired_allocInsert hI g _ rfl hg rfl
  | newScalarWithName g value name hg =>
    show Wired (Graph.NewVariableWithName w g _ false name).1
    rw [Graph.NewVariableWithName_eq]; exact hW.wired_allocInsert hI g _ rfl hg rfl
  | constant g value hg =>
    cases hm : mapGet (w.graphs g).constants value with
    | some node => rw [Graph.Constant_hit hm]; exact hW
    | none =>
      rw [Graph.Constant_miss hm]
      have h1 : Wired (Graph.NewVariableWithName w g (some (Matrix.NewScalar value)) false
          (DType.Sprint value)).1 := by
        rw [Graph.NewVariableWithName_eq]; exact hW.wired_allocInsert hI g _ rfl hg rfl
      exact h1.calm (Calm.calm_setGraph _ g _ rfl rfl)
  | newOperator g f operands pick hg =>
    cases hany : operands.any (fun o => decide ((w.heap o).Graph ≠ some g)) with
    | true => rw [Graph.NewOperator_foreign hany]; exact hW
    | false =>
      have hops : ∀ q ∈ operands, (w.heap q).Graph = some g := by
        intro q hq
        by_contra hne
        have := (Graph.cross_any_iff w g operands).mpr ⟨q, hq, hne⟩
        rw [hany] at this
        exact Bool.noConfusion this
      have hcalm : Calm w { w with forwardRuns := w.forwardRuns + 1 } :=
        ⟨fun _ => Node.sameStructure_refl _, rfl, rfl, fun _ => ⟨rfl, rfl⟩⟩
      cases he : (w.graphs g).eagerExecution with
      | false =>
        rw [Graph.NewOperator_lazy hany he]
        exact hW.wired_shell hI g _ rfl hg hops pick
      | true =>
        cases hf : f.Forward w.operand with
        | error msg =>
          rw [Graph.NewOperator_eager_panic hany he hf]
          exact hW.calm hcalm
        | ok v =>
          rw [Graph.NewOperator_eager_ok hany he hf]
          exact (hW.calm hcalm).wired_shell (hI.inv_frame (Frame.forwardRuns w _)) g _ rfl hg
            hops pick
  | newWrap g value hg =>
    rw [Graph.NewWrap_eq]; exact hW.wired_allocInsert hI g _ rfl hg rfl
  | newWrapNoGrad g value hg =>
    rw [Graph.NewWrapNoGrad_eq]; exact hW.wired_allocInsert hI g _ rfl hg rfl
  | groupNodesByHeight g hg =>
    obtain ⟨hheap, hnp, hng, hnodes, hoth⟩ := Graph.groupNodesByHeight_rest w g
    refine hW.of_calm (fun p => by rw [hheap]; exact Node.sameStructure_refl _) hnp hng hnodes ?_
    intro g1
    by_cases e : g1 = g
    · subst e
      right
      obtain ⟨w2, groups, hres, hmax, hgroups, hlen, hH, hh2, hn2, _, _⟩ :=
        Graph.groupNodesByHeight_spec w g1 (hI.2 g1) (fun k p hk => hW.topo hI g1 k p hk)
          (hW.cache g1)
      have hw2 : (Graph.groupNodesByHeight w g1).world = w2 := by rw [hres]; rfl
      rw [hw2]
      have hdep : w2.operandIds = w.operandIds := by
        have hid : w2.operatorId = w.operatorId := by
          funext q
          simp [World.operatorId, hh2]
        funext p
        simp [World.operandIds, hid, hh2]
      refine ⟨(w.graphs g1).nodes.length, ?_, ?_, ?_⟩
      · rw [hmax]; exact (hI.2 g1).maxID
      · rw [hn2]
      · rw [hn2, List.take_length, hdep, hgroups]
        exact hH
    · left; rw [hoth g1 e]
  | mutate heap ext hm => exact hW.calm ⟨hm, rfl, rfl, fun _ => ⟨rfl, rfl⟩⟩

theorem Wired.wired_init (ext : ExtRef → GradValue) : Wired (World.init ext) := by
  refine ⟨fun _ _ => rfl, ?_, ?_, ?_, ?_⟩
  · intro p g hp; exact Option.noConfusion hp
  · intro p g _ hp; exact Option.noConfusion hp
  · intro g k p o hk; simp [World.init, Graph.fresh] at hk
  · intro g
    exact ⟨0, rfl, Nat.zero_le _, HeightsOK.void _⟩

/-- Every reachable memory satisfies the wiring invariant. -/
theorem Reachable.reachable_wired {w : World} (hw : Reachable w) : Wired w := by
  induction hw with
  | init ext => exact Wired.wired_init ext
  | step hw1 hs ih => exact hs.step_wired hw1.reachable_inv ih

/-! ### A wrapper is allocated after the value it wraps -/

theorem Node.sameStructure_wrapper_rev {a b : Node} (h : a.sameStructure b) {y : Wrapper}
    (hb : b = .ofWrapper y) :
    ∃ x, a = .ofWrapper x ∧ x.GradValue = y.GradValue ∧ x.wrapGrad = y.wrapGrad := by
  subst hb
  cases a with
  | ofVariable v => exact False.elim h
  | ofOperator o => exact False.elim h
  | ofWrapper x => exact ⟨x, rfl, h.2.2.2.1, h.2.2.2.2⟩

/-- The layering survives an update after which every wrapper object is a wrapper that
was there before, with the value it wrapped, or is newly allocated and wraps a value
that was there before. -/
theorem Layered.of_step {w w1 : World} (hL : Layered w) (hnp : w.nextPtr ≤ w1.nextPtr)
    (h : ∀ p x, w1.heap p = .ofWrapper x →
      (∃ x0, w.heap p = .ofWrapper x0 ∧ x0.GradValue = x.GradValue) ∨
      (p = w.nextPtr ∧ w.nextPtr < w1.nextPtr ∧
        ∀ q, x.GradValue = .node q → q < w.nextPtr)) : Layered w1 := by
  intro p x hp
  rcases h p x hp with ⟨x0, hx0, hg⟩ | ⟨e, hlt, hq⟩
  · obtain ⟨h1, h2⟩ := hL p x0 hx0
    exact ⟨Nat.lt_of_lt_of_le h1 hnp, fun q hq => h2 q (hg.trans hq)⟩
  · exact ⟨by rw [e]; exact hlt, fun q hq1 => by rw [e]; exact hq q hq1⟩

theorem Layered.layered_calm {w w1 : World} (hL : Layered w) (hc : Calm w w1) :
    Layered w1 := by
  refine hL.of_step (Nat.le_of_eq hc.2.1.symm) (fun p x hp => Or.inl ?_)
  obtain ⟨x0, h0, h1, _⟩ := Node.sameStructure_wrapper_rev (hc.1 p) hp
  exact ⟨x0, h0, h1⟩

theorem Layered.layered_heap {w w1 : World} (hL : Layered w) (hh : w1.heap = w.heap)
    (hnp : w1.nextPtr = w.nextPtr) : Layered w1 := by
  refine hL.of_step (Nat.le_of_eq hnp.symm) (fun p x hp => Or.inl ⟨x, ?_, rfl⟩)
  rw [← hh]; exact hp

/-- The layering survives the allocation and insertion of a node that is no wrapper,
or that wraps a value that exists. -/
theorem Layered.layered_allocInsert {w : World} (hL : Layered w) (g : GraphRef) (n : Node)
    (hn : ∀ x, n = .ofWrapper x → ∀ q, x.GradValue = .node q → q < w.nextPtr) :
    Layered (Graph.insert (w.alloc n).1 g (w.alloc n).2).1 := by
  obtain ⟨hheap, _⟩ := Graph.insert_fields (w.alloc n).1 g (w.alloc n).2
  have hself : (Graph.insert (w.alloc n).1 g (w.alloc n).2).1.heap w.nextPtr =
      n.setID ((w.graphs g).maxID + 1) := by
    have := hheap w.nextPtr
    rw [this]
    simp [World.alloc]
  have hother : ∀ q, q ≠ w.nextPtr →
      (Graph.insert (w.alloc n).1 g (w.alloc n).2).1.heap q = w.heap q := by
    intro q hq
    have := hheap q
    rw [this]
    simp [World.alloc, hq, Function.update_noteq hq]
  have hnp : (Graph.insert (w.alloc n).1 g (w.alloc n).2).1.nextPtr = w.nextPtr + 1 := rfl
  refine hL.of_step (by rw [hnp]; exact Nat.le_succ _) (fun p x hp => ?_)
  by_cases e : p = w.nextPtr
  · right
    subst e
    rw [hself] at hp
    refine ⟨rfl, by rw [hnp]; exact Nat.lt_succ_self _, ?_⟩
    cases n with
    | ofVariable v => exact Node.noConfusion hp
    | ofOperator o => exact Node.noConfusion hp
    | ofWrapper y =>
      have hy : x.GradValue = y.GradValue := by
        have := Node.ofWrapper.inj hp
        rw [← this]
      intro q hq
      exact hn y rfl q (hy ▸ hq)
  · left
    rw [hother p e] at hp
    exact ⟨x, hp, rfl⟩

/-- The layering survives writing an operator into a shell from the pool. -/
theorem Layered.layered_shell {w : World} (hL : Layered w) (g : GraphRef) (o : Operator)
    (pick : Nat) :
    Layered (Graph.insert ((w.poolGet pick).1.setNode (w.poolGet pick).2 (.ofOperator o)) g
      (w.poolGet pick).2).1 := by
  obtain ⟨hheap, hnp, _⟩ := Graph.insert_fields
    ((w.poolGet pick).1.setNode (w.poolGet pick).2 (.ofOperator o)) g (w.poolGet pick).2
  have hcases : w.nextPtr ≤ (w.poolGet pick).1.nextPtr ∧
      (∀ q, q ≠ (w.poolGet pick).2 → (w.poolGet pick).1.heap q = w.heap q) := by
    unfold World.poolGet
    cases hp : w.pool[pick]? with
    | some p => exact ⟨Nat.le_refl _, fun _ _ => rfl⟩
    | none =>
      refine ⟨Nat.le_succ _, fun q hq => ?_⟩
      have hq1 : q ≠ w.nextPtr := by
        simpa [World.poolGet, hp, World.alloc] using hq
      simp [World.alloc, Function.update_noteq hq1]
  refine hL.of_step (by rw [hnp]; exact hcases.1) (fun p x hp => Or.inl ?_)
  rw [hheap p] at hp
  by_cases e : p = (w.poolGet pick).2
  · rw [if_pos e] at hp
    simp [World.setNode, Node.setID] at hp
  · rw [if_neg e] at hp
    have h1 : ((w.poolGet pick).1.setNode (w.poolGet pick).2 (.ofOperator o)).heap p =
        (w.poolGet pick).1.heap p := by
      simp [World.setNode, Function.update_noteq e]
    rw [h1, hcases.2 p e] at hp
    exact ⟨x, hp, rfl⟩

theorem Layered.layered_Clear {w : World} (hL : Layered w) (g : GraphRef) :
    Layered (Graph.Clear w g) := by
  cases hne : (w.graphs g).nodes.isEmpty with
  | true =>
    have e : Graph.Clear w g = w := by simp [Graph.Clear, hne]
    rw [e]; exact hL
  | false =>
    obtain ⟨hheap, _⟩ := Graph.Clear_closed_form w g hne
    refine hL.of_step (Nat.le_of_eq (Graph.Clear_marks w g).1.symm) (fun p x hp => Or.inl ?_)
    rw [hheap p] at hp
    split at hp
    · exact Node.noConfusion hp
    · exact ⟨x, hp, rfl⟩

/-- Every step keeps the layering of the wrappers. -/
theorem Step.step_layered {w w1 : World} (hs : Step w w1) (hL : Layered w) : Layered w1 := by
  have hvar : ∀ (g : GraphRef) (v : Variable),
      Layered (Graph.insert (w.alloc (.ofVariable v)).1 g (w.alloc (.ofVariable v)).2).1 :=
    fun g v => hL.layered_allocInsert g _ (fun x hx => Node.noConfusion hx)
  cases hs with
  | newGraph size =>
    exact hL.layered_heap (Graph.NewGraph_marks w size).1 (Graph.NewGraph_marks w size).2.1
  | setRand g r hg => exact hL.layered_calm (Calm.calm_setGraph w g _ rfl rfl)
  | setRandSeed g seed hg => exact hL.layered_calm (Calm.calm_setGraph w g _ rfl rfl)
  | setEagerExecution g value hg => exact hL.layered_calm (Calm.calm_setGraph w g _ rfl rfl)
  | setConcurrentComputations g value hg =>
    unfold Graph.SetConcurrentComputations
    split
    · exact hL
    · exact hL.layered_calm (Calm.calm_setGraph w g _ rfl rfl)
  | zeroGrad g hg => exact hL.layered_calm (Calm.calm_ZeroGrad w g)
  | incTimeStep g hg => exact hL.layered_calm (Calm.calm_setGraph w g _ rfl rfl)
  | clear g hg => exact hL.layered_Clear g
  | clearForReuse g hg =>
    unfold Graph.ClearForReuse
    split
    · exact hL
    · exact hL.layered_calm (Calm.calm_releaseMemory w g)
  | newVariable g value rg hg => exact hvar g _
  | newVariableWithName g value rg name hg => exact hvar g _
  | newScalar g value hg => exact hvar g _
  | newScalarWithName g value name hg => exact hvar g _
  | constant g value hg =>
    cases hm : mapGet (w.graphs g).constants value with
    | some node => rw [Graph.Constant_hit hm]; exact hL
    | none =>
      rw [Graph.Constant_miss hm]
      have h1 : Layered (Graph.NewVariableWithName w g (some (Matrix.NewScalar value)) false
          (DType.Sprint value)).1 := hvar g _
      exact h1.layered_calm (Calm.calm_setGraph _ g _ rfl rfl)
  | newOperator g f operands pick hg =>
    have hfr : Layered { w with forwardRuns := w.forwardRuns + 1 } := hL.layered_heap rfl rfl
    cases hany : operands.any (fun o => decide ((w.heap o).Graph ≠ some g)) with
    | true => rw [Graph.NewOperator_foreign hany]; exact hL
    | false =>
      cases he : (w.graphs g).eagerExecution with
      | false =>
        rw [Graph.NewOperator_lazy hany he]
        exact hL.layered_shell g _ pick
      | true =>
        cases hf : f.Forward w.operand with
        | error msg =>
          rw [Graph.NewOperator_eager_panic hany he hf]
          exact hfr
        | ok v =>
          rw [Graph.NewOperator_eager_ok hany he hf]
          exact hfr.layered_shell g _ pick
  | newWrap g value hg hv =>
    exact hL.layered_allocInsert g _ (fun x hx q hq => hv q (by
      have := Node.ofWrapper.inj hx
      rw [← this] at hq
      exact hq))
  | newWrapNoGrad g value hg hv =>
    exact hL.layered_allocInsert g _ (fun x hx q hq => hv q (by
      have := Node.ofWrapper.inj hx
      rw [← this] at hq
      exact hq))
  | groupNodesByHeight g hg =>
    exact hL.layered_heap (Graph.groupNodesByHeight_rest w g).1
      (Graph.groupNodesByHeight_rest w g).2.1
  | mutate heap ext hm => exact hL.layered_calm ⟨hm, rfl, rfl, fun _ => ⟨rfl, rfl⟩⟩

theorem Layered.layered_init (ext : ExtRef → GradValue) : Layered (World.init ext) := by
  intro p x hp
  exact Node.noConfusion hp

/-- Every reachable memory is layered. -/
theorem Reachable.reachable_layered {w : World} (hw : Reachable w) : Layered w := by
  induction hw with
  | init ext => exact Layered.layered_init ext
  | step _ hs ih => exact hs.step_layered ih

/-- In a layered memory the chain of wrappers that starts at a node ends within the
bound that the reads use: more fuel gives the same reads. -/
theorem Layered.enough {w : World} (hL : Layered w) :
    ∀ (fuel : Nat) (q : Ptr), q < fuel →
      w.valueOf fuel (.node q) = w.valueOf (q + 1) (.node q) ∧
      w.gradOf fuel (.node q) = w.gradOf (q + 1) (.node q) ∧
      w.requiresGradOf fuel (.node q) = w.requiresGradOf (q + 1) (.node q) ∧
      w.acceptsGradOf fuel (.node q) = w.acceptsGradOf (q + 1) (.node q) := by
  have ext0 : ∀ (a b : Nat) (r : ExtRef),
      w.valueOf a (.ext r) = w.valueOf b (.ext r) ∧ w.gradOf a (.ext r) = w.gradOf b (.ext r) ∧
      w.requiresGradOf a (.ext r) = w.requiresGradOf b (.ext r) ∧
      w.acceptsGradOf a (.ext r) = w.acceptsGradOf b (.ext r) := by
    intro a b r
    cases a <;> cases b <;> exact ⟨rfl, rfl, rfl, rfl⟩
  intro fuel
  induction fuel using Nat.strong_induction_on with
  | _ fuel ih =>
    intro q hq
    cases fuel with
    | zero => exact absurd hq (Nat.not_lt_zero _)
    | succ f =>
      cases ha : w.heap q with
      | ofVariable v => simp only [World.valueOf, World.gradOf, World.requiresGradOf,
          World.acceptsGradOf, ha, and_self]
      | ofOperator o => simp only [World.valueOf, World.gradOf, World.requiresGradOf,
          World.acceptsGradOf, ha, and_self]
      | ofWrapper x =>
        simp only [World.valueOf, World.gradOf, World.requiresGradOf,
          World.acceptsGradOf, ha]
        cases ht : x.GradValue with
        | ext r =>
          obtain ⟨e1, e2, e3, e4⟩ := ext0 f q r
          rw [e1, e2, e3, e4]
          exact ⟨rfl, rfl, rfl, rfl⟩
        | node r =>
          have hr : r < q := (hL q x ha).2 r ht
          have hqf : q ≤ f := Nat.le_of_lt_succ hq
          obtain ⟨a1, a2, a3, a4⟩ := ih f (Nat.lt_succ_self f) r (Nat.lt_of_lt_of_le hr hqf)
          obtain ⟨b1, b2, b3, b4⟩ := ih q (Nat.lt_succ_of_le hqf) r hr
          rw [a1, a2, a3, a4, b1, b2, b3, b4]
          exact ⟨rfl, rfl, rfl, rfl⟩

/-- In a reachable memory a wrapper over a node reports the value, the gradient and the
flag of that node (the gradient and the flag unless it opted out). -/
theorem Layered.wrapper_reads {w : World} (hL : Layered w) {p : Ptr} {x : Wrapper}
    (hp : w.heap p = .ofWrapper x) {q : Ptr} (hq : x.GradValue = .node q) :
    w.Value p = w.Value q ∧
    w.Grad p = (if x.wrapGrad then w.Grad q else none) ∧
    w.RequiresGrad p = (x.wrapGrad && w.RequiresGrad q) := by
  have hlt : q < p := (hL p x hp).2 q hq
  obtain ⟨e1, e2, e3, _⟩ := hL.enough p q hlt
  rw [World.Value_eq, World.Grad_eq, World.RequiresGrad_eq, hp]
  simp only [hq, e1, e2, e3]
  exact ⟨rfl, rfl, rfl⟩

/-! ### The grouping by height in a reachable memory -/

theorem World.operatorId_of_operator {w : World} {q : Ptr} (h : (w.heap q).isOperator = true) :
    w.operatorId q = some (w.heap q).ID := by
  unfold World.operatorId
  cases hq : w.heap q with
  | ofOperator o => rfl
  | ofVariable v => rw [hq] at h; exact Bool.noConfusion h
  | ofWrapper x => rw [hq] at h; exact Bool.noConfusion h

theorem World.operatorId_some {w : World} {q : Ptr} {id : Int} (h : w.operatorId q = some id) :
    (w.heap q).isOperator = true ∧ (w.heap q).ID = id := by
  unfold World.operatorId at h
  cases hq : w.heap q with
  | ofOperator o => rw [hq] at h; exact ⟨rfl, Option.some.inj h⟩
  | ofVariable v => rw [hq] at h; exact Option.noConfusion h
  | ofWrapper x => rw [hq] at h; exact Option.noConfusion h

theorem World.operandIds_of_leaf {w : World} {p : Ptr} (h : (w.heap p).isOperator = false) :
    w.operandIds p = [] := by
  unfold World.operandIds
  cases hp : w.heap p with
  | ofOperator o => rw [hp] at h; exact Bool.noConfusion h
  | ofVariable v => rfl
  | ofWrapper x => rfl

theorem World.operandIds_of_operator {w : World} {p : Ptr} {o : Operator}
    (h : w.heap p = .ofOperator o) : w.operandIds p = o.operands.filterMap w.operatorId := by
  unfold World.operandIds
  rw [h]

/-- What `groupNodesByHeight` returns in a memory that satisfies the invariants, in
terms of the cached height of each node. -/
theorem Graph.groupNodesByHeight_facts {w : World} (hI : Inv w) (hW : Wired w) (g : GraphRef) :
    ∃ w1 groups, Graph.groupNodesByHeight w g = .ok w1 groups ∧ w1.heap = w.heap ∧
      (w1.graphs g).nodes = (w.graphs g).nodes ∧
      (w1.graphs g).cache.maxID = (w.graphs g).maxID ∧
      (w1.graphs g).maxID = (w.graphs g).maxID ∧
      (w1.graphs g).cache.nodesByHeight = groups ∧
      (∀ p ∈ (w.graphs g).nodes, (w.heap p).isOperator = false → Graph.heightOf w1 g p = 0) ∧
      (∀ p ∈ (w.graphs g).nodes, ∀ o, w.heap p = .ofOperator o → ∀ q ∈ o.operands,
        (w.heap q).isOperator = true →
          q ∈ (w.graphs g).nodes ∧ Graph.heightOf w1 g q + 1 ≤ Graph.heightOf w1 g p) ∧
      (∀ p ∈ (w.graphs g).nodes, ∀ o, w.heap p = .ofOperator o →
        Graph.heightOf w1 g p = 0 ∨ ∃ q ∈ o.operands, (w.heap q).isOperator = true ∧
          Graph.heightOf w1 g p = Graph.heightOf w1 g q + 1) ∧
      (∀ p ∈ (w.graphs g).nodes,
        0 ≤ Graph.heightOf w1 g p ∧ Graph.heightOf w1 g p < (groups.length : Int)) ∧
      (∀ (h : Nat) (p : Ptr), p ∈ groups.getD h [] ↔
        p ∈ (w.graphs g).nodes ∧ Graph.heightOf w1 g p = (h : Int)) ∧
      (∀ h : Nat, (groups.getD h []).Nodup) ∧
      (∀ h : Nat, h < groups.length → ∃ p ∈ (w.graphs g).nodes,
        Graph.heightOf w1 g p = (h : Int)) := by
  obtain ⟨w1, groups, hres, hmax, hgroups, hlen, hH, hheap, hnodes, hmx, _⟩ :=
    Graph.groupNodesByHeight_spec w g (hI.2 g) (fun k p hk => hW.topo hI g k p hk) (hW.cache g)
  have hlen2 := hH.len
  -- the cached height of the node at index k
  have hat : ∀ (k : Nat) (p : Ptr), (w.graphs g).nodes[k]? = some p →
      Graph.heightOf w1 g p = (w1.graphs g).cache.height.getD k 0 := by
    intro k p hk
    unfold Graph.heightOf
    rw [hheap, ((hI.2 g).owner k p hk).2]
    rfl
  have hidx : ∀ p ∈ (w.graphs g).nodes, ∃ k, (w.graphs g).nodes[k]? = some p :=
    fun p hp => List.mem_iff_getElem?.mp hp
  have hof : ∀ q, Graph.heightOf w1 g q =
      (w1.graphs g).cache.height.getD (w.heap q).ID.toNat 0 := by
    intro q
    unfold Graph.heightOf
    rw [hheap]
  refine ⟨w1, groups, hres, hheap, hnodes, hmax, hmx, hgroups, ?_, ?_, ?_, ?_, ?_, ?_, ?_⟩
  · intro p hp hleaf
    obtain ⟨k, hk⟩ := hidx p hp
    rw [hat k p hk, hH.recur k p hk, World.operandIds_of_leaf hleaf]
    rfl
  · intro p hp o ho q hq hqop
    obtain ⟨k, hk⟩ := hidx p hp
    obtain ⟨_, hj⟩ := hW.operands g k p o hk ho q hq
    obtain ⟨j, _, hjq⟩ := hj hqop
    refine ⟨List.mem_iff_getElem?.mpr ⟨j, hjq⟩, ?_⟩
    rw [hat k p hk, hH.recur k p hk, hof q]
    apply heightFrom_ge
    rw [World.operandIds_of_operator ho]
    exact List.mem_filterMap.mpr ⟨q, hq, World.operatorId_of_operator hqop⟩
  · intro p hp o ho
    obtain ⟨k, hk⟩ := hidx p hp
    rw [hat k p hk, hH.recur k p hk]
    rcases heightFrom_attained (w1.graphs g).cache.height (w.operandIds p) with h0 | ⟨id, hid, he⟩
    · exact Or.inl h0
    · right
      rw [World.operandIds_of_operator ho] at hid
      obtain ⟨q, hq, hqid⟩ := List.mem_filterMap.mp hid
      obtain ⟨hqop, hqi⟩ := World.operatorId_some hqid
      refine ⟨q, hq, hqop, ?_⟩
      rw [he, hof q, hqi]
  · intro p hp
    obtain ⟨k, hk⟩ := hidx p hp
    rw [hat k p hk]
    have hkl : k < (w1.graphs g).cache.height.length := by
      rw [hlen2]
      exact (List.getElem?_eq_some.mp hk).1
    rw [List.getD_eq_getElem _ _ hkl]
    exact hH.bound _ (List.getElem_mem hkl)
  · intro h p
    rw [List.getD_eq_getElem?_getD, hH.grp h]
    constructor
    · intro hm
      obtain ⟨e, he, hep⟩ := List.mem_map.mp hm
      obtain ⟨hez, hex⟩ := List.mem_filter.mp he
      obtain ⟨k, hk⟩ := List.mem_iff_getElem?.mp hez
      obtain ⟨hk1, hk2⟩ := List.getElem?_zip_eq_some.mp hk
      rw [hep] at hk1
      refine ⟨List.mem_iff_getElem?.mpr ⟨k, hk1⟩, ?_⟩
      rw [hat k p hk1, List.getD_eq_getElem?_getD, hk2]
      exact of_decide_eq_true hex
    · rintro ⟨hp, hh⟩
      obtain ⟨k, hk⟩ := hidx p hp
      rw [hat k p hk] at hh
      have hkl : k < (w1.graphs g).cache.height.length := by
        rw [hlen2]
        exact (List.getElem?_eq_some.mp hk).1
      rw [List.getD_eq_getElem _ _ hkl] at hh
      refine List.mem_map.mpr ⟨(p, (h : Int)), List.mem_filter.mpr ⟨?_, decide_eq_true rfl⟩, rfl⟩
      refine List.mem_iff_getElem?.mpr ⟨k, List.getElem?_zip_eq_some.mpr ⟨hk, ?_⟩⟩
      rw [List.getElem?_eq_getElem hkl, hh]
  · intro h
    rw [List.getD_eq_getElem?_getD, hH.grp h]
    have hsub : ((((w.graphs g).nodes.zip (w1.graphs g).cache.height).filter
        (fun e => decide (e.2 = (h : Int)))).map Prod.fst).Sublist (w.graphs g).nodes := by
      have := (List.filter_sublist (p := fun e : Ptr × Int => decide (e.2 = (h : Int)))
        ((w.graphs g).nodes.zip (w1.graphs g).cache.height)).map Prod.fst
      rw [List.map_fst_zip _ _ (Nat.le_of_eq hlen2.symm)] at this
      exact this
    exact List.Nodup.sublist hsub (hI.2 g).nodup
  · intro h hh
    obtain ⟨k, hk⟩ := List.mem_iff_getElem?.mp (hH.full h hh)
    have hkl : k < (w.graphs g).nodes.length := by
      rw [← hlen2]
      exact (List.getElem?_eq_some.mp hk).1
    refine ⟨(w.graphs g).nodes[k], List.getElem_mem hkl, ?_⟩
    rw [hat k _ (List.getElem?_eq_getElem hkl), List.getD_eq_getElem?_getD, hk]
    rfl

theorem Scenario.withChain2_reachable : Reachable Scenario.withChain2 :=
  Reachable.step Scenario.withMin_reachable (Step.newOperator _ 0 _ _ 0 (by decide))

theorem Scenario.withChain3_reachable : Reachable Scenario.withChain3 :=
  Reachable.step Scenario.withChain2_reachable (Step.newOperator _ 0 _ _ 0 (by decide))

theorem Scenario.regrouped_reachable : Reachable Scenario.regrouped :=
  Reachable.step
    (Reachable.step Scenario.withMin_reachable (Step.groupNodesByHeight _ 0 (by decide)))
    (Step.newOperator _ 0 _ _ 0 (by decide))

theorem World.operandsOf_of_operator {w : World} {p : Ptr} {o : Operator}
    (h : w.heap p = .ofOperator o) : w.operandsOf p = o.operands := by
  unfold World.operandsOf
  rw [h]

/-- A graph whose cache has just been cleared satisfies what `groupNodesByHeight`
needs, like the graph itself. -/
theorem Graph.clearCache_ready {w : World} (hI : Inv w) (hW : Wired w) (g : GraphRef) :
    GraphOK (Graph.clearCache w g) g ∧
    (∀ (k : Nat) (p : Ptr), ((Graph.clearCache w g).graphs g).nodes[k]? = some p →
      ∀ id ∈ (Graph.clearCache w g).operandIds p, 0 ≤ id ∧ id.toNat < k) ∧
    CacheOK (Graph.clearCache w g) g ∧
    (Graph.clearCache w g).operandIds = w.operandIds ∧
    ((Graph.clearCache w g).graphs g).nodes = (w.graphs g).nodes ∧
    ((Graph.clearCache w g).graphs g).maxID = (w.graphs g).maxID := by
  have hn : ((Graph.clearCache w g).graphs g).nodes = (w.graphs g).nodes := by
    simp [Graph.clearCache, World.setGraph]
  have hm : ((Graph.clearCache w g).graphs g).maxID = (w.graphs g).maxID := by
    simp [Graph.clearCache, World.setGraph]
  have hc : ((Graph.clearCache w g).graphs g).cache = Cache.void := by
    simp [Graph.clearCache, World.setGraph, Cache.void]
  have hd : (Graph.clearCache w g).operandIds = w.operandIds := rfl
  have hf : Frame w (Graph.clearCache w g) := Frame.setGraph w g _ rfl rfl rfl
  refine ⟨(hI.inv_frame hf).2 g, ?_, ?_, hd, hn, hm⟩
  · intro k p hk
    rw [hn] at hk
    rw [hd]
    exact hW.topo hI g k p hk
  · refine ⟨0, by rw [hc]; rfl, Nat.zero_le _, ?_⟩
    rw [hc, List.take_zero]
    exact HeightsOK.void _

/-! ### The node a constructor creates -/

theorem Node.TimeStep_setID (n : Node) (id : Int) : (n.setID id).TimeStep = n.TimeStep := by
  cases n <;> rfl

theorem Node.isVariable_setID (n : Node) (id : Int) : (n.setID id).isVariable = n.isVariable := by
  cases n <;> rfl

/-- The object `insert` leaves at the address of a node that was allocated for it. -/
theorem Graph.allocInsert_fields (w : World) (g : GraphRef) (n : Node) :
    (Graph.insert (w.alloc n).1 g (w.alloc n).2).2 = w.nextPtr ∧
    (Graph.insert (w.alloc n).1 g (w.alloc n).2).1.heap w.nextPtr =
      n.setID ((w.graphs g).maxID + 1) ∧
    (∀ q, q ≠ w.nextPtr → (Graph.insert (w.alloc n).1 g (w.alloc n).2).1.heap q = w.heap q) ∧
    ((Graph.insert (w.alloc n).1 g (w.alloc n).2).1.graphs g).nodes =
      (w.graphs g).nodes ++ [w.nextPtr] ∧
    (∀ g1, g1 ≠ g → (Graph.insert (w.alloc n).1 g (w.alloc n).2).1.graphs g1 = w.graphs g1) ∧
    (Graph.insert (w.alloc n).1 g (w.alloc n).2).1.ext = w.ext := by
  obtain ⟨hheap, _, _, hgr, hnodes, _⟩ := Graph.insert_fields (w.alloc n).1 g (w.alloc n).2
  refine ⟨rfl, ?_, fun q hq => ?_, hnodes, hgr, rfl⟩
  · have := hheap w.nextPtr
    rw [this]
    simp [World.alloc]
  · have := hheap q
    rw [this]
    simp [World.alloc, hq, Function.update_noteq hq]

/-- The Variable that is allocated and inserted, as its accessors show it. -/
theorem Graph.variable_created (w : World) (g : GraphRef) (x : Variable) :
    ((Graph.insert (w.alloc (.ofVariable x)).1 g w.nextPtr).1.heap w.nextPtr).isVariable = true ∧
    (Graph.insert (w.alloc (.ofVariable x)).1 g w.nextPtr).1.Value w.nextPtr = x.value ∧
    (Graph.insert (w.alloc (.ofVariable x)).1 g w.nextPtr).1.RequiresGrad w.nextPtr =
      x.requiresGrad ∧
    (Graph.insert (w.alloc (.ofVariable x)).1 g w.nextPtr).1.Grad w.nextPtr = x.grad := by
  have hself := (Graph.allocInsert_fields w g (.ofVariable x)).2.1
  have hself2 : (Graph.insert (w.alloc (.ofVariable x)).1 g w.nextPtr).1.heap w.nextPtr =
      (Node.ofVariable x).setID ((w.graphs g).maxID + 1) := hself
  refine ⟨?_, ?_, ?_, ?_⟩
  · rw [hself2]; rfl
  · rw [World.Value_eq]; rw [hself2]; rfl
  · rw [World.RequiresGrad_eq]; rw [hself2]; rfl
  · rw [World.Grad_eq]; rw [hself2]; rfl

/-! ### `ZeroGrad` -/

theorem Node.sameStructure_TimeStep {a b : Node} (h : a.sameStructure b) :
    b.TimeStep = a.TimeStep := by
  cases a <;> cases b <;> simp_all [Node.sameStructure, Node.TimeStep]

/-- What `ZeroGrad()` of a `GradValue` leaves: every node object and every external
object holds the value it held, and the gradient it held or none; no graph object
changes; and the gradient read through the wrappers is nil. -/
theorem World.zeroGradOf_spec (w : World) : ∀ (fuel : Nat) (t : Wrapped),
    (∀ q, ((w.zeroGradOf fuel t).heap q).ownValue = (w.heap q).ownValue ∧
      (((w.zeroGradOf fuel t).heap q).ownGrad = (w.heap q).ownGrad ∨
        ((w.zeroGradOf fuel t).heap q).ownGrad = none)) ∧
    (∀ r, ((w.zeroGradOf fuel t).ext r).value = (w.ext r).value ∧
      (((w.zeroGradOf fuel t).ext r).grad = (w.ext r).grad ∨
        ((w.zeroGradOf fuel t).ext r).grad = none)) ∧
    (w.zeroGradOf fuel t).graphs = w.graphs ∧
    (w.zeroGradOf fuel t).gradOf fuel t = none := by
  have hext : ∀ (fuel : Nat) (r : ExtRef),
      (∀ q, (({ w with ext := Function.update w.ext r { w.ext r with grad := none } } :
          World).heap q).ownValue = (w.heap q).ownValue ∧
        ((({ w with ext := Function.update w.ext r { w.ext r with grad := none } } :
            World).heap q).ownGrad = (w.heap q).ownGrad ∨
          (({ w with ext := Function.update w.ext r { w.ext r with grad := none } } :
            World).heap q).ownGrad = none)) ∧
      (∀ r1, (Function.update w.ext r { w.ext r with grad := none } r1).value =
          (w.ext r1).value ∧
        ((Function.update w.ext r { w.ext r with grad := none } r1).grad = (w.ext r1).grad ∨
          (Function.update w.ext r { w.ext r with grad := none } r1).grad = none)) := by
    intro fuel r
    refine ⟨fun q => ⟨rfl, Or.inl rfl⟩, fun r1 => ?_⟩
    by_cases e : r1 = r
    · subst e; simp
    · simp [Function.update_noteq e]
  have hset : ∀ (q : Ptr) (n : Node), n.ownValue = (w.heap q).ownValue → n.ownGrad = none →
      ∀ q1, (((w.setNode q n).heap q1).ownValue = (w.heap q1).ownValue ∧
        (((w.setNode q n).heap q1).ownGrad = (w.heap q1).ownGrad ∨
          ((w.setNode q n).heap q1).ownGrad = none)) := by
    intro q n hv hg q1
    by_cases e : q1 = q
    · subst e; simp [World.setNode, hv, hg]
    · simp [World.setNode, Function.update_noteq e]
  intro fuel
  induction fuel with
  | zero =>
    intro t
    cases t with
    | ext r =>
      refine ⟨(hext 0 r).1, (hext 0 r).2, rfl, ?_⟩
      simp [World.zeroGradOf, World.gradOf]
    | node q => exact ⟨fun _ => ⟨rfl, Or.inl rfl⟩, fun _ => ⟨rfl, Or.inl rfl⟩, rfl, rfl⟩
  | succ fuel ih =>
    intro t
    cases t with
    | ext r =>
      refine ⟨(hext 0 r).1, (hext 0 r).2, rfl, ?_⟩
      simp [World.zeroGradOf, World.gradOf]
    | node q =>
      cases ha : w.heap q with
      | ofVariable v =>
        have e : w.zeroGradOf (fuel + 1) (.node q) =
            w.setNode q (.ofVariable { v with grad := none }) := by
          simp only [World.zeroGradOf, ha]
        rw [e]
        refine ⟨hset q _ (by rw [ha]; rfl) rfl, fun _ => ⟨rfl, Or.inl rfl⟩, rfl, ?_⟩
        simp [World.gradOf, World.setNode]
      | ofOperator o =>
        have e : w.zeroGradOf (fuel + 1) (.node q) =
            w.setNode q (.ofOperator { o with grad := none }) := by
          simp only [World.zeroGradOf, ha]
        rw [e]
        refine ⟨hset q _ (by rw [ha]; rfl) rfl, fun _ => ⟨rfl, Or.inl rfl⟩, rfl, ?_⟩
        simp [World.gradOf, World.setNode]
      | ofWrapper x =>
        by_cases hx : x.wrapGrad = true
        · have e : w.zeroGradOf (fuel + 1) (.node q) = w.zeroGradOf fuel x.GradValue := by
            simp only [World.zeroGradOf, ha, hx, if_true]
          rw [e]
          obtain ⟨i1, i2, i3, i4⟩ := ih x.GradValue
          refine ⟨i1, i2, i3, ?_⟩
          obtain ⟨y, hy, hy1, hy2⟩ := Node.sameStructure_wrapper
            ((Calm.calm_zeroGradOf w fuel x.GradValue).1 q) ha
          simp only [World.gradOf, hy, hy1, hy2, hx, if_true]
          exact i4
        · have e : w.zeroGradOf (fuel + 1) (.node q) = w := by
            simp only [World.zeroGradOf, ha, hx]
            rfl
          rw [e]
          refine ⟨fun _ => ⟨rfl, Or.inl rfl⟩, fun _ => ⟨rfl, Or.inl rfl⟩, rfl, ?_⟩
          simp only [World.gradOf, ha, hx]
          rfl

/-- One call of a node's `ZeroGrad`: the node has no gradient afterwards, a node
without gradient stays so, and no value and no graph object changes. -/
theorem World.zeroGradNode_facts (w : World) (q : Ptr) :
    (w.zeroGradNode q).Grad q = none ∧
    (∀ p, w.Grad p = none → (w.zeroGradNode q).Grad p = none) ∧
    (∀ p, (w.zeroGradNode q).Value p = w.Value p) ∧
    (w.zeroGradNode q).graphs = w.graphs := by
  obtain ⟨h1, h2, h3, h4⟩ := World.zeroGradOf_spec w (q + 1) (.node q)
  have hs := (Calm.calm_zeroGradOf w (q + 1) (.node q)).1
  refine ⟨h4, fun p hp => ?_, fun p => ?_, h3⟩
  · rcases World.gradOf_or_none hs (fun q1 => (h1 q1).2) (fun r => (h2 r).2) (p + 1) (.node p)
      with h | h
    · exact h.trans hp
    · exact h
  · exact World.valueOf_congr hs (fun q1 => (h1 q1).1) (fun r => (h2 r).1) (p + 1) (.node p)

/-- The loop of `Graph.ZeroGrad` over a list of nodes. -/
theorem World.zeroGrad_fold : ∀ (l : List Ptr) (a : World),
    (∀ p ∈ l, (l.foldl (fun acc node => acc.zeroGradNode node) a).Grad p = none) ∧
    (∀ p, a.Grad p = none → (l.foldl (fun acc node => acc.zeroGradNode node) a).Grad p = none) ∧
    (∀ p, (l.foldl (fun acc node => acc.zeroGradNode node) a).Value p = a.Value p) ∧
    (l.foldl (fun acc node => acc.zeroGradNode node) a).graphs = a.graphs := by
  intro l
  induction l with
  | nil => intro a; exact ⟨fun p hp => absurd hp (List.not_mem_nil _), fun _ h => h, fun _ => rfl, rfl⟩
  | cons q rest ih =>
    intro a
    obtain ⟨h1, h2, h3, h4⟩ := a.zeroGradNode_facts q
    obtain ⟨i1, i2, i3, i4⟩ := ih (a.zeroGradNode q)
    refine ⟨fun p hp => ?_, fun p hp => i2 p (h2 p hp), fun p => (i3 p).trans (h3 p),
      i4.trans h4⟩
    rcases List.mem_cons.mp hp with e | hm
    · rw [e]; exact i2 q h1
    · exact i1 p hm

/-! ### `PropagateGrad` -/

theorem DType.zero_add (a : DType) : DType.add DType.zero a = a := by
  cases a with
  | nan => rfl
  | num v => simp [DType.add, DType.zero]

theorem zipWith_zero_add : ∀ (l : List DType) (n : Nat), l.length ≤ n →
    List.zipWith DType.add (List.replicate n DType.zero) l = l := by
  intro l
  induction l with
  | nil => intro n _; simp
  | cons a rest ih =>
    intro n hn
    cases n with
    | zero => simp at hn
    | succ n =>
      rw [List.replicate_succ, List.zipWith_cons_cons, DType.zero_add,
        ih n (Nat.le_of_succ_le_succ hn)]

theorem SameDims.dims {a b : Matrix} (h : SameDims a b = true) :
    a.rows = b.rows ∧ a.cols = b.cols := by
  simpa [SameDims] using h

/-- A zeroed buffer of the shape of `v` plus a gradient of that shape is the gradient. -/
theorem Matrix.ZerosLike_AddInPlace (v gx : Matrix) (hg : gx.WF) (hd : SameDims v gx = true) :
    v.ZerosLike.AddInPlace gx = gx := by
  obtain ⟨hr, hc⟩ := SameDims.dims hd
  have hlen : gx.data.length ≤ v.Size := by
    rw [hg]; unfold Matrix.Size; rw [hr, hc]
  cases gx with
  | mk r c d =>
    simp only [Matrix.AddInPlace, Matrix.ZerosLike]
    simp only at hr hc hlen
    rw [zipWith_zero_add d v.Size hlen, hr, hc]

/-- Two calls of `PropagateGrad` on a `GradValue` that takes part in gradient
propagation, has the value `v` and no gradient: the first leaves the gradient `g1`,
the second the sum; values and the structure of the node objects stay. -/
theorem World.propagateGradOf_twice (v g1 g2 : Matrix) (h1 : g1.WF)
    (hd1 : SameDims v g1 = true) :
    ∀ (fuel : Nat) (w : World) (t : Wrapped), w.acceptsGradOf fuel t = true →
      w.valueOf fuel t = some v → w.gradOf fuel t = none →
      ∃ w1 w2, w.propagateGradOf g1 fuel t = .ok w1 () ∧ w1.gradOf fuel t = some g1 ∧
        w1.propagateGradOf g2 fuel t = .ok w2 () ∧
        w2.gradOf fuel t = some (g1.AddInPlace g2) ∧
        w1.valueOf fuel t = some v ∧ w2.valueOf fuel t = some v ∧
        (∀ q, (w.heap q).sameStructure (w1.heap q)) ∧
        (∀ q, (w1.heap q).sameStructure (w2.heap q)) := by
  have hz : v.ZerosLike.AddInPlace g1 = g1 := Matrix.ZerosLike_AddInPlace v g1 h1 hd1
  have hh : ∀ (a : World) (q : Ptr) (n : Node), (a.setNode q n).heap q = n :=
    fun a q n => by simp [World.setNode]
  have hext : ∀ (fuel : Nat) (w : World) (r : ExtRef),
      w.valueOf fuel (.ext r) = some v → w.gradOf fuel (.ext r) = none →
      ∃ w1 w2, w.propagateGradOf g1 fuel (.ext r) = .ok w1 () ∧
        w1.gradOf fuel (.ext r) = some g1 ∧
        w1.propagateGradOf g2 fuel (.ext r) = .ok w2 () ∧
        w2.gradOf fuel (.ext r) = some (g1.AddInPlace g2) ∧
        w1.valueOf fuel (.ext r) = some v ∧ w2.valueOf fuel (.ext r) = some v ∧
        (∀ q, (w.heap q).sameStructure (w1.heap q)) ∧
        (∀ q, (w1.heap q).sameStructure (w2.heap q)) := by
    intro fuel w r hv hg
    have hxv : (w.ext r).value = some v := by cases fuel <;> exact hv
    have hxg : (w.ext r).grad = none := by cases fuel <;> exact hg
    have e1 : w.propagateGradOf g1 fuel (.ext r) =
        .ok { w with ext := Function.update w.ext r { w.ext r with grad := some g1 } } () := by
      cases fuel <;> simp only [World.propagateGradOf, accumulateGrad, hxv, hxg, hz]
    have e2 : World.propagateGradOf
          { w with ext := Function.update w.ext r { w.ext r with grad := some g1 } } g2 fuel
          (.ext r) =
        .ok { w with
          ext := Function.update w.ext r { w.ext r with grad := some (g1.AddInPlace g2) } }
          () := by
      cases fuel <;>
        simp only [World.propagateGradOf, accumulateGrad, Function.update_same,
          Function.update_idem]
    refine ⟨_, _, e1, ?_, e2, ?_, ?_, ?_, fun q => Node.sameStructure_refl _,
      fun q => Node.sameStructure_refl _⟩
    · cases fuel <;> simp [World.gradOf]
    · cases fuel <;> simp [World.gradOf]
    · cases fuel <;> simp [World.valueOf, hxv]
    · cases fuel <;> simp [World.valueOf, hxv]
  intro fuel
  induction fuel with
  | zero =>
    intro w t hacc hv hg
    cases t with
    | ext r => exact hext 0 w r hv hg
    | node q => exact Bool.noConfusion hacc
  | succ fuel ih =>
    intro w t hacc hv hg
    cases t with
    | ext r => exact hext (fuel + 1) w r hv hg
    | node q =>
      cases hq : w.heap q with
      | ofVariable x =>
        have hxv : x.value = some v := by simpa [World.valueOf, hq] using hv
        have hxg : x.grad = none := by simpa [World.gradOf, hq] using hg
        have e1 : w.propagateGradOf g1 (fuel + 1) (.node q) =
            .ok (w.setNode q (.ofVariable { x with grad := some g1 })) () := by
          simp only [World.propagateGradOf, hq, accumulateGrad, hxv, hxg, hz]
        have e2 : (w.setNode q (.ofVariable { x with grad := some g1 })).propagateGradOf g2
              (fuel + 1) (.node q) =
            .ok ((w.setNode q (.ofVariable { x with grad := some g1 })).setNode q
              (.ofVariable { x with grad := some (g1.AddInPlace g2) })) () := by
          simp only [World.propagateGradOf, hh, accumulateGrad]
        refine ⟨_, _, e1, ?_, e2, ?_, ?_, ?_, ?_, ?_⟩
        · simp only [World.gradOf, hh]
        · simp only [World.gradOf, hh]
        · simp only [World.valueOf, hh]; exact hxv
        · simp only [World.valueOf, hh]; exact hxv
        · exact (Calm.calm_setNode w q _ (by rw [hq]; simp [Node.sameStructure])).1
        · exact (Calm.calm_setNode _ q _ (by rw [hh]; simp [Node.sameStructure])).1
      | ofOperator x =>
        have hxv : x.value = some v := by simpa [World.valueOf, hq] using hv
        have hxg : x.grad = none := by simpa [World.gradOf, hq] using hg
        have e1 : w.propagateGradOf g1 (fuel + 1) (.node q) =
            .ok (w.setNode q (.ofOperator { x with grad := some g1 })) () := by
          simp only [World.propagateGradOf, hq, accumulateGrad, hxv, hxg, hz]
        have e2 : (w.setNode q (.ofOperator { x with grad := some g1 })).propagateGradOf g2
              (fuel + 1) (.node q) =
            .ok ((w.setNode q (.ofOperator { x with grad := some g1 })).setNode q
              (.ofOperator { x with grad := some (g1.AddInPlace g2) })) () := by
          simp only [World.propagateGradOf, hh, accumulateGrad]
        refine ⟨_, _, e1, ?_, e2, ?_, ?_, ?_, ?_, ?_⟩
        · simp only [World.gradOf, hh]
        · simp only [World.gradOf, hh]
        · simp only [World.valueOf, hh]; exact hxv
        · simp only [World.valueOf, hh]; exact hxv
        · exact (Calm.calm_setNode w q _ (by rw [hq]; simp [Node.sameStructure])).1
        · exact (Calm.calm_setNode _ q _ (by rw [hh]; simp [Node.sameStructure])).1
      | ofWrapper x =>
        have hacc1 : x.wrapGrad = true ∧ w.acceptsGradOf fuel x.GradValue = true := by
          simpa [World.acceptsGradOf, hq] using hacc
        have hx := hacc1.1
        have hv1 : w.valueOf fuel x.GradValue = some v := by
          simpa [World.valueOf, hq] using hv
        have hg1 : w.gradOf fuel x.GradValue = none := by
          simpa [World.gradOf, hq, hx] using hg
        obtain ⟨w1, w2, i1, i2, i3, i4, i5, i6, i7, i8⟩ := ih w x.GradValue hacc1.2 hv1 hg1
        obtain ⟨y, hy, hy1, hy2⟩ := Node.sameStructure_wrapper (i7 q) hq
        obtain ⟨z, hz0, hz1, hz2⟩ := Node.sameStructure_wrapper (i8 q) hy
        refine ⟨w1, w2, ?_, ?_, ?_, ?_, ?_, ?_, i7, i8⟩
        · simp only [World.propagateGradOf, hq, hx, if_true]; exact i1
        · simp only [World.gradOf, hy, hy1, hy2, hx, if_true]; exact i2
        · simp only [World.propagateGradOf, hy, hy1, hy2, hx, if_true]; exact i3
        · simp only [World.gradOf, hz0, hz1, hz2, hy1, hy2, hx, if_true]; exact i4
        · simp only [World.valueOf, hy, hy1]; exact i5
        · simp only [World.valueOf, hz0, hz1, hy1]; exact i6

/-! ### The time-step -/

/-- The time-step an allocated and inserted node records is the one it was built with. -/
theorem Graph.allocInsert_TimeStep (w : World) (g : GraphRef) (n : Node) :
    ((Graph.insert (w.alloc n).1 g (w.alloc n).2).1.heap
      (Graph.insert (w.alloc n).1 g (w.alloc n).2).2).TimeStep = n.TimeStep := by
  obtain ⟨hret, hself, _⟩ := Graph.allocInsert_fields w g n
  rw [hret, hself, Node.TimeStep_setID]

/-- The time-step an operator records when it is written into a shell from the pool and
inserted. -/
theorem Graph.shell_TimeStep (w : World) (g : GraphRef) (o : Operator) (pick : Nat) :
    ((Graph.insert ((w.poolGet pick).1.setNode (w.poolGet pick).2 (.ofOperator o)) g
      (w.poolGet pick).2).1.heap (w.poolGet pick).2).TimeStep = o.timeStep := by
  obtain ⟨hheap, _⟩ := Graph.insert_fields
    ((w.poolGet pick).1.setNode (w.poolGet pick).2 (.ofOperator o)) g (w.poolGet pick).2
  rw [hheap, if_pos rfl, Node.TimeStep_setID]
  simp [World.setNode, Node.TimeStep]

/-- Every constructor records the current time-step of the graph in the node it
creates. -/
theorem Graph.created_TimeStep (a : World) (g : GraphRef) :
    (∀ value rg, ((Graph.NewVariable a g value rg).1.heap
      (Graph.NewVariable a g value rg).2).TimeStep = Graph.TimeStep a g) ∧
    (∀ value rg name, ((Graph.NewVariableWithName a g value rg name).1.heap
      (Graph.NewVariableWithName a g value rg name).2).TimeStep = Graph.TimeStep a g) ∧
    (∀ value, ((Graph.NewWrap a g value).1.heap
      (Graph.NewWrap a g value).2).TimeStep = Graph.TimeStep a g) ∧
    (∀ value, ((Graph.NewWrapNoGrad a g value).1.heap
      (Graph.NewWrapNoGrad a g value).2).TimeStep = Graph.TimeStep a g) ∧
    (∀ f operands pick w1 n, Graph.NewOperator a g f operands pick = .ok w1 n →
      (w1.heap n).TimeStep = Graph.TimeStep a g) := by
  refine ⟨fun value rg => ?_, fun value rg name => ?_, fun value => ?_, fun value => ?_, ?_⟩
  · exact Graph.allocInsert_TimeStep a g _
  · exact Graph.allocInsert_TimeStep a g _
  · exact Graph.allocInsert_TimeStep a g _
  · exact Graph.allocInsert_TimeStep a g _
  · intro f operands pick w1 n h
    cases hany : operands.any (fun o => decide ((a.heap o).Graph ≠ some g)) with
    | true =>
      rw [Graph.NewOperator_foreign hany] at h
      exact Outcome.noConfusion h
    | false =>
      cases he : (a.graphs g).eagerExecution with
      | false =>
        rw [Graph.NewOperator_lazy hany he] at h
        injection h with h1 h2
        subst h1; subst h2
        rw [Graph.shell_TimeStep, World.poolGet_graphs]
        rfl
      | true =>
        cases hf : f.Forward a.operand with
        | error msg =>
          rw [Graph.NewOperator_eager_panic hany he hf] at h
          exact Outcome.noConfusion h
        | ok v =>
          rw [Graph.NewOperator_eager_ok hany he hf] at h
          injection h with h1 h2
          subst h1; subst h2
          rw [Graph.shell_TimeStep, World.poolGet_graphs]
          rfl

/-- Repeated `IncTimeStep`: the counter grows by the number of calls and nothing else
changes in the node objects and node lists. -/
theorem Graph.IncTimeStep_iterate (g : GraphRef) : ∀ (k : Nat) (w : World),
    Graph.TimeStep ((fun a => Graph.IncTimeStep a g)^[k] w) g = Graph.TimeStep w g + (k : Int) ∧
    ((fun a => Graph.IncTimeStep a g)^[k] w).heap = w.heap ∧
    (∀ g1, (((fun a => Graph.IncTimeStep a g)^[k] w).graphs g1).nodes = (w.graphs g1).nodes ∧
      (((fun a => Graph.IncTimeStep a g)^[k] w).graphs g1).maxID = (w.graphs g1).maxID) := by
  intro k
  induction k with
  | zero => intro w; simp
  | succ k ih =>
    intro w
    rw [Function.iterate_succ_apply']
    obtain ⟨h1, h2, h3⟩ := ih w
    have hf := Frame.IncTimeStep ((fun a => Graph.IncTimeStep a g)^[k] w) g
    refine ⟨?_, ?_, fun g1 => ?_⟩
    · have : Graph.TimeStep (Graph.IncTimeStep ((fun a => Graph.IncTimeStep a g)^[k] w) g) g =
          Graph.TimeStep ((fun a => Graph.IncTimeStep a g)^[k] w) g + 1 := by
        simp [Graph.TimeStep, Graph.IncTimeStep, World.setGraph]
      rw [this, h1]
      push_cast
      ring
    · exact h2
    · exact ⟨(hf.2.2.2 g1).1.trans (h3 g1).1, (hf.2.2.2 g1).2.1.trans (h3 g1).2⟩

/-! ### Shape compatibility and the failures of `Min.Backward` -/

/-- Shape compatibility is transitive in this sense: two matrices compatible with each
other are compatible with the same matrices. -/
theorem Compatible.congr_left {a b c : Matrix} (hab : Compatible a b = true) :
    Compatible a c = Compatible b c := by
  cases a with
  | mk ar ac ad =>
    cases b with
    | mk br bc bd =>
      cases c with
      | mk cr cc cd =>
        simp only [Compatible, SameDims, VectorsOfSameSize, IsVector, Matrix.Size,
          Bool.or_eq_true, Bool.and_eq_true, beq_iff_eq] at hab
        rw [Bool.eq_iff_iff]
        simp only [Compatible, SameDims, VectorsOfSameSize, IsVector, Matrix.Size,
          Bool.or_eq_true, Bool.and_eq_true, beq_iff_eq]
        rcases hab with ⟨h1, h2⟩ | ⟨⟨hs, hva⟩, hvb⟩
        · subst h1; subst h2; rfl
        · constructor
          · rintro (⟨h1, h2⟩ | ⟨⟨hs2, _⟩, hvc⟩)
            · subst h1; subst h2
              exact Or.inr ⟨⟨hs.symm, hvb⟩, hva⟩
            · exact Or.inr ⟨⟨hs.symm.trans hs2, hvb⟩, hvc⟩
          · rintro (⟨h1, h2⟩ | ⟨⟨hs2, _⟩, hvc⟩)
            · subst h1; subst h2
              exact Or.inr ⟨⟨hs, hva⟩, hvb⟩
            · exact Or.inr ⟨⟨hs.trans hs2, hva⟩, hvc⟩

/-- A loop of `Min.Backward` fails only with an index out of range. -/
theorem Min.gradLoop_error (a b gy : List DType) : ∀ (fuel i : Nat) (gx : List DType) (e : String),
    Min.gradLoop a b gy fuel i gx = .error e → e = indexMsg := by
  intro fuel
  induction fuel with
  | zero => intro i gx e h; simp [Min.gradLoop] at h
  | succ fuel ih =>
    intro i gx e h
    unfold Min.gradLoop at h
    split at h
    · split at h
      · split at h
        · split at h
          · exact ih _ _ _ h
          · injection h with h; exact h.symm
        · injection h with h; exact h.symm
      · exact ih _ _ _ h
    · injection h with h; exact h.symm

/-- When the shape guard of `Min.Backward` passes, the run ends without panic or with an
index out of range. -/
theorem Min.Backward_past_guard (r1 r2 : Nat) (rg1 rg2 : Bool) (x1v x2v gy : Matrix)
    (h : (!(SameDims x1v gy || VectorsOfSameSize x1v gy) &&
      !(SameDims x2v gy || VectorsOfSameSize x2v gy)) = false) :
    (Min.Backward (NewMin ⟨r1, some x1v, rg1⟩ ⟨r2, some x2v, rg2⟩) gy).panicked = none ∨
    (Min.Backward (NewMin ⟨r1, some x1v, rg1⟩ ⟨r2, some x2v, rg2⟩) gy).panicked =
      some indexMsg := by
  have e1 : ∀ a b gx, (∃ out, Min.gradLoop a b gy.data gy.Size 0 gx = .ok out) ∨
      Min.gradLoop a b gy.data gy.Size 0 gx = .error indexMsg := by
    intro a b gx
    cases hl : Min.gradLoop a b gy.data gy.Size 0 gx with
    | ok out => exact Or.inl ⟨out, rfl⟩
    | error e => rw [Min.gradLoop_error _ _ _ _ _ _ e hl]; exact Or.inr rfl
  simp only [Min.Backward, NewMin, h, Bool.false_eq_true, if_false]
  rcases e1 x1v.data x2v.data x1v.ZerosLike.data with ⟨o1, ho1⟩ | ho1 <;>
    rcases e1 x2v.data x1v.data x2v.ZerosLike.data with ⟨o2, ho2⟩ | ho2 <;>
    cases rg1 <;> cases rg2 <;> simp [ho1, ho2]

theorem DType.lt_asymm {a b : DType} (h : DType.lt a b = true) : DType.lt b a = false := by
  cases a <;> cases b <;> simp_all [DType.lt]
  omega

theorem DType.add_zero (a : DType) : DType.add a DType.zero = a := by
  cases a with
  | nan => rfl
  | num v => simp [DType.add, DType.zero]

theorem DType.lt_or_lt_of_ne {va vb : Int} (h : va ≠ vb) :
    DType.lt (.num va) (.num vb) = true ∨ DType.lt (.num vb) (.num va) = true := by
  simp only [DType.lt, decide_eq_true_eq]
  omega

/-! ### The shell `NewOperator` takes from the pool -/

theorem List.any_congr_mem {α : Type} {l : List α} {f h : α → Bool}
    (hfh : ∀ x ∈ l, f x = h x) : l.any f = l.any h := by
  induction l with
  | nil => rfl
  | cons a rest ih =>
    simp only [List.any_cons]
    rw [hfh a (List.mem_cons_self _ _), ih (fun x hx => hfh x (List.mem_cons_of_mem _ hx))]

/-- Taking the shell `p` from the pool and overwriting it gives the same memory whatever
the shell held before. -/
theorem World.poolGet_setNode (a : World) (p : Ptr) (n1 : Node) (pick : Nat)
    (hp : a.pool[pick]? = some p) :
    ((a.setNode p n1).poolGet pick).2 = p ∧ (a.poolGet pick).2 = p ∧
    (∀ X : Node, ((a.setNode p n1).poolGet pick).1.setNode p X =
      (a.poolGet pick).1.setNode p X) := by
  have hp1 : (a.setNode p n1).pool[pick]? = some p := hp
  refine ⟨?_, ?_, fun X => ?_⟩
  · simp [World.poolGet, hp1]
  · simp [World.poolGet, hp]
  · simp only [World.poolGet, hp1, hp]
    simp [World.setNode]

/-- The operator object `insert` leaves in a shell. -/
theorem Graph.shell_object (w : World) (g : GraphRef) (o : Operator) (x : Ptr) :
    (Graph.insert (w.setNode x (.ofOperator o)) g x).1.heap x =
      .ofOperator { o with id := (w.graphs g).maxID + 1 } := by
  obtain ⟨hheap, _⟩ := Graph.insert_fields (w.setNode x (.ofOperator o)) g x
  rw [hheap, if_pos rfl]
  simp [World.setNode, Node.setID]

/-- Overwriting a node object that no wrapper wraps changes no read of another node. -/
theorem World.reads_setNode_unwrapped (w : World) (p : Ptr) (n1 : Node)
    (hwrap : ∀ q x, w.heap q = .ofWrapper x → x.GradValue ≠ .node p) :
    ∀ (fuel : Nat) (t : Wrapped), t ≠ .node p →
      (w.setNode p n1).valueOf fuel t = w.valueOf fuel t ∧
      (w.setNode p n1).gradOf fuel t = w.gradOf fuel t ∧
      (w.setNode p n1).requiresGradOf fuel t = w.requiresGradOf fuel t := by
  intro fuel
  induction fuel with
  | zero =>
    intro t ht
    cases t with
    | ext r => exact ⟨rfl, rfl, rfl⟩
    | node q => exact ⟨rfl, rfl, rfl⟩
  | succ fuel ih =>
    intro t ht
    cases t with
    | ext r => exact ⟨rfl, rfl, rfl⟩
    | node q =>
      have hq : q ≠ p := fun e => ht (by rw [e])
      have hheap : (w.setNode p n1).heap q = w.heap q := by
        simp [World.setNode, Function.update_noteq hq]
      simp only [World.valueOf, World.gradOf, World.requiresGradOf, hheap]
      cases ha : w.heap q with
      | ofVariable v => exact ⟨rfl, rfl, rfl⟩
      | ofOperator o => exact ⟨rfl, rfl, rfl⟩
      | ofWrapper x =>
        obtain ⟨i1, i2, i3⟩ := ih x.GradValue (hwrap q x ha)
        simp only [i1, i2, i3, and_self]

theorem World.operand_setNode_unwrapped (w : World) (p : Ptr) (n1 : Node)
    (hwrap : ∀ q x, w.heap q = .ofWrapper x → x.GradValue ≠ .node p) (q : Ptr) (hq : q ≠ p) :
    (w.setNode p n1).operand q = w.operand q := by
  obtain ⟨i1, _, i3⟩ := World.reads_setNode_unwrapped w p n1 hwrap (q + 1) (.node q)
    (fun e => hq (Wrapped.node.inj e))
  simp only [World.operand, World.Value, World.RequiresGrad, i1, i3]

/-! ### `groupNodesByHeight` reads the structure of the nodes only -/

theorem Graph.heightOverOperands_congr {w w1 : World}
    (hs : ∀ p, (w.heap p).sameStructure (w1.heap p)) (height : List Int) :
    ∀ (ops : List Ptr) (h : Int),
      Graph.heightOverOperands w1 height ops h = Graph.heightOverOperands w height ops h := by
  intro ops
  induction ops with
  | nil => intro h; rfl
  | cons q rest ih =>
    intro h
    have hq := hs q
    cases ha : w.heap q with
    | ofVariable a =>
      cases hb : w1.heap q with
      | ofVariable b => simp only [Graph.heightOverOperands, ha, hb, ih]
      | ofOperator b => rw [ha, hb] at hq; exact False.elim hq
      | ofWrapper b => rw [ha, hb] at hq; exact False.elim hq
    | ofWrapper a =>
      cases hb : w1.heap q with
      | ofVariable b => rw [ha, hb] at hq; exact False.elim hq
      | ofOperator b => rw [ha, hb] at hq; exact False.elim hq
      | ofWrapper b => simp only [Graph.heightOverOperands, ha, hb, ih]
    | ofOperator a =>
      cases hb : w1.heap q with
      | ofVariable b => rw [ha, hb] at hq; exact False.elim hq
      | ofWrapper b => rw [ha, hb] at hq; exact False.elim hq
      | ofOperator b =>
        rw [ha, hb] at hq
        have hid : b.id = a.id := hq.2.1.symm
        simp only [Graph.heightOverOperands, ha, hb, hid]
        cases indexInt height a.id with
        | none => rfl
        | some ho => exact ih _

theorem Graph.groupLoop_congr {w w1 : World}
    (hs : ∀ p, (w.heap p).sameStructure (w1.heap p)) :
    ∀ (l : List Ptr) (groups : List (List Ptr)) (height : List Int),
      Graph.groupLoop w1 l groups height = Graph.groupLoop w l groups height := by
  intro l
  induction l with
  | nil => intro groups height; rfl
  | cons q rest ih =>
    intro groups height
    have hid : (w1.heap q).ID = (w.heap q).ID := Node.sameStructure_ID (hs q)
    have hres : (match w1.heap q with
        | .ofOperator o => Graph.heightOverOperands w1 height o.operands 0
        | _ => .ok 0) =
        (match w.heap q with
        | .ofOperator o => Graph.heightOverOperands w height o.operands 0
        | _ => .ok 0) := by
      have hq := hs q
      cases ha : w.heap q with
      | ofVariable a =>
        cases hb : w1.heap q with
        | ofVariable b => rfl
        | ofOperator b => rw [ha, hb] at hq; exact False.elim hq
        | ofWrapper b => rw [ha, hb] at hq
      | ofWrapper a =>
        cases hb : w1.heap q with
        | ofVariable b => rw [ha, hb] at hq
        | ofOperator b => rw [ha, hb] at hq; exact False.elim hq
        | ofWrapper b => rfl
      | ofOperator a =>
        cases hb : w1.heap q with
        | ofVariable b => rw [ha, hb] at hq; exact False.elim hq
        | ofWrapper b => rw [ha, hb] at hq; exact False.elim hq
        | ofOperator b =>
          rw [ha, hb] at hq
          have hop : b.operands = a.operands := hq.2.2.2.2.1.symm
          simp only [hop]
          exact Graph.heightOverOperands_congr hs height _ _
    simp only [Graph.groupLoop, hres, hid, ih]

/-- The groups `groupNodesByHeight` returns depend on the graph object and on the
structure of the node objects only, not on values and gradients. -/
theorem Graph.groupNodesByHeight_congr {w w1 : World}
    (hs : ∀ p, (w.heap p).sameStructure (w1.heap p)) (hgr : w1.graphs = w.graphs)
    (g : GraphRef) :
    (Graph.groupNodesByHeight w1 g).ret? = (Graph.groupNodesByHeight w g).ret? ∧
    (Graph.groupNodesByHeight w1 g).panicked = (Graph.groupNodesByHeight w g).panicked := by
  unfold Graph.groupNodesByHeight
  simp only [hgr, Graph.groupLoop_congr hs]
  split
  · exact ⟨rfl, rfl⟩
  · split
    · exact ⟨rfl, rfl⟩
    · split
      · exact ⟨rfl, rfl⟩
      · cases Graph.groupLoop w
          ((w.graphs g).nodes.drop ((w.graphs g).cache.maxID + 1).toNat)
          (w.graphs g).cache.nodesByHeight
          ((w.graphs g).cache.height ++ List.replicate
            ((w.graphs g).nodes.length - (w.graphs g).cache.height.length) (0 : Int)) with
        | error msg => exact ⟨rfl, rfl⟩
        | ok r => exact ⟨rfl, rfl⟩

/-! ### Insertions after a grouping -/

theorem Insertion.toStep {a b : World} (h : Insertion a b) : Step a b := by
  cases h with
  | newVariable g value rg hg => exact Step.newVariable a g value rg hg
  | newVariableWithName g value rg name hg => exact Step.newVariableWithName a g value rg name hg
  | newScalar g value hg => exact Step.newScalar a g value hg
  | newScalarWithName g value name hg => exact Step.newScalarWithName a g value name hg
  | constant g value hg => exact Step.constant a g value hg
  | newOperator g f operands pick hg => exact Step.newOperator a g f operands pick hg
  | newWrap g value hg hv => exact Step.newWrap a g value hg hv
  | newWrapNoGrad g value hg hv => exact Step.newWrapNoGrad a g value hg hv

/-- Allocating and inserting a node leaves every object that belongs to a graph as it
is. -/
theorem Graph.allocInsert_owned {w : World} (hW : Wired w) (g : GraphRef) (n : Node) :
    ∀ q g1, (w.heap q).Graph = some g1 →
      (Graph.insert (w.alloc n).1 g (w.alloc n).2).1.heap q = w.heap q := by
  intro q g1 hq
  apply (Graph.allocInsert_fields w g n).2.2.1 q
  intro e
  rw [e, hW.unalloc _ (Nat.le_refl _)] at hq
  exact Option.noConfusion hq

/-- Writing an operator into a shell from the pool and inserting it leaves every object
that belongs to a graph as it is. -/
theorem Graph.shell_owned {w : World} (hI : Inv w) (hW : Wired w) (g : GraphRef)
    (o : Operator) (pick : Nat) :
    ∀ q g1, (w.heap q).Graph = some g1 →
      (Graph.insert ((w.poolGet pick).1.setNode (w.poolGet pick).2 (.ofOperator o)) g
        (w.poolGet pick).2).1.heap q = w.heap q := by
  intro q g1 hq
  obtain ⟨hheap, _⟩ := Graph.insert_fields
    ((w.poolGet pick).1.setNode (w.poolGet pick).2 (.ofOperator o)) g (w.poolGet pick).2
  have hcases : (w.heap (w.poolGet pick).2).Graph = none ∧
      (∀ q, q ≠ (w.poolGet pick).2 → (w.poolGet pick).1.heap q = w.heap q) := by
    unfold World.poolGet
    cases hp : w.pool[pick]? with
    | some p =>
      have hm : p ∈ w.pool := List.mem_iff_getElem?.mpr ⟨pick, hp⟩
      exact ⟨(hI.1.poolFree p hm).1, fun _ _ => rfl⟩
    | none =>
      refine ⟨hW.unalloc _ (Nat.le_refl _), fun q hq => ?_⟩
      have hq2 : q ≠ w.nextPtr := hq
      simp [World.alloc, Function.update_noteq hq2]
  have hne : q ≠ (w.poolGet pick).2 := by
    intro e
    rw [e, hcases.1] at hq
    exact Option.noConfusion hq
  rw [hheap q, if_neg hne]
  show Function.update (w.poolGet pick).1.heap (w.poolGet pick).2 _ q = _
  rw [Function.update_noteq hne]
  exact hcases.2 q hne

/-- An insertion leaves every object that belongs to a graph as it is and only extends
the node lists. -/
theorem Insertion.owned {a b : World} (h : Insertion a b) (hI : Inv a) (hW : Wired a) :
    (∀ q g1, (a.heap q).Graph = some g1 → b.heap q = a.heap q) ∧
    ∀ g, (a.graphs g).nodes <+: (b.graphs g).nodes := by
  cases h with
  | newVariable g value rg hg =>
    exact ⟨Graph.allocInsert_owned hW g _, Graph.NewVariable_grows a g value rg⟩
  | newVariableWithName g value rg name hg =>
    exact ⟨Graph.allocInsert_owned hW g _, Graph.NewVariableWithName_grows a g value rg name⟩
  | newScalar g value hg =>
    exact ⟨Graph.allocInsert_owned hW g _, Graph.NewVariable_grows a g _ false⟩
  | newScalarWithName g value name hg =>
    exact ⟨Graph.allocInsert_owned hW g _, Graph.NewVariableWithName_grows a g _ false name⟩
  | constant g value hg =>
    refine ⟨?_, Graph.Constant_grows a g value⟩
    cases hm : mapGet (a.graphs g).constants value with
    | some node => rw [Graph.Constant_hit hm]; exact fun _ _ _ => rfl
    | none =>
      rw [Graph.Constant_miss hm]
      exact Graph.allocInsert_owned hW g _
  | newOperator g f operands pick hg =>
    refine ⟨?_, (hI.NewOperator g f operands pick).2⟩
    cases hany : operands.any (fun o => decide ((a.heap o).Graph ≠ some g)) with
    | true => rw [Graph.NewOperator_foreign hany]; exact fun _ _ _ => rfl
    | false =>
      cases he : (a.graphs g).eagerExecution with
      | false =>
        rw [Graph.NewOperator_lazy hany he]
        exact Graph.shell_owned hI hW g _ pick
      | true =>
        cases hf : f.Forward a.operand with
        | error msg =>
          rw [Graph.NewOperator_eager_panic hany he hf]
          exact fun _ _ _ => rfl
        | ok v =>
          rw [Graph.NewOperator_eager_ok hany he hf]
          have hcalm : Calm a { a with forwardRuns := a.forwardRuns + 1 } :=
            ⟨fun _ => Node.sameStructure_refl _, rfl, rfl, fun _ => ⟨rfl, rfl⟩⟩
          exact Graph.shell_owned (hI.inv_frame (Frame.forwardRuns a _)) (hW.calm hcalm) g _ pick
  | newWrap g value hg =>
    exact ⟨Graph.allocInsert_owned hW g _, Graph.NewWrap_grows a g value⟩
  | newWrapNoGrad g value hg =>
    exact ⟨Graph.allocInsert_owned hW g _, Graph.NewWrapNoGrad_grows a g value⟩

theorem zip_filter_map_fst {α : Type} (f : α → Int) (h : Int) : ∀ l : List α,
    ((l.zip (l.map f)).filter (fun e => decide (e.2 = h))).map Prod.fst =
      l.filter (fun p => decide (f p = h)) := by
  intro l
  induction l with
  | nil => rfl
  | cons a rest ih =>
    simp only [List.map_cons, List.zip_cons_cons]
    by_cases e : f a = h
    · rw [List.filter_cons_of_pos (by simpa using e), List.filter_cons_of_pos (by simpa using e),
        List.map_cons, ih]
    · rw [List.filter_cons_of_neg (by simpa using e), List.filter_cons_of_neg (by simpa using e),
        ih]

/-- The groups `groupNodesByHeight` returns, as a selection from the node list: group
`h` holds the nodes of cached height `h`, in list order. -/
theorem Graph.groupNodesByHeight_listing {w : World} (hI : Inv w) (hW : Wired w)
    (g : GraphRef) :
    ∃ w1 groups, Graph.groupNodesByHeight w g = .ok w1 groups ∧ w1.heap = w.heap ∧
      HeightsOK w.operandIds (w.graphs g).nodes (w1.graphs g).cache.height groups ∧
      (∀ (k : Nat) (p : Ptr), (w.graphs g).nodes[k]? = some p →
        Graph.heightOf w1 g p = (w1.graphs g).cache.height.getD k 0) ∧
      ∀ h : Nat, groups.getD h [] =
        (w.graphs g).nodes.filter (fun p => decide (Graph.heightOf w1 g p = (h : Int))) := by
  obtain ⟨w1, groups, hres, _, _, _, hH, hheap, _, _, _⟩ :=
    Graph.groupNodesByHeight_spec w g (hI.2 g) (fun k p hk => hW.topo hI g k p hk) (hW.cache g)
  have hat : ∀ (k : Nat) (p : Ptr), (w.graphs g).nodes[k]? = some p →
      Graph.heightOf w1 g p = (w1.graphs g).cache.height.getD k 0 := by
    intro k p hk
    unfold Graph.heightOf
    rw [hheap, ((hI.2 g).owner k p hk).2]
    rfl
  refine ⟨w1, groups, hres, hheap, hH, hat, fun h => ?_⟩
  have hmap : (w1.graphs g).cache.height = (w.graphs g).nodes.map (Graph.heightOf w1 g) := by
    apply List.ext_getElem (by rw [hH.len, List.length_map])
    intro k h1 h2
    have hk : k < (w.graphs g).nodes.length := by rw [← hH.len]; exact h1
    rw [List.getElem_map, hat k _ (List.getElem?_eq_getElem hk), List.getD_eq_getElem _ _ h1]
  rw [List.getD_eq_getElem?_getD, hH.grp h]
  conv_lhs => rw [hmap]
  exact zip_filter_map_fst (Graph.heightOf w1 g) (h : Int) (w.graphs g).nodes

/-- The heights of a list of nodes are the heights the same nodes have in any extension
of the list. -/
theorem HeightsOK.agree {dep dep2 : Ptr → List Int} {pre ext : List Ptr} {hs hs2 : List Int}
    {groups groups2 : List (List Ptr)} (H : HeightsOK dep pre hs groups)
    (H2 : HeightsOK dep2 (pre ++ ext) hs2 groups2) (hd : ∀ p ∈ pre, dep2 p = dep p) :
    ∀ k, k < pre.length → hs2.getD k 0 = hs.getD k 0 := by
  have hget : ∀ n k, k < n → k < pre.length → hs2.getD k 0 = hs.getD k 0 := by
    intro n
    induction n with
    | zero => intro k hk; omega
    | succ n ih =>
      intro k hk hkl
      have hp : pre[k]? = some pre[k] := List.getElem?_eq_getElem hkl
      have hp2 : (pre ++ ext)[k]? = some pre[k] := by
        rw [List.getElem?_append_left hkl]; exact hp
      rw [H.recur k _ hp, H2.recur k _ hp2, hd _ (List.getElem_mem hkl)]
      apply heightFrom_congr
      intro id hid
      have ht := (H.topo k _ hp id hid).2
      exact ih id.toNat (by omega) (by omega)
  intro k hk
  exact hget (k + 1) k (Nat.lt_succ_self k) hk

/-- When every object that belongs to a graph is unchanged, the listed nodes keep the
ids of their operator operands. -/
theorem Wired.operandIds_kept {a b : World} (hI : Inv a) (hW : Wired a)
    (hown : ∀ q g1, (a.heap q).Graph = some g1 → b.heap q = a.heap q) (g : GraphRef) :
    ∀ p ∈ (a.graphs g).nodes, b.operandIds p = a.operandIds p := by
  intro p hp
  obtain ⟨k, hk⟩ := List.mem_iff_getElem?.mp hp
  apply World.operandIds_congr
  · rw [hown p g ((hI.2 g).owner k p hk).1]; exact Node.sameStructure_refl _
  · intro o ho q hq
    rw [hown q g (hW.operands g k p o hk ho q hq).1]
    exact Node.sameStructure_refl _

/-- A sequence of insertions keeps the memory reachable, only extends the node lists,
and leaves the nodes that were listed with the ids of their operator operands. -/
theorem Insertion.many {a b : World} (h : Relation.ReflTransGen Insertion a b)
    (ha : Reachable a) (g : GraphRef) :
    Reachable b ∧ (a.graphs g).nodes <+: (b.graphs g).nodes ∧
      ∀ p ∈ (a.graphs g).nodes, b.operandIds p = a.operandIds p := by
  induction h with
  | refl => exact ⟨ha, List.prefix_refl _, fun _ _ => rfl⟩
  | tail _ hstep ih =>
    obtain ⟨hb, hpre, hdep⟩ := ih
    obtain ⟨hown, hgrow⟩ := hstep.owned hb.reachable_inv hb.reachable_wired
    refine ⟨Reachable.step hb hstep.toStep, hpre.trans (hgrow g), fun p hp => ?_⟩
    rw [Wired.operandIds_kept hb.reachable_inv hb.reachable_wired hown g p (hpre.subset hp)]
    exact hdep p hp

/-! ### The constants table and the node list -/

theorem Graph.insert_constants (w : World) (g : GraphRef) (n : Ptr) (g1 : GraphRef) :
    ((Graph.insert w g n).1.graphs g1).constants = (w.graphs g1).constants := by
  by_cases hg : g1 = g
  · subst hg; simp [Graph.insert, World.setGraph, World.setNode]
  · simp [Graph.insert, World.setGraph, World.setNode, Function.update_noteq hg]

theorem Graph.allocInsert_constants (w : World) (g : GraphRef) (n : Node) (g1 : GraphRef) :
    ((Graph.insert (w.alloc n).1 g (w.alloc n).2).1.graphs g1).constants =
      (w.graphs g1).constants :=
  Graph.insert_constants (w.alloc n).1 g (w.alloc n).2 g1

/-- No branch of `NewOperator` writes to a constants table. -/
theorem Graph.NewOperator_constants (w : World) (g : GraphRef) (f : Function)
    (operands : List Ptr) (pick : Nat) (g1 : GraphRef) :
    ((Graph.NewOperator w g f operands pick).world.graphs g1).constants =
      (w.graphs g1).constants := by
  unfold Graph.NewOperator
  split
  · rfl
  · by_cases he : (w.graphs g).eagerExecution = true
    · cases hf : f.Forward w.operand with
      | error msg =>
        simp only [he, if_true, hf, Except.map, Outcome.world]
      | ok v =>
        simp only [he, if_true, hf, Except.map, Outcome.world]
        rw [Graph.insert_constants]
        show (((World.poolGet _ pick).1.graphs) g1).constants = _
        rw [World.poolGet_graphs]
    · have he1 : (w.graphs g).eagerExecution = false := by simpa using he
      simp only [he1, Bool.false_eq_true, if_false, Outcome.world]
      rw [Graph.insert_constants]
      show (((World.poolGet _ pick).1.graphs) g1).constants = _
      rw [World.poolGet_graphs]

/-- The function `Clear` never writes to a constants table. -/
theorem Graph.Clear_constants (w : World) (g g1 : GraphRef) :
    ((Graph.Clear w g).graphs g1).constants = (w.graphs g1).constants := by
  cases hne : (w.graphs g).nodes.isEmpty with
  | true =>
    have : Graph.Clear w g = w := by simp [Graph.Clear, hne]
    rw [this]
  | false =>
    let W3 := Graph.clearCache ((w.setGraph g { w.graphs g with maxID := -1 }).setGraph g
        { (w.setGraph g { w.graphs g with maxID := -1 }).graphs g with curTimeStep := 0 }) g
    have hclear : Graph.Clear w g =
        (Graph.recycleOperators (Graph.releaseMemory W3 g)
          ((Graph.releaseMemory W3 g).graphs g).nodes).setGraph g
          { (Graph.recycleOperators (Graph.releaseMemory W3 g)
              ((Graph.releaseMemory W3 g).graphs g).nodes).graphs g with nodes := [] } := by
      simp only [Graph.Clear, hne]
      rfl
    have hg5 := (Graph.recycleOperators_heap ((Graph.releaseMemory W3 g).graphs g).nodes
      (Graph.releaseMemory W3 g)).1
    have e4g : (Graph.releaseMemory W3 g).graphs = W3.graphs := by
      rw [Graph.releaseMemory_eq]
    rw [hclear]
    by_cases e : g1 = g
    · subst e
      simp only [World.setGraph, Function.update_same]
      rw [hg5, e4g]
      simp [W3, Graph.clearCache, World.setGraph]
    · simp only [World.setGraph, Function.update_noteq e]
      rw [hg5, e4g]
      simp [W3, Graph.clearCache, World.setGraph, Function.update_noteq e]

/-- An entry of a constants table after `Constant` was there before, or its node is in
the node list. -/
theorem Graph.Constant_table (w : World) (g : GraphRef) (value : DType) (g1 : GraphRef) :
    ∀ e ∈ ((Graph.Constant w g value).1.graphs g1).constants,
      e ∈ (w.graphs g1).constants ∨ e.2 ∈ ((Graph.Constant w g value).1.graphs g1).nodes := by
  intro e he
  cases hm : mapGet (w.graphs g).constants value with
  | some node =>
    rw [Graph.Constant_hit hm] at he
    exact Or.inl he
  | none =>
    by_cases eg : g1 = g
    · subst eg
      obtain ⟨hc, _, _, hn, _⟩ := Graph.Constant_miss_constants hm
      rw [hc] at he
      rw [hn]
      rcases List.mem_cons.mp he with he | he
      · right; rw [he]; simp
      · exact Or.inl he
    · left
      rw [Graph.Constant_miss hm] at he
      simp only [World.setGraph, Function.update_noteq eg] at he
      have key := Graph.allocInsert_constants w g (.ofVariable
        { graph := some g, timeStep := (w.graphs g).curTimeStep, name := DType.Sprint value,
          value := some (Matrix.NewScalar value), grad := none, requiresGrad := false }) g1
      rw [← key]
      exact he

/-- An entry of a constants table after a step was there before the step, or its node
is in the node list. -/
theorem Step.step_constants {w w1 : World} (hs : Step w w1) (g : GraphRef) :
    ∀ e ∈ (w1.graphs g).constants,
      e ∈ (w.graphs g).constants ∨ e.2 ∈ (w1.graphs g).nodes := by
  have frame : ∀ {a b : World}, Frame a b → ∀ e ∈ (b.graphs g).constants,
      e ∈ (a.graphs g).constants ∨ e.2 ∈ (b.graphs g).nodes := by
    intro a b f e he
    rw [(f.2.2.2 g).2.2] at he
    exact Or.inl he
  have same : ∀ {b : World}, (b.graphs g).constants = (w.graphs g).constants →
      ∀ e ∈ (b.graphs g).constants,
        e ∈ (w.graphs g).constants ∨ e.2 ∈ (b.graphs g).nodes := by
    intro b hb e he
    rw [hb] at he
    exact Or.inl he
  cases hs with
  | newGraph size =>
    by_cases e : g = w.nextGraph
    · intro x hx
      rw [((Graph.NewGraph_graphs w size g).2 e).2.2] at hx
      exact absurd hx (List.not_mem_nil _)
    · apply same
      rw [(Graph.NewGraph_graphs w size g).1 e]
  | setRand g0 r _ => exact frame (Frame.SetRand w g0 r)
  | setRandSeed g0 seed _ => exact frame (Frame.SetRandSeed w g0 seed)
  | setEagerExecution g0 value _ => exact frame (Frame.SetEagerExecution w g0 value)
  | setConcurrentComputations g0 value _ =>
    exact frame (Frame.SetConcurrentComputations w g0 value)
  | zeroGrad g0 _ => exact frame (Frame.ZeroGrad w g0)
  | incTimeStep g0 _ => exact frame (Frame.IncTimeStep w g0)
  | clear g0 _ => exact same (Graph.Clear_constants w g0 g)
  | clearForReuse g0 _ =>
    unfold Graph.ClearForReuse
    split
    · exact same rfl
    · exact frame (Frame.releaseMemory w g0)
  | newVariable g0 value rg _ =>
    exact same (Graph.allocInsert_constants w g0 _ g)
  | newVariableWithName g0 value rg name _ =>
    exact same (Graph.allocInsert_constants w g0 _ g)
  | newScalar g0 value _ =>
    exact same (Graph.allocInsert_constants w g0 _ g)
  | newScalarWithName g0 value name _ =>
    exact same (Graph.allocInsert_constants w g0 _ g)
  | constant g0 value _ => exact Graph.Constant_table w g0 value g
  | newOperator g0 f operands pick _ =>
    exact same (Graph.NewOperator_constants w g0 f operands pick g)
  | newWrap g0 value _ =>
    exact same (Graph.allocInsert_constants w g0 _ g)
  | newWrapNoGrad g0 value _ =>
    exact same (Graph.allocInsert_constants w g0 _ g)
  | groupNodesByHeight g0 _ => exact frame (Frame.groupNodesByHeight w g0)
  | mutate heap ext hm => exact frame (Frame.mutate w heap ext hm)

theorem Uncleared.toReachable {g : GraphRef} {w : World} (hw : Uncleared g w) :
    Reachable w := by
  induction hw with
  | init ext => exact Reachable.init ext
  | step _ hs _ ih => exact Reachable.step ih hs

/-- While no node was taken out of the node list of `g`, every node of the constants
table of `g` is in the node list. -/
theorem Uncleared.listed {g : GraphRef} {w : World} (hw : Uncleared g w) :
    ∀ e ∈ (w.graphs g).constants, e.2 ∈ (w.graphs g).nodes := by
  induction hw with
  | init ext => intro e he; exact absurd he (List.not_mem_nil _)
  | step _ hs hkeep ih =>
    intro e he
    rcases hs.step_constants g e he with h | h
    · exact hkeep.subset (ih e h)
    · exact h

/-- A member of the node list of a graph sits at the index equal to its id. -/
theorem GraphOK.at_id {w : World} {g : GraphRef} (h : GraphOK w g) {p : Ptr}
    (hp : p ∈ (w.graphs g).nodes) : indexInt (w.graphs g).nodes (w.heap p).ID = some p := by
  obtain ⟨k, hk⟩ := List.mem_iff_getElem?.mp hp
  rw [h.owner_id k p hk]
  simp [indexInt, hk]

/-! ### What a node reports after `releaseMemory` -/

/-- The reads of a `GradValue` after `releaseMemory` on graph `g`: as before when the
value is not, directly or through wrappers, an Operator of the node list; nil
otherwise. -/
theorem Graph.releaseMemory_reads (w : World) (g : GraphRef) :
    ∀ (fuel : Nat) (t : Wrapped),
      (w.readsOperatorOf g fuel t = false →
        (Graph.releaseMemory w g).valueOf fuel t = w.valueOf fuel t ∧
        (Graph.releaseMemory w g).gradOf fuel t = w.gradOf fuel t) ∧
      (w.readsOperatorOf g fuel t = true →
        (Graph.releaseMemory w g).valueOf fuel t = none ∧
        (Graph.releaseMemory w g).gradOf fuel t = none) := by
  have hheap : ∀ p, (Graph.releaseMemory w g).heap p =
      if p ∈ (w.graphs g).nodes then (w.heap p).released else w.heap p := by
    intro p; rw [Graph.releaseMemory_eq]
  have hext : (Graph.releaseMemory w g).ext = w.ext := by rw [Graph.releaseMemory_eq]
  have hleaf : ∀ p, (w.heap p).isOperator = false →
      (Graph.releaseMemory w g).heap p = w.heap p := by
    intro p hp
    rw [hheap p]
    split
    · exact Node.released_of_not_operator hp
    · rfl
  intro fuel
  induction fuel with
  | zero =>
    intro t
    cases t with
    | ext r =>
      refine ⟨fun _ => ?_, fun h => Bool.noConfusion h⟩
      simp only [World.valueOf, World.gradOf, hext, and_self]
    | node q => exact ⟨fun _ => ⟨rfl, rfl⟩, fun h => Bool.noConfusion h⟩
  | succ fuel ih =>
    intro t
    cases t with
    | ext r =>
      refine ⟨fun _ => ?_, fun h => Bool.noConfusion h⟩
      simp only [World.valueOf, World.gradOf, hext, and_self]
    | node q =>
      cases ha : w.heap q with
      | ofVariable v =>
        have h1 := hleaf q (by rw [ha]; rfl)
        refine ⟨fun _ => ?_, fun h => ?_⟩
        · simp only [World.valueOf, World.gradOf, h1, ha, and_self]
        · simp [World.readsOperatorOf, ha] at h
      | ofOperator o =>
        by_cases hq : q ∈ (w.graphs g).nodes
        · have h1 : (Graph.releaseMemory w g).heap q =
              .ofOperator { o with value := none, grad := none } := by
            rw [hheap q, if_pos hq, ha]; rfl
          refine ⟨fun h => ?_, fun _ => ?_⟩
          · simp [World.readsOperatorOf, ha, hq] at h
          · simp only [World.valueOf, World.gradOf, h1, and_self]
        · have h1 : (Graph.releaseMemory w g).heap q = w.heap q := by
            rw [hheap q, if_neg hq]
          refine ⟨fun _ => ?_, fun h => ?_⟩
          · simp only [World.valueOf, World.gradOf, h1, ha, and_self]
          · simp [World.readsOperatorOf, ha, hq] at h
      | ofWrapper x =>
        have h1 := hleaf q (by rw [ha]; rfl)
        have hr : w.readsOperatorOf g (fuel + 1) (.node q) =
            w.readsOperatorOf g fuel x.GradValue := by
          simp only [World.readsOperatorOf, ha]
        rw [hr]
        obtain ⟨i1, i2⟩ := ih x.GradValue
        refine ⟨fun h => ?_, fun h => ?_⟩
        · obtain ⟨j1, j2⟩ := i1 h
          simp only [World.valueOf, World.gradOf, h1, ha, j1, j2, and_self]
        · obtain ⟨j1, j2⟩ := i2 h
          simp only [World.valueOf, World.gradOf, h1, ha, j1, j2, ite_self, and_self]

/-! ## The claims about `Min` -/

/-- C1: for operand values of compatible shape (equal dimensions, or both vectors of
equal length), `Min.Forward` returns a matrix `y` with the dimensions of `x1` and
with `y[i] = min(x1[i], x2[i])` at every position `i`. -/
theorem Min.Forward_elementwise (r1 r2 : Nat) (rg1 rg2 : Bool) (x1v x2v : Matrix)
    (h1 : x1v.WF) (h2 : x2v.WF) (hc : Compatible x1v x2v = true) :
    ∃ y, Min.Forward (NewMin ⟨r1, some x1v, rg1⟩ ⟨r2, some x2v, rg2⟩) = .ok y ∧
      y.rows = x1v.rows ∧ y.cols = x1v.cols ∧ y.data.length = x1v.Size ∧
      ∀ (i : Nat) (a b : DType), x1v.data[i]? = some a → x2v.data[i]? = some b →
        y.data[i]? = some (DType.min a b) := by
  have hl := Compatible.length_eq h1 h2 hc
  have hx : x1v.data.length = x1v.Size := h1
  have hc1 : (SameDims x1v x2v || VectorsOfSameSize x1v x2v) = true := hc
  refine ⟨x1v.Minimum x2v, ?_, rfl, rfl, ?_, ?_⟩
  · simp [Min.Forward, NewMin, hc1]
  · simp [Matrix.Minimum, List.length_zipWith, ← hl, hx]
  · intro i a b ea eb
    simp [Matrix.Minimum, List.getElem?_zipWith, ea, eb]

/-- C1, the scenario of the specification: `x1 = [1,5,3]`, `x2 = [4,2,3]` gives
`[1,2,3]`. -/
theorem Min.Forward_elementwise_witness :
    Min.Forward (NewMin ⟨0, some (Matrix.NewVecDense [1, 5, 3]), true⟩
        ⟨1, some (Matrix.NewVecDense [4, 2, 3]), true⟩) = .ok (Matrix.NewVecDense [1, 2, 3]) ∧
    ∃ y, Min.Forward (NewMin ⟨0, some (Matrix.NewVecDense [1, 5, 3]), true⟩
        ⟨1, some (Matrix.NewVecDense [4, 2, 3]), true⟩) = .ok y ∧
      y.rows = (Matrix.NewVecDense [1, 5, 3]).rows ∧
      y.cols = (Matrix.NewVecDense [1, 5, 3]).cols ∧
      y.data.length = (Matrix.NewVecDense [1, 5, 3]).Size ∧
      ∀ (i : Nat) (a b : DType), (Matrix.NewVecDense [1, 5, 3]).data[i]? = some a →
        (Matrix.NewVecDense [4, 2, 3]).data[i]? = some b → y.data[i]? = some (DType.min a b) :=
  ⟨by decide, Min.Forward_elementwise 0 1 true true (Matrix.NewVecDense [1, 5, 3])
    (Matrix.NewVecDense [4, 2, 3]) (by decide) (by decide) (by decide)⟩

/-- C2: for operand values and an output gradient `gy` of the same shape, with both
operands requiring gradient, `Min.Backward(gy)` propagates to `x1` the gradient that
is `gy[i]` where `x1[i] < x2[i]` strictly and `0` elsewhere, and then to `x2` the
gradient that is `gy[i]` where `x2[i] < x1[i]` strictly and `0` elsewhere. -/
theorem Min.Backward_routes (r1 r2 : Nat) (x1v x2v gy : Matrix)
    (h1 : x1v.WF) (h2 : x2v.WF) (hg : gy.WF)
    (c1 : Compatible x1v gy = true) (c2 : Compatible x2v gy = true) :
    ∃ gx1 gx2 : Matrix,
      Min.Backward (NewMin ⟨r1, some x1v, true⟩ ⟨r2, some x2v, true⟩) gy =
        ⟨[(r1, gx1), (r2, gx2)], none⟩ ∧
      (gx1.rows = x1v.rows ∧ gx1.cols = x1v.cols ∧ gx1.data.length = x1v.Size) ∧
      (gx2.rows = x2v.rows ∧ gx2.cols = x2v.cols ∧ gx2.data.length = x2v.Size) ∧
      (∀ (i : Nat) (a b g : DType),
        x1v.data[i]? = some a → x2v.data[i]? = some b → gy.data[i]? = some g →
        gx1.data[i]? = some (if DType.lt a b = true then g else DType.zero)) ∧
      (∀ (i : Nat) (a b g : DType),
        x1v.data[i]? = some a → x2v.data[i]? = some b → gy.data[i]? = some g →
        gx2.data[i]? = some (if DType.lt b a = true then g else DType.zero)) := by
  obtain ⟨gx1, gx2, hrun, hd1, hd2, hv1, hv2⟩ :=
    Min.Backward_run r1 r2 true true h1 h2 hg c1 c2
  exact ⟨gx1, gx2, by simpa using hrun, hd1, hd2, hv1, hv2⟩

/-- C2, the scenario of the specification: `x1 = [1,5,3]`, `x2 = [4,2,3]`,
`gy = [10,20,30]` gives `[10,0,0]` for `x1` and `[0,20,0]` for `x2`. -/
theorem Min.Backward_routes_witness :
    Min.Backward (NewMin ⟨0, some (Matrix.NewVecDense [1, 5, 3]), true⟩
        ⟨1, some (Matrix.NewVecDense [4, 2, 3]), true⟩) (Matrix.NewVecDense [10, 20, 30]) =
      ⟨[(0, Matrix.NewVecDense [10, 0, 0]), (1, Matrix.NewVecDense [0, 20, 0])], none⟩ ∧
    ∃ gx1 gx2 : Matrix,
      Min.Backward (NewMin ⟨0, some (Matrix.NewVecDense [1, 5, 3]), true⟩
          ⟨1, some (Matrix.NewVecDense [4, 2, 3]), true⟩) (Matrix.NewVecDense [10, 20, 30]) =
        ⟨[(0, gx1), (1, gx2)], none⟩ ∧
      (gx1.rows = (Matrix.NewVecDense [1, 5, 3]).rows ∧
        gx1.cols = (Matrix.NewVecDense [1, 5, 3]).cols ∧
        gx1.data.length = (Matrix.NewVecDense [1, 5, 3]).Size) ∧
      (gx2.rows = (Matrix.NewVecDense [4, 2, 3]).rows ∧
        gx2.cols = (Matrix.NewVecDense [4, 2, 3]).cols ∧
        gx2.data.length = (Matrix.NewVecDense [4, 2, 3]).Size) ∧
      (∀ (i : Nat) (a b g : DType),
        (Matrix.NewVecDense [1, 5, 3]).data[i]? = some a →
        (Matrix.NewVecDense [4, 2, 3]).data[i]? = some b →
        (Matrix.NewVecDense [10, 20, 30]).data[i]? = some g →
        gx1.data[i]? = some (if DType.lt a b = true then g else DType.zero)) ∧
      (∀ (i : Nat) (a b g : DType),
        (Matrix.NewVecDense [1, 5, 3]).data[i]? = some a →
        (Matrix.NewVecDense [4, 2, 3]).data[i]? = some b →
        (Matrix.NewVecDense [10, 20, 30]).data[i]? = some g →
        gx2.data[i]? = some (if DType.lt b a = true then g else DType.zero)) :=
  ⟨by decide, Min.Backward_routes 0 1 (Matrix.NewVecDense [1, 5, 3])
    (Matrix.NewVecDense [4, 2, 3]) (Matrix.NewVecDense [10, 20, 30])
    (by decide) (by decide) (by decide) (by decide) (by decide)⟩

/-- C3: at every position `i` where `x1[i] == x2[i]`, the gradients `Min.Backward`
propagates to `x1` and to `x2` are both `0` at `i`, whatever `gy[i]` is. -/
theorem Min.Backward_tie (r1 r2 : Nat) (rg1 rg2 : Bool) (x1v x2v gy : Matrix)
    (h1 : x1v.WF) (h2 : x2v.WF) (hg : gy.WF)
    (c1 : Compatible x1v gy = true) (c2 : Compatible x2v gy = true)
    (i : Nat) (a b g : DType)
    (ea : x1v.data[i]? = some a) (eb : x2v.data[i]? = some b) (eg : gy.data[i]? = some g)
    (hab : DType.eq a b = true) :
    ∃ gx1 gx2 : Matrix,
      Min.Backward (NewMin ⟨r1, some x1v, rg1⟩ ⟨r2, some x2v, rg2⟩) gy =
        ⟨(if rg1 = true then [(r1, gx1)] else []) ++ (if rg2 = true then [(r2, gx2)] else []),
          none⟩ ∧
      gx1.data[i]? = some DType.zero ∧ gx2.data[i]? = some DType.zero := by
  obtain ⟨gx1, gx2, hrun, _, _, hv1, hv2⟩ := Min.Backward_run r1 r2 rg1 rg2 h1 h2 hg c1 c2
  obtain ⟨l1, l2⟩ := DType.lt_of_eq hab
  refine ⟨gx1, gx2, hrun, ?_, ?_⟩
  · rw [hv1 i a b g ea eb eg, l1]; rfl
  · rw [hv2 i a b g ea eb eg, l2]; rfl

/-- C3, on the scenario of the specification: position 2 is tied (`3 == 3`) and both
gradients are `0` there although `gy[2] = 30`. -/
theorem Min.Backward_tie_witness :
    ∃ gx1 gx2 : Matrix,
      Min.Backward (NewMin ⟨0, some (Matrix.NewVecDense [1, 5, 3]), true⟩
          ⟨1, some (Matrix.NewVecDense [4, 2, 3]), true⟩) (Matrix.NewVecDense [10, 20, 30]) =
        ⟨(if true = true then [(0, gx1)] else []) ++ (if true = true then [(1, gx2)] else []),
          none⟩ ∧
      gx1.data[2]? = some DType.zero ∧ gx2.data[2]? = some DType.zero :=
  Min.Backward_tie 0 1 true true (Matrix.NewVecDense [1, 5, 3])
    (Matrix.NewVecDense [4, 2, 3]) (Matrix.NewVecDense [10, 20, 30])
    (by decide) (by decide) (by decide) (by decide) (by decide) 2 3 3 30
    (by decide) (by decide) (by decide) (by decide)

/-- C4: the behaviour of `Min.Backward` on an output gradient that is compatible
with `x1` but not with `x2`: with `x1` of shape 1x3, `x2` of shape 2x3 and `gy` of shape
1x3 the shape check lets the call through, no panic occurs, and a gradient is
propagated to each operand (the one for `x2` built from the first three elements
only). -/
theorem Min.Backward_accepts_one_sided_mismatch :
    (Matrix.mk 1 3 [1, 2, 3]).WF ∧ (Matrix.mk 2 3 [0, 5, 1, 7, 8, 9]).WF ∧
    (Matrix.mk 1 3 [10, 20, 30]).WF ∧
    Compatible (Matrix.mk 1 3 [1, 2, 3]) (Matrix.mk 1 3 [10, 20, 30]) = true ∧
    Compatible (Matrix.mk 2 3 [0, 5, 1, 7, 8, 9]) (Matrix.mk 1 3 [10, 20, 30]) = false ∧
    Min.Backward (NewMin ⟨0, some (Matrix.mk 1 3 [1, 2, 3]), true⟩
        ⟨1, some (Matrix.mk 2 3 [0, 5, 1, 7, 8, 9]), true⟩) (Matrix.mk 1 3 [10, 20, 30]) =
      ⟨[(0, Matrix.mk 1 3 [0, 20, 0]), (1, Matrix.mk 2 3 [10, 0, 30, 0, 0, 0])], none⟩ := by
  decide

/-- C5: `Min.Forward` panics if and only if the two operand values neither have
equal dimensions nor are both vectors of equal total length (and then with the
message of the shape check); for every compatible pair it returns the element-wise
minimum. -/
theorem Min.Forward_panics_iff (r1 r2 : Nat) (rg1 rg2 : Bool) (x1v x2v : Matrix) :
    ((∃ msg, Min.Forward (NewMin ⟨r1, some x1v, rg1⟩ ⟨r2, some x2v, rg2⟩) = .error msg) ↔
      (SameDims x1v x2v = false ∧ VectorsOfSameSize x1v x2v = false)) ∧
    ((SameDims x1v x2v = false ∧ VectorsOfSameSize x1v x2v = false) →
      Min.Forward (NewMin ⟨r1, some x1v, rg1⟩ ⟨r2, some x2v, rg2⟩) =
        .error notCompatibleMsg) ∧
    ((SameDims x1v x2v = true ∨ VectorsOfSameSize x1v x2v = true) →
      Min.Forward (NewMin ⟨r1, some x1v, rg1⟩ ⟨r2, some x2v, rg2⟩) =
        .ok (x1v.Minimum x2v)) := by
  cases hs : SameDims x1v x2v <;> cases hv : VectorsOfSameSize x1v x2v <;>
    simp [Min.Forward, NewMin, hs, hv]

/-- C6: on an output gradient compatible with both operand values, `Min.Backward`
makes exactly one `PropagateGrad` call for each operand that requires gradient
(`x1` first) and none for an operand that does not; when neither operand requires
gradient it makes no call at all, so no gradient buffer changes. -/
theorem Min.Backward_calls (r1 r2 : Nat) (rg1 rg2 : Bool) (x1v x2v gy : Matrix)
    (h1 : x1v.WF) (h2 : x2v.WF) (hg : gy.WF)
    (c1 : Compatible x1v gy = true) (c2 : Compatible x2v gy = true) :
    (Min.Backward (NewMin ⟨r1, some x1v, rg1⟩ ⟨r2, some x2v, rg2⟩) gy).panicked = none ∧
    (Min.Backward (NewMin ⟨r1, some x1v, rg1⟩ ⟨r2, some x2v, rg2⟩) gy).calls.map Prod.fst =
      (if rg1 = true then [r1] else []) ++ (if rg2 = true then [r2] else []) ∧
    (rg1 = false → rg2 = false →
      (Min.Backward (NewMin ⟨r1, some x1v, rg1⟩ ⟨r2, some x2v, rg2⟩) gy).calls = []) := by
  obtain ⟨gx1, gx2, hrun, _⟩ := Min.Backward_run r1 r2 rg1 rg2 h1 h2 hg c1 c2
  rw [hrun]
  cases rg1 <;> cases rg2 <;> simp

/-- C6 on concrete operands: only `x2` requires gradient, and the single call goes
to `x2`. -/
theorem Min.Backward_calls_witness :
    (Min.Backward (NewMin ⟨0, some (Matrix.NewVecDense [1, 5, 3]), false⟩
        ⟨1, some (Matrix.NewVecDense [4, 2, 3]), true⟩)
      (Matrix.NewVecDense [10, 20, 30])).panicked = none ∧
    (Min.Backward (NewMin ⟨0, some (Matrix.NewVecDense [1, 5, 3]), false⟩
        ⟨1, some (Matrix.NewVecDense [4, 2, 3]), true⟩)
      (Matrix.NewVecDense [10, 20, 30])).calls.map Prod.fst =
      (if false = true then [0] else []) ++ (if true = true then [1] else []) ∧
    (false = false → true = false →
      (Min.Backward (NewMin ⟨0, some (Matrix.NewVecDense [1, 5, 3]), false⟩
          ⟨1, some (Matrix.NewVecDense [4, 2, 3]), true⟩)
        (Matrix.NewVecDense [10, 20, 30])).calls = []) :=
  Min.Backward_calls 0 1 false true (Matrix.NewVecDense [1, 5, 3])
    (Matrix.NewVecDense [4, 2, 3]) (Matrix.NewVecDense [10, 20, 30])
    (by decide) (by decide) (by decide) (by decide) (by decide)

/-! ## The claims about the graph -/

/-- C7: in every reachable state of the memory, for every graph, `maxID` equals
`len(nodes) - 1` and the node stored at index `k` of the node list has `ID() == k`;
a step only appends to the node list of an existing graph (so the ids go on from
`maxID + 1`, with no gap and no reuse) unless it is `Clear()` on that graph, which
leaves no node and `maxID = -1`, so that the ids restart at 0. -/
theorem Graph.ids_follow_insertion (w : World) (hw : Reachable w) :
    (∀ g, (w.graphs g).maxID = ((w.graphs g).nodes.length : Int) - 1 ∧
      ∀ (k : Nat) (p : Ptr), (w.graphs g).nodes[k]? = some p → (w.heap p).ID = (k : Int)) ∧
    (∀ w1, Step w w1 → ∀ g, g < w.nextGraph →
      (w.graphs g).nodes <+: (w1.graphs g).nodes ∨ w1 = Graph.Clear w g) ∧
    (∀ g, ((Graph.Clear w g).graphs g).nodes = [] ∧ ((Graph.Clear w g).graphs g).maxID = -1) := by
  have h := hw.reachable_inv
  refine ⟨fun g => ⟨(h.2 g).maxID, fun k p hk => ((h.2 g).owner k p hk).2⟩,
    fun w1 hs g hg => hs.step_grows h g hg, fun g => ?_⟩
  have hc := (h.Clear g).2 g
  cases hne : (w.graphs g).nodes.isEmpty with
  | true =>
    have e : Graph.Clear w g = w := by simp [Graph.Clear, hne]
    have hnil : (w.graphs g).nodes = [] := List.isEmpty_iff.mp hne
    rw [e]
    refine ⟨hnil, ?_⟩
    rw [(h.2 g).maxID, hnil]; rfl
  | false =>
    have hnil := (Graph.Clear_nonempty h g hne).2.1
    refine ⟨hnil, ?_⟩
    rw [hc.maxID, hnil]; rfl

/-- C7 on the scenario: two variables and an operator inserted into a fresh graph
have the ids 0, 1 and 2, and `maxID` is 2. -/
theorem Graph.ids_follow_insertion_witness :
    ((Scenario.withMin.graphs 0).nodes.map (fun p => (Scenario.withMin.heap p).ID) = [0, 1, 2] ∧
      (Scenario.withMin.graphs 0).maxID = 2) ∧
    ((∀ g, (Scenario.withMin.graphs g).maxID =
        ((Scenario.withMin.graphs g).nodes.length : Int) - 1 ∧
      ∀ (k : Nat) (p : Ptr), (Scenario.withMin.graphs g).nodes[k]? = some p →
        (Scenario.withMin.heap p).ID = (k : Int)) ∧
    (∀ w1, Step Scenario.withMin w1 → ∀ g, g < Scenario.withMin.nextGraph →
      (Scenario.withMin.graphs g).nodes <+: (w1.graphs g).nodes ∨
        w1 = Graph.Clear Scenario.withMin g) ∧
    (∀ g, ((Graph.Clear Scenario.withMin g).graphs g).nodes = [] ∧
      ((Graph.Clear Scenario.withMin g).graphs g).maxID = -1)) :=
  ⟨by decide, Graph.ids_follow_insertion Scenario.withMin Scenario.withMin_reachable⟩

/-- C8: on one graph of a reachable memory, `Constant(v1)` followed by `Constant(v2)`
returns the identical node if and only if `v1 == v2`; a call with a value that is
already in the table changes nothing at all (no node is inserted), and a call with a
new value appends exactly one node, the returned one. -/
theorem Graph.Constant_identity (w : World) (hw : Reachable w) (g : GraphRef)
    (v1 v2 : DType) :
    ((Graph.Constant (Graph.Constant w g v1).1 g v2).2 = (Graph.Constant w g v1).2 ↔
      DType.eq v1 v2 = true) ∧
    (DType.eq v1 v2 = true →
      (Graph.Constant (Graph.Constant w g v1).1 g v2).1 = (Graph.Constant w g v1).1) ∧
    (∀ node, mapGet (w.graphs g).constants v1 = some node → Graph.Constant w g v1 = (w, node)) ∧
    (mapGet (w.graphs g).constants v1 = none →
      ((Graph.Constant w g v1).1.graphs g).nodes = (w.graphs g).nodes ++ [(Graph.Constant w g v1).2] ∧
      ((Graph.Constant w g v1).1.graphs g).maxID = (w.graphs g).maxID + 1) := by
  have h := hw.reachable_inv
  refine ⟨?_, ?_, fun node hn => Graph.Constant_hit hn, ?_⟩
  · cases h1 : mapGet (w.graphs g).constants v1 with
    | some n1 =>
      rw [Graph.Constant_hit h1]
      obtain ⟨e1, he1, hn1, hk1⟩ := mapGet_mem h1
      cases h2 : mapGet (w.graphs g).constants v2 with
      | some n2 =>
        rw [Graph.Constant_hit h2]
        obtain ⟨e2, he2, hn2, hk2⟩ := mapGet_mem h2
        constructor
        · intro hn
          have hn' : n2 = n1 := hn
          have : e2 = e1 := List.inj_on_of_nodup_map (h.1.constNodup g) he2 he1
            (by rw [hn1, hn2, hn'])
          rw [this] at hk2
          exact DType.eq_of_common hk1 hk2
        · intro hv
          have := mapGet_congr (w.graphs g).constants hv
          rw [h1, h2] at this
          exact (Option.some.inj this).symm
      | none =>
        obtain ⟨_, hr, _⟩ := Graph.Constant_miss_constants h2
        constructor
        · intro hn
          have hn' : (Graph.Constant w g v2).2 = n1 := hn
          rw [hr] at hn'
          have := h.1.constBound g e1 he1
          rw [hn1, ← hn'] at this
          exact absurd this (Nat.lt_irrefl _)
        · intro hv
          have := mapGet_congr (w.graphs g).constants hv
          rw [h1, h2] at this
          exact Option.noConfusion this
    | none =>
      obtain ⟨hc, hr, hnp, _⟩ := Graph.Constant_miss_constants h1
      have hget : mapGet ((Graph.Constant w g v1).1.graphs g).constants v2 =
          if DType.eq v1 v2 = true then some w.nextPtr else mapGet (w.graphs g).constants v2 := by
        rw [hc, mapGet_cons]
      by_cases hv : DType.eq v1 v2 = true
      · rw [if_pos hv] at hget
        rw [Graph.Constant_hit hget, hr]
        exact ⟨fun _ => hv, fun _ => rfl⟩
      · rw [if_neg hv] at hget
        refine ⟨fun hn => ?_, fun hv2 => absurd hv2 hv⟩
        exfalso
        cases h2 : mapGet (w.graphs g).constants v2 with
        | some n2 =>
          rw [h2] at hget
          rw [Graph.Constant_hit hget, hr] at hn
          obtain ⟨e2, he2, hn2, _⟩ := mapGet_mem h2
          have := h.1.constBound g e2 he2
          have hn' : n2 = w.nextPtr := hn
          rw [hn2, hn'] at this
          exact Nat.lt_irrefl _ this
        | none =>
          rw [h2] at hget
          obtain ⟨_, hr2, _⟩ := Graph.Constant_miss_constants hget
          rw [hr2, hnp, hr] at hn
          exact Nat.succ_ne_self _ hn
  · intro hv
    cases h1 : mapGet (w.graphs g).constants v1 with
    | some n1 =>
      have h2 := mapGet_congr (w.graphs g).constants hv
      rw [h1] at h2
      rw [Graph.Constant_hit h1, Graph.Constant_hit h2.symm]
    | none =>
      obtain ⟨hc, _⟩ := Graph.Constant_miss_constants h1
      have hget : mapGet ((Graph.Constant w g v1).1.graphs g).constants v2 = some w.nextPtr := by
        rw [hc, mapGet_cons, if_pos hv]
      rw [Graph.Constant_hit hget]
  · intro h1
    obtain ⟨_, hr, _, hn, hm⟩ := Graph.Constant_miss_constants h1
    rw [hr]
    exact ⟨hn, hm⟩

/-- C8 on the scenario: `Constant(1)` twice gives one node, `Constant(1)` and
`Constant(2)` give two. -/
theorem Graph.Constant_identity_witness :
    ((Graph.Constant (Graph.Constant Scenario.withMin 0 1).1 0 1).2 = 3 ∧
      (Graph.Constant (Graph.Constant Scenario.withMin 0 1).1 0 2).2 = 4) ∧
    (((Graph.Constant (Graph.Constant Scenario.withMin 0 1).1 0 2).2 =
        (Graph.Constant Scenario.withMin 0 1).2 ↔ DType.eq 1 2 = true) ∧
    (DType.eq 1 2 = true →
      (Graph.Constant (Graph.Constant Scenario.withMin 0 1).1 0 2).1 =
        (Graph.Constant Scenario.withMin 0 1).1) ∧
    (∀ node, mapGet (Scenario.withMin.graphs 0).constants 1 = some node →
      Graph.Constant Scenario.withMin 0 1 = (Scenario.withMin, node)) ∧
    (mapGet (Scenario.withMin.graphs 0).constants 1 = none →
      ((Graph.Constant Scenario.withMin 0 1).1.graphs 0).nodes =
        (Scenario.withMin.graphs 0).nodes ++ [(Graph.Constant Scenario.withMin 0 1).2] ∧
      ((Graph.Constant Scenario.withMin 0 1).1.graphs 0).maxID =
        (Scenario.withMin.graphs 0).maxID + 1)) :=
  ⟨by decide, Graph.Constant_identity Scenario.withMin Scenario.withMin_reachable 0 1 2⟩

/-- C9, as stated, fails: with eager execution on, `NewOperator` of `min(x1, m)` for
the 3x1 vector `x1` and a 2x2 matrix `m` of the same graph panics (inside
`Min.Forward`) although no operand belongs to another graph. -/
theorem Graph.NewOperator_panics_within_one_graph :
    ¬ ((Graph.NewOperator Scenario.withSquare 0 (MinFunction 0 2) [0, 2] 0).panicked = true ↔
      ∃ o ∈ [0, 2], (Scenario.withSquare.heap o).Graph ≠ some 0) := by
  decide

/-- C9, amended: `NewOperator` fails with the cross-graph panic if and only if at
least one operand has `Graph()` different from the receiving graph; it then leaves
the memory exactly as it was (so `Forward` was not run and the node list, `maxID`,
time-step and height cache are unchanged). When every operand belongs to the graph,
it fails exactly when eager execution is on and `Forward` itself panics. -/
theorem Graph.NewOperator_cross_graph (w : World) (g : GraphRef) (f : Function)
    (operands : List Ptr) (pick : Nat) :
    ((∃ o ∈ operands, (w.heap o).Graph ≠ some g) ↔
      Graph.NewOperator w g f operands pick = .panic w crossGraphMsg) ∧
    ((∃ o ∈ operands, (w.heap o).Graph ≠ some g) →
      (Graph.NewOperator w g f operands pick).world = w) ∧
    ((∀ o ∈ operands, (w.heap o).Graph = some g) →
      ((Graph.NewOperator w g f operands pick).panicked = true ↔
        ((w.graphs g).eagerExecution = true ∧ ∃ msg, f.Forward w.operand = .error msg))) := by
  by_cases hx : ∃ o ∈ operands, (w.heap o).Graph ≠ some g
  · have hany := (Graph.cross_any_iff w g operands).mpr hx
    have hres := Graph.NewOperator_foreign hany f pick
    refine ⟨⟨fun _ => hres, fun _ => hx⟩, fun _ => by rw [hres]; rfl, ?_⟩
    intro hall
    obtain ⟨o, ho, hne⟩ := hx
    exact absurd (hall o ho) hne
  · have hany : operands.any (fun o => decide ((w.heap o).Graph ≠ some g)) = false := by
      rw [Bool.eq_false_iff]
      exact fun hc => hx ((Graph.cross_any_iff w g operands).mp hc)
    refine ⟨⟨fun h => absurd h hx, ?_⟩, fun h => absurd h hx, fun _ => ?_⟩
    · intro hres
      exfalso
      cases he : (w.graphs g).eagerExecution with
      | false =>
        rw [Graph.NewOperator_lazy hany he f pick] at hres
        exact Outcome.noConfusion hres
      | true =>
        cases hf : f.Forward w.operand with
        | error msg =>
          rw [Graph.NewOperator_eager_panic hany he hf pick] at hres
          have h1 := (Outcome.panic.inj hres).1
          have := congrArg World.forwardRuns h1
          simp at this
        | ok v =>
          rw [Graph.NewOperator_eager_ok hany he hf pick] at hres
          exact Outcome.noConfusion hres
    · cases he : (w.graphs g).eagerExecution with
      | false =>
        rw [Graph.NewOperator_lazy hany he f pick]
        simp [Outcome.panicked]
      | true =>
        cases hf : f.Forward w.operand with
        | error msg =>
          rw [Graph.NewOperator_eager_panic hany he hf pick]
          simp [Outcome.panicked]
        | ok v =>
          rw [Graph.NewOperator_eager_ok hany he hf pick]
          simp [Outcome.panicked]

/-- C10: when every operand belongs to the graph (and `Forward`, if it runs, returns),
`NewOperator` returns a node whose `RequiresGrad()` is the logical OR of the
operands' `RequiresGrad()` flags: true iff at least one operand requires gradient,
false for an empty operand list. -/
theorem Graph.NewOperator_requiresGrad (w : World) (g : GraphRef) (f : Function)
    (operands : List Ptr) (pick : Nat)
    (hops : ∀ o ∈ operands, (w.heap o).Graph = some g)
    (hfwd : (w.graphs g).eagerExecution = false ∨ ∃ v, f.Forward w.operand = .ok v) :
    ∃ w1 n, Graph.NewOperator w g f operands pick = .ok w1 n ∧
      w1.RequiresGrad n = operands.any (fun o => w.RequiresGrad o) ∧
      (w1.RequiresGrad n = true ↔ ∃ o ∈ operands, w.RequiresGrad o = true) ∧
      (operands = [] → w1.RequiresGrad n = false) := by
  have hany : operands.any (fun o => decide ((w.heap o).Graph ≠ some g)) = false := by
    rw [Bool.eq_false_iff]
    intro hc
    obtain ⟨o, ho, hne⟩ := (Graph.cross_any_iff w g operands).mp hc
    exact hne (hops o ho)
  have key : ∃ w1 n, Graph.NewOperator w g f operands pick = .ok w1 n ∧
      w1.RequiresGrad n = operands.any (fun o => w.RequiresGrad o) := by
    cases he : (w.graphs g).eagerExecution with
    | false =>
      exact ⟨_, _, Graph.NewOperator_lazy hany he f pick,
        Graph.insert_operator_RequiresGrad _ g _ _⟩
    | true =>
      rcases hfwd with hf | ⟨v, hf⟩
      · rw [he] at hf; exact Bool.noConfusion hf
      · refine ⟨_, _, Graph.NewOperator_eager_ok hany he hf pick, ?_⟩
        rw [Graph.insert_operator_RequiresGrad]
        exact List.any_congr_mem (fun o _ =>
          @World.RequiresGrad_heap_ext w { w with forwardRuns := w.forwardRuns + 1 } rfl rfl o)
  obtain ⟨w1, n, hres, hrg⟩ := key
  refine ⟨w1, n, hres, hrg, ?_, ?_⟩
  · rw [hrg, List.any_eq_true]
  · intro hnil
    rw [hrg, hnil]; rfl

/-- C10 on the scenario: `min(x1, x2)` with `x1` requiring gradient and `x2` not
requires gradient. -/
theorem Graph.NewOperator_requiresGrad_witness :
    World.RequiresGrad Scenario.withMin 2 = true ∧
    ∃ w1 n, Graph.NewOperator Scenario.withX2 0 (MinFunction 0 1) [0, 1] 0 = .ok w1 n ∧
      w1.RequiresGrad n = [0, 1].any (fun o => Scenario.withX2.RequiresGrad o) ∧
      (w1.RequiresGrad n = true ↔ ∃ o ∈ [0, 1], Scenario.withX2.RequiresGrad o = true) ∧
      (([0, 1] : List Ptr) = [] → w1.RequiresGrad n = false) :=
  ⟨by decide, Graph.NewOperator_requiresGrad Scenario.withX2 0 (MinFunction 0 1) [0, 1] 0
    (by decide) (Or.inr ⟨Matrix.NewVecDense [1, 2, 3], by decide⟩)⟩

/-- C11: a new graph has eager execution enabled. With eager execution enabled (and
operands of the graph), `NewOperator` runs `Forward` exactly once and, when it
returns `v`, stores `v` as the value of the new operator node; with eager execution
disabled it does not run `Forward` and the value of the new node is absent. -/
theorem Graph.NewOperator_eager (w : World) (g : GraphRef) (f : Function)
    (operands : List Ptr) (pick : Nat)
    (hops : ∀ o ∈ operands, (w.heap o).Graph = some g) :
    (∀ size, ((Graph.NewGraph w size []).1.graphs (Graph.NewGraph w size []).2).eagerExecution
      = true) ∧
    (∀ v, (w.graphs g).eagerExecution = true → f.Forward w.operand = .ok v →
      ∃ w1 n, Graph.NewOperator w g f operands pick = .ok w1 n ∧
        w1.forwardRuns = w.forwardRuns + 1 ∧ w1.Value n = some v) ∧
    (∀ msg, (w.graphs g).eagerExecution = true → f.Forward w.operand = .error msg →
      (Graph.NewOperator w g f operands pick).world.forwardRuns = w.forwardRuns + 1) ∧
    ((w.graphs g).eagerExecution = false →
      ∃ w1 n, Graph.NewOperator w g f operands pick = .ok w1 n ∧
        w1.forwardRuns = w.forwardRuns ∧ w1.Value n = none) := by
  have hany : operands.any (fun o => decide ((w.heap o).Graph ≠ some g)) = false := by
    rw [Bool.eq_false_iff]
    intro hc
    obtain ⟨o, ho, hne⟩ := (Graph.cross_any_iff w g operands).mp hc
    exact hne (hops o ho)
  refine ⟨?_, ?_, ?_, ?_⟩
  · intro size
    simp [Graph.NewGraph, Graph.clearCache, World.setGraph]
  · intro v he hf
    refine ⟨_, _, Graph.NewOperator_eager_ok hany he hf pick, ?_, ?_⟩
    · show (World.poolGet _ pick).1.forwardRuns = _
      unfold World.poolGet
      split <;> rfl
    · simp [World.Value_eq, Graph.insert, World.setGraph, World.setNode, Node.setID]
  · intro msg he hf
    rw [Graph.NewOperator_eager_panic hany he hf pick]
    rfl
  · intro he
    refine ⟨_, _, Graph.NewOperator_lazy hany he f pick, ?_, ?_⟩
    · show (World.poolGet _ pick).1.forwardRuns = _
      unfold World.poolGet
      split <;> rfl
    · simp [World.Value_eq, Graph.insert, World.setGraph, World.setNode, Node.setID]

/-- C11 on the scenario: the eager `min(x1, x2)` ran `Forward` once and holds
`[1,2,3]`; after `SetEagerExecution(false)` the same call runs nothing and holds no
value. -/
theorem Graph.NewOperator_eager_witness :
    (Scenario.withMin.forwardRuns = 1 ∧
      Scenario.withMin.Value 2 = some (Matrix.NewVecDense [1, 2, 3]) ∧
      (Graph.NewOperator (Graph.SetEagerExecution Scenario.withX2 0 false).1 0
        (MinFunction 0 1) [0, 1] 0).world.forwardRuns = 0 ∧
      (Graph.NewOperator (Graph.SetEagerExecution Scenario.withX2 0 false).1 0
        (MinFunction 0 1) [0, 1] 0).world.Value 2 = none) ∧
    ((∀ size, ((Graph.NewGraph Scenario.withX2 size []).1.graphs
        (Graph.NewGraph Scenario.withX2 size []).2).eagerExecution = true) ∧
    (∀ v, (Scenario.withX2.graphs 0).eagerExecution = true →
      (MinFunction 0 1).Forward Scenario.withX2.operand = .ok v →
      ∃ w1 n, Graph.NewOperator Scenario.withX2 0 (MinFunction 0 1) [0, 1] 0 = .ok w1 n ∧
        w1.forwardRuns = Scenario.withX2.forwardRuns + 1 ∧ w1.Value n = some v) ∧
    (∀ msg, (Scenario.withX2.graphs 0).eagerExecution = true →
      (MinFunction 0 1).Forward Scenario.withX2.operand = .error msg →
      (Graph.NewOperator Scenario.withX2 0 (MinFunction 0 1) [0, 1] 0).world.forwardRuns =
        Scenario.withX2.forwardRuns + 1) ∧
    ((Scenario.withX2.graphs 0).eagerExecution = false →
      ∃ w1 n, Graph.NewOperator Scenario.withX2 0 (MinFunction 0 1) [0, 1] 0 = .ok w1 n ∧
        w1.forwardRuns = Scenario.withX2.forwardRuns ∧ w1.Value n = none)) :=
  ⟨by decide, Graph.NewOperator_eager Scenario.withX2 0 (MinFunction 0 1) [0, 1] 0 (by decide)⟩

/-- C12: the behaviour of `Clear` on a graph without nodes whose time-step was
incremented: the call returns at once and the time-step stays 1, whereas on a graph
with a node the same call resets it to 0. -/
theorem Graph.Clear_keeps_time_step_of_empty_graph :
    (Scenario.withGraph.graphs 0).nodes = [] ∧
    Graph.TimeStep (Graph.IncTimeStep Scenario.withGraph 0) 0 = 1 ∧
    Graph.TimeStep (Graph.Clear (Graph.IncTimeStep Scenario.withGraph 0) 0) 0 = 1 ∧
    Graph.TimeStep (Graph.Clear (Graph.IncTimeStep Scenario.withX1 0) 0) 0 = 0 := by
  decide

/-- C13, as stated, fails: the variable `x1` belonged to the graph, and after `Clear`
its `Graph()` is still that graph, so `NewOperator` on it with `x1` and `x2` as
operands does not fail. -/
theorem Graph.Clear_leaves_variables_attached :
    0 ∈ (Scenario.withMin.graphs 0).nodes ∧
    ((Graph.Clear Scenario.withMin 0).heap 0).Graph = some 0 ∧
    (Graph.NewOperator (Graph.Clear Scenario.withMin 0) 0 (MinFunction 0 1) [0, 1]
      0).panicked = false := by
  decide

/-- C13, amended: after `Clear`, every Operator node that belonged to the graph is the
zero operator: its `Graph()` is nil, so `NewOperator` on that graph with it among the
operands fails with the cross-graph panic and leaves the memory as it is. A Variable
or Wrapper node that belonged to the graph is left exactly as it was (and so keeps
its `Graph()`). -/
theorem Graph.Clear_detaches_operators (w : World) (g : GraphRef) (p : Ptr)
    (hp : p ∈ (w.graphs g).nodes) :
    ((w.heap p).isOperator = true →
      (Graph.Clear w g).heap p = .ofOperator {} ∧ ((Graph.Clear w g).heap p).Graph = none ∧
      ∀ (f : Function) (operands : List Ptr) (pick : Nat), p ∈ operands →
        Graph.NewOperator (Graph.Clear w g) g f operands pick =
          .panic (Graph.Clear w g) crossGraphMsg) ∧
    ((w.heap p).isOperator = false → (Graph.Clear w g).heap p = w.heap p) := by
  have hne : (w.graphs g).nodes.isEmpty = false := by
    cases hl : (w.graphs g).nodes with
    | nil => rw [hl] at hp; exact absurd hp (List.not_mem_nil _)
    | cons a l => rfl
  have hh := (Graph.Clear_closed_form w g hne).1 p
  constructor
  · intro hop
    have hz : (Graph.Clear w g).heap p = .ofOperator {} := by
      rw [hh, if_pos ⟨hp, hop⟩]
    refine ⟨hz, by rw [hz]; rfl, fun f operands pick hmem => ?_⟩
    apply Graph.NewOperator_foreign
    rw [Graph.cross_any_iff]
    refine ⟨p, hmem, ?_⟩
    rw [hz]
    exact fun h => Option.noConfusion h
  · intro hop
    rw [hh, if_neg (fun h => by rw [hop] at h; exact Bool.noConfusion h.2)]

/-- C13, amended, on the scenario: the operator `min(x1, x2)` is node 2. -/
theorem Graph.Clear_detaches_operators_witness :
    ((Scenario.withMin.heap 2).isOperator = true →
      (Graph.Clear Scenario.withMin 0).heap 2 = .ofOperator {} ∧
      ((Graph.Clear Scenario.withMin 0).heap 2).Graph = none ∧
      ∀ (f : Function) (operands : List Ptr) (pick : Nat), 2 ∈ operands →
        Graph.NewOperator (Graph.Clear Scenario.withMin 0) 0 f operands pick =
          .panic (Graph.Clear Scenario.withMin 0) crossGraphMsg) ∧
    ((Scenario.withMin.heap 2).isOperator = false →
      (Graph.Clear Scenario.withMin 0).heap 2 = Scenario.withMin.heap 2) :=
  Graph.Clear_detaches_operators Scenario.withMin 0 2 (by decide)

/-- C14: `ClearForReuse` leaves the graph objects as they are (node list, `maxID`,
time-step, cache), the id of every node and the function and operand list of every
Operator; after it every Operator node of the graph has neither value nor
gradient. -/
theorem Graph.ClearForReuse_keeps_wiring (w : World) (g : GraphRef) :
    (Graph.ClearForReuse w g).graphs = w.graphs ∧
    (∀ p, ((Graph.ClearForReuse w g).heap p).ID = (w.heap p).ID) ∧
    (∀ p o, w.heap p = .ofOperator o →
      ∃ o1, (Graph.ClearForReuse w g).heap p = .ofOperator o1 ∧ o1.function = o.function ∧
        o1.operands = o.operands) ∧
    (∀ p ∈ (w.graphs g).nodes, (w.heap p).isOperator = true →
      (Graph.ClearForReuse w g).Value p = none ∧ (Graph.ClearForReuse w g).Grad p = none) := by
  cases hne : (w.graphs g).nodes.isEmpty with
  | true =>
    have e : Graph.ClearForReuse w g = w := by simp [Graph.ClearForReuse, hne]
    have hnil : (w.graphs g).nodes = [] := List.isEmpty_iff.mp hne
    rw [e]
    refine ⟨rfl, fun _ => rfl, fun p o ho => ⟨o, ho, rfl, rfl⟩, fun p hp => ?_⟩
    rw [hnil] at hp
    exact absurd hp (List.not_mem_nil _)
  | false =>
    have e : Graph.ClearForReuse w g = Graph.releaseMemory w g := by
      simp [Graph.ClearForReuse, hne]
    rw [e, Graph.releaseMemory_eq]
    refine ⟨rfl, fun p => ?_, fun p o ho => ?_, fun p hp hop => ?_⟩
    · show (if p ∈ (w.graphs g).nodes then (w.heap p).released else w.heap p).ID = _
      split
      · cases w.heap p <;> rfl
      · rfl
    · show ∃ o1, (if p ∈ (w.graphs g).nodes then (w.heap p).released else w.heap p) =
        .ofOperator o1 ∧ _
      split
      · rw [ho]; exact ⟨_, rfl, rfl, rfl⟩
      · exact ⟨o, ho, rfl, rfl⟩
    · cases hn : w.heap p with
      | ofVariable v => rw [hn] at hop; exact Bool.noConfusion hop
      | ofWrapper x => rw [hn] at hop; exact Bool.noConfusion hop
      | ofOperator o => simp [World.Value_eq, World.Grad_eq, hp, hn, Node.released]

/-! ## The claims about `groupNodesByHeight` -/

/-- Claim C15: in every reachable memory `groupNodesByHeight` returns, and with the
height of a node read from the cache the call leaves: a Variable or a Wrapper has
height 0; an Operator none of whose operands is an Operator has height 0; the height
of any other Operator is 1 + the greatest height among its Operator operands; every
node of the graph has a height that indexes a group, occurs once in that group and in
no other group, and the groups hold nothing but nodes of the graph. -/
theorem Graph.groupNodesByHeight_groups_by_height (w : World) (hw : Reachable w)
    (g : GraphRef) :
    ∃ w1 groups, Graph.groupNodesByHeight w g = .ok w1 groups ∧
      (∀ p ∈ (w.graphs g).nodes, (w.heap p).isOperator = false → Graph.heightOf w1 g p = 0) ∧
      (∀ p ∈ (w.graphs g).nodes, ∀ o, w.heap p = .ofOperator o →
        ((∀ q ∈ o.operands, (w.heap q).isOperator = false) → Graph.heightOf w1 g p = 0) ∧
        (∀ q ∈ o.operands, (w.heap q).isOperator = true →
          1 + Graph.heightOf w1 g q ≤ Graph.heightOf w1 g p) ∧
        ((∃ q ∈ o.operands, (w.heap q).isOperator = true) →
          ∃ q ∈ o.operands, (w.heap q).isOperator = true ∧
            Graph.heightOf w1 g p = 1 + Graph.heightOf w1 g q)) ∧
      (∀ p ∈ (w.graphs g).nodes, ∃ h : Nat, Graph.heightOf w1 g p = (h : Int) ∧
        h < groups.length ∧
        ∀ i : Nat, (groups.getD i []).count p = if i = h then 1 else 0) ∧
      (∀ i : Nat, ∀ p ∈ groups.getD i [], p ∈ (w.graphs g).nodes) := by
  obtain ⟨w1, groups, hres, _, _, _, _, _, hleaf, hge, hatt, hbound, hmem, hnd, _⟩ :=
    Graph.groupNodesByHeight_facts hw.reachable_inv hw.reachable_wired g
  refine ⟨w1, groups, hres, hleaf, ?_, ?_, ?_⟩
  · intro p hp o ho
    refine ⟨?_, ?_, ?_⟩
    · intro hall
      rcases hatt p hp o ho with h0 | ⟨q, hq, hqop, _⟩
      · exact h0
      · rw [hall q hq] at hqop
        exact Bool.noConfusion hqop
    · intro q hq hqop
      have := (hge p hp o ho q hq hqop).2
      omega
    · rintro ⟨q0, hq0, hq0op⟩
      rcases hatt p hp o ho with h0 | ⟨q, hq, hqop, he⟩
      · obtain ⟨hq0n, hle⟩ := hge p hp o ho q0 hq0 hq0op
        have := (hbound q0 hq0n).1
        omega
      · exact ⟨q, hq, hqop, by omega⟩
  · intro p hp
    obtain ⟨h0, hlt⟩ := hbound p hp
    have hcast : Graph.heightOf w1 g p = ((Graph.heightOf w1 g p).toNat : Int) :=
      (Int.toNat_of_nonneg h0).symm
    refine ⟨(Graph.heightOf w1 g p).toNat, hcast, by omega, fun i => ?_⟩
    by_cases hi : i = (Graph.heightOf w1 g p).toNat
    · rw [if_pos hi]
      apply List.count_eq_one_of_mem (hnd i)
      rw [hmem i p]
      exact ⟨hp, by rw [hi]; exact hcast⟩
    · rw [if_neg hi]
      apply List.count_eq_zero_of_not_mem
      rw [hmem i p]
      rintro ⟨_, he⟩
      apply hi
      omega
  · intro i p hp
    exact ((hmem i p).mp hp).1

theorem Graph.groupNodesByHeight_groups_by_height_witness :
    ((Graph.groupNodesByHeight Scenario.withChain3 0).ret? = some [[0, 1, 2], [3], [4]] ∧
      (Scenario.withChain3.graphs 0).nodes.map
        (Graph.heightOf (Graph.groupNodesByHeight Scenario.withChain3 0).world 0) =
          [0, 0, 0, 1, 2]) ∧
    ∃ w1 groups, Graph.groupNodesByHeight Scenario.withChain3 0 = .ok w1 groups ∧
      (∀ p ∈ (Scenario.withChain3.graphs 0).nodes,
        (Scenario.withChain3.heap p).isOperator = false → Graph.heightOf w1 0 p = 0) ∧
      (∀ p ∈ (Scenario.withChain3.graphs 0).nodes, ∀ o,
        Scenario.withChain3.heap p = .ofOperator o →
        ((∀ q ∈ o.operands, (Scenario.withChain3.heap q).isOperator = false) →
          Graph.heightOf w1 0 p = 0) ∧
        (∀ q ∈ o.operands, (Scenario.withChain3.heap q).isOperator = true →
          1 + Graph.heightOf w1 0 q ≤ Graph.heightOf w1 0 p) ∧
        ((∃ q ∈ o.operands, (Scenario.withChain3.heap q).isOperator = true) →
          ∃ q ∈ o.operands, (Scenario.withChain3.heap q).isOperator = true ∧
            Graph.heightOf w1 0 p = 1 + Graph.heightOf w1 0 q)) ∧
      (∀ p ∈ (Scenario.withChain3.graphs 0).nodes, ∃ h : Nat,
        Graph.heightOf w1 0 p = (h : Int) ∧ h < groups.length ∧
        ∀ i : Nat, (groups.getD i []).count p = if i = h then 1 else 0) ∧
      (∀ i : Nat, ∀ p ∈ groups.getD i [], p ∈ (Scenario.withChain3.graphs 0).nodes) :=
  ⟨by decide,
    Graph.groupNodesByHeight_groups_by_height Scenario.withChain3 Scenario.withChain3_reachable 0⟩

/-- Claim C16: in every reachable memory, for every operator `c` of the graph and every
operand `o` of `c` that is an Operator, `groupNodesByHeight` returns groups in which
`c` is in exactly the group `i` and `o` in exactly the group `j` with `j < i`: a walk
from the last group down to the first meets `c` before `o`. -/
theorem Graph.groupNodesByHeight_operands_below (w : World) (hw : Reachable w)
    (g : GraphRef) :
    ∃ w1 groups, Graph.groupNodesByHeight w g = .ok w1 groups ∧
      ∀ c ∈ (w.graphs g).nodes, ∀ oc, w.heap c = .ofOperator oc →
        ∀ o ∈ oc.operands, (w.heap o).isOperator = true →
          ∃ i j : Nat, j < i ∧ i < groups.length ∧
            (∀ i1 : Nat, c ∈ groups.getD i1 [] ↔ i1 = i) ∧
            (∀ j1 : Nat, o ∈ groups.getD j1 [] ↔ j1 = j) := by
  obtain ⟨w1, groups, hres, _, _, _, _, _, _, hge, _, hbound, hmem, _, _⟩ :=
    Graph.groupNodesByHeight_facts hw.reachable_inv hw.reachable_wired g
  refine ⟨w1, groups, hres, ?_⟩
  intro c hc oc hoc o ho hop
  obtain ⟨hon, hle⟩ := hge c hc oc hoc o ho hop
  obtain ⟨hc0, hclt⟩ := hbound c hc
  obtain ⟨ho0, _⟩ := hbound o hon
  refine ⟨(Graph.heightOf w1 g c).toNat, (Graph.heightOf w1 g o).toNat, by omega, by omega,
    fun i1 => ?_, fun j1 => ?_⟩
  · rw [hmem i1 c]
    constructor
    · rintro ⟨_, he⟩; omega
    · intro he; exact ⟨hc, by omega⟩
  · rw [hmem j1 o]
    constructor
    · rintro ⟨_, he⟩; omega
    · intro he; exact ⟨hon, by omega⟩

theorem Graph.groupNodesByHeight_operands_below_witness :
    ((Graph.groupNodesByHeight Scenario.withChain3 0).ret? = some [[0, 1, 2], [3], [4]] ∧
      Scenario.withChain3.operandsOf 4 = [3, 2] ∧ Scenario.withChain3.operandsOf 3 = [2, 0]) ∧
    ∃ w1 groups, Graph.groupNodesByHeight Scenario.withChain3 0 = .ok w1 groups ∧
      ∀ c ∈ (Scenario.withChain3.graphs 0).nodes, ∀ oc,
        Scenario.withChain3.heap c = .ofOperator oc →
        ∀ o ∈ oc.operands, (Scenario.withChain3.heap o).isOperator = true →
          ∃ i j : Nat, j < i ∧ i < groups.length ∧
            (∀ i1 : Nat, c ∈ groups.getD i1 [] ↔ i1 = i) ∧
            (∀ j1 : Nat, o ∈ groups.getD j1 [] ↔ j1 = j) :=
  ⟨by decide,
    Graph.groupNodesByHeight_operands_below Scenario.withChain3 Scenario.withChain3_reachable 0⟩

/-- Claim C17: in every reachable memory (whatever insertions and calls of
`groupNodesByHeight` led to it) the call returns the groups that the call returns on
the same memory with the cache of the graph cleared first, and both calls leave the
same cache: the same cached maximum id, the same groups and the same height for
every node id. -/
theorem Graph.groupNodesByHeight_incremental (w : World) (hw : Reachable w) (g : GraphRef) :
    ∃ w1 w2 groups, Graph.groupNodesByHeight w g = .ok w1 groups ∧
      Graph.groupNodesByHeight (Graph.clearCache w g) g = .ok w2 groups ∧
      (w1.graphs g).cache = (w2.graphs g).cache ∧
      (w1.graphs g).cache.nodesByHeight = groups ∧
      ∀ p, Graph.heightOf w1 g p = Graph.heightOf w2 g p := by
  have hI := hw.reachable_inv
  have hW := hw.reachable_wired
  obtain ⟨w1, groups, hres, hmax, hgroups, _, hH, hheap, _, _, _⟩ :=
    Graph.groupNodesByHeight_spec w g (hI.2 g) (fun k p hk => hW.topo hI g k p hk) (hW.cache g)
  obtain ⟨hok, htopo, hcache, hd, hn, hm⟩ := Graph.clearCache_ready hI hW g
  obtain ⟨w2, groups2, hres2, hmax2, hgroups2, _, hH2, hheap2, _, _, _⟩ :=
    Graph.groupNodesByHeight_spec (Graph.clearCache w g) g hok htopo hcache
  rw [hd, hn] at hH2
  rw [hm] at hmax2
  obtain ⟨hhs, hgr⟩ := hH.unique hH2
  have hc : (w1.graphs g).cache = (w2.graphs g).cache := by
    cases h1 : (w1.graphs g).cache with
    | mk m1 n1 h1s =>
      cases h2 : (w2.graphs g).cache with
      | mk m2 n2 h2s =>
        rw [h1] at hmax hgroups hhs
        rw [h2] at hmax2 hgroups2 hhs
        simp only at hmax hgroups hhs hmax2 hgroups2
        rw [hmax, hmax2, hgroups, hgroups2, hhs, hgr]
  refine ⟨w1, w2, groups, hres, ?_, hc, hgroups, ?_⟩
  · rw [hres2, hgr]
  · intro p
    unfold Graph.heightOf
    rw [hc, hheap, hheap2]
    rfl

theorem Graph.groupNodesByHeight_incremental_witness :
    (((Scenario.regrouped.graphs 0).cache.maxID = 2 ∧ (Scenario.regrouped.graphs 0).maxID = 3 ∧
        (Scenario.regrouped.graphs 0).cache.nodesByHeight = [[0, 1, 2]]) ∧
      (Graph.groupNodesByHeight Scenario.regrouped 0).ret? = some [[0, 1, 2], [3]] ∧
      (Graph.groupNodesByHeight (Graph.clearCache Scenario.regrouped 0) 0).ret? =
        some [[0, 1, 2], [3]]) ∧
    ∃ w1 w2 groups, Graph.groupNodesByHeight Scenario.regrouped 0 = .ok w1 groups ∧
      Graph.groupNodesByHeight (Graph.clearCache Scenario.regrouped 0) 0 = .ok w2 groups ∧
      (w1.graphs 0).cache = (w2.graphs 0).cache ∧
      (w1.graphs 0).cache.nodesByHeight = groups ∧
      ∀ p, Graph.heightOf w1 0 p = Graph.heightOf w2 0 p :=
  ⟨by decide,
    Graph.groupNodesByHeight_incremental Scenario.regrouped Scenario.regrouped_reachable 0⟩

/-- Claim C18: in every reachable memory a call of `groupNodesByHeight` returns, and a
second call on a memory in which the graph object is as the first call left it (no
insertion, no `Clear`) returns the same groups and leaves the memory, hence the cached
maximum id, heights and groups, unchanged. -/
theorem Graph.groupNodesByHeight_twice (w : World) (hw : Reachable w) (g : GraphRef) :
    ∃ w1 groups, Graph.groupNodesByHeight w g = .ok w1 groups ∧
      Graph.groupNodesByHeight w1 g = .ok w1 groups ∧
      ∀ w2 : World, w2.graphs g = w1.graphs g → Graph.groupNodesByHeight w2 g = .ok w2 groups := by
  obtain ⟨w1, groups, hres, _, _, hcm, hm, hgroups, _⟩ :=
    Graph.groupNodesByHeight_facts hw.reachable_inv hw.reachable_wired g
  have key : ∀ w2 : World, w2.graphs g = w1.graphs g →
      Graph.groupNodesByHeight w2 g = .ok w2 groups := by
    intro w2 h2
    have hguard : (w2.graphs g).cache.maxID = (w2.graphs g).maxID := by
      rw [h2, hcm, hm]
    unfold Graph.groupNodesByHeight
    simp only [hguard, if_true]
    rw [h2, hgroups]
  exact ⟨w1, groups, hres, key w1 rfl, key⟩

theorem Graph.groupNodesByHeight_twice_witness :
    ((Graph.groupNodesByHeight Scenario.regrouped 0).ret? = some [[0, 1, 2], [3]] ∧
      (Graph.groupNodesByHeight (Graph.groupNodesByHeight Scenario.regrouped 0).world 0).ret? =
        some [[0, 1, 2], [3]] ∧
      ((Graph.groupNodesByHeight
          (Graph.groupNodesByHeight Scenario.regrouped 0).world 0).world.graphs 0).cache =
        ((Graph.groupNodesByHeight Scenario.regrouped 0).world.graphs 0).cache) ∧
    ∃ w1 groups, Graph.groupNodesByHeight Scenario.regrouped 0 = .ok w1 groups ∧
      Graph.groupNodesByHeight w1 0 = .ok w1 groups ∧
      ∀ w2 : World, w2.graphs 0 = w1.graphs 0 →
        Graph.groupNodesByHeight w2 0 = .ok w2 groups :=
  ⟨by decide, Graph.groupNodesByHeight_twice Scenario.regrouped Scenario.regrouped_reachable 0⟩

/-- Claim C19: in every reachable memory `groupNodesByHeight` returns; for a graph
with nodes the number of groups is the greatest height of a node + 1 (some node has
height `length - 1` and none a greater one); no returned group is empty; for a graph
without nodes no group is returned. -/
theorem Graph.groupNodesByHeight_group_count (w : World) (hw : Reachable w) (g : GraphRef) :
    ∃ w1 groups, Graph.groupNodesByHeight w g = .ok w1 groups ∧
      ((w.graphs g).nodes ≠ [] →
        (∃ p ∈ (w.graphs g).nodes, (groups.length : Int) = Graph.heightOf w1 g p + 1) ∧
        (∀ p ∈ (w.graphs g).nodes, Graph.heightOf w1 g p + 1 ≤ (groups.length : Int))) ∧
      (∀ grp ∈ groups, grp ≠ []) ∧
      ((w.graphs g).nodes = [] → groups = []) := by
  obtain ⟨w1, groups, hres, _, _, _, _, _, _, _, _, hbound, hmem, _, hfull⟩ :=
    Graph.groupNodesByHeight_facts hw.reachable_inv hw.reachable_wired g
  refine ⟨w1, groups, hres, ?_, ?_, ?_⟩
  · intro hne
    obtain ⟨p0, hp0⟩ := List.exists_mem_of_ne_nil _ hne
    have hpos : 0 < groups.length := by
      have := hbound p0 hp0
      omega
    refine ⟨?_, fun p hp => ?_⟩
    · obtain ⟨p, hp, he⟩ := hfull (groups.length - 1) (by omega)
      refine ⟨p, hp, ?_⟩
      rw [he]
      omega
    · have := (hbound p hp).2
      omega
  · intro grp hgrp habs
    obtain ⟨i, hi⟩ := List.mem_iff_getElem?.mp hgrp
    have hil : i < groups.length := (List.getElem?_eq_some.mp hi).1
    obtain ⟨p, hp, he⟩ := hfull i hil
    have hin : p ∈ groups.getD i [] := (hmem i p).mpr ⟨hp, he⟩
    rw [List.getD_eq_getElem?_getD, hi, Option.getD_some, habs] at hin
    exact absurd hin (List.not_mem_nil _)
  · intro hnil
    cases hg : groups with
    | nil => rfl
    | cons a rest =>
      obtain ⟨p, hp, _⟩ := hfull 0 (by rw [hg]; exact Nat.succ_pos _)
      rw [hnil] at hp
      exact absurd hp (List.not_mem_nil _)

theorem Graph.groupNodesByHeight_group_count_witness :
    ((Graph.groupNodesByHeight Scenario.withChain3 0).ret? = some [[0, 1, 2], [3], [4]] ∧
      Graph.heightOf (Graph.groupNodesByHeight Scenario.withChain3 0).world 0 4 = 2 ∧
      (Graph.groupNodesByHeight Scenario.withGraph 0).ret? = some []) ∧
    ∃ w1 groups, Graph.groupNodesByHeight Scenario.withChain3 0 = .ok w1 groups ∧
      ((Scenario.withChain3.graphs 0).nodes ≠ [] →
        (∃ p ∈ (Scenario.withChain3.graphs 0).nodes,
          (groups.length : Int) = Graph.heightOf w1 0 p + 1) ∧
        (∀ p ∈ (Scenario.withChain3.graphs 0).nodes,
          Graph.heightOf w1 0 p + 1 ≤ (groups.length : Int))) ∧
      (∀ grp ∈ groups, grp ≠ []) ∧
      ((Scenario.withChain3.graphs 0).nodes = [] → groups = []) :=
  ⟨by decide,
    Graph.groupNodesByHeight_group_count Scenario.withChain3 Scenario.withChain3_reachable 0⟩

/-- Claim C20: in every reachable memory, for a chain `c0 :: rest` of operators of the
graph in which no operand of `c0` is an Operator and every later operator has the
previous one among its operands and no Operator operand higher than the previous one,
`groupNodesByHeight` returns and the operator at position `k` of the chain (counted
from 0) has height `k`; so the last of `D` operators has height `D - 1`, and an
operator whose operands are all leaves has height 0. -/
theorem Graph.groupNodesByHeight_chain (w : World) (hw : Reachable w) (g : GraphRef)
    (c0 : Ptr) (rest : List Ptr)
    (hmem : ∀ c ∈ c0 :: rest, c ∈ (w.graphs g).nodes ∧ (w.heap c).isOperator = true)
    (hfirst : ∀ q ∈ w.operandsOf c0, (w.heap q).isOperator = false)
    (hnext : List.Chain (fun c d => c ∈ w.operandsOf d ∧ ∀ q ∈ w.operandsOf d,
      (w.heap q).isOperator = true →
        Graph.heightOf (Graph.groupNodesByHeight w g).world g q ≤
          Graph.heightOf (Graph.groupNodesByHeight w g).world g c) c0 rest) :
    (Graph.groupNodesByHeight w g).panicked = false ∧
    (∀ (k : Nat) (c : Ptr), (c0 :: rest)[k]? = some c →
      Graph.heightOf (Graph.groupNodesByHeight w g).world g c = (k : Int)) ∧
    Graph.heightOf (Graph.groupNodesByHeight w g).world g ((c0 :: rest).getLast
      (List.cons_ne_nil c0 rest)) = ((c0 :: rest).length : Int) - 1 := by
  obtain ⟨w1, groups, hres, _, _, _, _, _, _, hge, hatt, hbound, _, _, _⟩ :=
    Graph.groupNodesByHeight_facts hw.reachable_inv hw.reachable_wired g
  have hw1 : (Graph.groupNodesByHeight w g).world = w1 := by rw [hres]; rfl
  rw [hw1] at hnext ⊢
  have hop : ∀ c, (w.heap c).isOperator = true → ∃ o, w.heap c = .ofOperator o := by
    intro c hc
    cases hn : w.heap c with
    | ofOperator o => exact ⟨o, rfl⟩
    | ofVariable v => rw [hn] at hc; exact Bool.noConfusion hc
    | ofWrapper x => rw [hn] at hc; exact Bool.noConfusion hc
  -- the first operator has height 0
  have h0 : Graph.heightOf w1 g c0 = 0 := by
    obtain ⟨hc0, hc0op⟩ := hmem c0 (List.mem_cons_self _ _)
    obtain ⟨o, ho⟩ := hop c0 hc0op
    rcases hatt c0 hc0 o ho with hz | ⟨q, hq, hqop, _⟩
    · exact hz
    · rw [← World.operandsOf_of_operator ho] at hq
      rw [hfirst q hq] at hqop
      exact Bool.noConfusion hqop
  -- one link of the chain raises the height by one
  have hlink : ∀ c d, d ∈ (w.graphs g).nodes → (w.heap c).isOperator = true →
      c ∈ w.operandsOf d → (∀ q ∈ w.operandsOf d, (w.heap q).isOperator = true →
        Graph.heightOf w1 g q ≤ Graph.heightOf w1 g c) →
      Graph.heightOf w1 g d = Graph.heightOf w1 g c + 1 := by
    intro c d hd hcop hcd hle
    have hdop : (w.heap d).isOperator = true := by
      cases hn : w.heap d with
      | ofOperator o => rfl
      | ofVariable v => simp [World.operandsOf, hn] at hcd
      | ofWrapper x => simp [World.operandsOf, hn] at hcd
    obtain ⟨o, ho⟩ := hop d hdop
    rw [World.operandsOf_of_operator ho] at hcd hle
    have h1 := (hge d hd o ho c hcd hcop).2
    rcases hatt d hd o ho with hz | ⟨q, hq, hqop, he⟩
    · obtain ⟨hcn, _⟩ := hge d hd o ho c hcd hcop
      have hnn := (hbound c hcn).1
      omega
    · have := hle q hq hqop
      omega
  have hall : ∀ (l : List Ptr) (a : Ptr) (n : Int),
      (∀ c ∈ a :: l, c ∈ (w.graphs g).nodes ∧ (w.heap c).isOperator = true) →
      List.Chain (fun c d => c ∈ w.operandsOf d ∧ ∀ q ∈ w.operandsOf d,
        (w.heap q).isOperator = true →
          Graph.heightOf w1 g q ≤ Graph.heightOf w1 g c) a l →
      Graph.heightOf w1 g a = n →
      ∀ (k : Nat) (c : Ptr), (a :: l)[k]? = some c → Graph.heightOf w1 g c = n + (k : Int) := by
    intro l
    induction l with
    | nil =>
      intro a n _ _ ha k c hk
      cases k with
      | zero =>
        simp at hk
        rw [← hk, ha]; simp
      | succ k => simp at hk
    | cons b l ih =>
      intro a n hm hch ha k c hk
      cases k with
      | zero =>
        simp at hk
        rw [← hk, ha]; simp
      | succ k =>
        rw [List.getElem?_cons_succ] at hk
        obtain ⟨hab, hrest⟩ := List.chain_cons.mp hch
        have hb := hlink a b (hm b (List.mem_cons_of_mem _ (List.mem_cons_self _ _))).1
          (hm a (List.mem_cons_self _ _)).2 hab.1 hab.2
        have := ih b (n + 1) (fun c hc => hm c (List.mem_cons_of_mem _ hc)) hrest
          (by rw [hb, ha]) k c hk
        rw [this]
        push_cast
        ring
  have hk := hall rest c0 0 hmem hnext h0
  refine ⟨by rw [hres]; rfl, fun k c hkc => by rw [hk k c hkc]; ring, ?_⟩
  have hlast : (c0 :: rest)[(c0 :: rest).length - 1]? =
      some ((c0 :: rest).getLast (List.cons_ne_nil c0 rest)) := by
    rw [List.getLast_eq_getElem, List.getElem?_eq_getElem]
  rw [hk _ _ hlast]
  simp

theorem Graph.groupNodesByHeight_chain_witness :
    (Scenario.withChain3.operandsOf 2 = [0, 1] ∧ Scenario.withChain3.operandsOf 3 = [2, 0] ∧
      Scenario.withChain3.operandsOf 4 = [3, 2]) ∧
    ((Graph.groupNodesByHeight Scenario.withChain3 0).panicked = false ∧
    (∀ (k : Nat) (c : Ptr), ([2, 3, 4] : List Ptr)[k]? = some c →
      Graph.heightOf (Graph.groupNodesByHeight Scenario.withChain3 0).world 0 c = (k : Int)) ∧
    Graph.heightOf (Graph.groupNodesByHeight Scenario.withChain3 0).world 0
      (([2, 3, 4] : List Ptr).getLast (List.cons_ne_nil 2 [3, 4])) =
        ((([2, 3, 4] : List Ptr).length : Int)) - 1) :=
  ⟨by decide,
    Graph.groupNodesByHeight_chain Scenario.withChain3 Scenario.withChain3_reachable 0 2 [3, 4]
      (by decide) (by decide)
      (List.Chain.cons (by decide) (List.Chain.cons (by decide) List.Chain.nil))⟩

/-! ## The claims about the node constructors and the settings -/

/-- Claim C21: in every reachable memory `NewVariable(value, requiresGrad)` appends
the node it returns, and nothing else, to the node list of the graph; that node is a
Variable of the graph with the given value and flag, no gradient, the current
time-step of the graph and the next id; every node that was in a node list before is
the same object as before, at the same index, so its id is unchanged; the other
graphs are unchanged. -/
theorem Graph.NewVariable_appends (w : World) (hw : Reachable w) (g : GraphRef)
    (value : Option Matrix) (requiresGrad : Bool) :
    ((Graph.NewVariable w g value requiresGrad).1.graphs g).nodes =
      (w.graphs g).nodes ++ [(Graph.NewVariable w g value requiresGrad).2] ∧
    (Graph.NewVariable w g value requiresGrad).2 ∉ (w.graphs g).nodes ∧
    (((Graph.NewVariable w g value requiresGrad).1.heap
        (Graph.NewVariable w g value requiresGrad).2).isVariable = true ∧
      (Graph.NewVariable w g value requiresGrad).1.Value
        (Graph.NewVariable w g value requiresGrad).2 = value ∧
      (Graph.NewVariable w g value requiresGrad).1.RequiresGrad
        (Graph.NewVariable w g value requiresGrad).2 = requiresGrad ∧
      (Graph.NewVariable w g value requiresGrad).1.Grad
        (Graph.NewVariable w g value requiresGrad).2 = none ∧
      ((Graph.NewVariable w g value requiresGrad).1.heap
        (Graph.NewVariable w g value requiresGrad).2).TimeStep = Graph.TimeStep w g ∧
      ((Graph.NewVariable w g value requiresGrad).1.heap
        (Graph.NewVariable w g value requiresGrad).2).Graph = some g ∧
      ((Graph.NewVariable w g value requiresGrad).1.heap
        (Graph.NewVariable w g value requiresGrad).2).ID = ((w.graphs g).nodes.length : Int)) ∧
    (∀ g1, ∀ p ∈ (w.graphs g1).nodes,
      (Graph.NewVariable w g value requiresGrad).1.heap p = w.heap p) ∧
    (∀ (k : Nat) (p : Ptr), (w.graphs g).nodes[k]? = some p →
      ((Graph.NewVariable w g value requiresGrad).1.graphs g).nodes[k]? = some p ∧
      ((Graph.NewVariable w g value requiresGrad).1.heap p).ID = (k : Int)) ∧
    (∀ g1, g1 ≠ g → (Graph.NewVariable w g value requiresGrad).1.graphs g1 = w.graphs g1) := by
  have hI := hw.reachable_inv
  have key : (Graph.NewVariable w g value requiresGrad).2 = w.nextPtr ∧
      (Graph.NewVariable w g value requiresGrad).1.heap w.nextPtr =
        (Node.ofVariable
          { graph := some g, timeStep := (w.graphs g).curTimeStep, value := value, grad := none,
            requiresGrad := requiresGrad }).setID ((w.graphs g).maxID + 1) ∧
      (∀ q, q ≠ w.nextPtr → (Graph.NewVariable w g value requiresGrad).1.heap q = w.heap q) ∧
      ((Graph.NewVariable w g value requiresGrad).1.graphs g).nodes =
        (w.graphs g).nodes ++ [w.nextPtr] ∧
      (∀ g1, g1 ≠ g → (Graph.NewVariable w g value requiresGrad).1.graphs g1 = w.graphs g1) ∧
      (Graph.NewVariable w g value requiresGrad).1.ext = w.ext :=
    Graph.allocInsert_fields w g _
  obtain ⟨hret, hself, hrest, hnodes, hoth, _⟩ := key
  have hold : ∀ g1, ∀ p ∈ (w.graphs g1).nodes, p ≠ w.nextPtr := by
    intro g1 p hp e
    have := (hI.2 g1).bound p hp
    rw [e] at this
    exact Nat.lt_irrefl _ this
  refine ⟨?_, ?_, ⟨?_, ?_, ?_, ?_, ?_, ?_, ?_⟩, ?_, ?_, hoth⟩
  · rw [hnodes, hret]
  · rw [hret]
    intro hm
    exact hold g _ hm rfl
  · rw [hret, hself]; rfl
  · rw [World.Value_eq]; rw [hret, hself]; rfl
  · rw [World.RequiresGrad_eq]; rw [hret, hself]; rfl
  · rw [World.Grad_eq]; rw [hret, hself]; rfl
  · rw [hret, hself]; rfl
  · rw [hret, hself]; rfl
  · rw [hret, hself, Node.ID_setID, (hI.2 g).maxID]; ring
  · intro g1 p hp
    exact hrest p (hold g1 p hp)
  · intro k p hk
    have hp : p ∈ (w.graphs g).nodes := List.mem_iff_getElem?.mpr ⟨k, hk⟩
    refine ⟨?_, ?_⟩
    · rw [hnodes, List.getElem?_append_left (List.getElem?_eq_some.mp hk).1]
      exact hk
    · rw [hrest p (hold g p hp)]
      exact ((hI.2 g).owner k p hk).2

theorem Graph.NewVariable_appends_witness :
    ((Graph.NewVariable Scenario.withMin 0 (some (Matrix.NewVecDense [7, 8])) true).2 = 3 ∧
      ((Graph.NewVariable Scenario.withMin 0 (some (Matrix.NewVecDense [7, 8])) true).1.graphs
        0).nodes = [0, 1, 2, 3] ∧
      (Graph.NewVariable Scenario.withMin 0 (some (Matrix.NewVecDense [7, 8])) true).1.Value 3 =
        some (Matrix.NewVecDense [7, 8])) ∧
    (∀ (k : Nat) (p : Ptr), (Scenario.withMin.graphs 0).nodes[k]? = some p →
      ((Graph.NewVariable Scenario.withMin 0 (some (Matrix.NewVecDense [7, 8])) true).1.graphs
        0).nodes[k]? = some p ∧
      ((Graph.NewVariable Scenario.withMin 0 (some (Matrix.NewVecDense [7, 8])) true).1.heap
        p).ID = (k : Int)) :=
  ⟨by decide,
    (Graph.NewVariable_appends Scenario.withMin Scenario.withMin_reachable 0
      (some (Matrix.NewVecDense [7, 8])) true).2.2.2.2.1⟩

/-- Claim C22: the node that `NewScalar(v)` or `NewScalarWithName(v, name)` creates,
and the node that `Constant(v)` creates when the constants table has no entry for
`v`, is a Variable whose value is the 1x1 matrix holding `v`, whose `RequiresGrad()`
is false and whose gradient is absent. -/
theorem Graph.scalar_nodes (w : World) (g : GraphRef) (v : DType) (name : String) :
    (((Graph.NewScalar w g v).1.heap (Graph.NewScalar w g v).2).isVariable = true ∧
      (Graph.NewScalar w g v).1.Value (Graph.NewScalar w g v).2 = some ⟨1, 1, [v]⟩ ∧
      (Graph.NewScalar w g v).1.RequiresGrad (Graph.NewScalar w g v).2 = false ∧
      (Graph.NewScalar w g v).1.Grad (Graph.NewScalar w g v).2 = none) ∧
    (((Graph.NewScalarWithName w g v name).1.heap
        (Graph.NewScalarWithName w g v name).2).isVariable = true ∧
      (Graph.NewScalarWithName w g v name).1.Value (Graph.NewScalarWithName w g v name).2 =
        some ⟨1, 1, [v]⟩ ∧
      (Graph.NewScalarWithName w g v name).1.RequiresGrad
        (Graph.NewScalarWithName w g v name).2 = false ∧
      (Graph.NewScalarWithName w g v name).1.Grad (Graph.NewScalarWithName w g v name).2 =
        none) ∧
    (mapGet (w.graphs g).constants v = none →
      ((Graph.Constant w g v).1.heap (Graph.Constant w g v).2).isVariable = true ∧
      (Graph.Constant w g v).1.Value (Graph.Constant w g v).2 = some ⟨1, 1, [v]⟩ ∧
      (Graph.Constant w g v).1.RequiresGrad (Graph.Constant w g v).2 = false ∧
      (Graph.Constant w g v).1.Grad (Graph.Constant w g v).2 = none) := by
  refine ⟨?_, ?_, ?_⟩
  · exact Graph.variable_created w g
      { graph := some g, timeStep := (w.graphs g).curTimeStep,
        value := some (Matrix.NewScalar v), grad := none, requiresGrad := false }
  · exact Graph.variable_created w g
      { graph := some g, timeStep := (w.graphs g).curTimeStep, name := name,
        value := some (Matrix.NewScalar v), grad := none, requiresGrad := false }
  · intro hm
    rw [Graph.Constant_miss hm]
    have key := Graph.variable_created w g
      { graph := some g, timeStep := (w.graphs g).curTimeStep, name := DType.Sprint v,
        value := some (Matrix.NewScalar v), grad := none, requiresGrad := false }
    refine ⟨key.1, ?_, ?_, ?_⟩
    · exact (World.reads_setGraph _ g _ _).1.trans key.2.1
    · exact (World.reads_setGraph _ g _ _).2.2.trans key.2.2.1
    · exact (World.reads_setGraph _ g _ _).2.1.trans key.2.2.2

theorem Graph.scalar_nodes_witness :
    ((Graph.Constant Scenario.withMin 0 7).2 = 3 ∧
      (Graph.Constant Scenario.withMin 0 7).1.Value 3 = some ⟨1, 1, [7]⟩) ∧
    (((Graph.Constant Scenario.withMin 0 7).1.heap
        (Graph.Constant Scenario.withMin 0 7).2).isVariable = true ∧
      (Graph.Constant Scenario.withMin 0 7).1.Value (Graph.Constant Scenario.withMin 0 7).2 =
        some ⟨1, 1, [7]⟩ ∧
      (Graph.Constant Scenario.withMin 0 7).1.RequiresGrad
        (Graph.Constant Scenario.withMin 0 7).2 = false ∧
      (Graph.Constant Scenario.withMin 0 7).1.Grad (Graph.Constant Scenario.withMin 0 7).2 =
        none) :=
  ⟨by decide, (Graph.scalar_nodes Scenario.withMin 0 7 "seven").2.2 (by decide)⟩

/-- Claim C23, on the failing input: on a new graph whose queue was created with size
1, `ConcurrentComputations()` reports 1, and `SetConcurrentComputations(2)` returns
0, the number of computations that hold a slot of the queue (`len`), not the size;
afterwards `ConcurrentComputations()` reports 2. -/
theorem Graph.SetConcurrentComputations_returns_queue_length :
    Graph.ConcurrentComputations Scenario.withGraph 0 = 1 ∧
    (Graph.SetConcurrentComputations Scenario.withGraph 0 2).ret? = some 0 ∧
    Graph.ConcurrentComputations
      (Graph.SetConcurrentComputations Scenario.withGraph 0 2).world 0 = 2 := by
  decide

/-- Claim C24: `SetConcurrentComputations(value)` panics exactly when `value < 1`; when
it panics the memory, hence the processing queue and its size, is as before; for
`value >= 1` it returns and the queue has the new size. -/
theorem Graph.SetConcurrentComputations_panics_iff (w : World) (g : GraphRef) (value : Int) :
    (value < 1 →
      Graph.SetConcurrentComputations w g value = .panic w concurrencyMsg ∧
      (Graph.SetConcurrentComputations w g value).panicked = true ∧
      (Graph.SetConcurrentComputations w g value).world = w ∧
      Graph.ConcurrentComputations (Graph.SetConcurrentComputations w g value).world g =
        Graph.ConcurrentComputations w g) ∧
    (1 ≤ value →
      (Graph.SetConcurrentComputations w g value).panicked = false ∧
      Graph.ConcurrentComputations (Graph.SetConcurrentComputations w g value).world g = value) := by
  constructor
  · intro h
    have e : Graph.SetConcurrentComputations w g value = .panic w concurrencyMsg := by
      simp [Graph.SetConcurrentComputations, h]
    rw [e]
    exact ⟨rfl, rfl, rfl, rfl⟩
  · intro h
    have hn : ¬ value < 1 := by omega
    have e : Graph.SetConcurrentComputations w g value =
        .ok (w.setGraph g { w.graphs g with processingQueue := ProcessingQueue.New value.toNat })
          ((w.graphs g).processingQueue.inFlight : Int) := by
      simp [Graph.SetConcurrentComputations, hn]
    rw [e]
    refine ⟨rfl, ?_⟩
    simp [Graph.ConcurrentComputations, Outcome.world, World.setGraph, ProcessingQueue.New]
    omega

theorem Graph.SetConcurrentComputations_panics_iff_witness :
    (Graph.SetConcurrentComputations Scenario.withGraph 0 0 =
        .panic Scenario.withGraph concurrencyMsg ∧
      (Graph.SetConcurrentComputations Scenario.withGraph 0 0).panicked = true ∧
      (Graph.SetConcurrentComputations Scenario.withGraph 0 0).world = Scenario.withGraph ∧
      Graph.ConcurrentComputations (Graph.SetConcurrentComputations Scenario.withGraph 0 0).world
        0 = Graph.ConcurrentComputations Scenario.withGraph 0) ∧
    ((Graph.SetConcurrentComputations Scenario.withGraph 0 1).panicked = false ∧
      Graph.ConcurrentComputations
        (Graph.SetConcurrentComputations Scenario.withGraph 0 1).world 0 = 1) :=
  ⟨(Graph.SetConcurrentComputations_panics_iff Scenario.withGraph 0 0).1 (by decide),
    (Graph.SetConcurrentComputations_panics_iff Scenario.withGraph 0 1).2 (by decide)⟩

/-- Claim C25: for every memory and graph `MarshalBinary` returns the empty byte
sequence and no error, and for every byte sequence `UnmarshalBinary` returns no error
and leaves the memory, hence the nodes, `maxID`, time-step, constants and cache of
the graph, as it was. -/
theorem Graph.MarshalBinary_empty (w : World) (g : GraphRef) (data : List Nat) :
    (Graph.MarshalBinary w g).1 = [] ∧ (Graph.MarshalBinary w g).2 = none ∧
    (Graph.UnmarshalBinary w g data).2 = none ∧
    (Graph.UnmarshalBinary w g data).1 = w ∧
    ((Graph.UnmarshalBinary w g data).1.graphs g).nodes = (w.graphs g).nodes ∧
    ((Graph.UnmarshalBinary w g data).1.graphs g).maxID = (w.graphs g).maxID ∧
    Graph.TimeStep (Graph.UnmarshalBinary w g data).1 g = Graph.TimeStep w g ∧
    ((Graph.UnmarshalBinary w g data).1.graphs g).constants = (w.graphs g).constants ∧
    ((Graph.UnmarshalBinary w g data).1.graphs g).cache = (w.graphs g).cache :=
  ⟨rfl, rfl, rfl, rfl, rfl, rfl, rfl, rfl, rfl⟩

/-- Claim C26: `Graph.ZeroGrad()` calls `ZeroGrad` on the nodes of the node list, one
after the other; afterwards `Grad()` is nil for every node of the list, of whatever
variant; no graph object changes (node list, `maxID`, time-step), and every node
object keeps its variant, id, time-step and value. -/
theorem Graph.ZeroGrad_clears (w : World) (g : GraphRef) :
    Graph.ZeroGrad w g = (w.graphs g).nodes.foldl (fun acc node => acc.zeroGradNode node) w ∧
    (∀ p ∈ (w.graphs g).nodes, (Graph.ZeroGrad w g).Grad p = none) ∧
    (Graph.ZeroGrad w g).graphs = w.graphs ∧
    Graph.TimeStep (Graph.ZeroGrad w g) g = Graph.TimeStep w g ∧
    (∀ p, ((Graph.ZeroGrad w g).heap p).ID = (w.heap p).ID ∧
      ((Graph.ZeroGrad w g).heap p).TimeStep = (w.heap p).TimeStep ∧
      ((Graph.ZeroGrad w g).heap p).isOperator = (w.heap p).isOperator ∧
      ((Graph.ZeroGrad w g).heap p).isVariable = (w.heap p).isVariable ∧
      (Graph.ZeroGrad w g).Value p = w.Value p) := by
  obtain ⟨h1, _, h3, h4⟩ := World.zeroGrad_fold (w.graphs g).nodes w
  have hc := Calm.calm_ZeroGrad w g
  refine ⟨rfl, h1, h4, ?_, fun p => ⟨?_, ?_, ?_, ?_, h3 p⟩⟩
  · unfold Graph.TimeStep
    have : (Graph.ZeroGrad w g).graphs = w.graphs := h4
    rw [this]
  · exact Node.sameStructure_ID (hc.1 p)
  · exact Node.sameStructure_TimeStep (hc.1 p)
  · exact Node.sameStructure_isOperator (hc.1 p)
  · have := hc.1 p
    cases ha : w.heap p <;> cases hb : (Graph.ZeroGrad w g).heap p <;>
      simp_all [Node.sameStructure, Node.isVariable]

theorem Graph.ZeroGrad_clears_witness :
    ((Scenario.withMin.PropagateGrad 0 (Matrix.NewVecDense [1, 2, 3])).world.Grad 0 =
        some (Matrix.NewVecDense [1, 2, 3]) ∧
      (Graph.ZeroGrad (Scenario.withMin.PropagateGrad 0 (Matrix.NewVecDense [1, 2, 3])).world
        0).Grad 0 = none) ∧
    ∀ p ∈ ((Scenario.withMin.PropagateGrad 0 (Matrix.NewVecDense [1, 2, 3])).world.graphs 0).nodes,
      (Graph.ZeroGrad (Scenario.withMin.PropagateGrad 0 (Matrix.NewVecDense [1, 2, 3])).world
        0).Grad p = none :=
  ⟨by decide,
    (Graph.ZeroGrad_clears
      (Scenario.withMin.PropagateGrad 0 (Matrix.NewVecDense [1, 2, 3])).world 0).2.1⟩

/-- Claim C27, as stated, fails: node 1 of the scenario is a wrapper created by
`NewWrapNoGrad` over the value `[1,5,3]`; it has no gradient, and after
`PropagateGrad([1,2,3])` and `PropagateGrad([10,20,30])` its `Grad()` is still nil,
not `[11,22,33]`. -/
theorem World.PropagateGrad_skips_opted_out_wrapper :
    1 ∈ (Scenario.wrapped.graphs 0).nodes ∧
    Scenario.wrapped.Value 1 = some (Matrix.NewVecDense [1, 5, 3]) ∧
    Scenario.wrapped.Grad 1 = none ∧
    (Scenario.wrapped.PropagateGrad 1 (Matrix.NewVecDense [1, 2, 3])).panicked = false ∧
    ((Scenario.wrapped.PropagateGrad 1 (Matrix.NewVecDense [1, 2, 3])).world.PropagateGrad 1
      (Matrix.NewVecDense [10, 20, 30])).panicked = false ∧
    ((Scenario.wrapped.PropagateGrad 1 (Matrix.NewVecDense [1, 2, 3])).world.PropagateGrad 1
      (Matrix.NewVecDense [10, 20, 30])).world.Grad 1 = none := by
  decide

/-- Claim C27, amended: for a Variable, an Operator or a wrapper that did not opt out
of gradient propagation (over a value that takes part in it in turn), with value `v`
and no gradient, and for gradients `g1` and `g2` of the shape of `v`:
`PropagateGrad(g1)` returns and leaves `Grad()` equal to `g1`; `PropagateGrad(g2)`
after it returns and leaves `Grad()` equal to the element-wise sum of `g1` and `g2`, a
matrix of the shape of `v`; the value is untouched. -/
theorem World.PropagateGrad_accumulates (w : World) (p : Ptr) (v g1 g2 : Matrix)
    (hacc : w.acceptsGrad p = true) (hv : w.Value p = some v)
    (hgrad : w.Grad p = none) (h1 : g1.WF) (hd1 : SameDims v g1 = true) (h2 : g2.WF)
    (hd2 : SameDims v g2 = true) :
    ∃ w1 w2, w.PropagateGrad p g1 = .ok w1 () ∧ w1.Grad p = some g1 ∧
      w1.PropagateGrad p g2 = .ok w2 () ∧
      w2.Grad p = some ⟨v.rows, v.cols, List.zipWith DType.add g1.data g2.data⟩ ∧
      (List.zipWith DType.add g1.data g2.data).length = v.Size ∧
      w1.Value p = some v ∧ w2.Value p = some v := by
  obtain ⟨hr1, hc1⟩ := SameDims.dims hd1
  obtain ⟨hr2, hc2⟩ := SameDims.dims hd2
  have hsum : g1.AddInPlace g2 =
      ⟨v.rows, v.cols, List.zipWith DType.add g1.data g2.data⟩ := by
    simp [Matrix.AddInPlace, hr1, hc1]
  have hlen : (List.zipWith DType.add g1.data g2.data).length = v.Size := by
    rw [List.length_zipWith, h1, h2]
    unfold Matrix.Size
    rw [← hr1, ← hc1, ← hr2, ← hc2]
    exact Nat.min_self _
  obtain ⟨w1, w2, i1, i2, i3, i4, i5, i6, _, _⟩ :=
    World.propagateGradOf_twice v g1 g2 h1 hd1 (p + 1) w (.node p) hacc hv hgrad
  exact ⟨w1, w2, i1, i2, i3, i4.trans (congrArg some hsum), hlen, i5, i6⟩

theorem World.PropagateGrad_accumulates_witness :
    ((Scenario.withMin.PropagateGrad 0 (Matrix.NewVecDense [1, 2, 3])).world.Grad 0 =
        some (Matrix.NewVecDense [1, 2, 3]) ∧
      ((Scenario.withMin.PropagateGrad 0 (Matrix.NewVecDense [1, 2, 3])).world.PropagateGrad 0
        (Matrix.NewVecDense [10, 20, 30])).world.Grad 0 =
          some (Matrix.NewVecDense [11, 22, 33])) ∧
    ∃ w1 w2, Scenario.withMin.PropagateGrad 0 (Matrix.NewVecDense [1, 2, 3]) = .ok w1 () ∧
      w1.Grad 0 = some (Matrix.NewVecDense [1, 2, 3]) ∧
      w1.PropagateGrad 0 (Matrix.NewVecDense [10, 20, 30]) = .ok w2 () ∧
      w2.Grad 0 = some ⟨(Matrix.NewVecDense [1, 5, 3]).rows, (Matrix.NewVecDense [1, 5, 3]).cols,
        List.zipWith DType.add (Matrix.NewVecDense [1, 2, 3]).data
          (Matrix.NewVecDense [10, 20, 30]).data⟩ ∧
      (List.zipWith DType.add (Matrix.NewVecDense [1, 2, 3]).data
        (Matrix.NewVecDense [10, 20, 30]).data).length = (Matrix.NewVecDense [1, 5, 3]).Size ∧
      w1.Value 0 = some (Matrix.NewVecDense [1, 5, 3]) ∧
      w2.Value 0 = some (Matrix.NewVecDense [1, 5, 3]) :=
  ⟨by decide,
    World.PropagateGrad_accumulates Scenario.withMin 0 (Matrix.NewVecDense [1, 5, 3])
      (Matrix.NewVecDense [1, 2, 3]) (Matrix.NewVecDense [10, 20, 30]) (by decide) (by decide)
      (by decide) (by decide) (by decide) (by decide) (by decide)⟩

/-- Claim C28: the graph `NewGraph` returns has time-step 0; `IncTimeStep` raises the
time-step of its graph by exactly one and changes no node object and no node list
(so no id either); after `k` calls of `IncTimeStep` on a new graph `TimeStep()` is
`k`, and a node created then by `NewVariable`, `NewVariableWithName`, `NewWrap`,
`NewWrapNoGrad` or a returning `NewOperator` records the time-step `k`. -/
theorem Graph.TimeStep_counts (w : World) (size : Nat) (g : GraphRef) (k : Nat) :
    ((Graph.NewGraph w size []).2 = w.nextGraph ∧
      Graph.TimeStep (Graph.NewGraph w size []).1 w.nextGraph = 0) ∧
    (Graph.TimeStep (Graph.IncTimeStep w g) g = Graph.TimeStep w g + 1 ∧
      (Graph.IncTimeStep w g).heap = w.heap ∧
      ∀ g1, ((Graph.IncTimeStep w g).graphs g1).nodes = (w.graphs g1).nodes ∧
        ((Graph.IncTimeStep w g).graphs g1).maxID = (w.graphs g1).maxID) ∧
    Graph.TimeStep ((fun a => Graph.IncTimeStep a w.nextGraph)^[k] (Graph.NewGraph w size []).1)
      w.nextGraph = (k : Int) ∧
    (∀ value rg,
      ((Graph.NewVariable ((fun a => Graph.IncTimeStep a w.nextGraph)^[k]
          (Graph.NewGraph w size []).1) w.nextGraph value rg).1.heap
        (Graph.NewVariable ((fun a => Graph.IncTimeStep a w.nextGraph)^[k]
          (Graph.NewGraph w size []).1) w.nextGraph value rg).2).TimeStep = (k : Int)) ∧
    (∀ value rg name,
      ((Graph.NewVariableWithName ((fun a => Graph.IncTimeStep a w.nextGraph)^[k]
          (Graph.NewGraph w size []).1) w.nextGraph value rg name).1.heap
        (Graph.NewVariableWithName ((fun a => Graph.IncTimeStep a w.nextGraph)^[k]
          (Graph.NewGraph w size []).1) w.nextGraph value rg name).2).TimeStep = (k : Int)) ∧
    (∀ value,
      ((Graph.NewWrap ((fun a => Graph.IncTimeStep a w.nextGraph)^[k]
          (Graph.NewGraph w size []).1) w.nextGraph value).1.heap
        (Graph.NewWrap ((fun a => Graph.IncTimeStep a w.nextGraph)^[k]
          (Graph.NewGraph w size []).1) w.nextGraph value).2).TimeStep = (k : Int)) ∧
    (∀ value,
      ((Graph.NewWrapNoGrad ((fun a => Graph.IncTimeStep a w.nextGraph)^[k]
          (Graph.NewGraph w size []).1) w.nextGraph value).1.heap
        (Graph.NewWrapNoGrad ((fun a => Graph.IncTimeStep a w.nextGraph)^[k]
          (Graph.NewGraph w size []).1) w.nextGraph value).2).TimeStep = (k : Int)) ∧
    (∀ f operands pick w1 n,
      Graph.NewOperator ((fun a => Graph.IncTimeStep a w.nextGraph)^[k]
        (Graph.NewGraph w size []).1) w.nextGraph f operands pick = .ok w1 n →
      (w1.heap n).TimeStep = (k : Int)) := by
  have h0 : Graph.TimeStep (Graph.NewGraph w size []).1 w.nextGraph = 0 := by
    simp [Graph.TimeStep, Graph.NewGraph, Graph.clearCache, World.setGraph]
  have hk : Graph.TimeStep ((fun a => Graph.IncTimeStep a w.nextGraph)^[k]
      (Graph.NewGraph w size []).1) w.nextGraph = (k : Int) := by
    rw [(Graph.IncTimeStep_iterate w.nextGraph k (Graph.NewGraph w size []).1).1, h0]
    ring
  obtain ⟨c1, c2, c3, c4, c5⟩ := Graph.created_TimeStep
    ((fun a => Graph.IncTimeStep a w.nextGraph)^[k] (Graph.NewGraph w size []).1) w.nextGraph
  have hf := Frame.IncTimeStep w g
  refine ⟨⟨rfl, h0⟩, ⟨?_, rfl, fun g1 => ⟨(hf.2.2.2 g1).1, (hf.2.2.2 g1).2.1⟩⟩, hk, ?_, ?_, ?_, ?_,
    ?_⟩
  · simp [Graph.TimeStep, Graph.IncTimeStep, World.setGraph]
  · intro value rg; rw [c1, hk]
  · intro value rg name; rw [c2, hk]
  · intro value; rw [c3, hk]
  · intro value; rw [c4, hk]
  · intro f operands pick w1 n h; rw [c5 f operands pick w1 n h, hk]

theorem Graph.TimeStep_counts_witness :
    (Graph.TimeStep ((fun a => Graph.IncTimeStep a 0)^[3] Scenario.withGraph) 0 = 3 ∧
      ((Graph.NewVariable ((fun a => Graph.IncTimeStep a 0)^[3] Scenario.withGraph) 0 none
        true).1.heap 0).TimeStep = 3 ∧
      (Scenario.withMin.heap 2).TimeStep = 0) ∧
    Graph.TimeStep ((fun a => Graph.IncTimeStep a Scenario.start.nextGraph)^[3]
      (Graph.NewGraph Scenario.start 1 []).1) Scenario.start.nextGraph = ((3 : Nat) : Int) :=
  ⟨by decide, (Graph.TimeStep_counts Scenario.start 1 0 3).2.2.1⟩

/-- Claim C30, as stated, fails: in the graph of `x1`, `x2` and `min(x1, x2)` the
operator (node 2) has the Variable `x1` (node 0) among its operands, and
`groupNodesByHeight` gives both the height 0 and puts both into group 0: the
consumer is not in a higher group than the node. -/
theorem Graph.groupNodesByHeight_leaf_shares_group :
    (0 ∈ (Scenario.withMin.graphs 0).nodes ∧ 2 ∈ (Scenario.withMin.graphs 0).nodes ∧
      (Scenario.withMin.heap 0).isVariable = true ∧
      (Scenario.withMin.heap 2).isOperator = true ∧ 0 ∈ Scenario.withMin.operandsOf 2) ∧
    (Graph.groupNodesByHeight Scenario.withMin 0).ret? = some [[0, 1, 2]] ∧
    Graph.heightOf (Graph.groupNodesByHeight Scenario.withMin 0).world 0 0 = 0 ∧
    Graph.heightOf (Graph.groupNodesByHeight Scenario.withMin 0).world 0 2 = 0 ∧
    ¬ (Graph.heightOf (Graph.groupNodesByHeight Scenario.withMin 0).world 0 0 + 1 ≤
      Graph.heightOf (Graph.groupNodesByHeight Scenario.withMin 0).world 0 2) := by
  decide

/-- Claim C30, amended: in every reachable memory `groupNodesByHeight` returns, and for
every operator `c` of the graph and every node `n` of the graph among its operands:
if `n` is an Operator the height of `c` is at least the height of `n` plus 1; if `n`
is a Variable or a Wrapper its height is 0 and the height of `c` is at least that,
so `c` may lie in group 0 together with `n`. -/
theorem Graph.groupNodesByHeight_consumers_above (w : World) (hw : Reachable w)
    (g : GraphRef) :
    ∃ w1 groups, Graph.groupNodesByHeight w g = .ok w1 groups ∧
      ∀ c ∈ (w.graphs g).nodes, ∀ oc, w.heap c = .ofOperator oc →
        ∀ n ∈ oc.operands, n ∈ (w.graphs g).nodes →
          ((w.heap n).isOperator = true →
            Graph.heightOf w1 g n + 1 ≤ Graph.heightOf w1 g c) ∧
          ((w.heap n).isOperator = false →
            Graph.heightOf w1 g n = 0 ∧ Graph.heightOf w1 g n ≤ Graph.heightOf w1 g c) := by
  obtain ⟨w1, groups, hres, _, _, _, _, _, hleaf, hge, _, hbound, _, _, _⟩ :=
    Graph.groupNodesByHeight_facts hw.reachable_inv hw.reachable_wired g
  refine ⟨w1, groups, hres, ?_⟩
  intro c hc oc hoc n hn hnn
  refine ⟨fun hop => (hge c hc oc hoc n hn hop).2, fun hop => ?_⟩
  have h0 := hleaf n hnn hop
  refine ⟨h0, ?_⟩
  rw [h0]
  exact (hbound c hc).1

theorem Graph.groupNodesByHeight_consumers_above_witness :
    ((Graph.groupNodesByHeight Scenario.withChain3 0).ret? = some [[0, 1, 2], [3], [4]] ∧
      Scenario.withChain3.operandsOf 3 = [2, 0] ∧
      (Scenario.withChain3.heap 2).isOperator = true ∧
      (Scenario.withChain3.heap 0).isOperator = false) ∧
    ∃ w1 groups, Graph.groupNodesByHeight Scenario.withChain3 0 = .ok w1 groups ∧
      ∀ c ∈ (Scenario.withChain3.graphs 0).nodes, ∀ oc,
        Scenario.withChain3.heap c = .ofOperator oc →
        ∀ n ∈ oc.operands, n ∈ (Scenario.withChain3.graphs 0).nodes →
          ((Scenario.withChain3.heap n).isOperator = true →
            Graph.heightOf w1 0 n + 1 ≤ Graph.heightOf w1 0 c) ∧
          ((Scenario.withChain3.heap n).isOperator = false →
            Graph.heightOf w1 0 n = 0 ∧ Graph.heightOf w1 0 n ≤ Graph.heightOf w1 0 c) :=
  ⟨by decide,
    Graph.groupNodesByHeight_consumers_above Scenario.withChain3 Scenario.withChain3_reachable 0⟩

/-! ## Further claims about `Min.Backward` -/

/-- Claim C36: when the two operand values are shape-compatible with each other, the
output gradient is compatible with `x1` exactly when it is compatible with `x2`; so
the guard of `Min.Backward` (incompatible with `x1` and with `x2`) has the value of
the per-operand guard (incompatible with `x1` or with `x2`), and the run panics with
the shape message exactly when `gy` is incompatible with one of the operands. -/
theorem Min.Backward_checks_agree (r1 r2 : Nat) (rg1 rg2 : Bool) (x1v x2v gy : Matrix)
    (h12 : Compatible x1v x2v = true) :
    Compatible x1v gy = Compatible x2v gy ∧
    ((!(SameDims x1v gy || VectorsOfSameSize x1v gy) &&
        !(SameDims x2v gy || VectorsOfSameSize x2v gy)) =
      (!(SameDims x1v gy || VectorsOfSameSize x1v gy) ||
        !(SameDims x2v gy || VectorsOfSameSize x2v gy))) ∧
    ((Min.Backward (NewMin ⟨r1, some x1v, rg1⟩ ⟨r2, some x2v, rg2⟩) gy).panicked =
        some notCompatibleMsg ↔
      (Compatible x1v gy = false ∨ Compatible x2v gy = false)) := by
  have hc : Compatible x1v gy = Compatible x2v gy := Compatible.congr_left h12
  have hc2 : (SameDims x1v gy || VectorsOfSameSize x1v gy) =
      (SameDims x2v gy || VectorsOfSameSize x2v gy) := hc
  refine ⟨hc, ?_, ?_⟩
  · rw [hc2]
    cases (SameDims x2v gy || VectorsOfSameSize x2v gy) <;> rfl
  · constructor
    · intro hp
      by_contra hcon
      have h1 : Compatible x1v gy = true := by
        cases hx : Compatible x1v gy with
        | true => rfl
        | false => exact absurd (Or.inl hx) hcon
      have hguard : (!(SameDims x1v gy || VectorsOfSameSize x1v gy) &&
          !(SameDims x2v gy || VectorsOfSameSize x2v gy)) = false := by
        have : (SameDims x1v gy || VectorsOfSameSize x1v gy) = true := h1
        rw [this]; rfl
      rcases Min.Backward_past_guard r1 r2 rg1 rg2 x1v x2v gy hguard with hn | hn
      · rw [hn] at hp; exact Option.noConfusion hp
      · rw [hn] at hp
        have : indexMsg = notCompatibleMsg := Option.some.inj hp
        exact absurd this (by decide)
    · intro hor
      have h1 : (SameDims x1v gy || VectorsOfSameSize x1v gy) = false := by
        rcases hor with h | h
        · exact h
        · rw [hc2]; exact h
      have h2 : (SameDims x2v gy || VectorsOfSameSize x2v gy) = false := by rw [← hc2]; exact h1
      simp [Min.Backward, NewMin, h1, h2]

theorem Min.Backward_checks_agree_witness :
    (Compatible (Matrix.NewVecDense [1, 5, 3]) ⟨1, 3, [4, 2, 3]⟩ = true ∧
      SameDims (Matrix.NewVecDense [1, 5, 3]) ⟨1, 3, [4, 2, 3]⟩ = false ∧
      Compatible (Matrix.NewVecDense [1, 5, 3]) ⟨2, 2, [1, 2, 3, 4]⟩ = false) ∧
    (Compatible (Matrix.NewVecDense [1, 5, 3]) ⟨2, 2, [1, 2, 3, 4]⟩ =
      Compatible ⟨1, 3, [4, 2, 3]⟩ ⟨2, 2, [1, 2, 3, 4]⟩) ∧
    ((Min.Backward (NewMin ⟨0, some (Matrix.NewVecDense [1, 5, 3]), true⟩
        ⟨1, some ⟨1, 3, [4, 2, 3]⟩, true⟩) ⟨2, 2, [1, 2, 3, 4]⟩).panicked =
          some notCompatibleMsg ↔
      (Compatible (Matrix.NewVecDense [1, 5, 3]) ⟨2, 2, [1, 2, 3, 4]⟩ = false ∨
        Compatible ⟨1, 3, [4, 2, 3]⟩ ⟨2, 2, [1, 2, 3, 4]⟩ = false)) :=
  ⟨by decide,
    (Min.Backward_checks_agree 0 1 true true (Matrix.NewVecDense [1, 5, 3]) ⟨1, 3, [4, 2, 3]⟩
      ⟨2, 2, [1, 2, 3, 4]⟩ (by decide)).1,
    (Min.Backward_checks_agree 0 1 true true (Matrix.NewVecDense [1, 5, 3]) ⟨1, 3, [4, 2, 3]⟩
      ⟨2, 2, [1, 2, 3, 4]⟩ (by decide)).2.2⟩

/-- Claim C37: for well-formed `x1`, `x2` and `gy` with `gy` shape-compatible with both
operands, `gy.Size()` is the length of the data of `x1`, of `x2`, of `gy` and of the
zero gradient allocated for either operand, so every index below `gy.Size()` is a
valid index of all five, and the run of `Min.Backward` ends without panic. -/
theorem Min.Backward_in_bounds (r1 r2 : Nat) (rg1 rg2 : Bool) (x1v x2v gy : Matrix)
    (h1 : x1v.WF) (h2 : x2v.WF) (hg : gy.WF)
    (c1 : Compatible x1v gy = true) (c2 : Compatible x2v gy = true) :
    (x1v.data.length = gy.Size ∧ x2v.data.length = gy.Size ∧ gy.data.length = gy.Size ∧
      x1v.ZerosLike.data.length = gy.Size ∧ x2v.ZerosLike.data.length = gy.Size) ∧
    (∀ i, i < gy.Size → i < x1v.data.length ∧ i < x2v.data.length ∧ i < gy.data.length ∧
      i < x1v.ZerosLike.data.length ∧ i < x2v.ZerosLike.data.length) ∧
    (Min.Backward (NewMin ⟨r1, some x1v, rg1⟩ ⟨r2, some x2v, rg2⟩) gy).panicked = none := by
  have l1 := Compatible.length_eq h1 hg c1
  have l2 := Compatible.length_eq h2 hg c2
  have lg : gy.data.length = gy.Size := hg
  have z1 : x1v.ZerosLike.data.length = gy.Size := by
    simp only [Matrix.ZerosLike, List.length_replicate]
    rw [← lg, ← l1]; exact h1.symm
  have z2 : x2v.ZerosLike.data.length = gy.Size := by
    simp only [Matrix.ZerosLike, List.length_replicate]
    rw [← lg, ← l2]; exact h2.symm
  refine ⟨⟨by rw [l1, lg], by rw [l2, lg], lg, z1, z2⟩, ?_, ?_⟩
  · intro i hi
    refine ⟨by rw [l1, lg]; exact hi, by rw [l2, lg]; exact hi, by rw [lg]; exact hi,
      by rw [z1]; exact hi, by rw [z2]; exact hi⟩
  · obtain ⟨gx1, gx2, hrun, _⟩ := Min.Backward_run r1 r2 rg1 rg2 h1 h2 hg c1 c2
    rw [hrun]

theorem Min.Backward_in_bounds_witness :
    (Matrix.NewVecDense [1, 5, 3]).data.length = (Matrix.NewVecDense [10, 20, 30]).Size ∧
    (Min.Backward (NewMin ⟨0, some (Matrix.NewVecDense [1, 5, 3]), true⟩
      ⟨1, some (Matrix.NewVecDense [4, 2, 3]), true⟩)
      (Matrix.NewVecDense [10, 20, 30])).panicked = none :=
  ⟨(Min.Backward_in_bounds 0 1 true true (Matrix.NewVecDense [1, 5, 3])
      (Matrix.NewVecDense [4, 2, 3]) (Matrix.NewVecDense [10, 20, 30]) (by decide) (by decide)
      (by decide) (by decide) (by decide)).1.1,
    (Min.Backward_in_bounds 0 1 true true (Matrix.NewVecDense [1, 5, 3])
      (Matrix.NewVecDense [4, 2, 3]) (Matrix.NewVecDense [10, 20, 30]) (by decide) (by decide)
      (by decide) (by decide) (by decide)).2.2⟩

/-- Claim C38, as stated, fails: with `x1 = [NaN]`, `x2 = [1]` and `gy = [5]` the two
operands differ at position 0 (`x1[0] == x2[0]` is false), yet neither `<` holds,
both propagated gradients are `[0]`, and their sum 0 is not `gy[0]`. -/
theorem Min.Backward_nan_receives_nothing :
    DType.eq DType.nan 1 = false ∧
    Min.Backward (NewMin ⟨0, some (Matrix.NewVecDense [DType.nan]), true⟩
      ⟨1, some (Matrix.NewVecDense [1]), true⟩) (Matrix.NewVecDense [5]) =
        ⟨[(0, Matrix.NewVecDense [0]), (1, Matrix.NewVecDense [0])], none⟩ ∧
    DType.add 0 0 ≠ 5 := by
  decide

/-- Claim C38, amended: for well-formed `x1`, `x2` and `gy` with `gy` compatible with
both operands (same shape in particular) and both operands requiring gradient, the
run propagates `dx1` to `x1` and `dx2` to `x2`, and at every position: one of
`dx1[i]`, `dx2[i]` is 0; if `x1[i] < x2[i]` then `dx1[i] = gy[i]` and `dx2[i] = 0`; if
`x2[i] < x1[i]` then `dx2[i] = gy[i]` and `dx1[i] = 0`; in both cases
`dx1[i] + dx2[i] = gy[i]`; if neither is smaller (a tie or a NaN) both are 0. Two
numbers that differ are ordered one way or the other. -/
theorem Min.Backward_disjoint_support (r1 r2 : Nat) (x1v x2v gy : Matrix)
    (h1 : x1v.WF) (h2 : x2v.WF) (hg : gy.WF)
    (c1 : Compatible x1v gy = true) (c2 : Compatible x2v gy = true) :
    ∃ gx1 gx2 : Matrix,
      Min.Backward (NewMin ⟨r1, some x1v, true⟩ ⟨r2, some x2v, true⟩) gy =
        ⟨[(r1, gx1), (r2, gx2)], none⟩ ∧
      (∀ (i : Nat) a b g, x1v.data[i]? = some a → x2v.data[i]? = some b →
        gy.data[i]? = some g →
        ∃ d1 d2, gx1.data[i]? = some d1 ∧ gx2.data[i]? = some d2 ∧
          (d1 = DType.zero ∨ d2 = DType.zero) ∧
          (DType.lt a b = true → d1 = g ∧ d2 = DType.zero ∧ DType.add d1 d2 = g) ∧
          (DType.lt b a = true → d1 = DType.zero ∧ d2 = g ∧ DType.add d1 d2 = g) ∧
          (DType.lt a b = false → DType.lt b a = false →
            d1 = DType.zero ∧ d2 = DType.zero)) ∧
      (∀ va vb : Int, va ≠ vb →
        DType.lt (.num va) (.num vb) = true ∨ DType.lt (.num vb) (.num va) = true) := by
  obtain ⟨gx1, gx2, hrun, _, _, g1, g2⟩ := Min.Backward_run r1 r2 true true h1 h2 hg c1 c2
  refine ⟨gx1, gx2, by simpa using hrun, ?_, fun va vb h => DType.lt_or_lt_of_ne h⟩
  intro i a b g ha hb hgi
  refine ⟨_, _, g1 i a b g ha hb hgi, g2 i a b g ha hb hgi, ?_, ?_, ?_, ?_⟩
  · by_cases hab : DType.lt a b = true
    · right; rw [DType.lt_asymm hab]; simp
    · left; rw [if_neg hab]
  · intro hab
    rw [if_pos hab, DType.lt_asymm hab]
    exact ⟨rfl, by simp, by simp [DType.add_zero]⟩
  · intro hba
    rw [if_pos hba, DType.lt_asymm hba]
    exact ⟨by simp, rfl, by simp [DType.zero_add]⟩
  · intro hab hba
    rw [hab, hba]
    exact ⟨by simp, by simp⟩

theorem Min.Backward_disjoint_support_witness :
    Min.Backward (NewMin ⟨0, some (Matrix.NewVecDense [1, 5, 3]), true⟩
      ⟨1, some (Matrix.NewVecDense [4, 2, 3]), true⟩) (Matrix.NewVecDense [10, 20, 30]) =
        ⟨[(0, Matrix.NewVecDense [10, 0, 0]), (1, Matrix.NewVecDense [0, 20, 0])], none⟩ ∧
    ∃ gx1 gx2 : Matrix,
      Min.Backward (NewMin ⟨0, some (Matrix.NewVecDense [1, 5, 3]), true⟩
        ⟨1, some (Matrix.NewVecDense [4, 2, 3]), true⟩) (Matrix.NewVecDense [10, 20, 30]) =
          ⟨[(0, gx1), (1, gx2)], none⟩ :=
  ⟨by decide,
    (Min.Backward_disjoint_support 0 1 (Matrix.NewVecDense [1, 5, 3])
      (Matrix.NewVecDense [4, 2, 3]) (Matrix.NewVecDense [10, 20, 30]) (by decide) (by decide)
      (by decide) (by decide) (by decide)).imp
      (fun _ h => h.imp (fun _ h2 => h2.1))⟩

/-! ## Further claims about `NewOperator` and the lifecycle -/

/-- Claim C33: when the operands belong to the graph, eager execution is on and
`Forward` panics, `NewOperator` panics with the message of `Forward` and inserts
nothing: every graph object (node list, `maxID`, time-step, constants, height cache),
every node object and the pool are as before the call. -/
theorem Graph.NewOperator_failed_forward (w : World) (g : GraphRef) (f : Function)
    (operands : List Ptr) (pick : Nat) (msg : String)
    (hops : ∀ o ∈ operands, (w.heap o).Graph = some g)
    (he : (w.graphs g).eagerExecution = true) (hf : f.Forward w.operand = .error msg) :
    Graph.NewOperator w g f operands pick =
      .panic { w with forwardRuns := w.forwardRuns + 1 } msg ∧
    (Graph.NewOperator w g f operands pick).ret? = none ∧
    (Graph.NewOperator w g f operands pick).world.graphs = w.graphs ∧
    ((Graph.NewOperator w g f operands pick).world.graphs g).nodes = (w.graphs g).nodes ∧
    ((Graph.NewOperator w g f operands pick).world.graphs g).maxID = (w.graphs g).maxID ∧
    Graph.TimeStep (Graph.NewOperator w g f operands pick).world g = Graph.TimeStep w g ∧
    ((Graph.NewOperator w g f operands pick).world.graphs g).cache = (w.graphs g).cache ∧
    (Graph.NewOperator w g f operands pick).world.heap = w.heap ∧
    (Graph.NewOperator w g f operands pick).world.pool = w.pool := by
  have hany : operands.any (fun o => decide ((w.heap o).Graph ≠ some g)) = false := by
    cases h : operands.any (fun o => decide ((w.heap o).Graph ≠ some g)) with
    | false => rfl
    | true =>
      obtain ⟨o, ho, hne⟩ := (Graph.cross_any_iff w g operands).mp h
      exact absurd (hops o ho) hne
  rw [Graph.NewOperator_eager_panic hany he hf]
  exact ⟨rfl, rfl, rfl, rfl, rfl, rfl, rfl, rfl, rfl⟩

theorem Graph.NewOperator_failed_forward_witness :
    ((MinFunction 0 2).Forward Scenario.withSquare.operand = .error notCompatibleMsg ∧
      (Scenario.withSquare.graphs 0).nodes = [0, 1, 2]) ∧
    Graph.NewOperator Scenario.withSquare 0 (MinFunction 0 2) [0, 2] 0 =
      .panic { Scenario.withSquare with forwardRuns := Scenario.withSquare.forwardRuns + 1 }
        notCompatibleMsg ∧
    ((Graph.NewOperator Scenario.withSquare 0 (MinFunction 0 2) [0, 2] 0).world.graphs 0).nodes =
      (Scenario.withSquare.graphs 0).nodes :=
  ⟨by decide,
    (Graph.NewOperator_failed_forward Scenario.withSquare 0 (MinFunction 0 2) [0, 2] 0
      notCompatibleMsg (by decide) (by decide) (by decide)).1,
    (Graph.NewOperator_failed_forward Scenario.withSquare 0 (MinFunction 0 2) [0, 2] 0
      notCompatibleMsg (by decide) (by decide) (by decide)).2.2.2.1⟩

/-- Claim C32: the operator `NewOperator` returns sits in the shell the pool handed out
and holds exactly: the graph, the graph's current time-step, the next id, the
function, the operands, the value of `Forward` (nil without eager execution), no
gradient, and the flag computed from the operands. When the shell `p` comes from the
pool, is not one of the operands and is not read by `Forward`, the call returns the
same node and leaves the same memory whatever the shell held before. -/
theorem Graph.NewOperator_overwrites_shell (w : World) (g : GraphRef) (f : Function)
    (operands : List Ptr) (pick : Nat) (p : Ptr) (n1 : Node)
    (hp : w.pool[pick]? = some p) (hnot : p ∉ operands)
    (hwrap : ∀ q x, w.heap q = .ofWrapper x → x.GradValue ≠ .node p)
    (hf : ∀ o1 o2 : Ptr → Operand, (∀ q, q ≠ p → o1 q = o2 q) → f.Forward o1 = f.Forward o2) :
    ∀ w1 r, Graph.NewOperator w g f operands pick = .ok w1 r →
      r = p ∧
      w1.heap r = .ofOperator
        { graph := some g, timeStep := (w.graphs g).curTimeStep, id := (w.graphs g).maxID + 1,
          function := some f, operands := operands,
          value := if (w.graphs g).eagerExecution then (f.Forward w.operand).toOption else none,
          grad := none, requiresGrad := operands.any (fun operand => w.RequiresGrad operand) } ∧
      Graph.NewOperator (w.setNode p n1) g f operands pick = .ok w1 r := by
  intro w1 r h
  have hheap : ∀ q, q ≠ p → (w.setNode p n1).heap q = w.heap q := fun q hq => by
    simp [World.setNode, Function.update_noteq hq]
  have hopnd : ∀ q, q ≠ p → (w.setNode p n1).operand q = w.operand q :=
    World.operand_setNode_unwrapped w p n1 hwrap
  have hne : ∀ o ∈ operands, o ≠ p := fun o ho e => hnot (e ▸ ho)
  have hF : f.Forward (w.setNode p n1).operand = f.Forward w.operand := hf _ _ hopnd
  have hreq : operands.any (fun operand => (w.setNode p n1).RequiresGrad operand) =
      operands.any (fun operand => w.RequiresGrad operand) :=
    List.any_congr_mem (fun o ho => congrArg Operand.RequiresGrad (hopnd o (hne o ho)))
  have hanyeq : operands.any (fun o => decide (((w.setNode p n1).heap o).Graph ≠ some g)) =
      operands.any (fun o => decide ((w.heap o).Graph ≠ some g)) :=
    List.any_congr_mem (fun o ho => by rw [hheap o (hne o ho)])
  cases hany : operands.any (fun o => decide ((w.heap o).Graph ≠ some g)) with
  | true =>
    rw [Graph.NewOperator_foreign hany] at h
    exact Outcome.noConfusion h
  | false =>
    have hany1 := hanyeq.trans hany
    cases he : (w.graphs g).eagerExecution with
    | false =>
      have he1 : ((w.setNode p n1).graphs g).eagerExecution = false := he
      obtain ⟨k1, k2, k3⟩ := World.poolGet_setNode w p n1 pick hp
      rw [Graph.NewOperator_lazy hany1 he1, World.poolGet_graphs, k1, k3, hreq]
      rw [Graph.NewOperator_lazy hany he, World.poolGet_graphs, k2] at h
      injection h with h1 h2
      subst h1; subst h2
      refine ⟨rfl, ?_, rfl⟩
      rw [Graph.shell_object]
      simp [World.poolGet_graphs]
    | true =>
      cases hfw : f.Forward w.operand with
      | error msg =>
        rw [Graph.NewOperator_eager_panic hany he hfw] at h
        exact Outcome.noConfusion h
      | ok v =>
        have he1 : ((w.setNode p n1).graphs g).eagerExecution = true := he
        have hfw1 : f.Forward (w.setNode p n1).operand = .ok v := hF.trans hfw
        obtain ⟨k1, k2, k3⟩ := World.poolGet_setNode
          { w with forwardRuns := w.forwardRuns + 1 } p n1 pick hp
        have k1b : (World.poolGet { w.setNode p n1 with
            forwardRuns := (w.setNode p n1).forwardRuns + 1 } pick).2 = p := k1
        have k3b : ∀ X : Node, (World.poolGet { w.setNode p n1 with
            forwardRuns := (w.setNode p n1).forwardRuns + 1 } pick).1.setNode p X =
            (World.poolGet { w with forwardRuns := w.forwardRuns + 1 } pick).1.setNode p X := k3
        have hfr : ∀ (a : World) (o : Ptr),
            World.RequiresGrad { a with forwardRuns := a.forwardRuns + 1 } o =
              a.RequiresGrad o :=
          fun a o => @World.RequiresGrad_heap_ext a
            { a with forwardRuns := a.forwardRuns + 1 } rfl rfl o
        have hreq2 : operands.any (fun operand => World.RequiresGrad
            { w.setNode p n1 with forwardRuns := (w.setNode p n1).forwardRuns + 1 } operand) =
            operands.any (fun operand => World.RequiresGrad
              { w with forwardRuns := w.forwardRuns + 1 } operand) :=
          List.any_congr_mem (fun o ho => (hfr (w.setNode p n1) o).trans
            ((congrArg Operand.RequiresGrad (hopnd o (hne o ho))).trans (hfr w o).symm))
        rw [Graph.NewOperator_eager_ok hany1 he1 hfw1, World.poolGet_graphs, k1b, k3b, hreq2]
        rw [Graph.NewOperator_eager_ok hany he hfw, World.poolGet_graphs, k2] at h
        injection h with h1 h2
        subst h1; subst h2
        refine ⟨rfl, ?_, rfl⟩
        rw [Graph.shell_object]
        simp [World.poolGet_graphs, Except.toOption]
        exact List.any_congr_mem (fun o _ => hfr w o)

theorem Graph.NewOperator_overwrites_shell_witness :
    (Scenario.cleared.pool = [2] ∧
      (Graph.NewOperator Scenario.cleared 0 (MinFunction 0 1) [0, 1] 0).ret? = some 2 ∧
      (Graph.NewOperator
        (Scenario.cleared.setNode 2
          (.ofOperator { id := 77, value := some (Matrix.NewVecDense [9]),
                         grad := some (Matrix.NewVecDense [9]), requiresGrad := false }))
        0 (MinFunction 0 1) [0, 1] 0).world.Grad 2 = none) ∧
    Graph.NewOperator
      (Scenario.cleared.setNode 2
        (.ofOperator { id := 77, value := some (Matrix.NewVecDense [9]),
                       grad := some (Matrix.NewVecDense [9]), requiresGrad := false }))
      0 (MinFunction 0 1) [0, 1] 0 =
        .ok (Graph.NewOperator Scenario.cleared 0 (MinFunction 0 1) [0, 1] 0).world 2 :=
  ⟨by decide,
    (Graph.NewOperator_overwrites_shell Scenario.cleared 0 (MinFunction 0 1) [0, 1] 0 2
      (.ofOperator { id := 77, value := some (Matrix.NewVecDense [9]),
                     grad := some (Matrix.NewVecDense [9]), requiresGrad := false })
      (by decide) (by decide)
      (fun q x h => by
        have hL : Layered Scenario.cleared :=
          (Reachable.step Scenario.withMin_reachable
            (Step.clear _ 0 (by decide))).reachable_layered
        have hq : q < 3 := (hL q x h).1
        have hnw : ∀ k, k < 3 → (Scenario.cleared.heap k).isOperator = true ∨
            (Scenario.cleared.heap k).isVariable = true := by decide
        rcases hnw q hq with h1 | h1 <;> rw [h] at h1 <;> exact Bool.noConfusion h1)
      (fun o1 o2 h => by
        show Min.Forward (NewMin (o1 0) (o1 1)) = Min.Forward (NewMin (o2 0) (o2 1))
        rw [h 0 (by decide), h 1 (by decide)])
      (Graph.NewOperator Scenario.cleared 0 (MinFunction 0 1) [0, 1] 0).world 2 rfl).2.2⟩

/-- Claim C39, counterexample: node 3 of the scenario is a wrapper, a node of graph 0,
over the operator `min(x1, x2)` of the same graph; it reports the value `[1,2,3]` of
the operator. `ClearForReuse` releases the value of the operator, and the `Value()` of
the wrapper is nil afterwards: the value of a Wrapper node is not the same after the
call as before it. -/
theorem Graph.ClearForReuse_wrapper_loses_value :
    Reachable Scenario.withWrappedMin ∧
    (Scenario.withWrappedMin.graphs 0).nodes = [0, 1, 2, 3] ∧
    (Scenario.withWrappedMin.heap 3).isOperator = false ∧
    (Scenario.withWrappedMin.heap 3).isVariable = false ∧
    (Scenario.withWrappedMin.heap 3).ID = 3 ∧
    (Scenario.withWrappedMin.heap 2).isOperator = true ∧
    Scenario.withWrappedMin.Value 3 = some (Matrix.NewVecDense [1, 2, 3]) ∧
    (Graph.ClearForReuse Scenario.withWrappedMin 0).Value 3 = none :=
  ⟨Reachable.step Scenario.withMin_reachable
      (Step.newWrap _ 0 (.node 2) (by decide)
        (fun q hq => (Wrapped.node.inj hq) ▸ (by decide))),
    by decide, by decide, by decide, by decide, by decide, by decide, by decide⟩

/-- Claim C39, amended: `ClearForReuse` leaves every graph object as it is (node list,
`maxID`, time-step, constants table, height cache), the external values and the pool;
every node object that is not an Operator is the same object as before; every
Variable reports the same value, gradient and flag; every node reports the same
`RequiresGrad()`; a node that is not, directly or through wrappers, an Operator of
the node list reports the same value and gradient, and a node that is one (such an
Operator itself, or a Wrapper over it) reports nil for both; an object outside the
node list is unchanged and an object of the list differs from before in value and
gradient only; `groupNodesByHeight` returns the same groups after the call as before
it; on a graph without nodes the call changes nothing. -/
theorem Graph.ClearForReuse_frame (w : World) (g : GraphRef) :
    ((Graph.ClearForReuse w g).graphs = w.graphs ∧
      ((Graph.ClearForReuse w g).graphs g).maxID = (w.graphs g).maxID ∧
      Graph.TimeStep (Graph.ClearForReuse w g) g = Graph.TimeStep w g ∧
      ((Graph.ClearForReuse w g).graphs g).constants = (w.graphs g).constants ∧
      ((Graph.ClearForReuse w g).graphs g).cache = (w.graphs g).cache ∧
      (Graph.ClearForReuse w g).ext = w.ext ∧ (Graph.ClearForReuse w g).pool = w.pool) ∧
    (∀ p, (w.heap p).isOperator = false → (Graph.ClearForReuse w g).heap p = w.heap p) ∧
    (∀ p, (w.heap p).isVariable = true →
      (Graph.ClearForReuse w g).Value p = w.Value p ∧
      (Graph.ClearForReuse w g).Grad p = w.Grad p ∧
      (Graph.ClearForReuse w g).RequiresGrad p = w.RequiresGrad p) ∧
    (∀ p, (Graph.ClearForReuse w g).RequiresGrad p = w.RequiresGrad p) ∧
    (∀ p, w.readsOperatorOf g (p + 1) (.node p) = false →
      (Graph.ClearForReuse w g).Value p = w.Value p ∧
      (Graph.ClearForReuse w g).Grad p = w.Grad p) ∧
    (∀ p, w.readsOperatorOf g (p + 1) (.node p) = true →
      (Graph.ClearForReuse w g).Value p = none ∧ (Graph.ClearForReuse w g).Grad p = none) ∧
    (∀ p, p ∉ (w.graphs g).nodes → (Graph.ClearForReuse w g).heap p = w.heap p) ∧
    (∀ p, (Graph.ClearForReuse w g).heap p = w.heap p ∨
      (Graph.ClearForReuse w g).heap p = (w.heap p).released) ∧
    (Graph.groupNodesByHeight (Graph.ClearForReuse w g) g).ret? =
      (Graph.groupNodesByHeight w g).ret? ∧
    ((w.graphs g).nodes = [] → Graph.ClearForReuse w g = w) := by
  have hvar : ∀ p, (w.heap p).isVariable = true →
      w.readsOperatorOf g (p + 1) (.node p) = false := by
    intro p hp
    cases ha : w.heap p with
    | ofVariable v => simp only [World.readsOperatorOf, ha]
    | ofOperator o => rw [ha] at hp; exact Bool.noConfusion hp
    | ofWrapper x => rw [ha] at hp; exact Bool.noConfusion hp
  cases hne : (w.graphs g).nodes.isEmpty with
  | true =>
    have e : Graph.ClearForReuse w g = w := by simp [Graph.ClearForReuse, hne]
    have hnil : (w.graphs g).nodes = [] := List.isEmpty_iff.mp hne
    have hno : ∀ (fuel : Nat) (t : Wrapped), w.readsOperatorOf g fuel t = false := by
      intro fuel
      induction fuel with
      | zero => intro t; cases t <;> rfl
      | succ fuel ih =>
        intro t
        cases t with
        | ext r => rfl
        | node q =>
          cases ha : w.heap q with
          | ofVariable v => simp only [World.readsOperatorOf, ha]
          | ofOperator o => simp [World.readsOperatorOf, ha, hnil]
          | ofWrapper x => simp only [World.readsOperatorOf, ha]; exact ih _
    rw [e]
    refine ⟨⟨rfl, rfl, rfl, rfl, rfl, rfl, rfl⟩, fun _ _ => rfl, fun _ _ => ⟨rfl, rfl, rfl⟩,
      fun _ => rfl, fun _ _ => ⟨rfl, rfl⟩, fun p hp => ?_, fun _ _ => rfl, fun _ => Or.inl rfl,
      rfl, fun _ => rfl⟩
    rw [hno] at hp
    exact Bool.noConfusion hp
  | false =>
    have e : Graph.ClearForReuse w g = Graph.releaseMemory w g := by
      simp [Graph.ClearForReuse, hne]
    have hcalm := Calm.calm_releaseMemory w g
    have hgroups := (Graph.groupNodesByHeight_congr hcalm.1
      (by rw [Graph.releaseMemory_eq]) g).1
    rw [e]
    have hheap : ∀ p, (Graph.releaseMemory w g).heap p =
        if p ∈ (w.graphs g).nodes then (w.heap p).released else w.heap p := by
      intro p; rw [Graph.releaseMemory_eq]
    have hext : (Graph.releaseMemory w g).ext = w.ext := by rw [Graph.releaseMemory_eq]
    have hgr : (Graph.releaseMemory w g).graphs = w.graphs := by rw [Graph.releaseMemory_eq]
    have hpool : (Graph.releaseMemory w g).pool = w.pool := by rw [Graph.releaseMemory_eq]
    have hleaf : ∀ p, (w.heap p).isOperator = false →
        (Graph.releaseMemory w g).heap p = w.heap p := by
      intro p hp
      rw [hheap p]
      split
      · exact Node.released_of_not_operator hp
      · rfl
    have hreq : ∀ p, (Graph.releaseMemory w g).RequiresGrad p = w.RequiresGrad p :=
      fun p => World.requiresGradOf_congr hcalm.1 (fun r => by rw [hext]) (p + 1) (.node p)
    have hsame : ∀ p, w.readsOperatorOf g (p + 1) (.node p) = false →
        (Graph.releaseMemory w g).Value p = w.Value p ∧
        (Graph.releaseMemory w g).Grad p = w.Grad p :=
      fun p hp => (Graph.releaseMemory_reads w g (p + 1) (.node p)).1 hp
    refine ⟨⟨hgr, by rw [hgr], by unfold Graph.TimeStep; rw [hgr], by rw [hgr], by rw [hgr],
      hext, hpool⟩, hleaf, fun p hp => ?_, hreq, hsame,
      fun p hp => (Graph.releaseMemory_reads w g (p + 1) (.node p)).2 hp,
      fun p hp => ?_, fun p => ?_, hgroups, fun hnil => ?_⟩
    · exact ⟨(hsame p (hvar p hp)).1, (hsame p (hvar p hp)).2, hreq p⟩
    · rw [hheap p, if_neg hp]
    · rw [hheap p]
      split
      · exact Or.inr rfl
      · exact Or.inl rfl
    · rw [hnil] at hne
      exact Bool.noConfusion hne

theorem Graph.ClearForReuse_frame_witness :
    (Scenario.withWrappedMin.readsOperatorOf 0 3 (.node 2) = true ∧
      Scenario.withWrappedMin.readsOperatorOf 0 4 (.node 3) = true ∧
      Scenario.withWrappedMin.readsOperatorOf 0 1 (.node 0) = false ∧
      Scenario.withWrappedMin.Value 0 = some (Matrix.NewVecDense [1, 5, 3]) ∧
      (Graph.groupNodesByHeight (Graph.ClearForReuse Scenario.withWrappedMin 0) 0).ret? =
        some [[0, 1, 2, 3]]) ∧
    ((Graph.ClearForReuse Scenario.withWrappedMin 0).Value 0 = Scenario.withWrappedMin.Value 0 ∧
      (Graph.ClearForReuse Scenario.withWrappedMin 0).Grad 0 = Scenario.withWrappedMin.Grad 0) ∧
    ((Graph.ClearForReuse Scenario.withWrappedMin 0).Value 2 = none ∧
      (Graph.ClearForReuse Scenario.withWrappedMin 0).Grad 2 = none) ∧
    ((Graph.ClearForReuse Scenario.withWrappedMin 0).Value 3 = none ∧
      (Graph.ClearForReuse Scenario.withWrappedMin 0).Grad 3 = none) ∧
    (Graph.groupNodesByHeight (Graph.ClearForReuse Scenario.withWrappedMin 0) 0).ret? =
      (Graph.groupNodesByHeight Scenario.withWrappedMin 0).ret? :=
  ⟨by decide,
    (Graph.ClearForReuse_frame Scenario.withWrappedMin 0).2.2.2.2.1 0 (by decide),
    (Graph.ClearForReuse_frame Scenario.withWrappedMin 0).2.2.2.2.2.1 2 (by decide),
    (Graph.ClearForReuse_frame Scenario.withWrappedMin 0).2.2.2.2.2.1 3 (by decide),
    (Graph.ClearForReuse_frame Scenario.withWrappedMin 0).2.2.2.2.2.2.2.2.1⟩

/-! ## The claim about `walkParam` -/

/-- Claim C40: for every parameter, field name and tag, `walkParam` makes exactly one
call of the callback, with that parameter, after the type of the parameter has been
set to the type of the tag; the name of the parameter is the lower-cased field name
if the name was empty, and the name it had otherwise; no other parameter changes. -/
theorem walkParam_calls_once (lower : String → String) (pw : ParamWorld) (item : ParamRef)
    (name : String) (tag : ModuleFieldTag) :
    (walkParam lower pw item name tag).calls =
      pw.calls ++ [(item, (walkParam lower pw item name tag).params item)] ∧
    ((walkParam lower pw item name tag).params item).pType = tag.paramType ∧
    ((pw.params item).name = "" →
      ((walkParam lower pw item name tag).params item).name = lower name) ∧
    ((pw.params item).name ≠ "" →
      ((walkParam lower pw item name tag).params item).name = (pw.params item).name) ∧
    (∀ q, q ≠ item → (walkParam lower pw item name tag).params q = pw.params q) := by
  by_cases hn : (pw.params item).name = ""
  · refine ⟨?_, ?_, fun _ => ?_, fun h => absurd hn h, fun q hq => ?_⟩
    · simp [walkParam, hn]
    · simp [walkParam, hn]
    · simp [walkParam, hn]
    · simp [walkParam, hn, Function.update_noteq hq]
  · refine ⟨?_, ?_, fun h => absurd h hn, fun _ => ?_, fun q hq => ?_⟩
    · simp [walkParam, hn]
    · simp [walkParam, hn]
    · simp [walkParam, hn]
    · simp [walkParam, hn, Function.update_noteq hq]

theorem walkParam_calls_once_witness :
    ((walkParam Scenario.lower Scenario.params 0 "Weights" ⟨2⟩).calls =
        [(0, ⟨"weights", 2⟩)] ∧
      (walkParam Scenario.lower Scenario.params 1 "Weights" ⟨2⟩).calls =
        [(1, ⟨"bias", 2⟩)]) ∧
    ((walkParam Scenario.lower Scenario.params 0 "Weights" ⟨2⟩).params 0).name =
      "weights" ∧
    ((walkParam Scenario.lower Scenario.params 1 "Weights" ⟨2⟩).params 1).name =
      (Scenario.params.params 1).name :=
  ⟨by decide,
    (walkParam_calls_once Scenario.lower Scenario.params 0 "Weights" ⟨2⟩).2.2.1 (by decide),
    (walkParam_calls_once Scenario.lower Scenario.params 1 "Weights" ⟨2⟩).2.2.2.1 (by decide)⟩

/-! ## Further claims about `groupNodesByHeight` and the constants table -/

/-- Claim C35: in every reachable memory `groupNodesByHeight` does not panic (every
slice access of the embedding is checked, and a failed check is a panic); every
Operator operand of a node of the list has an id that is non-negative and smaller
than the id of the node; the cached height list is not longer than the node list, and
the start index `cache.maxID + 1` lies within the node list; every height the call
records is a valid index of the groups it returns. -/
theorem Graph.groupNodesByHeight_in_range (w : World) (hw : Reachable w) (g : GraphRef) :
    (Graph.groupNodesByHeight w g).panicked = false ∧
    (∀ c ∈ (w.graphs g).nodes, ∀ oc, w.heap c = .ofOperator oc →
      ∀ o ∈ oc.operands, (w.heap o).isOperator = true →
        0 ≤ (w.heap o).ID ∧ (w.heap o).ID < (w.heap c).ID) ∧
    (w.graphs g).cache.height.length ≤ (w.graphs g).nodes.length ∧
    (0 ≤ (w.graphs g).cache.maxID + 1 ∧
      ((w.graphs g).cache.maxID + 1).toNat ≤ (w.graphs g).nodes.length) ∧
    (∃ groups, (Graph.groupNodesByHeight w g).ret? = some groups ∧
      ∀ p ∈ (w.graphs g).nodes,
        0 ≤ Graph.heightOf (Graph.groupNodesByHeight w g).world g p ∧
        Graph.heightOf (Graph.groupNodesByHeight w g).world g p < (groups.length : Int)) := by
  have hI := hw.reachable_inv
  have hW := hw.reachable_wired
  obtain ⟨w1, groups, hres, _, _, _, _, _, _, _, _, hbound, _, _, _⟩ :=
    Graph.groupNodesByHeight_facts hI hW g
  obtain ⟨s, hs1, hs2, hH⟩ := hW.cache g
  refine ⟨by rw [hres]; rfl, ?_, ?_, ?_, ⟨groups, by rw [hres]; rfl, ?_⟩⟩
  · intro c hc oc hoc o ho hop
    obtain ⟨k, hk⟩ := List.mem_iff_getElem?.mp hc
    obtain ⟨_, hj⟩ := hW.operands g k c oc hk hoc o ho
    obtain ⟨j, hjk, hjo⟩ := hj hop
    rw [((hI.2 g).owner j o hjo).2, ((hI.2 g).owner k c hk).2]
    exact ⟨Int.natCast_nonneg j, by exact_mod_cast hjk⟩
  · have := hH.len
    rw [this, List.length_take]
    exact Nat.min_le_right _ _
  · rw [hs1]
    constructor
    · omega
    · have : ((s : Int) - 1 + 1).toNat = s := by
        have : (s : Int) - 1 + 1 = (s : Int) := by ring
        rw [this]; exact Int.toNat_natCast s
      rw [this]; exact hs2
  · have hw1 : (Graph.groupNodesByHeight w g).world = w1 := by rw [hres]; rfl
    rw [hw1]
    exact hbound

theorem Graph.groupNodesByHeight_in_range_witness :
    ((Scenario.regrouped.graphs 0).cache.height.length = 3 ∧
      (Scenario.regrouped.graphs 0).nodes.length = 4 ∧
      (Scenario.regrouped.graphs 0).cache.maxID = 2 ∧
      (Graph.groupNodesByHeight Scenario.regrouped 0).ret? = some [[0, 1, 2], [3]]) ∧
    (Graph.groupNodesByHeight Scenario.regrouped 0).panicked = false ∧
    (Scenario.regrouped.graphs 0).cache.height.length ≤
      (Scenario.regrouped.graphs 0).nodes.length :=
  ⟨by decide,
    (Graph.groupNodesByHeight_in_range Scenario.regrouped Scenario.regrouped_reachable 0).1,
    (Graph.groupNodesByHeight_in_range Scenario.regrouped Scenario.regrouped_reachable 0).2.2.1⟩

/-- Claim C31: in every reachable memory, when `groupNodesByHeight` has been called on
an existing graph, any number of node constructors has run after it, and
`groupNodesByHeight` is called again: both calls return; the node list of the first
call is a prefix of the node list of the second; every node of the first list has the
same cached height after the second call as after the first; and every group of the
second result is the group of the first result at the same index followed by the
nodes of that height among the nodes inserted in between, in insertion order (so the
old group is a prefix of the new one). -/
theorem Graph.groupNodesByHeight_extends (w : World) (hw : Reachable w) (g : GraphRef)
    (hg : g < w.nextGraph) (w2 : World)
    (hins : Relation.ReflTransGen Insertion (Graph.groupNodesByHeight w g).world w2) :
    ∃ w1 groups1 w3 groups2,
      Graph.groupNodesByHeight w g = .ok w1 groups1 ∧
      Graph.groupNodesByHeight w2 g = .ok w3 groups2 ∧
      (w.graphs g).nodes <+: (w2.graphs g).nodes ∧
      (∀ p ∈ (w.graphs g).nodes, Graph.heightOf w3 g p = Graph.heightOf w1 g p) ∧
      (∀ h : Nat, groups1.getD h [] <+: groups2.getD h []) ∧
      (∀ h : Nat, groups2.getD h [] = groups1.getD h [] ++
        ((w2.graphs g).nodes.drop (w.graphs g).nodes.length).filter
          (fun p => decide (Graph.heightOf w3 g p = (h : Int)))) := by
  have hI := hw.reachable_inv
  have hW := hw.reachable_wired
  obtain ⟨w1, groups1, hres, hheap1, H1, hat1, hg1⟩ := Graph.groupNodesByHeight_listing hI hW g
  have hw1 : (Graph.groupNodesByHeight w g).world = w1 := by rw [hres]; rfl
  have hr1 : Reachable (Graph.groupNodesByHeight w g).world :=
    Reachable.step hw (Step.groupNodesByHeight w g hg)
  obtain ⟨hr2, hpre, hdep⟩ := Insertion.many hins hr1 g
  have hn1 : ((Graph.groupNodesByHeight w g).world.graphs g).nodes = (w.graphs g).nodes :=
    (Graph.groupNodesByHeight_rest w g).2.2.2.1 g
  have hh1 : (Graph.groupNodesByHeight w g).world.heap = w.heap :=
    (Graph.groupNodesByHeight_rest w g).1
  have hd1 : (Graph.groupNodesByHeight w g).world.operandIds = w.operandIds := by
    have hid : (Graph.groupNodesByHeight w g).world.operatorId = w.operatorId := by
      funext q
      simp [World.operatorId, hh1]
    funext p
    simp [World.operandIds, hid, hh1]
  rw [hn1] at hpre hdep
  rw [hd1] at hdep
  have hI2 := hr2.reachable_inv
  obtain ⟨w3, groups2, hres2, hheap3, H2, hat2, hg2⟩ :=
    Graph.groupNodesByHeight_listing hI2 hr2.reachable_wired g
  obtain ⟨ext, hext⟩ := hpre
  rw [← hext] at H2
  have hagree := HeightsOK.agree H1 H2 hdep
  have hsame : ∀ p ∈ (w.graphs g).nodes, Graph.heightOf w3 g p = Graph.heightOf w1 g p := by
    intro p hp
    obtain ⟨k, hk⟩ := List.mem_iff_getElem?.mp hp
    have hkl : k < (w.graphs g).nodes.length := (List.getElem?_eq_some.mp hk).1
    have hk2 : (w2.graphs g).nodes[k]? = some p := by
      rw [← hext, List.getElem?_append_left hkl]; exact hk
    rw [hat2 k p hk2, hat1 k p hk, hagree k hkl]
  have hsplit : ∀ h : Nat, groups2.getD h [] = groups1.getD h [] ++
      ((w2.graphs g).nodes.drop (w.graphs g).nodes.length).filter
        (fun p => decide (Graph.heightOf w3 g p = (h : Int))) := by
    intro h
    rw [hg2 h, hg1 h]
    conv_lhs => rw [← hext]
    rw [List.filter_append]
    congr 1
    · apply List.filter_congr
      intro p hp
      rw [hsame p hp]
    · rw [← hext, List.drop_left]
  refine ⟨w1, groups1, w3, groups2, hres, hres2, ⟨ext, hext⟩, hsame, fun h => ?_, hsplit⟩
  rw [hsplit h]
  exact List.prefix_append _ _

theorem Graph.groupNodesByHeight_extends_witness :
    ((Graph.groupNodesByHeight Scenario.withMin 0).ret? = some [[0, 1, 2]] ∧
      (Scenario.regrouped.graphs 0).nodes = [0, 1, 2, 3] ∧
      (Graph.groupNodesByHeight Scenario.regrouped 0).ret? = some [[0, 1, 2], [3]]) ∧
    ∃ w1 groups1 w3 groups2,
      Graph.groupNodesByHeight Scenario.withMin 0 = .ok w1 groups1 ∧
      Graph.groupNodesByHeight Scenario.regrouped 0 = .ok w3 groups2 ∧
      (Scenario.withMin.graphs 0).nodes <+: (Scenario.regrouped.graphs 0).nodes ∧
      (∀ p ∈ (Scenario.withMin.graphs 0).nodes,
        Graph.heightOf w3 0 p = Graph.heightOf w1 0 p) ∧
      (∀ h : Nat, groups1.getD h [] <+: groups2.getD h []) ∧
      (∀ h : Nat, groups2.getD h [] = groups1.getD h [] ++
        ((Scenario.regrouped.graphs 0).nodes.drop (Scenario.withMin.graphs 0).nodes.length).filter
          (fun p => decide (Graph.heightOf w3 0 p = (h : Int)))) :=
  ⟨by decide,
    Graph.groupNodesByHeight_extends Scenario.withMin Scenario.withMin_reachable 0 (by decide)
      Scenario.regrouped
      (Relation.ReflTransGen.single (Insertion.newOperator _ 0 (MinFunction 2 0) [2, 0] 0
        (by decide)))⟩

/-- Claim C34, counterexample: `Clear` empties the node list and leaves the constants
table as it is. After `x1`, `Constant(7)` (node object 1, id 1) and `Clear`, a memory
reached through the public operations, the table still holds node 1 while the node
list is empty; `Constant(7)` then returns node 1 without inserting anything, so the
returned node is not in the node list and `nodes[node.ID()]` does not exist. -/
theorem Graph.Constant_after_Clear_unlisted :
    Reachable Scenario.constantCleared ∧
    (Scenario.constantCleared.graphs 0).constants = [(7, 1)] ∧
    (Scenario.constantCleared.graphs 0).nodes = [] ∧
    (Graph.Constant Scenario.constantCleared 0 7).2 = 1 ∧
    ((Graph.Constant Scenario.constantCleared 0 7).1.graphs 0).nodes = [] ∧
    indexInt ((Graph.Constant Scenario.constantCleared 0 7).1.graphs 0).nodes
      ((Graph.Constant Scenario.constantCleared 0 7).1.heap
        (Graph.Constant Scenario.constantCleared 0 7).2).ID = none :=
  ⟨Reachable.step
      (Reachable.step Scenario.withX1_reachable (Step.constant _ 0 7 (by decide)))
      (Step.clear _ 0 (by decide)),
    by decide, by decide, by decide, by decide, by decide⟩

/-- Claim C34, amended: in every memory reached through the public operations by steps
that never took a node out of the node list of graph `g` (no `Clear` on `g` while it
had nodes), every node held in the constants table of `g` is in the node list of `g`
at the index equal to its `ID()`, and the node `Constant(v)` returns is
`nodes[node.ID()]` of the graph after the call. -/
theorem Graph.constants_listed_until_Clear (g : GraphRef) (w : World)
    (hw : Uncleared g w) :
    (∀ e ∈ (w.graphs g).constants,
      e.2 ∈ (w.graphs g).nodes ∧
      indexInt (w.graphs g).nodes (w.heap e.2).ID = some e.2) ∧
    ∀ v : DType,
      indexInt ((Graph.Constant w g v).1.graphs g).nodes
        ((Graph.Constant w g v).1.heap (Graph.Constant w g v).2).ID =
        some (Graph.Constant w g v).2 := by
  have hI : Inv w := hw.toReachable.reachable_inv
  refine ⟨fun e he => ⟨hw.listed e he, (hI.2 g).at_id (hw.listed e he)⟩, fun v => ?_⟩
  have hI1 : Inv (Graph.Constant w g v).1 := hI.Constant g v
  apply (hI1.2 g).at_id
  cases hm : mapGet (w.graphs g).constants v with
  | some node =>
    rw [Graph.Constant_hit hm]
    obtain ⟨e, he, he2, _⟩ := mapGet_mem hm
    have := hw.listed e he
    rw [he2] at this
    exact this
  | none =>
    obtain ⟨_, hr, _, hn, _⟩ := Graph.Constant_miss_constants hm
    rw [hr, hn]
    simp

theorem Graph.constants_listed_until_Clear_witness :
    Uncleared 0 Scenario.withConstant ∧
    (Scenario.withConstant.graphs 0).constants = [(7, 1)] ∧
    (Scenario.withConstant.graphs 0).nodes = [0, 1] ∧
    (∀ e ∈ (Scenario.withConstant.graphs 0).constants,
      e.2 ∈ (Scenario.withConstant.graphs 0).nodes ∧
      indexInt (Scenario.withConstant.graphs 0).nodes (Scenario.withConstant.heap e.2).ID =
        some e.2) ∧
    indexInt ((Graph.Constant Scenario.withConstant 0 7).1.graphs 0).nodes
      ((Graph.Constant Scenario.withConstant 0 7).1.heap
        (Graph.Constant Scenario.withConstant 0 7).2).ID =
      some (Graph.Constant Scenario.withConstant 0 7).2 :=
  have hu : Uncleared 0 Scenario.withConstant :=
    Uncleared.step
      (Uncleared.step
        (Uncleared.step (Uncleared.init _) (Step.newGraph _ 1) (by decide))
        (Step.newVariable _ 0 (some (Matrix.NewVecDense [1, 5, 3])) true (by decide))
        (by decide))
      (Step.constant _ 0 7 (by decide)) (by decide)
  ⟨hu, by decide, by decide,
    (Graph.constants_listed_until_Clear 0 Scenario.withConstant hu).1,
    (Graph.constants_listed_until_Clear 0 Scenario.withConstant hu).2 7⟩

end Spago
